import Mathlib

/-! # Batch proofs of the utreexo accumulator

A shallow embedding of `accumulator/batchproof.go`: the `BatchProof` codec
(`ToBytes`, `FromBytesBatchProof`) and the verifier `verifyBatchProof`, together
with the positional helpers the verifier calls.

Conventions of the embedding.

* `uint64` values are natural numbers; where the Go arithmetic can wrap
  (`numLeaves-1`, `1<<row`) the wrap is written out with `% 2^64`.
* Slices are lists.  A loop becomes a recursive function over its loop state.
* A run-time panic of the Go program (index or slice bound out of range) is the
  result `Except.error Fault.indexOutOfRange`.
-/

namespace Utreexo

/-! ## Data model -/

/-- A byte. -/
abbrev Byte := Fin 256

/-- The Go type `Hash`, `[32]byte`: exactly 32 bytes. -/
structure Hash where
  bytes : List Byte
  size_eq : bytes.length = 32
deriving DecidableEq

/-- The all-zero hash, Go's `empty`. -/
def empty : Hash := ⟨List.replicate 32 0, by simp⟩

/-- Go's `copy(h[:], src)` into a fresh zero `Hash`: the first 32 bytes of `src`,
padded with zeros when `src` is shorter. -/
def Hash.copyFrom (src : List Byte) : Hash :=
  ⟨src.take 32 ++ List.replicate (32 - (src.take 32).length) 0, by
    simp only [List.length_append, List.length_take, List.length_replicate]; omega⟩

/-- The Go struct `BatchProof`. -/
structure BatchProof where
  Targets : List Nat
  Proof : List Hash
deriving DecidableEq

/-- The Go struct `node` of the accumulator package: a hash and its position. -/
structure node where
  Val : Hash
  Pos : Nat
deriving DecidableEq

/-- One element of the `[][3]node` slice that `verifyBatchProof` returns:
index 0 is the parent, index 1 the left child, index 2 the right child. -/
structure Triple where
  parent : node
  left : node
  right : node
deriving DecidableEq

/-- What stops a run without a Go return value. -/
inductive Fault where
  /-- A Go run-time panic: an index or a slice bound out of range. -/
  | indexOutOfRange
  /-- The loop budget of the model was used up (shown never to happen). -/
  | outOfFuel
deriving DecidableEq

deriving instance DecidableEq for Except

/-! ## Codec -/

/-- The big-endian encoding of `v` in `k` bytes, as `binary.Write` with
`binary.BigEndian` produces it for a `k`-byte unsigned integer. -/
def beBytes : Nat → Nat → List Byte
  | 0, _ => []
  | k + 1, v => Fin.ofNat (v / 256 ^ k) :: beBytes k v

/-- The unsigned integer that a big-endian byte string denotes. -/
def beNat (bs : List Byte) : Nat :=
  bs.foldl (fun acc b => acc * 256 + b.val) 0

/-- The loop `for _, t := range bp.Targets` of `ToBytes`: eight bytes a target. -/
def writeTargets : List Nat → List Byte
  | [] => []
  | t :: ts => beBytes 8 t ++ writeTargets ts

/-- The loop `for _, h := range bp.Proof` of `ToBytes`: the 32 bytes of each hash. -/
def writeHashes : List Hash → List Byte
  | [] => []
  | h :: hs => h.bytes ++ writeHashes hs

/-- The method `BatchProof.ToBytes`.  The count is `uint32(len(bp.Targets))`;
writes to a `bytes.Buffer` do not fail. -/
def ToBytes (bp : BatchProof) : List Byte :=
  let numTargets := bp.Targets.length % 2 ^ 32
  if numTargets = 0 then []
  else beBytes 4 numTargets ++ writeTargets bp.Targets ++ writeHashes bp.Proof

/-- The errors of `FromBytesBatchProof`. -/
inductive DecodeError where
  /-- Between one and three bytes of input: `batchproof only %d bytes`. -/
  | tooShort
  /-- A `binary.Read` of a target met the end of the input. -/
  | readFailed
  /-- The bytes after the targets are not a multiple of 32. -/
  | unaligned
deriving DecidableEq

/-- The loop `for i, _ := range bp.Targets` of `FromBytesBatchProof`: `n` reads
of eight bytes.  The result is the targets and the unread rest of the buffer. -/
def readTargets : Nat → List Byte → Except DecodeError (List Nat × List Byte)
  | 0, buf => .ok ([], buf)
  | n + 1, buf =>
    if buf.length < 8 then .error .readFailed
    else
      match readTargets n (buf.drop 8) with
      | .error e => .error e
      | .ok (ts, rest) => .ok (beNat (buf.take 8) :: ts, rest)

/-- The loop `for i, _ := range bp.Proof` of `FromBytesBatchProof`: `k` times
`copy(bp.Proof[i][:], buf.Next(32))`. -/
def readHashes : Nat → List Byte → List Hash
  | 0, _ => []
  | k + 1, buf => Hash.copyFrom (buf.take 32) :: readHashes k (buf.drop 32)

/-- The function `FromBytesBatchProof`. -/
def FromBytesBatchProof (b : List Byte) : Except DecodeError BatchProof :=
  if b.length = 0 then .ok ⟨[], []⟩
  else if b.length < 4 then .error .tooShort
  else
    let numTargets := beNat (b.take 4)
    match readTargets numTargets (b.drop 4) with
    | .error e => .error e
    | .ok (targets, buf) =>
      let remaining := buf.length
      if remaining % 32 ≠ 0 then .error .unaligned
      else .ok ⟨targets, readHashes (remaining / 32) buf⟩

/-! ## Positional helpers

`treeRows`, `parent`, `detectRow`, `rootPosition` and `ProofPositions` live in a
file of the package that is not part of the sources at hand; they are written
here from the description of the position space in the specification. -/

/-- Modelled from the spec: `treeRows` (its source file is missing).  The number
of rows of the forest: 0 for at most one leaf, else the smallest `r` with
`2^r ≥ numLeaves`.  The search starts at `e` and is bounded by `fuel`. -/
def treeRowsFrom (n : Nat) : Nat → Nat → Nat
  | 0, e => e
  | fuel + 1, e => if 2 ^ e < n then treeRowsFrom n fuel (e + 1) else e

/-- Modelled from the spec: `treeRows` (its source file is missing): the smallest
`r` with `2^r ≥ numLeaves`; a `uint64` leaf count needs at most 64 rows. -/
def treeRows (n : Nat) : Nat := treeRowsFrom n 64 0

/-- Modelled from the spec: the first position of row `row` in a forest of
`rows` rows: row 0 starts at 0, row 1 at `2^rows`, row 2 at
`2^rows + 2^(rows-1)`, and the apex is `2^(rows+1) - 2`. -/
def rowStart (rows row : Nat) : Nat := 2 ^ (rows + 1) - 2 ^ (rows + 1 - row)

/-- Modelled from the spec: `parent` (its source file is missing): the position
one row up from `pos`, that is `pos` shifted right by one with bit `rows` set. -/
def parent (pos rows : Nat) : Nat := (pos >>> 1) ||| (1 <<< rows)

/-- The loop of `detectRow`: count the one bits of `pos` from bit `k - 1`
downwards until the first zero bit. -/
def detectRowFrom (pos : Nat) : Nat → Nat → Nat
  | 0, h => h
  | k + 1, h => if pos &&& 2 ^ k ≠ 0 then detectRowFrom pos k (h + 1) else h

/-- Modelled from the spec: `detectRow` (its source file is missing): the row of
`pos`, the length of the run of leading one bits of `pos` in the `rows + 1` bits
of the position space. -/
def detectRow (pos rows : Nat) : Nat := detectRowFrom pos (rows + 1) 0

/-- Modelled from the spec: `rootPosition` (its source file is missing): the
position of the root of the tree of height `row`.  The taller trees hold the
first `(numLeaves / 2^(row+1)) * 2^(row+1)` leaves, so the root is the node of
row `row` with index `2 * (numLeaves / 2^(row+1))` in its row. -/
def rootPosition (numLeaves row rows : Nat) : Nat :=
  rowStart rows row + 2 * (numLeaves / 2 ^ (row + 1))

/-- Whether `pos`, a position of row `row`, is the root of a tree of the forest:
the test `numLeaves&(1<<row) > 0 && pos == rootPosition(numLeaves, row, rows)`
of `verifyBatchProof`, with the shift in `uint64`. -/
def isRootAt (numLeaves rows row pos : Nat) : Bool :=
  decide (numLeaves &&& (2 ^ row % 2 ^ 64) > 0) && decide (pos = rootPosition numLeaves row rows)

/-- Modelled from the spec: one row of the `ProofPositions` walk.  Adjacent
targets that are siblings collapse to their parent and contribute no proof
position; any other target contributes the position of its sibling and its
parent.  The result is the proof positions of the row and the parents. -/
def proofRow (rows : Nat) : List Nat → List Nat × List Nat
  | [] => ([], [])
  | [t] => ([t ^^^ 1], [parent t rows])
  | t :: u :: rest =>
    if u = t ^^^ 1 then
      let r := proofRow rows rest
      (r.1, parent t rows :: r.2)
    else
      let r := proofRow rows (u :: rest)
      ((t ^^^ 1) :: r.1, parent t rows :: r.2)

/-- Modelled from the spec: the rows of the `ProofPositions` walk, bottom-up from
row `row`, `n` rows in all.  `targets` are the positions of row `row` that are
not roots; a parent that is a root of the next row contributes nothing there. -/
def proofRows (numLeaves rows : Nat) : Nat → Nat → List Nat → List Nat × List Nat
  | 0, _, _ => ([], [])
  | n + 1, row, targets =>
    let r := proofRow rows targets
    let next := r.2.filter (fun p => !isRootAt numLeaves rows (row + 1) p)
    let up := proofRows numLeaves rows n (row + 1) next
    (r.1 ++ up.1, r.2 ++ up.2)

/-- Modelled from the spec: `ProofPositions` (its source file is missing): the
proof positions of `targets`, row by row from row 0, ascending within a row,
and the parent positions computed on the way. -/
def ProofPositions (targets : List Nat) (numLeaves rows : Nat) : List Nat × List Nat :=
  proofRows numLeaves rows (rows + 1) 0
    (targets.filter (fun t => !isRootAt numLeaves rows 0 t))

/-! ## The verifier -/

/-- The loop state of the seeding loop of `verifyBatchProof` when it is left:
the unread rest of `bp.Proof` and the three slices built so far. -/
structure SeedState where
  proofs : List Hash
  targetNodes : List node
  proofHashes : List Hash
  rootCandidates : List node
deriving DecidableEq

/-- The seeding loop `for len(targets) > 0` of `verifyBatchProof` (row 0).
`Except.ok none` is the early `return false, nil, nil`. -/
def seedLoop (roots : List Hash) (numLeaves : Nat) (proofPositions : List Nat) :
    List Nat → List Hash → Nat → List node → List Hash → List node →
    Except Fault (Option SeedState)
  | [], proofs, _, targetNodes, proofHashes, rootCandidates =>
    .ok (some ⟨proofs, targetNodes, proofHashes, rootCandidates⟩)
  | t :: targets, proofs, targetsMatched, targetNodes, proofHashes, rootCandidates =>
    if t = (numLeaves + 2 ^ 64 - 1) % 2 ^ 64 ∧ numLeaves &&& 1 = 1 then
      -- row 0 root: `roots[0]`, then `proofs[1:]`, then `break`
      match roots, proofs with
      | r0 :: _, _ :: proofs1 =>
        .ok (some ⟨proofs1, targetNodes, proofHashes, rootCandidates ++ [⟨r0, t⟩]⟩)
      | _, _ => .error .indexOutOfRange
    else if targetsMatched < proofPositions.length ∧
        proofPositions[targetsMatched]? = some (t ^^^ 1) then
      let lr := t &&& 1
      match proofs[lr]?, proofs[lr ^^^ 1]? with
      | some v, some s =>
        seedLoop roots numLeaves proofPositions targets (proofs.drop 2) (targetsMatched + 1)
          (targetNodes ++ [⟨v, t⟩]) (proofHashes ++ [s]) rootCandidates
      | _, _ => .error .indexOutOfRange
    else
      match proofs, targets with
      | p0 :: p1 :: proofs2, t1 :: targets2 =>
        seedLoop roots numLeaves proofPositions targets2 proofs2 targetsMatched
          (targetNodes ++ [⟨p0, t⟩, ⟨p1, t1⟩]) proofHashes rootCandidates
      | _, _ => .ok none

/-- How the climb loop of `verifyBatchProof` is left. -/
inductive Exit where
  /-- The loop condition `len(targetNodes) > 0` became false. -/
  | completed
  /-- The `return false, nil, nil` of the branch "sibling not found". -/
  | siblingNotFound
  /-- The run-time panic of `proofs[0]` on an empty slice. -/
  | indexOutOfRange
  /-- The loop budget of the model was used up (shown never to happen). -/
  | outOfFuel
deriving DecidableEq

/-- The locals `trees` and `rootCandidates` of `verifyBatchProof` at the moment
the climb loop is left, and how it is left. -/
structure ClimbEnd where
  exit : Exit
  trees : List Triple
  rootCandidates : List node
deriving DecidableEq

/-- The code after the label `hash:` up to the `append` to `trees`: order the
two nodes by the low bit of the target, take the parent hash from the cache or
compute it. -/
def hashParent (parentHash : Hash → Hash → Hash) (cached : Nat → Bool × Hash) (rows : Nat)
    (target proof : node) : Triple :=
  let left := if target.Pos &&& 1 = 1 then proof else target
  let right := if target.Pos &&& 1 = 1 then target else proof
  let parentPos := parent target.Pos rows
  let c := cached parentPos
  let hash := if !c.1 then parentHash left.Val right.Val else c.2
  ⟨⟨hash, parentPos⟩, left, right⟩

/-- What the head of the climb loop finds for the first target node. -/
inductive Pick where
  /-- The sibling node, and `targetNodes`, `proofPositions`, `proofs` after the pops. -/
  | found (proof : node) (targetNodes : List node) (proofPositions : List Nat)
      (proofs : List Hash)
  /-- Neither a proof position nor a second target node: `return false, nil, nil`. -/
  | notFound
  /-- The run-time panic of `proofs[0]` on an empty slice. -/
  | outOfRange
deriving DecidableEq

/-- The head of the climb loop, from `target = targetNodes[0]` to the label
`hash:`: the sibling comes from the proof when the sibling position is the next
proof position, else it is the second target node.  `rest` is `targetNodes[1:]`. -/
def pickSibling (target : node) (rest : List node) (proofPositions : List Nat)
    (proofs : List Hash) : Pick :=
  match proofPositions with
  | p :: proofPositions1 =>
    if target.Pos ^^^ 1 = p then
      match proofs with
      | [] => .outOfRange
      | h :: proofs1 => .found ⟨h, p⟩ rest proofPositions1 proofs1
    else
      match rest with
      | [] => .notFound
      | sib :: rest2 => .found sib rest2 proofPositions proofs
  | [] =>
    match rest with
    | [] => .notFound
    | sib :: rest2 => .found sib rest2 proofPositions proofs

/-- The climb loop `for len(targetNodes) > 0` of `verifyBatchProof`.  Every
iteration makes `len(targetNodes) + len(proofPositions)` smaller, and `fuel`
bounds the number of iterations. -/
def climbLoop (parentHash : Hash → Hash → Hash) (cached : Nat → Bool × Hash)
    (numLeaves rows : Nat) :
    Nat → List node → List Nat → List Hash → List Triple → List node → ClimbEnd
  | _, [], _, _, trees, rootCandidates => ⟨.completed, trees, rootCandidates⟩
  | 0, _ :: _, _, _, trees, rootCandidates => ⟨.outOfFuel, trees, rootCandidates⟩
  | fuel + 1, target :: rest, proofPositions, proofs, trees, rootCandidates =>
    match pickSibling target rest proofPositions proofs with
    | .outOfRange => ⟨.indexOutOfRange, trees, rootCandidates⟩
    | .notFound => ⟨.siblingNotFound, trees, rootCandidates⟩
    | .found proof targetNodes proofPositions proofs =>
      let t := hashParent parentHash cached rows target proof
      let row := detectRow t.parent.Pos rows
      if isRootAt numLeaves rows row t.parent.Pos then
        -- the parent is a root: a root candidate
        climbLoop parentHash cached numLeaves rows fuel targetNodes proofPositions proofs
          (trees ++ [t]) (rootCandidates ++ [t.parent])
      else
        climbLoop parentHash cached numLeaves rows fuel (targetNodes ++ [t.parent])
          proofPositions proofs (trees ++ [t]) rootCandidates

/-- The loop `for _, root := range roots` of `verifyBatchProof`: the number of
root candidates matched, with one cursor into `rootCandidates`. -/
def rootMatches (rootCandidates : List node) : List Hash → Nat → Nat
  | [], m => m
  | root :: roots, m =>
    match rootCandidates[m]? with
    | some c => if root = c.Val then rootMatches rootCandidates roots (m + 1)
                else rootMatches rootCandidates roots m
    | none => rootMatches rootCandidates roots m

/-- The end of `verifyBatchProof`, from the climb loop being left to the return:
no candidate at all, or a candidate that the cursor over `roots` does not reach,
makes the proof fail. -/
def rootCheck (roots : List Hash) (e : ClimbEnd) : Except Fault (Bool × List Triple × List node) :=
  match e.exit with
  | .indexOutOfRange => .error .indexOutOfRange
  | .outOfFuel => .error .outOfFuel
  | .siblingNotFound => .ok (false, [], [])
  | .completed =>
    if e.rootCandidates.length = 0 then .ok (false, [], [])
    else if e.rootCandidates.length ≠ rootMatches e.rootCandidates roots 0 then
      .ok (false, [], [])
    else .ok (true, e.trees, e.rootCandidates)

/-- The function `verifyBatchProof`.  `parentHash` is the pair hash of the
package, taken as a parameter; `cached = none` is Go's `cached == nil`. -/
def verifyBatchProof (parentHash : Hash → Hash → Hash) (bp : BatchProof) (roots : List Hash)
    (numLeaves : Nat) (cached : Option (Nat → Bool × Hash)) :
    Except Fault (Bool × List Triple × List node) :=
  if bp.Targets.length = 0 then .ok (true, [], [])
  else
    let cached := cached.getD (fun _ => (false, empty))
    let rows := treeRows numLeaves
    let proofPositions := (ProofPositions bp.Targets numLeaves rows).1
    match seedLoop roots numLeaves proofPositions bp.Targets bp.Proof 0 [] [] [] with
    | .error f => .error f
    | .ok none => .ok (false, [], [])
    | .ok (some s) =>
      rootCheck roots (climbLoop parentHash cached numLeaves rows
        (s.targetNodes.length + proofPositions.length) s.targetNodes proofPositions
        (s.proofHashes ++ s.proofs) [] s.rootCandidates)

/-- The function that `verifyBatchProof` uses when `cached == nil`. -/
abbrev noCache : Nat → Bool × Hash := fun _ => (false, empty)

/-- The part of `verifyBatchProof` up to the end of the climb loop: the state in
which the climb loop is left, provided there are targets and the seeding loop
runs to its end. -/
def climbOf (parentHash : Hash → Hash → Hash) (bp : BatchProof) (roots : List Hash)
    (numLeaves : Nat) (cached : Option (Nat → Bool × Hash)) : Option ClimbEnd :=
  if bp.Targets.length = 0 then none
  else
    let cached := cached.getD (fun _ => (false, empty))
    let rows := treeRows numLeaves
    let proofPositions := (ProofPositions bp.Targets numLeaves rows).1
    match seedLoop roots numLeaves proofPositions bp.Targets bp.Proof 0 [] [] [] with
    | .ok (some s) =>
      some (climbLoop parentHash cached numLeaves rows
        (s.targetNodes.length + proofPositions.length) s.targetNodes proofPositions
        (s.proofHashes ++ s.proofs) [] s.rootCandidates)
    | _ => none

/-! ## Sample data -/

/-- The hash whose 32 bytes all equal `b`. -/
def constHash (b : Byte) : Hash := ⟨List.replicate 32 b, by simp⟩

/-- A stand-in for the pair hash on concrete inputs: byte `i` of the result is
`2 * l[i] + r[i] + 1` modulo 256. -/
def sampleHash (l r : Hash) : Hash :=
  ⟨List.zipWith (fun a b => 2 * a + b + 1) l.bytes r.bytes, by
    simp [List.length_zipWith, l.size_eq, r.size_eq]⟩

/-- The proof positions on the way up from `pos`: the sibling of `pos`, the
sibling of its parent, and so on for `k` rows. -/
def siblingPath (rows : Nat) : Nat → Nat → List Nat
  | 0, _ => []
  | k + 1, pos => (pos ^^^ 1) :: siblingPath rows k (parent pos rows)

/-- The hash at the top of a path, as the specification describes it: fold
`parentHash` from the node `pos` with hash `h` upwards over the sibling hashes,
the node on the right when the low bit of its position is set, else on the left. -/
def pathRoot (parentHash : Hash → Hash → Hash) (rows : Nat) : Nat → Hash → List Hash → Hash
  | _, h, [] => h
  | pos, h, s :: ss =>
    pathRoot parentHash rows (parent pos rows)
      (if pos &&& 1 = 1 then parentHash s h else parentHash h s) ss

/-! ## The climb, row by row

The climb loop works through the target nodes of one row before it reaches the
parents it has pushed, so its run can be described a row at a time.  The
functions of this section give that description; the theorems below show that
`climbLoop` computes it when the row lists are well formed. -/

/-- The test of the climb loop for a parent node: `detectRow`, then the root test. -/
def isRootNode (numLeaves rows : Nat) (p : node) : Bool :=
  isRootAt numLeaves rows (detectRow p.Pos rows) p.Pos

/-- One row of the climb: the triples of the target nodes of a row, each node
hashed with the next node when that is its sibling and else with the next proof
hash, and the proof hashes left over; `none` when the proof hashes run out. -/
def rowStep (parentHash : Hash → Hash → Hash) (cached : Nat → Bool × Hash) (rows : Nat) :
    List node → List Hash → Option (List Triple × List Hash)
  | [], hs => some ([], hs)
  | [t], hs =>
    match hs with
    | [] => none
    | h :: hs1 => some ([hashParent parentHash cached rows t ⟨h, t.Pos ^^^ 1⟩], hs1)
  | t :: u :: rest, hs =>
    if u.Pos = t.Pos ^^^ 1 then
      match rowStep parentHash cached rows rest hs with
      | none => none
      | some (ts, hs1) => some (hashParent parentHash cached rows t u :: ts, hs1)
    else
      match hs with
      | [] => none
      | h :: hs1 =>
        match rowStep parentHash cached rows (u :: rest) hs1 with
        | none => none
        | some (ts, hs2) =>
          some (hashParent parentHash cached rows t ⟨h, t.Pos ^^^ 1⟩ :: ts, hs2)

/-- The climb over `m` rows: the triples row after row, and the parents that are
roots, in the order in which they are found. -/
def climbRows (parentHash : Hash → Hash → Hash) (cached : Nat → Bool × Hash)
    (numLeaves rows : Nat) : Nat → List node → List Hash → Option (List Triple × List node)
  | 0, _, _ => some ([], [])
  | m + 1, nodes, hs =>
    match rowStep parentHash cached rows nodes hs with
    | none => none
    | some (ts, hs1) =>
      match climbRows parentHash cached numLeaves rows m
          ((ts.map (·.parent)).filter (fun p => !isRootNode numLeaves rows p)) hs1 with
      | none => none
      | some (ts2, rc) =>
        some (ts ++ ts2, (ts.map (·.parent)).filter (isRootNode numLeaves rows) ++ rc)

/-- A well-formed list of positions of row `i`: strictly ascending positions of
the row whose index in the row is below `2 * (numLeaves / 2^(i+1))`, that is
nodes of the forest that have a parent in the forest (nodes that are no roots). -/
def RowList (numLeaves rows i : Nat) (L : List Nat) : Prop :=
  L.Pairwise (· < ·) ∧
    ∀ p ∈ L, rowStart rows i ≤ p ∧ p - rowStart rows i < 2 * (numLeaves / 2 ^ (i + 1))

/-- The seeding of row 0, pair by pair: two proof hashes for each target or pair
of sibling targets.  The result is the target nodes, the sibling hashes of the
targets without a sibling target, and the proof hashes left over; `none` when the
proof hashes run out. -/
def seedRow : List Nat → List Hash → Option (List node × List Hash × List Hash)
  | [], hs => some ([], [], hs)
  | [t], hs =>
    match hs with
    | a :: b :: hs1 =>
      some ([⟨if t &&& 1 = 1 then b else a, t⟩], [if t &&& 1 = 1 then a else b], hs1)
    | _ => none
  | t :: u :: rest, hs =>
    match hs with
    | a :: b :: hs1 =>
      if u = t ^^^ 1 then
        match seedRow rest hs1 with
        | none => none
        | some (ns, ph, hs2) => some (⟨a, t⟩ :: ⟨b, u⟩ :: ns, ph, hs2)
      else
        match seedRow (u :: rest) hs1 with
        | none => none
        | some (ns, ph, hs2) =>
          some (⟨if t &&& 1 = 1 then b else a, t⟩ :: ns,
            (if t &&& 1 = 1 then a else b) :: ph, hs2)
    | _ => none

/-- The run of `verifyBatchProof` up to the end of the climb, described row by
row for sorted targets: seed the targets that are no row-0 root, take `roots[0]`
and drop one proof hash for the row-0 root when it is a target (it is then the
last target), and climb row by row.  The result is the triples and the root
candidates; `none` when `roots` or the proof hashes run out. -/
def canonicalClimb (parentHash : Hash → Hash → Hash) (cached : Nat → Bool × Hash)
    (roots : List Hash) (numLeaves : Nat) (targets : List Nat) (proof : List Hash) :
    Option (List Triple × List node) :=
  let rows := treeRows numLeaves
  let low := targets.filter (fun t => !isRootAt numLeaves rows 0 t)
  match seedRow low proof with
  | none => none
  | some (ns, ph, hs1) =>
    if low.length < targets.length then
      match roots, hs1 with
      | r0 :: _, _ :: hs2 =>
        match climbRows parentHash cached numLeaves rows (rows + 1) ns (ph ++ hs2) with
        | none => none
        | some (ts, rc) => some (ts, ⟨r0, numLeaves - 1⟩ :: rc)
      | _, _ => none
    else climbRows parentHash cached numLeaves rows (rows + 1) ns (ph ++ hs1)

/-- The trees of the forest.  A forest of `numLeaves` leaves has one perfect tree
of `2^h` leaves for each one bit `h` of `numLeaves`, the taller trees first from
leaf 0: the tree of height `h` holds the `2^h` leaves that follow the first
`(numLeaves / 2^(h+1)) * 2^(h+1)` leaves. -/
def leafInTree (numLeaves h t : Nat) : Prop :=
  numLeaves.testBit h = true ∧
    numLeaves / 2 ^ (h + 1) * 2 ^ (h + 1) ≤ t ∧ t < numLeaves / 2 ^ (h + 1) * 2 ^ (h + 1) + 2 ^ h

/-! ## A forest and the proofs made from it

The prover (`Forest.ProveBatch`) is not part of the sources at hand.  For the
claims that speak of proofs with correct hashes, a forest is a labelling of the
positions with hashes, and the proof for a list of targets is laid out as
`verifyBatchProof` reads it. -/

/-- Modelled from the spec: a forest of `numLeaves` leaves, as a labelling `val`
of the positions with hashes: the node with index `x` in row `i + 1` carries the
parent hash of the nodes with indices `2 * x` and `2 * x + 1` in row `i`. -/
def IsForest (parentHash : Hash → Hash → Hash) (val : Nat → Hash) (numLeaves : Nat) : Prop :=
  ∀ i x, i < treeRows numLeaves → x < numLeaves / 2 ^ (i + 1) →
    val (rowStart (treeRows numLeaves) (i + 1) + x)
      = parentHash (val (rowStart (treeRows numLeaves) i + 2 * x))
          (val (rowStart (treeRows numLeaves) i + 2 * x + 1))

/-- Modelled from the spec: the row-0 part of a proof: for each target, or pair
of sibling targets, the hash of the left leaf and the hash of the right leaf. -/
def leafPairs (val : Nat → Hash) : List Nat → List Hash
  | [] => []
  | [t] => [val (2 * (t / 2)), val (2 * (t / 2) + 1)]
  | t :: u :: rest =>
    if u = t ^^^ 1 then val (2 * (t / 2)) :: val (2 * (t / 2) + 1) :: leafPairs val rest
    else val (2 * (t / 2)) :: val (2 * (t / 2) + 1) :: leafPairs val (u :: rest)

/-- Modelled from the spec: the proof with correct hashes for `targets`: the leaf
pairs of the targets that are no row-0 root, one placeholder hash when the row-0
root is a target, and the hashes at the proof positions above row 0. -/
def forestProof (val : Nat → Hash) (numLeaves : Nat) (targets : List Nat) : List Hash :=
  let rows := treeRows numLeaves
  let low := targets.filter (fun t => !isRootAt numLeaves rows 0 t)
  leafPairs val low
    ++ (if low.length < targets.length then [val (numLeaves - 1)] else [])
    ++ ((ProofPositions targets numLeaves rows).1.drop (proofRow rows low).1.length).map val

/-- Modelled from the spec: the root hashes of a forest in the order of
`rootHashesReverse`, from the shortest tree to the tallest. -/
def forestRoots (val : Nat → Hash) (numLeaves : Nat) : List Hash :=
  ((List.range (treeRows numLeaves + 1)).filter (fun h => numLeaves.testBit h)).map
    (fun h => val (rootPosition numLeaves h (treeRows numLeaves)))

/-- The forest of three leaves with the leaf hashes `constHash 1`, `constHash 2`
and `constHash 3` under `sampleHash`: a tree of two leaves (root at position 4)
and the single leaf at position 2. -/
def sampleForest (p : Nat) : Hash :=
  match p with
  | 0 => constHash 1
  | 1 => constHash 2
  | 2 => constHash 3
  | 4 => sampleHash (constHash 1) (constHash 2)
  | _ => empty

/-! ## Tampering -/

/-- The targets with the low bit of the target `t` flipped: `t` replaced by
`t XOR 1`. -/
def flipTarget (t : Nat) (targets : List Nat) : List Nat :=
  targets.map (fun x => if x = t then t ^^^ 1 else x)

/-- The hash `h` with byte `i` set to `b`. -/
def Hash.setByte (h : Hash) (i : Nat) (b : Byte) : Hash :=
  ⟨h.bytes.set i b, by rw [List.length_set]; exact h.size_eq⟩

/-- Whether `verifyBatchProof`, run on sorted targets, hashes the proof hash at
index `j` of `bp.Proof`: it reads two hashes for each target or pair of sibling
targets of row 0, skips one hash when the row-0 root is a target, and then reads
one hash for each proof position above row 0. -/
def hashRead (numLeaves : Nat) (targets : List Nat) (j : Nat) : Bool :=
  let rows := treeRows numLeaves
  let low := targets.filter (fun t => !isRootAt numLeaves rows 0 t)
  let k0 := 2 * (proofRow rows low).2.length
  let d := if low.length < targets.length then 1 else 0
  let k1 := (ProofPositions targets numLeaves rows).1.length - (proofRow rows low).1.length
  decide (j < k0 ∨ (k0 + d ≤ j ∧ j < k0 + d + k1))

/-- A collision of `parentHash` between the pairs hashed for two lists of
triples: a triple of each list whose children differ in a hash and have the same
parent hash. -/
def collision (parentHash : Hash → Hash → Hash) (T T' : List Triple) : Prop :=
  ∃ t ∈ T, ∃ t' ∈ T', parentHash t.left.Val t.right.Val = parentHash t'.left.Val t'.right.Val ∧
    (t.left.Val ≠ t'.left.Val ∨ t.right.Val ≠ t'.right.Val)

/-! ## Reconstruct -/

/-- The map `proofTree` of `Reconstruct`, position to hash: the entries in
ascending order of the key, one entry a key. -/
abbrev ProofTree := List (Nat × Hash)

/-- The assignment `proofTree[k] = v`. -/
def mapSet : ProofTree → Nat → Hash → ProofTree
  | [], k, v => [(k, v)]
  | (k1, v1) :: m, k, v =>
    if k < k1 then (k, v) :: (k1, v1) :: m
    else if k = k1 then (k, v) :: m
    else (k1, v1) :: mapSet m k v

/-- Modelled from the spec: `getRootsReverse` (its source file is missing): the
position and the row of the root of every tree of the forest.  The roots come in
the order in which `Reconstruct` uses them, the root of row 0 first: it compares
a target with `rootPositions[0]` ("this can only happen at row 0"), tests
`rootRows[0] == 0` and then pops the roots as its row counter goes up. -/
def getRootsReverse (numLeaves forestRows : Nat) : List (Nat × Nat) :=
  ((List.range (forestRows + 1)).filter (fun h => numLeaves.testBit h)).map
    (fun h => (rootPosition numLeaves h forestRows, h))

/-- The three errors that `Reconstruct` returns. -/
inductive ReconError where
  /-- The message `only 1 proof left but need 2 for %d`. -/
  | onlyOneProof
  /-- The message `h %d no proofs left at pos %d`. -/
  | noProofsLeft
  /-- The message `too many proofs, %d remain`. -/
  | tooManyProofs
deriving DecidableEq

/-- How a loop of `Reconstruct` is left: by its `return nil, fmt.Errorf(...)`,
with `bp.Proof` as it is then, or at its end, with the locals it has changed. -/
inductive LoopEnd (σ : Type) where
  | failed (proof : List Hash)
  | done (state : σ)
deriving DecidableEq

/-- The locals that the first loop of `Reconstruct` changes. -/
structure SeedEnd where
  proof : List Hash
  needSibRow : List Nat
  proofTree : ProofTree
deriving DecidableEq

/-- The first loop of `Reconstruct`,
`for len(bp.Proof) > 0 && len(targets) > 0`: one hash for a target that is
`rootPositions[0]`, else two hashes for the pair of the target, whose parent is
noted in `needSibRow`. -/
def reconSeed (forestRows : Nat) (rootPositions : List (Nat × Nat)) :
    List Nat → List Hash → List Nat → ProofTree → Except Fault (LoopEnd SeedEnd)
  | [], proof, need, tree => .ok (.done ⟨proof, need, tree⟩)
  | _ :: _, [], need, tree => .ok (.done ⟨[], need, tree⟩)
  | [t], p0 :: proof1, need, tree =>
    match rootPositions with
    | [] => .error .indexOutOfRange
    | (r0, _) :: _ =>
      if t = r0 then .ok (.done ⟨proof1, need, mapSet tree t p0⟩)
      else
        match proof1 with
        | [] => .ok (.failed [p0])
        | p1 :: proof2 =>
          .ok (.done ⟨proof2, need ++ [parent t forestRows],
            mapSet (mapSet tree ((t ||| 1) ^^^ 1) p0) (t ||| 1) p1⟩)
  | t :: u :: targets2, p0 :: proof1, need, tree =>
    match rootPositions with
    | [] => .error .indexOutOfRange
    | (r0, _) :: _ =>
      if t = r0 then reconSeed forestRows rootPositions (u :: targets2) proof1 need
        (mapSet tree t p0)
      else
        match proof1 with
        | [] => .ok (.failed [p0])
        | p1 :: proof2 =>
          if t ||| 1 = u then
            reconSeed forestRows rootPositions targets2 proof2 (need ++ [parent t forestRows])
              (mapSet (mapSet tree ((t ||| 1) ^^^ 1) p0) (t ||| 1) p1)
          else
            reconSeed forestRows rootPositions (u :: targets2) proof2
              (need ++ [parent t forestRows])
              (mapSet (mapSet tree ((t ||| 1) ^^^ 1) p0) (t ||| 1) p1)

/-- The locals that the inner loop of `Reconstruct` changes; `roots` stands for
the two slices `rootPositions` and `rootRows`, which are popped together. -/
structure RowEnd where
  roots : List (Nat × Nat)
  proof : List Hash
  nextRow : List Nat
  proofTree : ProofTree
deriving DecidableEq

/-- The inner loop `for len(needSibRow) > 0` of `Reconstruct`: a position that is
`rootPositions[0]` is dropped with that root; any other position sends its parent
to `nextRow` and, unless the next position is its sibling, takes a hash of the
proof for its sibling. -/
def reconRow (forestRows : Nat) :
    List Nat → List (Nat × Nat) → List Hash → List Nat → ProofTree →
      Except Fault (LoopEnd RowEnd)
  | [], roots, proof, next, tree => .ok (.done ⟨roots, proof, next, tree⟩)
  | [n0], roots, proof, next, tree =>
    match roots with
    | [] => .error .indexOutOfRange
    | (r0, _) :: roots1 =>
      if n0 = r0 then .ok (.done ⟨roots1, proof, next, tree⟩)
      else
        match proof with
        | [] => .ok (.failed [])
        | p0 :: proof1 =>
          .ok (.done ⟨roots, proof1, next ++ [parent n0 forestRows],
            mapSet tree (n0 ^^^ 1) p0⟩)
  | n0 :: n1 :: need2, roots, proof, next, tree =>
    match roots with
    | [] => .error .indexOutOfRange
    | (r0, _) :: roots1 =>
      if n0 = r0 then reconRow forestRows (n1 :: need2) roots1 proof next tree
      else if n0 ^^^ 1 = n1 then
        reconRow forestRows need2 roots proof (next ++ [parent n0 forestRows]) tree
      else
        match proof with
        | [] => .ok (.failed [])
        | p0 :: proof1 =>
          reconRow forestRows (n1 :: need2) roots proof1 (next ++ [parent n0 forestRows])
            (mapSet tree (n0 ^^^ 1) p0)

/-- The loop `for h := uint8(1); h < forestRows; h++` of `Reconstruct`, over the
values of `h` that are left: the inner loop, then the root of row `h` is popped
when the inner loop has not used it, then `needSibRow = nextRow`. -/
def reconRows (forestRows : Nat) :
    List Nat → List Nat → List (Nat × Nat) → List Hash → ProofTree →
      Except Fault (LoopEnd (List Hash × ProofTree))
  | [], _, _, proof, tree => .ok (.done (proof, tree))
  | h :: hs, need, roots, proof, tree =>
    match reconRow forestRows need roots proof [] tree with
    | .error f => .error f
    | .ok (.failed proof1) => .ok (.failed proof1)
    | .ok (.done e) =>
      let roots1 := match e.roots with
        | (_, r) :: rest => if r = h then rest else e.roots
        | [] => []
      reconRows forestRows hs e.nextRow roots1 e.proof e.proofTree

/-- What a call of `Reconstruct` leaves: the returned map or error, and the
field `bp.Proof`, which the method changes while it runs. -/
structure ReconOut where
  result : Except ReconError ProofTree
  proof : List Hash
deriving DecidableEq

/-- The method `BatchProof.Reconstruct`. -/
def Reconstruct (bp : BatchProof) (numleaves forestRows : Nat) : Except Fault ReconOut :=
  if bp.Targets.length = 0 then .ok ⟨.ok [], bp.Proof⟩
  else
    let roots := getRootsReverse numleaves forestRows
    match reconSeed forestRows roots bp.Targets bp.Proof [] [] with
    | .error f => .error f
    | .ok (.failed proof1) => .ok ⟨.error .onlyOneProof, proof1⟩
    | .ok (.done s) =>
      match roots with
      | [] => .error .indexOutOfRange
      | (_, r) :: rest =>
        let roots1 := if r = 0 then rest else roots
        match reconRows forestRows (List.range' 1 (forestRows - 1)) s.needSibRow roots1
            s.proof s.proofTree with
        | .error f => .error f
        | .ok (.failed proof2) => .ok ⟨.error .noProofsLeft, proof2⟩
        | .ok (.done (proof2, tree)) =>
          if proof2.length ≠ 0 then .ok ⟨.error .tooManyProofs, proof2⟩
          else .ok ⟨.ok tree, bp.Proof⟩

/-! ## Pollard ingestion

`pollardproof.go` is at hand; the types `Pollard` and `polNode` and the methods
`rootHashesReverse`, `readPos` and `rows` are not.  The pollard is a forest of
`polNode`s without sharing, so a `*polNode` is modelled by the node it points
to, and a pointer into a tree by the path of niece indices that leads to it. -/

/-- Modelled from the spec: the Go struct `polNode` (its declaration is
missing): a hash and two niece pointers.  `nil` is the nil pointer. -/
inductive PolNode where
  | nil : PolNode
  | node (data : Hash) (niece0 niece1 : PolNode) : PolNode
deriving DecidableEq

/-- The field `data` of the node a pointer leads to. -/
def PolNode.hash : PolNode → Hash
  | .nil => empty
  | .node d _ _ => d

/-- The node at the end of a path of niece indices (`false` is `niece[0]`,
`true` is `niece[1]`); `nil` when the path leaves the tree. -/
def PolNode.at : PolNode → List Bool → PolNode
  | n, [] => n
  | .nil, _ :: _ => .nil
  | .node _ n0 n1, b :: path => (if b then n1 else n0).at path

/-- The tree with the node at the end of a path replaced. -/
def PolNode.modifyAt (f : PolNode → PolNode) : List Bool → PolNode → PolNode
  | [], n => f n
  | _ :: _, .nil => .nil
  | b :: path, .node d n0 n1 =>
    if b then .node d n0 (PolNode.modifyAt f path n1)
    else .node d (PolNode.modifyAt f path n0) n1

/-- Modelled from the spec: the Go struct `Pollard` (its declaration is
missing), as far as `IngestBatchProof` uses it: the number of leaves and the
roots, the root of the tallest tree first. -/
structure Pollard where
  numLeaves : Nat
  roots : List PolNode
deriving DecidableEq

/-- Modelled from the spec: `Pollard.rootHashesReverse` (its source is
missing): the hashes of the roots in the reverse of the order of `p.roots`. -/
def Pollard.rootHashesReverse (p : Pollard) : List Hash :=
  (p.roots.map PolNode.hash).reverse

/-- Modelled from the spec: `child(pos, rows)` (its source file is missing): the
left child of `pos`, the even position whose parent is `pos`:
`(pos << 1) & ((2 << rows) - 1)` in `uint64`. -/
def child (pos rows : Nat) : Nat :=
  ((pos <<< 1) % 2 ^ 64) &&& (((2 <<< rows) % 2 ^ 64 + 2 ^ 64 - 1) % 2 ^ 64)

/-- What stops a run of `IngestBatchProof` without a Go return value. -/
inductive PopFault where
  /-- The call of `verifyBatchProof` stopped. -/
  | verifier (f : Fault)
  /-- A nil pointer dereference: `elem.node.niece` with `elem.node == nil`. -/
  | nilPointer
  /-- An index or a slice bound of `polNodes` out of range. -/
  | indexOutOfRange
  /-- An index out of range in the loop over the root candidates of
  `IngestBatchProof`: `rootHashes[i]` or `p.roots[len(p.roots)-i-1]`. -/
  | rootOutOfRange
  /-- The call `panic("populate() stack was too small")`. -/
  | stackTooSmall
  /-- The loop budget of the model was used up. -/
  | outOfFuel
deriving DecidableEq

/-- The closure that `IngestBatchProof` passes as `cached`, over the result
`(n, err)` of `p.readPos(pos)`, which is taken as a parameter. -/
def cachedOf (readPos : Pollard → Nat → Except Unit PolNode) (p : Pollard) (pos : Nat) :
    Bool × Hash :=
  match readPos p pos with
  | .error _ => (false, empty)
  | .ok n =>
    match n with
    | .nil => (false, empty)
    | .node d _ _ => if d ≠ empty then (true, d) else (false, empty)

/-- One niece slot in `populate`:
`if elem.node.niece[k] == nil { elem.node.niece[k] = &polNodes[nodesAllocated]; nodesAllocated++ }`.
A node of the block `polNodes` is a zero `polNode`. -/
def ensureNiece (niece : PolNode) (nodesAllocated cap : Nat) : Except PopFault (PolNode × Nat) :=
  match niece with
  | .nil =>
    if nodesAllocated < cap then .ok (.node empty .nil .nil, nodesAllocated + 1)
    else .error .indexOutOfRange
  | n => .ok (n, nodesAllocated)

/-- The assignment `n.data = h` through a pointer that is not nil. -/
def PolNode.setData (n : PolNode) (h : Hash) : PolNode :=
  match n with
  | .nil => .nil
  | .node _ n0 n1 => .node h n0 n1

/-- The bodies of the `switch` in `populate` on the node `elem.node`.  With
`both` (the cases `parent.Pos == elem.pos` and `parent.Pos == rightChild`, which
fall through) `niece[0]` gets the hash of the left child of the triple and then
`niece[1]` the hash of its right child; otherwise (the case
`parent.Pos == leftChild`) only `niece[1]` is set. -/
def placeNieces (both : Bool) (t : Triple) (n : PolNode) (nodesAllocated cap : Nat) :
    Except PopFault (PolNode × Nat) :=
  match n with
  | .nil => .error .nilPointer
  | .node d n0 n1 =>
    if both then
      match ensureNiece n0 nodesAllocated cap with
      | .error f => .error f
      | .ok (right, a1) =>
        match ensureNiece n1 a1 cap with
        | .error f => .error f
        | .ok (left, a2) =>
          .ok (.node d (right.setData t.left.Val) (left.setData t.right.Val), a2)
    else
      match ensureNiece n1 nodesAllocated cap with
      | .error f => .error f
      | .ok (left, a1) => .ok (.node d n0 (left.setData t.right.Val), a1)

/-- The loop `find_nodes` of `populate`: the index of the first triple whose
parent is at `pos` or at one of its children, the triple, and whether the case
falls through the body for `niece[0]`. -/
def findTriple (pos leftChild rightChild : Nat) : List Triple → Nat → Option (Nat × Triple × Bool)
  | [], _ => none
  | t :: ts, i =>
    if t.parent.Pos = pos ∨ t.parent.Pos = rightChild then some (i, t, true)
    else if t.parent.Pos = leftChild then some (i, t, false)
    else findTriple pos leftChild rightChild ts (i + 1)

/-- The local type `stackElem` of `populate`; `node` is `none` for a nil
pointer, else the path from the root to the node. -/
structure StackElem where
  pos : Nat
  trees : List Triple
  node : Option (List Bool)
deriving DecidableEq

/-- One iteration of the loop `for stackIndex >= 0` of `populate`, on the top
element `elem` of the stack: the stack, the tree under the root and
`nodesAllocated` after it.  `trees` is the argument of `populate`, `cap` is
`len(polNodes)`. -/
def populateStep (numLeaves rows : Nat) (trees : List Triple) (cap : Nat) (elem : StackElem)
    (stack : List StackElem) (root : PolNode) (nodesAllocated : Nat) :
    Except PopFault (List StackElem × PolNode × Nat) :=
  if elem.pos < numLeaves then .ok (stack, root, nodesAllocated)
  else
    let leftChild := child elem.pos rows
    let rightChild := child elem.pos rows ||| 1
    match findTriple elem.pos leftChild rightChild elem.trees 0 with
    | none => .ok (stack, root, nodesAllocated)
    | some (i, t, both) =>
      match elem.node with
      | none => .error .nilPointer
      | some path =>
        match placeNieces both t (root.at path) nodesAllocated cap with
        | .error f => .error f
        | .ok (n, a) =>
          if 2 * trees.length ≤ stack.length + 1 then .error .stackTooSmall
          else
            .ok (⟨rightChild, trees.drop (i + 1), if both then some (path ++ [false]) else none⟩
                :: ⟨leftChild, trees.drop (i + 1), some (path ++ [true])⟩ :: stack,
              PolNode.modifyAt (fun _ => n) path root, a)

/-- The loop `for stackIndex >= 0` of `populate`; the head of the list is
`stack[stackIndex]`.  `fuel` bounds the number of iterations. -/
def populateLoop (numLeaves rows : Nat) (trees : List Triple) (cap : Nat) :
    Nat → List StackElem → PolNode → Nat → Except PopFault (PolNode × Nat)
  | _, [], root, a => .ok (root, a)
  | 0, _ :: _, _, _ => .error .outOfFuel
  | fuel + 1, elem :: stack, root, a =>
    match populateStep numLeaves rows trees cap elem stack root a with
    | .error f => .error f
    | .ok (stack1, root1, a1) => populateLoop numLeaves rows trees cap fuel stack1 root1 a1

/-- The method `Pollard.populate`: the tree under `root` after the call, and the
number of nodes taken from `polNodes`.  `rows` is `p.rows()`. -/
def populate (numLeaves rows fuel : Nat) (root : PolNode) (pos : Nat) (trees : List Triple)
    (cap : Nat) : Except PopFault (PolNode × Nat) :=
  if trees.length = 0 then .ok (root, 0)
  else
    populateLoop numLeaves rows trees cap fuel
      [⟨pos, trees, if root = .nil then none else some []⟩] root 0

/-- The loop `for root.Val != rootHashes[i] { i++ }` of `IngestBatchProof`, on
the hashes from index `i` on: the index at which it stops, or `none` when it
runs off the end of `rootHashes`. -/
def scanRoot (v : Hash) : List Hash → Nat → Option Nat
  | [], _ => none
  | h :: hs, i => if v = h then some i else scanRoot v hs (i + 1)

/-- The loop `for _, root := range roots` of `IngestBatchProof`: the scan for the
index `i` (which is not reset from one candidate to the next), then the
arguments of `populate` from left to right, `p.roots[len(p.roots)-i-1]` (an
`int` index, out of range when it is negative) before `polNodes[nodesAllocated:]`,
then the call. -/
def ingestRoots (numLeaves rows fuel : Nat) (rootHashes : List Hash) (trees : List Triple) :
    List node → Nat → Nat → List PolNode → Except PopFault (List PolNode)
  | [], _, _, roots => .ok roots
  | root :: rest, i, nodesAllocated, roots =>
    match scanRoot root.Val (rootHashes.drop i) i with
    | none => .error .rootOutOfRange
    | some j =>
      if roots.length ≤ j then .error .rootOutOfRange
      else
        match roots[roots.length - j - 1]? with
        | none => .error .rootOutOfRange
        | some r =>
          if 3 * trees.length < nodesAllocated then .error .indexOutOfRange
          else
            match populate numLeaves rows fuel r root.Pos trees
                (3 * trees.length - nodesAllocated) with
            | .error f => .error f
            | .ok (r1, k) =>
              ingestRoots numLeaves rows fuel rootHashes trees rest j (nodesAllocated + k)
                (roots.set (roots.length - j - 1) r1)

/-- The error that `IngestBatchProof` returns. -/
inductive IngestError where
  /-- The message `block proof mismatch`. -/
  | blockProofMismatch
deriving DecidableEq

/-- The method `Pollard.IngestBatchProof`: the returned error (`none` is `nil`)
and the pollard after the call.  `readPos` is the missing method of that name,
`p.rows()` is `treeRows(p.numLeaves)`, and `fuel` bounds the iterations of each
call of `populate`. -/
def IngestBatchProof (parentHash : Hash → Hash → Hash)
    (readPos : Pollard → Nat → Except Unit PolNode) (fuel : Nat) (p : Pollard)
    (bp : BatchProof) : Except PopFault (Option IngestError × Pollard) :=
  let rootHashes := p.rootHashesReverse
  match verifyBatchProof parentHash bp rootHashes p.numLeaves (some (cachedOf readPos p)) with
  | .error f => .error (.verifier f)
  | .ok (false, _, _) => .ok (some .blockProofMismatch, p)
  | .ok (true, trees, roots) =>
    match ingestRoots p.numLeaves (treeRows p.numLeaves) fuel rootHashes trees roots 0 0
        p.roots with
    | .error f => .error f
    | .ok roots1 => .ok (none, { p with roots := roots1 })

/-! ## The positions of the proof hashes -/

/-- The positions of the row-0 part of a proof: for each target, or pair of
sibling targets, the position of the left leaf and the position of the right
leaf of the pair. -/
def leafSlots : List Nat → List Nat
  | [] => []
  | [t] => [2 * (t / 2), 2 * (t / 2) + 1]
  | t :: u :: rest =>
    if u = t ^^^ 1 then 2 * (t / 2) :: (2 * (t / 2) + 1) :: leafSlots rest
    else 2 * (t / 2) :: (2 * (t / 2) + 1) :: leafSlots (u :: rest)

/-- The position that each hash of a proof for `targets` belongs to in a forest
of `numLeaves` leaves laid out in `rows` rows, in the order of the proof: both
positions of the row-0 sibling pair of every target that is no row-0 root, the
row-0 root when it is a target, then the proof positions of the rows above
row 0. -/
def proofSlots (numLeaves rows : Nat) (targets : List Nat) : List Nat :=
  let low := targets.filter (fun t => !isRootAt numLeaves rows 0 t)
  leafSlots low
    ++ (if low.length < targets.length then [numLeaves - 1] else [])
    ++ (ProofPositions targets numLeaves rows).1.drop (proofRow rows low).1.length

/-- The assignments `proofTree[k] = v` for a list of pairs `(k, v)`, in the order
of the list. -/
def mapSetAll (tree : ProofTree) (kvs : List (Nat × Hash)) : ProofTree :=
  kvs.foldl (fun m kv => mapSet m kv.1 kv.2) tree

/-- The roots of `getRootsReverse` that are left when `Reconstruct` reaches row
`h`: those of the rows from `h` up. -/
def rootsFrom (numLeaves forestRows h : Nat) : List (Nat × Nat) :=
  ((List.range' h (forestRows + 1 - h)).filter (fun i => numLeaves.testBit i)).map
    (fun i => (rootPosition numLeaves i forestRows, i))

/-- The statement `if len(rootRows) > 0 && rootRows[0] == h` of `Reconstruct`
with its two pops. -/
def popRow (h : Nat) (roots : List (Nat × Nat)) : List (Nat × Nat) :=
  match roots with
  | (_, r) :: rest => if r = h then rest else roots
  | [] => []

/-- The indices at which the scans of `IngestBatchProof` stop, one for each root
candidate in turn: the loop `for _, root := range roots` with its inner loop
`for root.Val != rootHashes[i] { i++ }`, the index `i` kept from one candidate to
the next; `none` when a scan runs off the end of `rootHashes`. -/
def scanAll (rootHashes : List Hash) : List node → Nat → Option (List Nat)
  | [], _ => some []
  | root :: rest, i =>
    match scanRoot root.Val (rootHashes.drop i) i with
    | none => none
    | some j =>
      match scanAll rootHashes rest j with
      | none => none
      | some js => some (j :: js)

/-! ## The bridge node server

`server.go` of the package `bridgenode`: `mergeSortedSlices` and the proof
reduction of `serveBlocksWorker`.  Positions are `uint64` values; they are only
compared, so they are natural numbers here. -/

/-- The loop `for j := 0; j < len(c); j++` of `mergeSortedSlices`.  `c` has its
length from `make`; `copy` writes as many values as fit and `c[:j]` cuts the
rest off.  `fuel` bounds the number of iterations. -/
def mergeLoop (a b : List Nat) : Nat → List Nat → Nat → Nat → Nat → Except Fault (List Nat)
  | 0, _, _, _, _ => .error .outOfFuel
  | fuel + 1, c, idxa, idxb, j =>
    if j < c.length then
      if a.length ≤ idxa then
        -- a is done: `j += copy(c[j:], b[idxb:])`, `c = c[:j]`, `break`
        if b.length < idxb then .error .indexOutOfRange
        else .ok (c.take j ++ (b.drop idxb).take (c.length - j))
      else if b.length ≤ idxb then
        -- b is done: `j += copy(c[j:], a[idxa:])`, `c = c[:j]`, `break`
        .ok (c.take j ++ (a.drop idxa).take (c.length - j))
      else
        match a[idxa]?, b[idxb]? with
        | some vala, some valb =>
          if vala < valb then mergeLoop a b fuel (c.set j vala) (idxa + 1) idxb (j + 1)
          else if vala > valb then mergeLoop a b fuel (c.set j valb) idxa (idxb + 1) (j + 1)
          else mergeLoop a b fuel (c.set j vala) (idxa + 1) (idxb + 1) (j + 1)
        | _, _ => .error .indexOutOfRange
    else .ok c

/-- The function `mergeSortedSlices`. -/
def mergeSortedSlices (a b : List Nat) : Except Fault (List Nat) :=
  if a.length = 0 then .ok b
  else if b.length = 0 then .ok a
  else
    mergeLoop a b (a.length + b.length + 1) (List.replicate (a.length + b.length) 0) 0 0 0

/-- The merge of two lists that takes the lower head first and a common head
once: what `mergeSortedSlices` computes. -/
def mergeOnce : List Nat → List Nat → List Nat
  | [], b => b
  | x :: a, [] => x :: a
  | x :: a, y :: b =>
    if x < y then x :: mergeOnce a (y :: b)
    else if y < x then y :: mergeOnce (x :: a) b
    else x :: mergeOnce a b
termination_by a b => a.length + b.length

/-- What stops the proof reduction of `serveBlocksWorker` without a result. -/
inductive ReduceFault where
  /-- The call of `mergeSortedSlices` stopped. -/
  | merge (f : Fault)
  /-- An index out of range at `needed[0]`: `needed` is empty. -/
  | neededOutOfRange
  /-- An index out of range at `ud.AccProof.Proof[i]`. -/
  | proofOutOfRange
deriving DecidableEq

/-- The loop `for i, pos := range all` of `serveBlocksWorker`, over the rest of
`all` from index `i` on: every iteration reads `needed[0]`, and a position that
equals it takes the hash `Proof[i]` and drops it from `needed`. -/
def reduceLoop (Proof : List Hash) :
    List Nat → Nat → List Nat → List Hash → Except ReduceFault (List Hash)
  | [], _, _, proof => .ok proof
  | pos :: rest, i, needed, proof =>
    match needed with
    | [] => .error .neededOutOfRange
    | n0 :: needed1 =>
      if pos = n0 then
        match Proof[i]? with
        | none => .error .proofOutOfRange
        | some h => reduceLoop Proof rest (i + 1) needed1 (proof ++ [h])
      else reduceLoop Proof rest (i + 1) needed proof

/-- The proof reduction of `serveBlocksWorker`, from the result of `ProbeCache`
(a method that is not part of the sources at hand) to the value of `proof` after
the loop: `all := mergeSortedSlices(needed, cached)`, then the loop. -/
def reduceProof (needed cached : List Nat) (Proof : List Hash) :
    Except ReduceFault (List Hash) :=
  match mergeSortedSlices needed cached with
  | .error f => .error (.merge f)
  | .ok all => reduceLoop Proof all 0 needed []

/-- The hashes `Proof[i]` for the indices `i` at which `all[i]` is a needed
position, in the order of the indices. -/
def neededHashes (all needed : List Nat) (Proof : List Hash) : List Hash :=
  ((all.zip Proof).filter (fun e => decide (e.1 ∈ needed))).map Prod.snd

/-! # Theorems -/

/-! ## Codec lemmas -/

theorem beBytes_length (k v : Nat) : (beBytes k v).length = k := by
  induction k with
  | zero => rfl
  | succ k ih => simp [beBytes, ih]

theorem foldl_beBytes (k v acc : Nat) :
    (beBytes k v).foldl (fun a (b : Byte) => a * 256 + b.val) acc
      = acc * 256 ^ k + v % 256 ^ k := by
  induction k generalizing acc with
  | zero => simp [beBytes, Nat.mod_one]
  | succ k ih =>
    have hv : (Fin.ofNat (v / 256 ^ k) : Byte).val = v / 256 ^ k % 256 := rfl
    simp only [beBytes, List.foldl_cons, ih, hv]
    rw [Nat.mod_pow_succ]
    ring

theorem beNat_beBytes (k v : Nat) : beNat (beBytes k v) = v % 256 ^ k := by
  simp [beNat, foldl_beBytes]

theorem writeHashes_length (hs : List Hash) : (writeHashes hs).length = 32 * hs.length := by
  induction hs with
  | nil => rfl
  | cons h hs ih => simp [writeHashes, ih, h.size_eq]; omega

theorem copyFrom_bytes (h : Hash) (tail : List Byte) :
    Hash.copyFrom ((h.bytes ++ tail).take 32) = h := by
  have h32 : (h.bytes ++ tail).take 32 = h.bytes := by
    rw [List.take_append_of_le_length (by rw [h.size_eq])]
    exact List.take_of_length_le (by rw [h.size_eq])
  cases h with
  | mk bytes size_eq =>
    simp only [Hash.copyFrom, Hash.mk.injEq]
    simp only at h32
    rw [h32, List.take_of_length_le (by rw [size_eq]), size_eq]
    simp

theorem readHashes_writeHashes (hs : List Hash) :
    readHashes hs.length (writeHashes hs) = hs := by
  induction hs with
  | nil => rfl
  | cons h hs ih =>
    simp only [List.length_cons, readHashes, writeHashes, copyFrom_bytes]
    rw [List.drop_append_of_le_length (by rw [h.size_eq]),
      List.drop_of_length_le (by rw [h.size_eq]), List.nil_append, ih]

theorem readTargets_writeTargets (ts : List Nat) (tail : List Byte)
    (hb : ∀ t ∈ ts, t < 2 ^ 64) :
    readTargets ts.length (writeTargets ts ++ tail) = .ok (ts, tail) := by
  induction ts with
  | nil => rfl
  | cons t ts ih =>
    have hlen : (beBytes 8 t).length = 8 := beBytes_length 8 t
    have ht : t % 256 ^ 8 = t := Nat.mod_eq_of_lt (by have := hb t (by simp); omega)
    have hdrop : (beBytes 8 t ++ writeTargets ts ++ tail).drop 8 = writeTargets ts ++ tail := by
      rw [List.append_assoc, List.drop_append_of_le_length (by rw [hlen]),
        List.drop_of_length_le (by rw [hlen]), List.nil_append]
    have htake : (beBytes 8 t ++ writeTargets ts ++ tail).take 8 = beBytes 8 t := by
      rw [List.append_assoc, List.take_append_of_le_length (by rw [hlen]),
        List.take_of_length_le (by rw [hlen])]
    have hge : ¬ (beBytes 8 t ++ writeTargets ts ++ tail).length < 8 := by
      simp only [List.length_append, hlen]; omega
    simp only [List.length_cons, readTargets, writeTargets, hge, if_false, hdrop, htake,
      ih (fun u hu => hb u (List.mem_cons_of_mem _ hu)), beNat_beBytes, ht]

/-- Decoding what `ToBytes` wrote gives the proof back, when the target count
survives the conversion to `uint32` and is not zero. -/
theorem fromBytes_toBytes (bp : BatchProof) (hb : ∀ t ∈ bp.Targets, t < 2 ^ 64)
    (hne : bp.Targets ≠ []) (hlen : bp.Targets.length < 2 ^ 32) :
    FromBytesBatchProof (ToBytes bp) = .ok bp := by
  obtain ⟨ts, hs⟩ := bp
  simp only at hb hne hlen
  have hpos : 0 < ts.length := List.length_pos.mpr hne
  have hmod : ts.length % 2 ^ 32 = ts.length := Nat.mod_eq_of_lt hlen
  have h4 : (beBytes 4 ts.length).length = 4 := beBytes_length 4 _
  have hcnt : beNat (beBytes 4 ts.length) = ts.length := by
    rw [beNat_beBytes]; exact Nat.mod_eq_of_lt (by omega)
  have htake : (beBytes 4 ts.length ++ writeTargets ts ++ writeHashes hs).take 4
      = beBytes 4 ts.length := by
    rw [List.append_assoc, List.take_append_of_le_length (by rw [h4]),
      List.take_of_length_le (by rw [h4])]
  have hdrop : (beBytes 4 ts.length ++ writeTargets ts ++ writeHashes hs).drop 4
      = writeTargets ts ++ writeHashes hs := by
    rw [List.append_assoc, List.drop_append_of_le_length (by rw [h4]),
      List.drop_of_length_le (by rw [h4]), List.nil_append]
  have hl0 : ¬ (beBytes 4 ts.length ++ writeTargets ts ++ writeHashes hs).length = 0 := by
    simp only [List.length_append, h4]; omega
  have hl4 : ¬ (beBytes 4 ts.length ++ writeTargets ts ++ writeHashes hs).length < 4 := by
    simp only [List.length_append, h4]; omega
  have hne0 : ¬ ts.length = 0 := by omega
  simp only [ToBytes, FromBytesBatchProof, hmod, hne0, if_false, hl0, hl4, htake, hdrop, hcnt,
    readTargets_writeTargets ts _ hb, writeHashes_length]
  have h1 : 32 * hs.length % 32 = 0 := Nat.mul_mod_right 32 _
  have h2 : 32 * hs.length / 32 = hs.length := Nat.mul_div_cancel_left _ (by norm_num)
  simp [h1, h2, readHashes_writeHashes]

theorem toBytes_of_count_zero (ts : List Nat) (hs : List Hash) (n : Nat) (hn : ts.length = n)
    (h : n % 2 ^ 32 = 0) : ToBytes ⟨ts, hs⟩ = [] := by
  subst hn
  simp only [ToBytes]
  exact if_pos h

theorem fromBytes_nil_ne (ts : List Nat) (hs : List Hash) (h : ts.length ≠ 0) :
    FromBytesBatchProof [] ≠ .ok ⟨ts, hs⟩ := by
  intro h1
  have h2 : FromBytesBatchProof [] = .ok ⟨[], []⟩ := rfl
  rw [h2] at h1
  injection h1 with h1
  injection h1 with h3 h4
  subst h3
  exact h rfl

/-! ## The climb loop: budget, accumulators, cache -/

section Climb

variable (parentHash : Hash → Hash → Hash) (cached : Nat → Bool × Hash) (numLeaves rows : Nat)

theorem climbLoop_nil (fuel : Nat) (pp : List Nat) (proofs : List Hash) (trees : List Triple)
    (rc : List node) :
    climbLoop parentHash cached numLeaves rows fuel [] pp proofs trees rc
      = ⟨.completed, trees, rc⟩ := by
  cases fuel <;> rfl

theorem climbLoop_succ (fuel : Nat) (target : node) (rest : List node) (pp : List Nat)
    (proofs : List Hash) (trees : List Triple) (rc : List node) :
    climbLoop parentHash cached numLeaves rows (fuel + 1) (target :: rest) pp proofs trees rc
      = match pickSibling target rest pp proofs with
        | .outOfRange => ⟨.indexOutOfRange, trees, rc⟩
        | .notFound => ⟨.siblingNotFound, trees, rc⟩
        | .found proof targetNodes proofPositions proofs1 =>
          if isRootAt numLeaves rows
              (detectRow (hashParent parentHash cached rows target proof).parent.Pos rows)
              (hashParent parentHash cached rows target proof).parent.Pos then
            climbLoop parentHash cached numLeaves rows fuel targetNodes proofPositions proofs1
              (trees ++ [hashParent parentHash cached rows target proof])
              (rc ++ [(hashParent parentHash cached rows target proof).parent])
          else
            climbLoop parentHash cached numLeaves rows fuel
              (targetNodes ++ [(hashParent parentHash cached rows target proof).parent])
              proofPositions proofs1
              (trees ++ [hashParent parentHash cached rows target proof]) rc := rfl

/-- Each iteration of the climb pops more than it pushes: after a sibling is
found, the target nodes and proof positions left are fewer than before by two. -/
theorem pickSibling_measure {target : node} {rest : List node} {pp : List Nat}
    {proofs : List Hash} {proof : node} {tn : List node} {pp1 : List Nat} {proofs1 : List Hash}
    (h : pickSibling target rest pp proofs = .found proof tn pp1 proofs1) :
    tn.length + pp1.length + 1 = rest.length + pp.length := by
  unfold pickSibling at h
  split at h
  · split at h
    · split at h
      · cases h
      · injection h with h1 h2 h3 h4
        subst h2 h3
        simp only [List.length_cons]; omega
    · split at h
      · cases h
      · injection h with h1 h2 h3 h4
        subst h2 h3
        simp only [List.length_cons]; omega
  · split at h
    · cases h
    · injection h with h1 h2 h3 h4
      subst h2 h3
      simp only [List.length_cons]; omega

/-- The budget `len(targetNodes) + len(proofPositions)` is never used up. -/
theorem climbLoop_fuel (fuel : Nat) : ∀ (tn : List node) (pp : List Nat) (proofs : List Hash)
    (trees : List Triple) (rc : List node), tn.length + pp.length ≤ fuel →
    (climbLoop parentHash cached numLeaves rows fuel tn pp proofs trees rc).exit ≠ .outOfFuel := by
  induction fuel with
  | zero =>
    intro tn pp proofs trees rc h
    cases tn with
    | nil => simp [climbLoop]
    | cons t r => simp at h
  | succ fuel ih =>
    intro tn pp proofs trees rc h
    cases tn with
    | nil => simp [climbLoop]
    | cons t r =>
      rw [climbLoop_succ]
      cases hp : pickSibling t r pp proofs with
      | outOfRange => simp
      | notFound => simp
      | found proof tn1 pp1 proofs1 =>
        have hm := pickSibling_measure hp
        simp only [List.length_cons] at h
        simp only
        split
        · exact ih _ _ _ _ _ (by omega)
        · exact ih _ _ _ _ _ (by simp only [List.length_append, List.length_singleton]; omega)

/-- The triples collected before an iteration stay in `trees`. -/
theorem climbLoop_trees_mem (fuel : Nat) : ∀ (tn : List node) (pp : List Nat)
    (proofs : List Hash) (trees : List Triple) (rc : List node) (t : Triple), t ∈ trees →
    t ∈ (climbLoop parentHash cached numLeaves rows fuel tn pp proofs trees rc).trees := by
  induction fuel with
  | zero =>
    intro tn pp proofs trees rc t h
    cases tn <;> simpa [climbLoop] using h
  | succ fuel ih =>
    intro tn pp proofs trees rc t h
    cases tn with
    | nil => simpa [climbLoop] using h
    | cons tg r =>
      rw [climbLoop_succ]
      cases hp : pickSibling tg r pp proofs with
      | outOfRange => simpa using h
      | notFound => simpa using h
      | found proof tn1 pp1 proofs1 =>
        simp only
        split
        · exact ih _ _ _ _ _ t (List.mem_append_left _ h)
        · exact ih _ _ _ _ _ t (List.mem_append_left _ h)

/-- A cache that only reports hashes which the run without cache computes does
not change the climb. -/
theorem climbLoop_cache (c : Nat → Bool × Hash) (fuel : Nat) : ∀ (tn : List node)
    (pp : List Nat) (proofs : List Hash) (trees : List Triple) (rc : List node),
    (∀ t ∈ (climbLoop parentHash noCache numLeaves rows fuel tn pp proofs trees rc).trees,
      ∀ h, c t.parent.Pos = (true, h) → h = t.parent.Val) →
    climbLoop parentHash c numLeaves rows fuel tn pp proofs trees rc
      = climbLoop parentHash noCache numLeaves rows fuel tn pp proofs trees rc := by
  induction fuel with
  | zero =>
    intro tn pp proofs trees rc _
    cases tn <;> rfl
  | succ fuel ih =>
    intro tn pp proofs trees rc hc
    cases tn with
    | nil => rfl
    | cons tg r =>
      rw [climbLoop_succ] at hc ⊢
      rw [climbLoop_succ]
      cases hp : pickSibling tg r pp proofs with
      | outOfRange => rfl
      | notFound => rfl
      | found proof tn1 pp1 proofs1 =>
        rw [hp] at hc
        simp only at hc ⊢
        have hmem : hashParent parentHash noCache rows tg proof ∈
            (if isRootAt numLeaves rows
              (detectRow (hashParent parentHash noCache rows tg proof).parent.Pos rows)
              (hashParent parentHash noCache rows tg proof).parent.Pos then
            climbLoop parentHash noCache numLeaves rows fuel tn1 pp1 proofs1
              (trees ++ [hashParent parentHash noCache rows tg proof])
              (rc ++ [(hashParent parentHash noCache rows tg proof).parent])
          else
            climbLoop parentHash noCache numLeaves rows fuel
              (tn1 ++ [(hashParent parentHash noCache rows tg proof).parent])
              pp1 proofs1
              (trees ++ [hashParent parentHash noCache rows tg proof]) rc).trees := by
          split
          · exact climbLoop_trees_mem _ _ _ _ _ _ _ _ _ _ _ (by simp)
          · exact climbLoop_trees_mem _ _ _ _ _ _ _ _ _ _ _ (by simp)
        have heq : hashParent parentHash c rows tg proof
            = hashParent parentHash noCache rows tg proof := by
          have h1 := hc _ hmem
          simp only [hashParent, noCache] at h1 ⊢
          rcases hcp : c (parent tg.Pos rows) with ⟨b, h⟩
          cases b with
          | false => simp
          | true =>
            have := h1 h hcp
            simp [this]
        rw [heq]
        split
        · rename_i hroot
          rw [if_pos hroot] at hc
          exact ih _ _ _ _ _ hc
        · rename_i hroot
          rw [if_neg hroot] at hc
          exact ih _ _ _ _ _ hc

end Climb

/-! ## Root matching -/

theorem rootMatches_eq_length_iff (rc : List node) (roots : List Hash) : ∀ m, m ≤ rc.length →
    (rc.length = rootMatches rc roots m ↔ ((rc.drop m).map node.Val).Sublist roots) := by
  induction roots with
  | nil =>
    intro m hm
    simp only [rootMatches, List.sublist_nil, List.map_eq_nil_iff, List.drop_eq_nil_iff]
    omega
  | cons root roots ih =>
    intro m hm
    cases hget : rc[m]? with
    | none =>
      have hlen : rc.length ≤ m := List.getElem?_eq_none_iff.mp hget
      have hd : rc.drop m = [] := List.drop_eq_nil_iff.mpr hlen
      have := ih m hm
      rw [hd] at this ⊢
      simp only [rootMatches, hget, List.map_nil, List.nil_sublist, iff_true] at this ⊢
      exact this
    | some c =>
      have hlt : m < rc.length := by
        by_contra hcon
        have := List.getElem?_eq_none_iff.mpr (Nat.le_of_not_lt hcon)
        rw [this] at hget
        cases hget
      have hd : rc.drop m = c :: rc.drop (m + 1) := by
        rw [List.drop_eq_getElem_cons hlt]
        congr 1
        rw [List.getElem?_eq_getElem hlt] at hget
        exact Option.some.inj hget
      rw [hd]
      simp only [rootMatches, hget, List.map_cons]
      by_cases hr : root = c.Val
      · rw [if_pos hr, ih (m + 1) hlt, hr]
        exact (List.cons_sublist_cons).symm
      · rw [if_neg hr, ih m hm, hd, List.map_cons]
        constructor
        · intro h
          exact List.Sublist.cons _ h
        · intro h
          cases h with
          | cons _ h => exact h
          | cons₂ _ h => exact absurd rfl hr

/-! ## The verifier and the climb -/

/-- The verifier is the root check applied to the end of the climb. -/
theorem verify_of_climbOf {parentHash : Hash → Hash → Hash} {bp : BatchProof}
    {roots : List Hash} {numLeaves : Nat} {cached : Option (Nat → Bool × Hash)} {e : ClimbEnd}
    (h : climbOf parentHash bp roots numLeaves cached = some e) :
    verifyBatchProof parentHash bp roots numLeaves cached = rootCheck roots e := by
  unfold climbOf at h
  unfold verifyBatchProof
  split at h
  · cases h
  · rename_i h0
    rw [if_neg h0]
    simp only at h ⊢
    split at h
    · rename_i s hs
      rw [hs]
      injection h with h
      rw [← h]
    · cases h

theorem seedLoop_ne_outOfFuel (roots : List Hash) (numLeaves : Nat) (pp : List Nat) (n : Nat) :
    ∀ {targets : List Nat}, targets.length ≤ n → ∀ (proofs : List Hash) (m : Nat)
      (tn : List node) (ph : List Hash) (rc : List node),
      seedLoop roots numLeaves pp targets proofs m tn ph rc ≠ .error .outOfFuel := by
  induction n with
  | zero =>
    intro targets h proofs m tn ph rc
    cases targets with
    | nil => simp [seedLoop]
    | cons t ts => simp at h
  | succ n ih =>
    intro targets h proofs m tn ph rc
    cases targets with
    | nil => simp [seedLoop]
    | cons t ts =>
      simp only [List.length_cons] at h
      unfold seedLoop
      split
      · split <;> simp
      · split
        · simp only
          split
          · exact ih (by omega) _ _ _ _ _
          · simp
        · split
          · simp only [List.length_cons] at h
            exact ih (by omega) _ _ _ _ _
          · simp

/-- The model never runs out of its loop budget. -/
theorem verify_ne_outOfFuel (parentHash : Hash → Hash → Hash) (bp : BatchProof)
    (roots : List Hash) (numLeaves : Nat) (cached : Option (Nat → Bool × Hash)) :
    verifyBatchProof parentHash bp roots numLeaves cached ≠ .error .outOfFuel := by
  unfold verifyBatchProof
  split
  · simp
  · simp only
    split
    · rename_i f hs
      intro h
      injection h with h
      subst h
      exact seedLoop_ne_outOfFuel _ _ _ _ (le_refl _) _ _ _ _ _ hs
    · simp
    · rename_i s hs
      have := climbLoop_fuel parentHash (cached.getD fun _ => (false, empty)) numLeaves
        (treeRows numLeaves)
        (s.targetNodes.length + (ProofPositions bp.Targets numLeaves (treeRows numLeaves)).1.length)
        s.targetNodes (ProofPositions bp.Targets numLeaves (treeRows numLeaves)).1
        (s.proofHashes ++ s.proofs) [] s.rootCandidates (le_refl _)
      revert this
      generalize climbLoop parentHash (cached.getD fun _ => (false, empty)) numLeaves
        (treeRows numLeaves) _ _ _ _ _ _ = e
      intro he
      unfold rootCheck
      split
      · simp
      · rename_i h; exact absurd h he
      · simp
      · split
        · simp
        · split <;> simp

/-! ## Arithmetic of the position space -/

theorem xor_one_div (x : Nat) : (x ^^^ 1) / 2 = x / 2 := by
  rw [Nat.xor_div_two]; simp

theorem xor_one_mod (x : Nat) : (x ^^^ 1) % 2 = 1 - x % 2 := by
  have h := @Nat.xor_mod_two_eq_one x 1
  have h2 : x % 2 = 0 ∨ x % 2 = 1 := by omega
  have h3 : (x ^^^ 1) % 2 = 0 ∨ (x ^^^ 1) % 2 = 1 := by omega
  rcases h2 with h2 | h2 <;> rcases h3 with h3 | h3 <;> simp [h2, h3] at h ⊢

theorem xor_one_eq (x : Nat) : x ^^^ 1 = 2 * (x / 2) + (1 - x % 2) := by
  have h1 := xor_one_div x
  have h2 := xor_one_mod x
  omega

theorem xor_one_xor_one (x : Nat) : (x ^^^ 1) ^^^ 1 = x := by
  rw [Nat.xor_assoc]; simp

theorem xor_one_ne (x : Nat) : x ^^^ 1 ≠ x := by
  have := xor_one_mod x
  intro h
  rw [h] at this
  omega

theorem parent_eq {pos rows : Nat} (h : pos < 2 ^ (rows + 1)) :
    parent pos rows = 2 ^ rows + pos / 2 := by
  have h2 : pos / 2 < 2 ^ rows := by
    rw [pow_succ] at h; omega
  unfold parent
  rw [Nat.shiftRight_eq_div_pow, Nat.one_shiftLeft, pow_one, Nat.or_comm]
  have := Nat.mul_add_lt_is_or h2 1
  rw [Nat.mul_one] at this
  exact this.symm

theorem land_two_pow_ne_zero (pos k : Nat) :
    pos &&& 2 ^ k ≠ 0 ↔ 2 ^ k ≤ pos % 2 ^ (k + 1) := by
  have hbit : (pos &&& 2 ^ k ≠ 0) ↔ pos.testBit k = true := by
    constructor
    · intro h
      obtain ⟨i, hi⟩ := Nat.ne_zero_implies_bit_true h
      rw [Nat.testBit_and, Nat.testBit_two_pow] at hi
      simp only [Bool.and_eq_true, decide_eq_true_eq] at hi
      rw [hi.2]; exact hi.1
    · intro h hz
      have := congrArg (fun n => n.testBit k) hz
      simp [Nat.testBit_and, Nat.testBit_two_pow, h] at this
  rw [hbit, Nat.testBit_to_div_mod, decide_eq_true_eq, ← Nat.mod_mul_right_div_self, ← pow_succ]
  have hlt : pos % 2 ^ (k + 1) < 2 ^ (k + 1) := Nat.mod_lt _ (by positivity)
  have hpos : 0 < 2 ^ k := by positivity
  rw [pow_succ] at hlt
  constructor
  · intro h
    by_contra hc
    rw [Nat.div_eq_of_lt (by omega)] at h
    cases h
  · intro h
    have : pos % 2 ^ (k + 1) / 2 ^ k = 1 := by
      apply Nat.div_eq_of_lt_le <;> omega
    exact this

theorem mod_two_pow_pred (pos k : Nat) :
    pos % 2 ^ k = pos % 2 ^ (k + 1) - (if 2 ^ k ≤ pos % 2 ^ (k + 1) then 2 ^ k else 0) := by
  have h := @Nat.mod_pow_succ pos 2 k
  have hlt : pos / 2 ^ k % 2 < 2 := Nat.mod_lt _ (by norm_num)
  have hlt2 : pos % 2 ^ k < 2 ^ k := Nat.mod_lt _ (by positivity)
  rcases Nat.lt_or_ge (pos / 2 ^ k % 2) 1 with h1 | h1
  · have : pos / 2 ^ k % 2 = 0 := by omega
    rw [this] at h
    simp only [Nat.mul_zero, Nat.add_zero] at h
    rw [h, if_neg (by omega)]; rfl
  · have : pos / 2 ^ k % 2 = 1 := by omega
    rw [this] at h
    rw [h, if_pos (by omega)]; omega

/-- A position of row `i`: from the start of the row up to the start of the next. -/
theorem detectRowFrom_eq (i : Nat) : ∀ (k h pos : Nat), i < k →
    2 ^ k - 2 ^ (k - i) ≤ pos % 2 ^ k → pos % 2 ^ k < 2 ^ k - 2 ^ (k - i - 1) →
    detectRowFrom pos k h = h + i := by
  induction i with
  | zero =>
    intro k h pos hk _ hu
    obtain ⟨k, rfl⟩ : ∃ k', k = k' + 1 := ⟨k - 1, by omega⟩
    have hb := land_two_pow_ne_zero pos k
    simp only [Nat.add_sub_cancel, Nat.sub_zero, pow_succ] at hu
    have hn : ¬ (pos &&& 2 ^ k ≠ 0) := by
      rw [hb, pow_succ]; omega
    simp only [detectRowFrom, if_neg hn, Nat.add_zero]
  | succ i ih =>
    intro k h pos hk hl hu
    obtain ⟨k, rfl⟩ : ∃ k', k = k' + 1 := ⟨k - 1, by omega⟩
    have hb := land_two_pow_ne_zero pos k
    have hki : k + 1 - (i + 1) = k - i := by omega
    have hki2 : k + 1 - (i + 1) - 1 = k - i - 1 := by omega
    have hki3 : k - i = (k - i - 1) + 1 := by omega
    have hle : 2 ^ (k - i) ≤ 2 ^ k := Nat.pow_le_pow_right (by norm_num) (by omega)
    have hp2 : 2 ^ (k - i) = 2 * 2 ^ (k - i - 1) := by
      conv_lhs => rw [hki3, pow_succ]
      ring
    have hpos : 0 < 2 ^ (k - i - 1) := by positivity
    rw [hki] at hl
    rw [hki2] at hu
    have hks : 2 ^ (k + 1) = 2 * 2 ^ k := by rw [pow_succ]; ring
    have hy : pos &&& 2 ^ k ≠ 0 := by
      rw [hb]; omega
    have hm := mod_two_pow_pred pos k
    rw [if_pos (by omega)] at hm
    simp only [detectRowFrom, if_pos hy]
    rw [ih k (h + 1) pos (by omega) (by omega) (by omega)]
    omega

theorem rowStart_succ {rows i : Nat} (h : i ≤ rows) :
    rowStart rows (i + 1) = rowStart rows i + 2 ^ (rows - i) := by
  unfold rowStart
  have h1 : rows + 1 - i = (rows - i) + 1 := by omega
  have h2 : rows + 1 - (i + 1) = rows - i := by omega
  have h3 : 2 ^ (rows + 1 - i) ≤ 2 ^ (rows + 1) := Nat.pow_le_pow_right (by norm_num) (by omega)
  rw [h2]
  rw [h1] at h3 ⊢
  rw [pow_succ] at h3 ⊢
  omega

theorem rowStart_zero (rows : Nat) : rowStart rows 0 = 0 := by
  simp [rowStart]

theorem rowStart_lt {rows i : Nat} (h : i ≤ rows) : rowStart rows i + 2 ^ (rows - i) < 2 ^ (rows + 1) := by
  unfold rowStart
  have h1 : rows + 1 - i = (rows - i) + 1 := by omega
  have h3 : 2 ^ (rows + 1 - i) ≤ 2 ^ (rows + 1) := Nat.pow_le_pow_right (by norm_num) (by omega)
  have hpos : 0 < 2 ^ (rows - i) := by positivity
  rw [h1] at h3 ⊢
  rw [pow_succ] at h3 ⊢
  omega

/-- The row of a position between the start of row `i` and the start of the next. -/
theorem detectRow_eq {rows i x : Nat} (hi : i ≤ rows) (hx : x < 2 ^ (rows - i)) :
    detectRow (rowStart rows i + x) rows = i := by
  unfold detectRow
  have hlt := rowStart_lt hi
  have hmod : (rowStart rows i + x) % 2 ^ (rows + 1) = rowStart rows i + x :=
    Nat.mod_eq_of_lt (by omega)
  have h1 : rows + 1 - i - 1 = rows - i := by omega
  have h2 : rows + 1 - i = (rows - i) + 1 := by omega
  have h3 : 2 ^ (rows + 1 - i) ≤ 2 ^ (rows + 1) := Nat.pow_le_pow_right (by norm_num) (by omega)
  have h4 : 2 ^ (rows + 1 - i) = 2 * 2 ^ (rows - i) := by rw [h2, pow_succ]; ring
  have hs : rowStart rows i = 2 ^ (rows + 1) - 2 ^ (rows + 1 - i) := rfl
  rw [detectRowFrom_eq i (rows + 1) 0 _ (by omega) (by rw [hmod]; omega)
    (by rw [hmod, h1]; omega)]
  omega

theorem rowStart_even {rows i : Nat} (h : i ≤ rows) : rowStart rows i % 2 = 0 := by
  unfold rowStart
  have h1 : rows + 1 - i = (rows - i) + 1 := by omega
  have h3 : 2 ^ (rows + 1 - i) ≤ 2 ^ (rows + 1) := Nat.pow_le_pow_right (by norm_num) (by omega)
  rw [h1] at h3 ⊢
  rw [pow_succ] at h3 ⊢
  rw [pow_succ] at h3 ⊢
  omega

theorem parent_rowStart {rows i x : Nat} (hi : i < rows) (hx : x < 2 ^ (rows - i)) :
    parent (rowStart rows i + x) rows = rowStart rows (i + 1) + x / 2 := by
  have hlt := rowStart_lt (Nat.le_of_lt hi)
  rw [parent_eq (by omega), rowStart_succ (Nat.le_of_lt hi)]
  have he := rowStart_even (Nat.le_of_lt hi)
  unfold rowStart at *
  have h1 : rows + 1 - i = (rows - i) + 1 := by omega
  have h3 : 2 ^ (rows + 1 - i) ≤ 2 ^ (rows + 1) := Nat.pow_le_pow_right (by norm_num) (by omega)
  have h4 : rows - i = (rows - i - 1) + 1 := by omega
  have h5 : 2 ^ (rows - i) = 2 * 2 ^ (rows - i - 1) := by
    conv_lhs => rw [h4, pow_succ]
    ring
  rw [h1] at h3 hlt he ⊢
  rw [pow_succ] at h3 hlt he ⊢
  rw [pow_succ] at h3 hlt he ⊢
  omega

theorem xor_one_rowStart {rows i x : Nat} (hi : i ≤ rows) :
    (rowStart rows i + x) ^^^ 1 = rowStart rows i + (x ^^^ 1) := by
  have he := rowStart_even hi
  rw [xor_one_eq, xor_one_eq x]
  omega

/-! ## The number of rows -/

theorem treeRowsFrom_spec (n : Nat) : ∀ (fuel e : Nat), (∀ e', e' < e → 2 ^ e' < n) →
    n ≤ 2 ^ (e + fuel) →
    n ≤ 2 ^ treeRowsFrom n fuel e ∧ (∀ e', e' < treeRowsFrom n fuel e → 2 ^ e' < n) ∧
      treeRowsFrom n fuel e ≤ e + fuel := by
  intro fuel
  induction fuel with
  | zero =>
    intro e he hn
    exact ⟨hn, he, le_refl _⟩
  | succ fuel ih =>
    intro e he hn
    unfold treeRowsFrom
    by_cases h : 2 ^ e < n
    · rw [if_pos h]
      have := ih (e + 1) (fun e' he' => by
        rcases Nat.lt_succ_iff_lt_or_eq.mp he' with h1 | h1
        · exact he e' h1
        · rw [h1]; exact h) (by rw [show e + 1 + fuel = e + (fuel + 1) by omega]; exact hn)
      refine ⟨this.1, this.2.1, ?_⟩
      have := this.2.2
      omega
    · rw [if_neg h]
      exact ⟨Nat.le_of_not_lt h, he, by omega⟩

theorem treeRows_spec {n : Nat} (hn : n ≤ 2 ^ 64) :
    n ≤ 2 ^ treeRows n ∧ (∀ e, e < treeRows n → 2 ^ e < n) ∧ treeRows n ≤ 64 := by
  have := treeRowsFrom_spec n 64 0 (fun e' he' => absurd he' (Nat.not_lt_zero _))
    (by simpa using hn)
  simpa [treeRows] using this

theorem treeRows_two_pow {r : Nat} (hr : r ≤ 64) : treeRows (2 ^ r) = r := by
  have h := treeRows_spec (Nat.pow_le_pow_right (by norm_num) hr : 2 ^ r ≤ 2 ^ 64)
  have h1 : r ≤ treeRows (2 ^ r) := by
    by_contra hc
    have : 2 ^ treeRows (2 ^ r) < 2 ^ r := Nat.pow_lt_pow_right (by norm_num) (by omega)
    omega
  by_contra hne
  have := h.2.1 r (by omega)
  omega

/-! ## Root positions -/

theorem isRootAt_iff {numLeaves rows row pos : Nat} (hn : numLeaves < 2 ^ 64) :
    isRootAt numLeaves rows row pos = true ↔
      numLeaves.testBit row = true ∧ pos = rootPosition numLeaves row rows := by
  unfold isRootAt
  simp only [Bool.and_eq_true, decide_eq_true_eq]
  have hbit : numLeaves &&& 2 ^ row % 2 ^ 64 > 0 ↔ numLeaves.testBit row = true := by
    by_cases hrow : row < 64
    · rw [Nat.mod_eq_of_lt (Nat.pow_lt_pow_right (by norm_num) hrow)]
      have h1 := land_two_pow_ne_zero numLeaves row
      have h2 : numLeaves.testBit row = true ↔ 2 ^ row ≤ numLeaves % 2 ^ (row + 1) := by
        rw [Nat.testBit_to_div_mod, decide_eq_true_eq, ← Nat.mod_mul_right_div_self, ← pow_succ]
        have hlt : numLeaves % 2 ^ (row + 1) < 2 ^ (row + 1) := Nat.mod_lt _ (by positivity)
        have hpos : 0 < 2 ^ row := by positivity
        rw [pow_succ] at hlt
        constructor
        · intro h
          by_contra hc
          rw [Nat.div_eq_of_lt (by omega)] at h
          cases h
        · intro h
          apply Nat.div_eq_of_lt_le <;> omega
      rw [h2, ← h1]
      omega
    · have h64 : (2 : Nat) ^ row % 2 ^ 64 = 0 := by
        have : row = 64 + (row - 64) := by omega
        rw [this, pow_add]
        exact Nat.mul_mod_right _ _
      rw [h64]
      have : numLeaves.testBit row = false :=
        Nat.testBit_lt_two_pow (lt_of_lt_of_le hn (Nat.pow_le_pow_right (by norm_num) (by omega)))
      simp [this]
  rw [hbit]

/-! ## A single target in a perfect tree -/

theorem proofRows_nil (numLeaves rows : Nat) : ∀ (m row : Nat),
    proofRows numLeaves rows m row [] = ([], []) := by
  intro m
  induction m with
  | zero => intro row; rfl
  | succ m ih => intro row; simp [proofRows, proofRow, ih]

theorem rootPosition_two_pow (r : Nat) : rootPosition (2 ^ r) r r = rowStart r r := by
  unfold rootPosition
  rw [Nat.div_eq_of_lt (Nat.pow_lt_pow_right (by norm_num) (by omega))]
  rfl

theorem hashParent_noCache_parent (parentHash : Hash → Hash → Hash) (rows : Nat)
    (target proof : node) :
    (hashParent parentHash noCache rows target proof).parent
      = ⟨if target.Pos &&& 1 = 1 then parentHash proof.Val target.Val
          else parentHash target.Val proof.Val, parent target.Pos rows⟩ := by
  unfold hashParent
  by_cases hb : target.Pos &&& 1 = 1
  · simp only [hb, if_true, noCache, Bool.not_false]
  · simp only [hb, if_false, noCache, Bool.not_false, if_true]

/-- In the perfect tree of `r` rows the parent of a position of row `i < r` is a
root exactly when it is the apex. -/
theorem isRootAt_parent_two_pow {r i x : Nat} (hr : r ≤ 63) (hi : i < r)
    (hx : x < 2 ^ (r - i)) :
    isRootAt (2 ^ r) r (i + 1) (parent (rowStart r i + x) r) = decide (i + 1 = r) := by
  have hn : 2 ^ r < 2 ^ 64 := Nat.pow_lt_pow_right (by norm_num) (by omega)
  rw [Bool.eq_iff_iff, isRootAt_iff hn, Nat.testBit_two_pow, parent_rowStart hi hx]
  simp only [decide_eq_true_eq]
  constructor
  · intro h; exact h.1.symm
  · intro h
    refine ⟨h.symm, ?_⟩
    have hx2 : x < 2 := by
      have : r - i = 1 := by omega
      rw [this] at hx; simpa using hx
    rw [h, rootPosition_two_pow, Nat.div_eq_of_lt hx2]
    rfl

/-- The proof positions of one position of row `i` in the perfect tree of `r`
rows: its sibling, then the siblings of its ancestors below the apex. -/
theorem proofRows_single {r : Nat} (hr : r ≤ 63) : ∀ (k i x m : Nat), i + (k + 1) = r →
    k + 1 ≤ m → x < 2 ^ (r - i) →
    (proofRows (2 ^ r) r m i [rowStart r i + x]).1
      = siblingPath r (k + 1) (rowStart r i + x) := by
  intro k
  induction k with
  | zero =>
    intro i x m hik hm hx
    obtain ⟨m, rfl⟩ : ∃ m', m = m' + 1 := ⟨m - 1, by omega⟩
    have hroot := isRootAt_parent_two_pow hr (show i < r by omega) hx
    simp only [proofRows, proofRow, List.filter_cons, hroot, siblingPath, List.filter_nil]
    simp [hik, proofRows_nil]
  | succ k ih =>
    intro i x m hik hm hx
    obtain ⟨m, rfl⟩ : ∃ m', m = m' + 1 := ⟨m - 1, by omega⟩
    have hroot := isRootAt_parent_two_pow hr (show i < r by omega) hx
    have hx2 : x / 2 < 2 ^ (r - (i + 1)) := by
      have : r - i = (r - (i + 1)) + 1 := by omega
      rw [this, pow_succ] at hx
      omega
    have hne : ¬ (i + 1 = r) := by omega
    simp only [proofRows, proofRow, List.filter_cons, hroot, List.filter_nil]
    simp only [hne, decide_False, Bool.not_false, if_true, List.singleton_append]
    rw [parent_rowStart (by omega) hx, ih (i + 1) (x / 2) m (by omega) (by omega) hx2]
    conv_rhs => rw [siblingPath, parent_rowStart (by omega) hx]

/-- The climb from one node of row `i` of the perfect tree of `r` rows, along the
proof positions of its path: one triple a row, and the apex as the only new root
candidate, with the hash of the path. -/
theorem climbLoop_single (parentHash : Hash → Hash → Hash) {r : Nat} (hr : r ≤ 63) :
    ∀ (k i x fuel : Nat) (h : Hash) (sibs : List Hash) (trees : List Triple) (rc : List node),
    i + (k + 1) = r → k + 1 ≤ fuel → x < 2 ^ (r - i) → sibs.length = k + 1 →
    ∃ new : List Triple, new.length = k + 1 ∧
      climbLoop parentHash noCache (2 ^ r) r fuel [⟨h, rowStart r i + x⟩]
          (siblingPath r (k + 1) (rowStart r i + x)) sibs trees rc
        = ⟨.completed, trees ++ new,
            rc ++ [⟨pathRoot parentHash r (rowStart r i + x) h sibs, 2 ^ (r + 1) - 2⟩]⟩ := by
  intro k
  induction k with
  | zero =>
    intro i x fuel h sibs trees rc hik hfuel hx hs
    obtain ⟨fuel, rfl⟩ : ∃ f', fuel = f' + 1 := ⟨fuel - 1, by omega⟩
    obtain ⟨s, rfl⟩ : ∃ s, sibs = [s] := List.length_eq_one.mp hs
    have hroot := isRootAt_parent_two_pow hr (show i < r by omega) hx
    have hdet : detectRow (parent (rowStart r i + x) r) r = i + 1 := by
      rw [parent_rowStart (by omega) hx]
      exact detectRow_eq (by omega) (by
        have : r - i = (r - (i + 1)) + 1 := by omega
        rw [this, pow_succ] at hx
        omega)
    have hapex : parent (rowStart r i + x) r = 2 ^ (r + 1) - 2 := by
      have hx2 : x < 2 := by
        have : r - i = 1 := by omega
        rw [this] at hx; simpa using hx
      rw [parent_rowStart (by omega) hx, Nat.div_eq_of_lt hx2, hik]
      simp [rowStart]
    refine ⟨[hashParent parentHash noCache r ⟨h, rowStart r i + x⟩ ⟨s, (rowStart r i + x) ^^^ 1⟩],
      rfl, ?_⟩
    rw [climbLoop_succ]
    simp only [siblingPath, pickSibling, if_true]
    rw [hashParent_noCache_parent, hdet, hroot]
    simp only [hik, decide_True, if_true, climbLoop_nil, pathRoot, hapex]
  | succ k ih =>
    intro i x fuel h sibs trees rc hik hfuel hx hs
    obtain ⟨fuel, rfl⟩ : ∃ f', fuel = f' + 1 := ⟨fuel - 1, by omega⟩
    obtain ⟨s, ss, rfl⟩ : ∃ s ss, sibs = s :: ss := List.exists_cons_of_length_eq_add_one hs
    have hroot := isRootAt_parent_two_pow hr (show i < r by omega) hx
    have hx2 : x / 2 < 2 ^ (r - (i + 1)) := by
      have : r - i = (r - (i + 1)) + 1 := by omega
      rw [this, pow_succ] at hx
      omega
    have hdet : detectRow (parent (rowStart r i + x) r) r = i + 1 := by
      rw [parent_rowStart (by omega) hx]
      exact detectRow_eq (by omega) hx2
    have hne : ¬ (i + 1 = r) := by omega
    obtain ⟨new, hnew, hclimb⟩ := ih (i + 1) (x / 2) fuel
      (if (rowStart r i + x) &&& 1 = 1 then parentHash s h else parentHash h s) ss
      (trees ++ [hashParent parentHash noCache r ⟨h, rowStart r i + x⟩
        ⟨s, (rowStart r i + x) ^^^ 1⟩]) rc (by omega) (by omega) hx2
      (by simpa using hs)
    refine ⟨hashParent parentHash noCache r ⟨h, rowStart r i + x⟩
        ⟨s, (rowStart r i + x) ^^^ 1⟩ :: new, by simp [hnew], ?_⟩
    rw [climbLoop_succ]
    conv_lhs => rw [siblingPath]
    simp only [pickSibling, if_true]
    rw [hashParent_noCache_parent, hdet, hroot]
    simp only [hne, decide_False, if_false, List.nil_append, Bool.false_eq_true]
    rw [parent_rowStart (by omega) hx, hclimb]
    simp only [List.append_assoc, List.singleton_append, pathRoot]
    rw [parent_rowStart (by omega) hx]

theorem siblingPath_length (rows : Nat) : ∀ (k pos : Nat), (siblingPath rows k pos).length = k := by
  intro k
  induction k with
  | zero => intro pos; rfl
  | succ k ih => intro pos; simp [siblingPath, ih]

/-- The run of `verifyBatchProof` on one target of a perfect tree. -/
theorem verify_single_target (parentHash : Hash → Hash → Hash) (r t : Nat) (a b : Hash)
    (s : List Hash) (hr1 : 1 ≤ r) (hr : r ≤ 63) (ht : t < 2 ^ r) (hs : s.length = r - 1) :
    ∃ trees : List Triple, trees.length = r ∧
      verifyBatchProof parentHash ⟨[t], a :: b :: s⟩
          [pathRoot parentHash r t (if t &&& 1 = 1 then b else a)
            ((if t &&& 1 = 1 then a else b) :: s)] (2 ^ r) none
        = .ok (true, trees,
            [⟨pathRoot parentHash r t (if t &&& 1 = 1 then b else a)
              ((if t &&& 1 = 1 then a else b) :: s), 2 ^ (r + 1) - 2⟩]) := by
  obtain ⟨k, rfl⟩ : ∃ k, r = k + 1 := ⟨r - 1, by omega⟩
  have hn : 2 ^ (k + 1) < 2 ^ 64 := Nat.pow_lt_pow_right (by norm_num) (by omega)
  have hrows : treeRows (2 ^ (k + 1)) = k + 1 := treeRows_two_pow (by omega)
  have heven : 2 ^ (k + 1) % 2 = 0 := by rw [pow_succ]; omega
  have hnr : isRootAt (2 ^ (k + 1)) (k + 1) 0 t = false := by
    rw [Bool.eq_false_iff]
    intro h
    have := ((isRootAt_iff hn).mp h).1
    rw [Nat.testBit_two_pow] at this
    simp at this
  have ht0 : rowStart (k + 1) 0 + t = t := by rw [rowStart_zero, Nat.zero_add]
  have hpp : (ProofPositions [t] (2 ^ (k + 1)) (k + 1)).1 = siblingPath (k + 1) (k + 1) t := by
    unfold ProofPositions
    simp only [List.filter_cons, hnr, Bool.not_false, if_true, List.filter_nil]
    have := proofRows_single (r := k + 1) hr k 0 t (k + 1 + 1) (by omega) (by omega)
      (by simpa using ht)
    rw [ht0] at this
    exact this
  have hseed : seedLoop
      [pathRoot parentHash (k + 1) t (if t &&& 1 = 1 then b else a)
            ((if t &&& 1 = 1 then a else b) :: s)] (2 ^ (k + 1))
      (siblingPath (k + 1) (k + 1) t) [t] (a :: b :: s) 0 [] [] []
      = .ok (some ⟨s, [⟨if t &&& 1 = 1 then b else a, t⟩], [if t &&& 1 = 1 then a else b], []⟩) := by
    have hc1 : ¬ (t = (2 ^ (k + 1) + 2 ^ 64 - 1) % 2 ^ 64 ∧ 2 ^ (k + 1) &&& 1 = 1) := by
      rw [Nat.and_one_is_mod]
      omega
    have hc2 : 0 < (siblingPath (k + 1) (k + 1) t).length ∧
        (siblingPath (k + 1) (k + 1) t)[0]? = some (t ^^^ 1) := by
      simp [siblingPath]
    unfold seedLoop
    rw [if_neg hc1, if_pos hc2]
    rw [Nat.and_one_is_mod]
    rcases Nat.mod_two_eq_zero_or_one t with h0 | h1
    · rw [h0]
      simp [seedLoop]
    · rw [h1]
      simp [seedLoop]
  obtain ⟨new, hnew, hclimb⟩ := climbLoop_single parentHash (r := k + 1) hr k 0 t (1 + (k + 1))
    (if t &&& 1 = 1 then b else a) ((if t &&& 1 = 1 then a else b) :: s) [] []
    (by omega) (by omega) (by simpa using ht) (by simpa using hs)
  rw [ht0] at hclimb
  refine ⟨new, hnew, ?_⟩
  unfold verifyBatchProof
  simp only [List.length_singleton, one_ne_zero, if_false, hrows, hpp, hseed, Option.getD_none,
    siblingPath_length, List.singleton_append]
  rw [show ([] : List Triple) = [] from rfl] at hclimb
  rw [hclimb]
  simp [rootCheck, rootMatches]

/-! ## The climb loop computes the row-by-row climb -/

theorem xor_one_inj {a b : Nat} (h : a ^^^ 1 = b ^^^ 1) : a = b := by
  have := congrArg (· ^^^ 1) h
  simpa [xor_one_xor_one] using this

theorem proofRow_fst_mem (rows : Nat) : ∀ (n : Nat) (L : List Nat), L.length ≤ n →
    ∀ p ∈ (proofRow rows L).1, ∃ t ∈ L, p = t ^^^ 1 := by
  intro n
  induction n with
  | zero =>
    intro L hL p hp
    have : L = [] := List.length_eq_zero.mp (by omega)
    subst this
    simp [proofRow] at hp
  | succ n ih =>
    intro L hL p hp
    match L, hL, hp with
    | [], _, hp => simp [proofRow] at hp
    | [t], _, hp =>
      simp only [proofRow, List.mem_singleton] at hp
      exact ⟨t, by simp, hp⟩
    | t :: u :: rest, hL, hp =>
      simp only [proofRow] at hp
      simp only [List.length_cons] at hL
      split at hp
      · obtain ⟨v, hv, hpv⟩ := ih rest (by omega) p hp
        exact ⟨v, by simp [hv], hpv⟩
      · simp only [List.mem_cons] at hp
        rcases hp with hp | hp
        · exact ⟨t, by simp, hp⟩
        · obtain ⟨v, hv, hpv⟩ := ih (u :: rest) (by simp only [List.length_cons]; omega) p hp
          exact ⟨v, List.mem_cons_of_mem _ hv, hpv⟩

section Row

variable (parentHash : Hash → Hash → Hash) (cached : Nat → Bool × Hash) (numLeaves rows : Nat)

/-- One step of the climb loop with the sibling taken from the proof. -/
theorem climbLoop_step_proof (fuel : Nat) (t : node) (rest : List node) (pp : List Nat)
    (h : Hash) (hs : List Hash) (trees : List Triple) (rc : List node) :
    climbLoop parentHash cached numLeaves rows (fuel + 1) (t :: rest) ((t.Pos ^^^ 1) :: pp)
        (h :: hs) trees rc
      = climbLoop parentHash cached numLeaves rows fuel
          (rest ++ [(hashParent parentHash cached rows t ⟨h, t.Pos ^^^ 1⟩).parent].filter
            (fun p => !isRootNode numLeaves rows p)) pp hs
          (trees ++ [hashParent parentHash cached rows t ⟨h, t.Pos ^^^ 1⟩])
          (rc ++ [(hashParent parentHash cached rows t ⟨h, t.Pos ^^^ 1⟩).parent].filter
            (isRootNode numLeaves rows)) := by
  rw [climbLoop_succ]
  simp only [pickSibling, if_true]
  by_cases hr : isRootAt numLeaves rows
      (detectRow (hashParent parentHash cached rows t ⟨h, t.Pos ^^^ 1⟩).parent.Pos rows)
      (hashParent parentHash cached rows t ⟨h, t.Pos ^^^ 1⟩).parent.Pos = true
  · simp [hr, isRootNode]
  · simp [hr, isRootNode]

/-- One step of the climb loop with the sibling taken from the target nodes. -/
theorem climbLoop_step_pair (fuel : Nat) (t u : node) (rest : List node) (pp : List Nat)
    (hs : List Hash) (trees : List Triple) (rc : List node)
    (hpp : ∀ p ∈ pp.head?, p ≠ t.Pos ^^^ 1) :
    climbLoop parentHash cached numLeaves rows (fuel + 1) (t :: u :: rest) pp hs trees rc
      = climbLoop parentHash cached numLeaves rows fuel
          (rest ++ [(hashParent parentHash cached rows t u).parent].filter
            (fun p => !isRootNode numLeaves rows p)) pp hs
          (trees ++ [hashParent parentHash cached rows t u])
          (rc ++ [(hashParent parentHash cached rows t u).parent].filter
            (isRootNode numLeaves rows)) := by
  rw [climbLoop_succ]
  have hpick : pickSibling t (u :: rest) pp hs = .found u rest pp hs := by
    unfold pickSibling
    cases pp with
    | nil => rfl
    | cons p pp1 =>
      have : ¬ (t.Pos ^^^ 1 = p) := fun h => hpp p (by simp) h.symm
      simp only [this, if_false]
  rw [hpick]
  by_cases hr : isRootAt numLeaves rows
      (detectRow (hashParent parentHash cached rows t u).parent.Pos rows)
      (hashParent parentHash cached rows t u).parent.Pos = true
  · simp [hr, isRootNode]
  · simp [hr, isRootNode]

end Row

section Row2

variable (parentHash : Hash → Hash → Hash) (cached : Nat → Bool × Hash) (numLeaves rows : Nat)

/-- Any budget of at least `len(targetNodes) + len(proofPositions)` gives the same
run of the climb loop. -/
theorem climbLoop_fuel_irrel (f1 : Nat) : ∀ (f2 : Nat) (tn : List node) (pp : List Nat)
    (hs : List Hash) (trees : List Triple) (rc : List node),
    tn.length + pp.length ≤ f1 → tn.length + pp.length ≤ f2 →
    climbLoop parentHash cached numLeaves rows f1 tn pp hs trees rc
      = climbLoop parentHash cached numLeaves rows f2 tn pp hs trees rc := by
  induction f1 with
  | zero =>
    intro f2 tn pp hs trees rc h1 h2
    have : tn = [] := List.length_eq_zero.mp (by omega)
    subst this
    rw [climbLoop_nil, climbLoop_nil]
  | succ f1 ih =>
    intro f2 tn pp hs trees rc h1 h2
    cases tn with
    | nil => rw [climbLoop_nil, climbLoop_nil]
    | cons t r =>
      obtain ⟨f2, rfl⟩ : ∃ f, f2 = f + 1 := ⟨f2 - 1, by simp only [List.length_cons] at h2; omega⟩
      rw [climbLoop_succ, climbLoop_succ]
      cases hp : pickSibling t r pp hs with
      | outOfRange => rfl
      | notFound => rfl
      | found proof tn1 pp1 hs1 =>
        have hm := pickSibling_measure hp
        simp only [List.length_cons] at h1 h2
        simp only
        split
        · exact ih _ _ _ _ _ _ (by omega) (by omega)
        · exact ih _ _ _ _ _ _ (by simp only [List.length_append, List.length_singleton]; omega)
            (by simp only [List.length_append, List.length_singleton]; omega)

theorem filter_cons_append {α : Type} (q : α → Bool) (a : α) (l : List α) :
    (a :: l).filter q = [a].filter q ++ l.filter q := by
  rw [← List.filter_append]; rfl

theorem length_filter_singleton_le {α : Type} (q : α → Bool) (a : α) :
    ([a].filter q).length ≤ 1 := by
  have := List.length_filter_le q [a]
  simpa using this

/-- The climb loop on the target nodes `A` of one row, followed by the nodes `B`
already pushed: it leaves `B` followed by the parents of the row that are not
roots, and has consumed the proof positions of the row. -/
theorem climbLoop_row (k : Nat) : ∀ (A : List node), A.length ≤ k →
    ∀ (B : List node) (P : List Nat) (hs : List Hash) (trees : List Triple) (rc : List node)
      (fuel : Nat),
    (A.map node.Pos).Nodup →
    (∀ p ∈ P, ∀ t ∈ A, p ≠ t.Pos ^^^ 1) →
    A.length + B.length + ((proofRow rows (A.map node.Pos)).1 ++ P).length ≤ fuel →
    (∀ T hs1, rowStep parentHash cached rows A hs = some (T, hs1) →
      climbLoop parentHash cached numLeaves rows fuel (A ++ B)
          ((proofRow rows (A.map node.Pos)).1 ++ P) hs trees rc
        = climbLoop parentHash cached numLeaves rows fuel
            (B ++ (T.map (·.parent)).filter (fun p => !isRootNode numLeaves rows p)) P hs1
            (trees ++ T) (rc ++ (T.map (·.parent)).filter (isRootNode numLeaves rows))) ∧
    (rowStep parentHash cached rows A hs = none →
      (climbLoop parentHash cached numLeaves rows fuel (A ++ B)
          ((proofRow rows (A.map node.Pos)).1 ++ P) hs trees rc).exit = .indexOutOfRange) := by
  induction k with
  | zero =>
    intro A hA B P hs trees rc fuel _ _ _
    have : A = [] := List.length_eq_zero.mp (by omega)
    subst this
    constructor
    · intro T hs1 h
      simp only [rowStep, Option.some.injEq, Prod.mk.injEq] at h
      obtain ⟨rfl, rfl⟩ := h
      simp [proofRow]
    · intro h
      simp [rowStep] at h
  | succ k ih =>
    intro A hA B P hs trees rc fuel hnd hsep hfuel
    match A, hA, hnd, hsep, hfuel with
    | [], _, _, _, _ =>
      constructor
      · intro T hs1 h
        simp only [rowStep, Option.some.injEq, Prod.mk.injEq] at h
        obtain ⟨rfl, rfl⟩ := h
        simp [proofRow]
      · intro h
        simp [rowStep] at h
    | [t], _, _, _, hfuel =>
      obtain ⟨fuel, rfl⟩ : ∃ f, fuel = f + 1 :=
        ⟨fuel - 1, by simp only [List.length_cons] at hfuel; omega⟩
      simp only [List.map_cons, List.map_nil, proofRow, List.singleton_append, List.cons_append,
        List.nil_append]
      cases hs with
      | nil =>
        constructor
        · intro T hs1 h
          simp [rowStep] at h
        · intro _
          rw [climbLoop_succ]
          simp [pickSibling]
      | cons h hs1 =>
        constructor
        · intro T hs2 hT
          simp only [rowStep, Option.some.injEq, Prod.mk.injEq] at hT
          obtain ⟨rfl, rfl⟩ := hT
          rw [climbLoop_step_proof]
          simp only [List.map_cons, List.map_nil]
          apply climbLoop_fuel_irrel
          · have := length_filter_singleton_le (fun p => !isRootNode numLeaves rows p)
              (hashParent parentHash cached rows t ⟨h, t.Pos ^^^ 1⟩).parent
            simp only [List.length_cons, List.length_nil, List.map_cons, List.map_nil, proofRow,
              List.length_append] at hfuel ⊢
            omega
          · have := length_filter_singleton_le (fun p => !isRootNode numLeaves rows p)
              (hashParent parentHash cached rows t ⟨h, t.Pos ^^^ 1⟩).parent
            simp only [List.length_cons, List.length_nil, List.map_cons, List.map_nil, proofRow,
              List.length_append] at hfuel ⊢
            omega
        · intro h
          simp [rowStep] at h
    | t :: u :: rest, hA, hnd, hsep, hfuel =>
      obtain ⟨fuel, rfl⟩ : ∃ f, fuel = f + 1 :=
        ⟨fuel - 1, by simp only [List.length_cons] at hfuel; omega⟩
      simp only [List.length_cons] at hA
      simp only [List.map_cons, List.nodup_cons, List.mem_cons, List.mem_map, not_or,
        not_exists, not_and] at hnd
      by_cases hpair : u.Pos = t.Pos ^^^ 1
      · -- the next node is the sibling
        have hpr : proofRow rows (t.Pos :: u.Pos :: rest.map node.Pos)
            = ((proofRow rows (rest.map node.Pos)).1,
               parent t.Pos rows :: (proofRow rows (rest.map node.Pos)).2) := by
          simp only [proofRow, hpair, if_true]
        have hhead : ∀ p ∈ ((proofRow rows (rest.map node.Pos)).1 ++ P).head?,
            p ≠ t.Pos ^^^ 1 := by
          intro p hp
          have hmem : p ∈ (proofRow rows (rest.map node.Pos)).1 ++ P :=
            List.mem_of_mem_head? hp
          rcases List.mem_append.mp hmem with h1 | h1
          · obtain ⟨v, hv, hpv⟩ := proofRow_fst_mem rows _ _ (le_refl _) p h1
            intro hc
            rw [hpv] at hc
            have := xor_one_inj hc
            obtain ⟨w, hw, hwv⟩ := List.mem_map.mp hv
            exact hnd.1.2 w hw (by rw [hwv, this])
          · exact hsep p h1 t (by simp)
        have hih := ih rest (by omega)
          (B ++ [(hashParent parentHash cached rows t u).parent].filter
            (fun p => !isRootNode numLeaves rows p)) P hs
          (trees ++ [hashParent parentHash cached rows t u])
          (rc ++ [(hashParent parentHash cached rows t u).parent].filter
            (isRootNode numLeaves rows)) (fuel + 1) hnd.2.2
          (fun p hp v hv => hsep p hp v (by simp [hv]))
          (by
            have := length_filter_singleton_le (fun p => !isRootNode numLeaves rows p)
              (hashParent parentHash cached rows t u).parent
            simp only [List.length_cons, List.map_cons, hpr, List.length_append] at hfuel ⊢
            omega)
        simp only [List.map_cons, hpr, List.cons_append]
        rw [climbLoop_step_pair _ _ _ _ _ _ _ _ _ _ _ _ hhead]
        rw [climbLoop_fuel_irrel _ _ _ _ fuel (fuel + 1) _ _ _ _ _
          (by
            have := length_filter_singleton_le (fun p => !isRootNode numLeaves rows p)
              (hashParent parentHash cached rows t u).parent
            simp only [List.length_cons, List.map_cons, hpr, List.length_append] at hfuel ⊢
            omega)
          (by
            have := length_filter_singleton_le (fun p => !isRootNode numLeaves rows p)
              (hashParent parentHash cached rows t u).parent
            simp only [List.length_cons, List.map_cons, hpr, List.length_append] at hfuel ⊢
            omega)]
        rw [List.append_assoc]
        constructor
        · intro T hs1 hT
          simp only [rowStep, hpair, if_true] at hT
          cases hrest : rowStep parentHash cached rows rest hs with
          | none => rw [hrest] at hT; cases hT
          | some r =>
            obtain ⟨T1, hs2⟩ := r
            rw [hrest] at hT
            simp only [Option.some.injEq, Prod.mk.injEq] at hT
            obtain ⟨rfl, rfl⟩ := hT
            rw [hih.1 T1 hs2 hrest]
            simp only [List.map_cons, filter_cons_append _ _ (T1.map _), List.append_assoc,
              List.singleton_append]
        · intro hT
          simp only [rowStep, hpair, if_true] at hT
          cases hrest : rowStep parentHash cached rows rest hs with
          | none => exact hih.2 hrest
          | some r => rw [hrest] at hT; cases hT
      · -- the sibling comes from the proof
        have hpr : proofRow rows (t.Pos :: u.Pos :: rest.map node.Pos)
            = ((t.Pos ^^^ 1) :: (proofRow rows (u.Pos :: rest.map node.Pos)).1,
               parent t.Pos rows :: (proofRow rows (u.Pos :: rest.map node.Pos)).2) := by
          simp only [proofRow, hpair, if_false]
        simp only [List.map_cons, hpr, List.cons_append]
        cases hs with
        | nil =>
          constructor
          · intro T hs1 h
            simp [rowStep, hpair] at h
          · intro _
            rw [climbLoop_succ]
            simp [pickSibling]
        | cons h hs1 =>
          have hih := ih (u :: rest) (by simp only [List.length_cons]; omega)
            (B ++ [(hashParent parentHash cached rows t ⟨h, t.Pos ^^^ 1⟩).parent].filter
              (fun p => !isRootNode numLeaves rows p)) P hs1
            (trees ++ [hashParent parentHash cached rows t ⟨h, t.Pos ^^^ 1⟩])
            (rc ++ [(hashParent parentHash cached rows t ⟨h, t.Pos ^^^ 1⟩).parent].filter
              (isRootNode numLeaves rows)) (fuel + 1)
            (by
              simp only [List.map_cons, List.nodup_cons, List.mem_map, not_exists, not_and]
              exact ⟨hnd.2.1, hnd.2.2⟩)
            (fun p hp v hv => hsep p hp v (List.mem_cons_of_mem _ hv))
            (by
              have := length_filter_singleton_le (fun p => !isRootNode numLeaves rows p)
                (hashParent parentHash cached rows t ⟨h, t.Pos ^^^ 1⟩).parent
              simp only [List.length_cons, List.map_cons, hpr, List.length_append] at hfuel ⊢
              omega)
          rw [climbLoop_step_proof]
          rw [climbLoop_fuel_irrel _ _ _ _ fuel (fuel + 1) _ _ _ _ _
            (by
              have := length_filter_singleton_le (fun p => !isRootNode numLeaves rows p)
                (hashParent parentHash cached rows t ⟨h, t.Pos ^^^ 1⟩).parent
              simp only [List.length_cons, List.map_cons, hpr, List.length_append] at hfuel ⊢
              omega)
            (by
              have := length_filter_singleton_le (fun p => !isRootNode numLeaves rows p)
                (hashParent parentHash cached rows t ⟨h, t.Pos ^^^ 1⟩).parent
              simp only [List.length_cons, List.map_cons, hpr, List.length_append] at hfuel ⊢
              omega)]
          rw [List.cons_append, List.append_assoc]
          simp only [List.map_cons, List.cons_append] at hih
          constructor
          · intro T hs2 hT
            simp only [rowStep, hpair, if_false] at hT
            cases hrest : rowStep parentHash cached rows (u :: rest) hs1 with
            | none => rw [hrest] at hT; cases hT
            | some r =>
              obtain ⟨T1, hs3⟩ := r
              rw [hrest] at hT
              simp only [Option.some.injEq, Prod.mk.injEq] at hT
              obtain ⟨rfl, rfl⟩ := hT
              rw [hih.1 T1 hs3 hrest]
              simp only [List.map_cons, filter_cons_append _ _ (T1.map _), List.append_assoc,
                List.singleton_append]
          · intro hT
            simp only [rowStep, hpair, if_false] at hT
            cases hrest : rowStep parentHash cached rows (u :: rest) hs1 with
            | none => exact hih.2 hrest
            | some r => rw [hrest] at hT; cases hT

end Row2

/-! ## Well-formed row lists -/

/-- Induction over a list two elements at a time, as `proofRow` walks it. -/
theorem list_pair_induction {α : Type} {motive : List α → Prop} (hnil : motive [])
    (hone : ∀ a, motive [a])
    (hstep : ∀ a b l, motive l → motive (b :: l) → motive (a :: b :: l)) :
    ∀ l, motive l := by
  intro l
  have : ∀ n, ∀ l : List α, l.length ≤ n → motive l := by
    intro n
    induction n with
    | zero =>
      intro l hl
      have : l = [] := List.length_eq_zero.mp (by omega)
      subst this; exact hnil
    | succ n ih =>
      intro l hl
      match l, hl with
      | [], _ => exact hnil
      | [a], _ => exact hone a
      | a :: b :: l, hl =>
        simp only [List.length_cons] at hl
        exact hstep a b l (ih l (by omega)) (ih (b :: l) (by simp only [List.length_cons]; omega))
  exact this l.length l (le_refl _)

theorem hashParent_parent_pos (parentHash : Hash → Hash → Hash) (cached : Nat → Bool × Hash)
    (rows : Nat) (t s : node) :
    (hashParent parentHash cached rows t s).parent.Pos = parent t.Pos rows := rfl

/-- The parents of the triples of a row are the parents that `proofRow` lists,
and the row consumes one proof hash for each of its proof positions. -/
theorem rowStep_parents (parentHash : Hash → Hash → Hash) (cached : Nat → Bool × Hash)
    (rows : Nat) : ∀ (A : List node) (hs : List Hash) (T : List Triple) (hs1 : List Hash),
    rowStep parentHash cached rows A hs = some (T, hs1) →
    T.map (fun t => t.parent.Pos) = (proofRow rows (A.map node.Pos)).2 ∧
      hs1 = hs.drop (proofRow rows (A.map node.Pos)).1.length := by
  intro A
  induction A using list_pair_induction with
  | hnil =>
    intro hs T hs1 h
    simp only [rowStep, Option.some.injEq, Prod.mk.injEq] at h
    obtain ⟨rfl, rfl⟩ := h
    simp [proofRow]
  | hone t =>
    intro hs T hs1 h
    cases hs with
    | nil => simp [rowStep] at h
    | cons x hs =>
      simp only [rowStep, Option.some.injEq, Prod.mk.injEq] at h
      obtain ⟨rfl, rfl⟩ := h
      simp [proofRow, hashParent_parent_pos]
  | hstep t u rest ih1 ih2 =>
    intro hs T hs1 h
    by_cases hpair : u.Pos = t.Pos ^^^ 1
    · simp only [rowStep, hpair, if_true] at h
      cases hrest : rowStep parentHash cached rows rest hs with
      | none => rw [hrest] at h; cases h
      | some r =>
        obtain ⟨T1, hs2⟩ := r
        rw [hrest] at h
        simp only [Option.some.injEq, Prod.mk.injEq] at h
        obtain ⟨rfl, rfl⟩ := h
        obtain ⟨h1, h2⟩ := ih1 hs T1 hs2 hrest
        simp [proofRow, hpair, hashParent_parent_pos, h1, h2]
    · simp only [rowStep, hpair, if_false] at h
      cases hs with
      | nil => simp at h
      | cons x hs =>
        simp only at h
        cases hrest : rowStep parentHash cached rows (u :: rest) hs with
        | none => rw [hrest] at h; cases h
        | some r =>
          obtain ⟨T1, hs2⟩ := r
          rw [hrest] at h
          simp only [Option.some.injEq, Prod.mk.injEq] at h
          obtain ⟨rfl, rfl⟩ := h
          obtain ⟨h1, h2⟩ := ih2 hs T1 hs2 hrest
          simp only [List.map_cons] at h1 h2
          simp [proofRow, hpair, hashParent_parent_pos, h1, h2]

/-- The row fails only when the proof hashes are fewer than its proof positions. -/
theorem rowStep_none (parentHash : Hash → Hash → Hash) (cached : Nat → Bool × Hash)
    (rows : Nat) : ∀ (A : List node) (hs : List Hash),
    rowStep parentHash cached rows A hs = none ↔
      hs.length < (proofRow rows (A.map node.Pos)).1.length := by
  intro A
  induction A using list_pair_induction with
  | hnil => intro hs; simp [rowStep, proofRow]
  | hone t =>
    intro hs
    cases hs with
    | nil => simp [rowStep, proofRow]
    | cons x hs => simp [rowStep, proofRow]
  | hstep t u rest ih1 ih2 =>
    intro hs
    by_cases hpair : u.Pos = t.Pos ^^^ 1
    · have := ih1 hs
      simp only [rowStep, hpair, if_true, List.map_cons, proofRow]
      cases hrest : rowStep parentHash cached rows rest hs with
      | none => simpa [hrest] using this
      | some r => simpa [hrest] using this
    · simp only [rowStep, hpair, if_false, List.map_cons, proofRow]
      cases hs with
      | nil => simp
      | cons x hs =>
        have := ih2 hs
        simp only [List.map_cons] at this
        cases hrest : rowStep parentHash cached rows (u :: rest) hs with
        | none => simpa [hrest] using this
        | some r => simpa [hrest] using this

theorem rowStart_mono (rows i : Nat) : rowStart rows i ≤ rowStart rows (i + 1) := by
  unfold rowStart
  have : 2 ^ (rows + 1 - (i + 1)) ≤ 2 ^ (rows + 1 - i) :=
    Nat.pow_le_pow_right (by norm_num) (by omega)
  omega

theorem rowStart_mono_le (rows : Nat) {i j : Nat} (h : i ≤ j) :
    rowStart rows i ≤ rowStart rows j := by
  induction j with
  | zero =>
    have : i = 0 := by omega
    subst this; exact le_refl _
  | succ j ih =>
    rcases Nat.lt_or_ge i (j + 1) with h1 | h1
    · exact le_trans (ih (by omega)) (rowStart_mono rows j)
    · have : i = j + 1 := by omega
      subst this; exact le_refl _

/-- An index below `2 * (numLeaves / 2^(i+1))` exists only below the top row, and
lies within the row. -/
theorem index_bound {numLeaves rows i x : Nat} (hn : numLeaves ≤ 2 ^ rows)
    (hx : x < 2 * (numLeaves / 2 ^ (i + 1))) : i < rows ∧ x < 2 ^ (rows - i) := by
  have hi : i < rows := by
    by_contra hc
    have h1 : numLeaves < 2 ^ (i + 1) :=
      lt_of_le_of_lt hn (Nat.pow_lt_pow_right (by norm_num) (by omega))
    rw [Nat.div_eq_of_lt h1] at hx
    omega
  refine ⟨hi, ?_⟩
  have h2 : numLeaves / 2 ^ (i + 1) ≤ 2 ^ rows / 2 ^ (i + 1) := Nat.div_le_div_right hn
  rw [Nat.pow_div (by omega) (by norm_num)] at h2
  have h3 : rows - i = (rows - (i + 1)) + 1 := by omega
  rw [h3, pow_succ]
  omega

theorem rowList_mem {numLeaves rows i : Nat} {L : List Nat} (hn : numLeaves ≤ 2 ^ rows)
    (hL : RowList numLeaves rows i L) {p : Nat} (hp : p ∈ L) :
    i < rows ∧ ∃ x, p = rowStart rows i + x ∧ x < 2 * (numLeaves / 2 ^ (i + 1)) ∧
      x < 2 ^ (rows - i) := by
  obtain ⟨h1, h2⟩ := hL.2 p hp
  obtain ⟨hi, hx⟩ := index_bound hn h2
  exact ⟨hi, p - rowStart rows i, by omega, h2, hx⟩

theorem rowList_nil (numLeaves rows i : Nat) : RowList numLeaves rows i [] :=
  ⟨List.Pairwise.nil, fun _ h => absurd h (List.not_mem_nil _)⟩

theorem rowList_tail {numLeaves rows i : Nat} {a : Nat} {L : List Nat}
    (h : RowList numLeaves rows i (a :: L)) : RowList numLeaves rows i L :=
  ⟨(List.pairwise_cons.mp h.1).2, fun p hp => h.2 p (List.mem_cons_of_mem _ hp)⟩

/-- The sibling of a position of a well-formed row list is a position of the
same row. -/
theorem sibling_in_row {numLeaves rows i : Nat} {L : List Nat} (hn : numLeaves ≤ 2 ^ rows)
    (hL : RowList numLeaves rows i L) {p : Nat} (hp : p ∈ L) :
    rowStart rows i ≤ p ^^^ 1 ∧ p ^^^ 1 < rowStart rows (i + 1) := by
  obtain ⟨hi, x, rfl, _, hx⟩ := rowList_mem hn hL hp
  rw [xor_one_rowStart (Nat.le_of_lt hi), rowStart_succ (Nat.le_of_lt hi)]
  have h3 : rows - i = (rows - (i + 1)) + 1 := by omega
  rw [h3, pow_succ] at hx ⊢
  have := xor_one_eq x
  omega

/-- The parents that `proofRow` lists are parents of positions of the list, in
strictly ascending order. -/
theorem proofRow_parents {numLeaves rows i : Nat} (hn : numLeaves ≤ 2 ^ rows) :
    ∀ (L : List Nat), RowList numLeaves rows i L →
    (proofRow rows L).2.Pairwise (· < ·) ∧
      ∀ q ∈ (proofRow rows L).2, ∃ p ∈ L, q = parent p rows ∧
        ∀ a ∈ L.head?, parent a rows ≤ q := by
  intro L
  induction L using list_pair_induction with
  | hnil => intro _; simp [proofRow]
  | hone t =>
    intro _
    simp [proofRow]
  | hstep t u rest ih1 ih2 =>
    intro hL
    have hLu : RowList numLeaves rows i (u :: rest) := rowList_tail hL
    have hLr : RowList numLeaves rows i rest := rowList_tail hLu
    obtain ⟨hi, x, rfl, hx1, hx⟩ := rowList_mem hn hL (List.mem_cons_self _ _)
    obtain ⟨_, y, rfl, hy1, hy⟩ := rowList_mem hn hL (List.mem_cons_of_mem _ (List.mem_cons_self _ _))
    have hxy : x < y := by
      have := (List.pairwise_cons.mp hL.1).1 _ (List.mem_cons_self _ _)
      omega
    have hpx := parent_rowStart hi hx
    have hpy := parent_rowStart hi hy
    have hxor := xor_one_rowStart (x := x) (Nat.le_of_lt hi)
    have hxo := xor_one_eq x
    -- every later position has a greater parent than `u`, and than `t` when unpaired
    have hlater : ∀ v ∈ rest, ∃ z, v = rowStart rows i + z ∧ y < z ∧ z < 2 ^ (rows - i) := by
      intro v hv
      obtain ⟨_, z, rfl, _, hz⟩ := rowList_mem hn hLr hv
      have := (List.pairwise_cons.mp hLu.1).1 _ hv
      exact ⟨z, rfl, by omega, hz⟩
    by_cases hpair : rowStart rows i + y = (rowStart rows i + x) ^^^ 1
    · obtain ⟨hs1, hm1⟩ := ih1 hLr
      simp only [proofRow, hpair, if_true]
      refine ⟨?_, ?_⟩
      · rw [List.pairwise_cons]
        refine ⟨?_, hs1⟩
        intro q hq
        obtain ⟨v, hv, rfl, _⟩ := hm1 q hq
        obtain ⟨z, rfl, hyz, hz⟩ := hlater v hv
        rw [parent_rowStart hi hz, hpx]
        omega
      · intro q hq
        simp only [List.mem_cons] at hq
        rcases hq with rfl | hq
        · exact ⟨_, List.mem_cons_self _ _, rfl, by simp⟩
        · obtain ⟨v, hv, rfl, _⟩ := hm1 q hq
          refine ⟨v, by simp [hv], rfl, ?_⟩
          obtain ⟨z, rfl, hyz, hz⟩ := hlater v hv
          simp only [List.head?_cons, Option.mem_def, Option.some.injEq, forall_eq']
          rw [parent_rowStart hi hz, hpx]
          omega
    · obtain ⟨hs2, hm2⟩ := ih2 hLu
      simp only [proofRow, hpair, if_false]
      have hgt : ∀ q ∈ (proofRow rows ((rowStart rows i + y) :: rest)).2,
          parent (rowStart rows i + x) rows < q := by
        intro q hq
        obtain ⟨v, hv, rfl, hhead⟩ := hm2 q hq
        have := hhead (rowStart rows i + y) (by simp)
        rw [hpy] at this
        rw [hpx]
        rw [hxor] at hpair
        have : x / 2 < y / 2 := by omega
        omega
      refine ⟨?_, ?_⟩
      · rw [List.pairwise_cons]
        exact ⟨hgt, hs2⟩
      · intro q hq
        simp only [List.mem_cons] at hq
        rcases hq with rfl | hq
        · exact ⟨_, List.mem_cons_self _ _, rfl, by simp⟩
        · obtain ⟨v, hv, rfl, _⟩ := hm2 q hq
          refine ⟨v, List.mem_cons_of_mem _ hv, rfl, ?_⟩
          simp only [List.head?_cons, Option.mem_def, Option.some.injEq, forall_eq']
          exact Nat.le_of_lt (hgt _ hq)

theorem testBit_iff_div_odd (n i : Nat) : n.testBit i = true ↔ n / 2 ^ i % 2 = 1 := by
  rw [Nat.testBit_to_div_mod, decide_eq_true_eq]

theorem div_two_pow_succ (n i : Nat) : n / 2 ^ (i + 1) = n / 2 ^ i / 2 := by
  rw [pow_succ, Nat.div_div_eq_div_mul]

/-- The parents of a well-formed row list that are no roots form a well-formed
list of the next row. -/
theorem rowList_next {numLeaves rows i : Nat} (hn : numLeaves ≤ 2 ^ rows)
    (hn64 : numLeaves < 2 ^ 64) {L : List Nat} (hL : RowList numLeaves rows i L) :
    RowList numLeaves rows (i + 1)
      ((proofRow rows L).2.filter (fun p => !isRootAt numLeaves rows (i + 1) p)) := by
  obtain ⟨hs, hm⟩ := proofRow_parents hn L hL
  refine ⟨hs.filter _, ?_⟩
  intro q hq
  obtain ⟨hq1, hq2⟩ := List.mem_filter.mp hq
  obtain ⟨p, hp, rfl, _⟩ := hm q hq1
  obtain ⟨hi, x, rfl, hx1, hx⟩ := rowList_mem hn hL hp
  rw [parent_rowStart hi hx] at hq2 ⊢
  refine ⟨by omega, ?_⟩
  have hnr : ¬ (isRootAt numLeaves rows (i + 1) (rowStart rows (i + 1) + x / 2) = true) := by
    simpa using hq2
  rw [isRootAt_iff hn64, testBit_iff_div_odd] at hnr
  unfold rootPosition at hnr
  have h1 := div_two_pow_succ numLeaves (i + 1)
  rw [h1]
  have h2 : rowStart rows (i + 1) + x / 2 - rowStart rows (i + 1) = x / 2 := by omega
  rw [h2]
  rw [h1] at hnr
  have : x / 2 < numLeaves / 2 ^ (i + 1) := by omega
  by_contra hc
  apply hnr
  constructor
  · omega
  · omega

/-- All proof positions from row `j` upwards lie at or above the start of row `j`. -/
theorem proofRows_ge {numLeaves rows : Nat} (hn : numLeaves ≤ 2 ^ rows)
    (hn64 : numLeaves < 2 ^ 64) : ∀ (m j : Nat) (L : List Nat), RowList numLeaves rows j L →
    ∀ p ∈ (proofRows numLeaves rows m j L).1, rowStart rows j ≤ p := by
  intro m
  induction m with
  | zero => intro j L _ p hp; simp [proofRows] at hp
  | succ m ih =>
    intro j L hL p hp
    simp only [proofRows, List.mem_append] at hp
    rcases hp with hp | hp
    · obtain ⟨t, ht, rfl⟩ := proofRow_fst_mem rows _ L (le_refl _) p hp
      exact (sibling_in_row hn hL ht).1
    · exact le_trans (rowStart_mono rows j) (ih (j + 1) _ (rowList_next hn hn64 hL) p hp)

/-- The root test of the climb loop on the parent of a position of row `i` is the
root test of row `i + 1`. -/
theorem isRootNode_parent {numLeaves rows i : Nat} {L : List Nat} (hn : numLeaves ≤ 2 ^ rows)
    (hL : RowList numLeaves rows i L) {p : Nat} (hp : p ∈ L) (v : Hash) :
    isRootNode numLeaves rows ⟨v, parent p rows⟩
      = isRootAt numLeaves rows (i + 1) (parent p rows) := by
  obtain ⟨hi, x, rfl, hx1, hx⟩ := rowList_mem hn hL hp
  unfold isRootNode
  simp only
  rw [parent_rowStart hi hx, detectRow_eq (by omega) (by
    have h3 : rows - i = (rows - (i + 1)) + 1 := by omega
    rw [h3, pow_succ] at hx
    omega)]

theorem proofRow_snd_length (rows : Nat) : ∀ (L : List Nat),
    (proofRow rows L).2.length ≤ L.length := by
  intro L
  induction L using list_pair_induction with
  | hnil => simp [proofRow]
  | hone t => simp [proofRow]
  | hstep t u rest ih1 ih2 =>
    by_cases hpair : u = t ^^^ 1
    · simp only [proofRow, hpair, if_true, List.length_cons]; omega
    · simp only [proofRow, hpair, if_false, List.length_cons] at ih2 ⊢; omega

/-- The nodes that the climb pushes for a row are, by position, the next row list
of `ProofPositions`. -/
theorem next_nodes_pos {numLeaves rows i : Nat} (hn : numLeaves ≤ 2 ^ rows)
    (parentHash : Hash → Hash → Hash) (cached : Nat → Bool × Hash)
    {A : List node} (hL : RowList numLeaves rows i (A.map node.Pos)) {hs : List Hash}
    {T : List Triple} {hs1 : List Hash}
    (hT : rowStep parentHash cached rows A hs = some (T, hs1)) :
    ((T.map (·.parent)).filter (fun p => !isRootNode numLeaves rows p)).map node.Pos
      = (proofRow rows (A.map node.Pos)).2.filter
          (fun p => !isRootAt numLeaves rows (i + 1) p) := by
  obtain ⟨hpar, _⟩ := rowStep_parents parentHash cached rows A hs T hs1 hT
  obtain ⟨_, hm⟩ := proofRow_parents hn _ hL
  have hcongr : (T.map (·.parent)).filter (fun p => !isRootNode numLeaves rows p)
      = (T.map (·.parent)).filter
          ((fun q => !isRootAt numLeaves rows (i + 1) q) ∘ node.Pos) := by
    apply List.filter_congr
    intro p hp
    have hpos : p.Pos ∈ (proofRow rows (A.map node.Pos)).2 := by
      rw [← hpar]
      obtain ⟨t, ht, rfl⟩ := List.mem_map.mp hp
      exact List.mem_map.mpr ⟨t, ht, rfl⟩
    obtain ⟨a, ha, hpa, _⟩ := hm _ hpos
    have := isRootNode_parent hn hL ha p.Val
    rw [← hpa] at this
    simp only [Function.comp]
    rw [← this]
  rw [hcongr, ← List.filter_map, List.map_map]
  congr 1

section Rows

variable (parentHash : Hash → Hash → Hash) (cached : Nat → Bool × Hash)

/-- The climb loop on a well-formed row list, with the proof positions that
`ProofPositions` lists from this row upwards: it computes the row-by-row climb,
and stops with an index out of range exactly when that runs out of proof hashes. -/
theorem climbLoop_rows {numLeaves rows : Nat} (hn : numLeaves ≤ 2 ^ rows)
    (hn64 : numLeaves < 2 ^ 64) : ∀ (m i : Nat) (A : List node) (hs : List Hash)
      (trees : List Triple) (rc : List node) (fuel : Nat),
    RowList numLeaves rows i (A.map node.Pos) → rows ≤ i + m →
    A.length + (proofRows numLeaves rows m i (A.map node.Pos)).1.length ≤ fuel →
    (∀ T C, climbRows parentHash cached numLeaves rows m A hs = some (T, C) →
      climbLoop parentHash cached numLeaves rows fuel A
          (proofRows numLeaves rows m i (A.map node.Pos)).1 hs trees rc
        = ⟨.completed, trees ++ T, rc ++ C⟩) ∧
    (climbRows parentHash cached numLeaves rows m A hs = none →
      (climbLoop parentHash cached numLeaves rows fuel A
          (proofRows numLeaves rows m i (A.map node.Pos)).1 hs trees rc).exit
        = .indexOutOfRange) := by
  intro m
  induction m with
  | zero =>
    intro i A hs trees rc fuel hL hm _
    have hA : A = [] := by
      cases A with
      | nil => rfl
      | cons a A =>
        have := (rowList_mem hn hL (p := a.Pos) (by simp)).1
        omega
    subst hA
    constructor
    · intro T C h
      simp only [climbRows, Option.some.injEq, Prod.mk.injEq] at h
      obtain ⟨rfl, rfl⟩ := h
      simp [climbLoop_nil]
    · intro h
      simp [climbRows] at h
  | succ m ih =>
    intro i A hs trees rc fuel hL hm hfuel
    have hnext := rowList_next hn hn64 hL
    have hnd : (A.map node.Pos).Nodup := hL.1.imp (fun h => Nat.ne_of_lt h)
    have hsep : ∀ p ∈ (proofRows numLeaves rows m (i + 1)
        ((proofRow rows (A.map node.Pos)).2.filter
          (fun p => !isRootAt numLeaves rows (i + 1) p))).1, ∀ t ∈ A, p ≠ t.Pos ^^^ 1 := by
      intro p hp t ht
      have h1 := proofRows_ge hn hn64 m (i + 1) _ hnext p hp
      have h2 := (sibling_in_row hn hL (p := t.Pos) (List.mem_map.mpr ⟨t, ht, rfl⟩)).2
      omega
    simp only [proofRows] at hfuel ⊢
    have hrow := climbLoop_row parentHash cached numLeaves rows A.length A (le_refl _) []
      (proofRows numLeaves rows m (i + 1)
        ((proofRow rows (A.map node.Pos)).2.filter
          (fun p => !isRootAt numLeaves rows (i + 1) p))).1 hs trees rc fuel hnd hsep
      (by simpa using hfuel)
    simp only [List.append_nil, List.nil_append] at hrow
    cases hstep : rowStep parentHash cached rows A hs with
    | none =>
      constructor
      · intro T C h
        simp [climbRows, hstep] at h
      · intro _
        exact hrow.2 hstep
    | some r =>
      obtain ⟨T, hs1⟩ := r
      have hpos := next_nodes_pos hn parentHash cached hL hstep
      have hlen : ((T.map (·.parent)).filter (fun p => !isRootNode numLeaves rows p)).length
          ≤ A.length := by
        have h1 := congrArg List.length
          (rowStep_parents parentHash cached rows A hs T hs1 hstep).1
        have h2 := proofRow_snd_length rows (A.map node.Pos)
        have h3 := List.length_filter_le (fun p => !isRootNode numLeaves rows p)
          (T.map (·.parent))
        simp only [List.length_map] at h1 h2 h3
        omega
      have hih := ih (i + 1)
        ((T.map (·.parent)).filter (fun p => !isRootNode numLeaves rows p)) hs1 (trees ++ T)
        (rc ++ (T.map (·.parent)).filter (isRootNode numLeaves rows)) fuel
        (by rw [hpos]; exact hnext) (by omega)
        (by rw [hpos]; simp only [List.length_append] at hfuel; omega)
      rw [hpos] at hih
      rw [hrow.1 T hs1 hstep]
      constructor
      · intro T2 C h
        simp only [climbRows, hstep] at h
        cases hup : climbRows parentHash cached numLeaves rows m
            ((T.map (·.parent)).filter (fun p => !isRootNode numLeaves rows p)) hs1 with
        | none => rw [hup] at h; cases h
        | some r2 =>
          obtain ⟨T3, C3⟩ := r2
          rw [hup] at h
          simp only [Option.some.injEq, Prod.mk.injEq] at h
          obtain ⟨rfl, rfl⟩ := h
          rw [hih.1 T3 C3 hup]
          simp only [List.append_assoc]
      · intro h
        simp only [climbRows, hstep] at h
        cases hup : climbRows parentHash cached numLeaves rows m
            ((T.map (·.parent)).filter (fun p => !isRootNode numLeaves rows p)) hs1 with
        | none => exact hih.2 hup
        | some r2 => rw [hup] at h; cases h

end Rows

/-! ## The seeding loop computes the seeding of row 0 -/

theorem getElem?_append_length {α : Type} (pre Q : List α) :
    (pre ++ Q)[pre.length]? = Q.head? := by
  rw [List.getElem?_append_right (le_refl _)]
  simp [List.head?_eq_getElem?]

/-- A target of a well-formed row-0 list is not the row-0 root. -/
theorem not_row0_root {numLeaves rows : Nat} (hn64 : numLeaves < 2 ^ 64) {L : List Nat}
    (hL : RowList numLeaves rows 0 L) {t : Nat} (ht : t ∈ L) :
    ¬ (t = (numLeaves + 2 ^ 64 - 1) % 2 ^ 64 ∧ numLeaves &&& 1 = 1) := by
  have h := (hL.2 t ht).2
  rw [rowStart_zero] at h
  simp only [Nat.sub_zero, Nat.zero_add, pow_one] at h
  rw [Nat.and_one_is_mod]
  intro ⟨h1, h2⟩
  omega

/-- The two reads `proofs[lr]` and `proofs[lr^1]` of the seeding loop. -/
theorem seed_reads (t : Nat) (a b : Hash) (hs : List Hash) :
    (a :: b :: hs)[t &&& 1]? = some (if t &&& 1 = 1 then b else a) ∧
    (a :: b :: hs)[(t &&& 1) ^^^ 1]? = some (if t &&& 1 = 1 then a else b) := by
  rw [Nat.and_one_is_mod]
  rcases Nat.mod_two_eq_zero_or_one t with h | h <;> rw [h] <;> simp

/-- With fewer than two proof hashes one of the two reads is out of range. -/
theorem seed_reads_short (t : Nat) {hs : List Hash} (h : hs.length < 2) :
    hs[t &&& 1]? = none ∨ hs[(t &&& 1) ^^^ 1]? = none := by
  rw [Nat.and_one_is_mod]
  match hs, h with
  | [], _ => left; rfl
  | [a], _ =>
    rcases Nat.mod_two_eq_zero_or_one t with h | h <;> rw [h] <;> simp

section Seed

variable (roots : List Hash) (numLeaves : Nat)

/-- One iteration of the seeding loop for a target whose sibling is the next
proof position. -/
theorem seedLoop_step_proof {pp : List Nat} {t : Nat} {j : Nat}
    (h1 : ¬ (t = (numLeaves + 2 ^ 64 - 1) % 2 ^ 64 ∧ numLeaves &&& 1 = 1))
    (h2 : j < pp.length ∧ pp[j]? = some (t ^^^ 1)) (ts : List Nat) (a b : Hash)
    (hs : List Hash) (tn : List node) (ph : List Hash) (rc : List node) :
    seedLoop roots numLeaves pp (t :: ts) (a :: b :: hs) j tn ph rc
      = seedLoop roots numLeaves pp ts hs (j + 1)
          (tn ++ [⟨if t &&& 1 = 1 then b else a, t⟩]) (ph ++ [if t &&& 1 = 1 then a else b])
          rc := by
  obtain ⟨r1, r2⟩ := seed_reads t a b hs
  conv_lhs => unfold seedLoop
  rw [if_neg h1, if_pos h2]
  simp only [r1, r2, List.drop_succ_cons, List.drop_zero]

theorem seedLoop_step_proof_short {pp : List Nat} {t : Nat} {j : Nat}
    (h1 : ¬ (t = (numLeaves + 2 ^ 64 - 1) % 2 ^ 64 ∧ numLeaves &&& 1 = 1))
    (h2 : j < pp.length ∧ pp[j]? = some (t ^^^ 1)) (ts : List Nat)
    {hs : List Hash} (hshort : hs.length < 2) (tn : List node) (ph : List Hash)
    (rc : List node) :
    seedLoop roots numLeaves pp (t :: ts) hs j tn ph rc = .error .indexOutOfRange := by
  conv_lhs => unfold seedLoop
  rw [if_neg h1, if_pos h2]
  simp only
  rcases seed_reads_short t hshort with h | h
  · rw [h]
  · rw [h]
    cases hs[t &&& 1]? <;> rfl

/-- One iteration of the seeding loop for two sibling targets. -/
theorem seedLoop_step_pair {pp : List Nat} {t : Nat} {j : Nat}
    (h1 : ¬ (t = (numLeaves + 2 ^ 64 - 1) % 2 ^ 64 ∧ numLeaves &&& 1 = 1))
    (h2 : ¬ (j < pp.length ∧ pp[j]? = some (t ^^^ 1))) (u : Nat) (ts : List Nat) (a b : Hash)
    (hs : List Hash) (tn : List node) (ph : List Hash) (rc : List node) :
    seedLoop roots numLeaves pp (t :: u :: ts) (a :: b :: hs) j tn ph rc
      = seedLoop roots numLeaves pp ts hs j (tn ++ [⟨a, t⟩, ⟨b, u⟩]) ph rc := by
  conv_lhs => unfold seedLoop
  rw [if_neg h1, if_neg h2]

theorem seedLoop_step_pair_short {pp : List Nat} {t : Nat} {j : Nat}
    (h1 : ¬ (t = (numLeaves + 2 ^ 64 - 1) % 2 ^ 64 ∧ numLeaves &&& 1 = 1))
    (h2 : ¬ (j < pp.length ∧ pp[j]? = some (t ^^^ 1))) (ts : List Nat)
    {hs : List Hash} (hshort : hs.length < 2) (tn : List node) (ph : List Hash)
    (rc : List node) :
    seedLoop roots numLeaves pp (t :: ts) hs j tn ph rc = .ok none := by
  conv_lhs => unfold seedLoop
  rw [if_neg h1, if_neg h2]
  match hs, hshort with
  | [], _ => rfl
  | [a], _ => rfl

/-- The seeding loop on a well-formed row-0 list `L`, followed by `tail`:
it seeds `L` pair by pair, and then goes on with `tail`. -/
theorem seedLoop_row {rows : Nat} (hn : numLeaves ≤ 2 ^ rows) (hn64 : numLeaves < 2 ^ 64) :
    ∀ (L : List Nat), RowList numLeaves rows 0 L →
    ∀ (tail pre P : List Nat) (hs : List Hash) (tn : List node) (ph : List Hash)
      (rc : List node),
    (∀ p ∈ P, rowStart rows 1 ≤ p) →
    (∀ N PH hs1, seedRow L hs = some (N, PH, hs1) →
      seedLoop roots numLeaves (pre ++ ((proofRow rows L).1 ++ P)) (L ++ tail) hs pre.length
          tn ph rc
        = seedLoop roots numLeaves (pre ++ ((proofRow rows L).1 ++ P)) tail hs1
            (pre.length + (proofRow rows L).1.length) (tn ++ N) (ph ++ PH) rc) ∧
    (seedRow L hs = none →
      ∀ s, seedLoop roots numLeaves (pre ++ ((proofRow rows L).1 ++ P)) (L ++ tail) hs
        pre.length tn ph rc ≠ .ok (some s)) := by
  intro L
  induction L using list_pair_induction with
  | hnil =>
    intro _ tail pre P hs tn ph rc _
    constructor
    · intro N PH hs1 h
      simp only [seedRow, Option.some.injEq, Prod.mk.injEq] at h
      obtain ⟨rfl, rfl, rfl⟩ := h
      simp [proofRow]
    · intro h; simp [seedRow] at h
  | hone t =>
    intro hL tail pre P hs tn ph rc _
    have h1 := not_row0_root hn64 hL (List.mem_singleton_self t)
    have h2 : pre.length < (pre ++ ((proofRow rows [t]).1 ++ P)).length ∧
        (pre ++ ((proofRow rows [t]).1 ++ P))[pre.length]? = some (t ^^^ 1) := by
      rw [getElem?_append_length]
      simp [proofRow]
    match hs with
    | [] =>
      constructor
      · intro N PH hs1 h; simp [seedRow] at h
      · intro _ s
        rw [List.singleton_append, seedLoop_step_proof_short roots numLeaves h1 h2 _ (by simp)]
        simp
    | [a] =>
      constructor
      · intro N PH hs1 h; simp [seedRow] at h
      · intro _ s
        rw [List.singleton_append, seedLoop_step_proof_short roots numLeaves h1 h2 _ (by simp)]
        simp
    | a :: b :: hs1 =>
      constructor
      · intro N PH hs2 h
        simp only [seedRow, Option.some.injEq, Prod.mk.injEq] at h
        obtain ⟨rfl, rfl, rfl⟩ := h
        rw [List.singleton_append, seedLoop_step_proof roots numLeaves h1 h2]
        simp [proofRow]
      · intro h; simp [seedRow] at h
  | hstep t u rest ih1 ih2 =>
    intro hL tail pre P hs tn ph rc hP
    have hLu : RowList numLeaves rows 0 (u :: rest) := rowList_tail hL
    have hLr : RowList numLeaves rows 0 rest := rowList_tail hLu
    have h1 := not_row0_root hn64 hL (List.mem_cons_self t _)
    by_cases hpair : u = t ^^^ 1
    · -- two sibling targets
      have hpr : proofRow rows (t :: u :: rest)
          = ((proofRow rows rest).1, parent t rows :: (proofRow rows rest).2) := by
        simp only [proofRow, hpair, if_true]
      have h2 : ¬ (pre.length < (pre ++ ((proofRow rows (t :: u :: rest)).1 ++ P)).length ∧
          (pre ++ ((proofRow rows (t :: u :: rest)).1 ++ P))[pre.length]? = some (t ^^^ 1)) := by
        rw [getElem?_append_length, hpr]
        intro ⟨_, hh⟩
        have hmem := List.mem_of_mem_head? hh
        rcases List.mem_append.mp hmem with hm | hm
        · obtain ⟨v, hv, hpv⟩ := proofRow_fst_mem rows _ _ (le_refl _) _ hm
          have := xor_one_inj hpv
          have hlt := (List.pairwise_cons.mp hL.1).1 v (List.mem_cons_of_mem _ hv)
          omega
        · have h3 := hP _ hm
          have h4 := (sibling_in_row hn hL (List.mem_cons_self t _)).2
          simp only [Nat.zero_add] at h4
          omega
      match hs with
      | [] =>
        constructor
        · intro N PH hs1 h; simp [seedRow] at h
        · intro _ s
          rw [List.cons_append, seedLoop_step_pair_short roots numLeaves h1 h2 _ (by simp)]
          simp
      | [a] =>
        constructor
        · intro N PH hs1 h; simp [seedRow] at h
        · intro _ s
          rw [List.cons_append, seedLoop_step_pair_short roots numLeaves h1 h2 _ (by simp)]
          simp
      | a :: b :: hs1 =>
        have hstep := seedLoop_step_pair roots numLeaves h1 h2 u (rest ++ tail) a b hs1 tn ph rc
        simp only [List.cons_append] at hstep ⊢
        rw [hstep]
        rw [hpr]
        have hih := ih1 hLr tail pre P hs1 (tn ++ [⟨a, t⟩, ⟨b, u⟩]) ph rc hP
        constructor
        · intro N PH hs2 h
          simp only [seedRow, hpair, if_true] at h
          cases hrest : seedRow rest hs1 with
          | none => rw [hrest] at h; cases h
          | some r =>
            obtain ⟨N1, PH1, hs3⟩ := r
            rw [hrest] at h
            simp only [Option.some.injEq, Prod.mk.injEq] at h
            obtain ⟨rfl, rfl, rfl⟩ := h
            rw [hih.1 _ _ _ hrest]
            simp [hpair]
        · intro h
          simp only [seedRow, hpair, if_true] at h
          cases hrest : seedRow rest hs1 with
          | none => exact hih.2 hrest
          | some r => rw [hrest] at h; cases h
    · -- a target without a sibling target
      have hpr : proofRow rows (t :: u :: rest)
          = ((t ^^^ 1) :: (proofRow rows (u :: rest)).1,
             parent t rows :: (proofRow rows (u :: rest)).2) := by
        simp only [proofRow, hpair, if_false]
      have h2 : pre.length < (pre ++ ((proofRow rows (t :: u :: rest)).1 ++ P)).length ∧
          (pre ++ ((proofRow rows (t :: u :: rest)).1 ++ P))[pre.length]? = some (t ^^^ 1) := by
        rw [getElem?_append_length, hpr]
        simp
      match hs with
      | [] =>
        constructor
        · intro N PH hs1 h; simp [seedRow] at h
        · intro _ s
          rw [List.cons_append, seedLoop_step_proof_short roots numLeaves h1 h2 _ (by simp)]
          simp
      | [a] =>
        constructor
        · intro N PH hs1 h; simp [seedRow] at h
        · intro _ s
          rw [List.cons_append, seedLoop_step_proof_short roots numLeaves h1 h2 _ (by simp)]
          simp
      | a :: b :: hs1 =>
        have hstep := seedLoop_step_proof roots numLeaves h1 h2 (u :: rest ++ tail) a b hs1 tn
          ph rc
        simp only [List.cons_append] at hstep ⊢
        rw [hstep, hpr]
        have hih := ih2 hLu tail (pre ++ [t ^^^ 1]) P hs1
          (tn ++ [⟨if t &&& 1 = 1 then b else a, t⟩]) (ph ++ [if t &&& 1 = 1 then a else b]) rc
          hP
        have hpp : pre ++ (((t ^^^ 1) :: (proofRow rows (u :: rest)).1,
            parent t rows :: (proofRow rows (u :: rest)).2).1 ++ P)
            = (pre ++ [t ^^^ 1]) ++ ((proofRow rows (u :: rest)).1 ++ P) := by
          simp
        rw [hpp]
        rw [List.length_append, List.length_singleton] at hih
        simp only [List.cons_append] at hih
        constructor
        · intro N PH hs2 h
          simp only [seedRow, hpair, if_false] at h
          cases hrest : seedRow (u :: rest) hs1 with
          | none => rw [hrest] at h; cases h
          | some r =>
            obtain ⟨N1, PH1, hs3⟩ := r
            rw [hrest] at h
            simp only [Option.some.injEq, Prod.mk.injEq] at h
            obtain ⟨rfl, rfl, rfl⟩ := h
            rw [hih.1 _ _ _ hrest]
            simp only [List.length_cons, List.append_assoc, List.singleton_append]
            congr 1
            omega
        · intro h
          simp only [seedRow, hpair, if_false] at h
          cases hrest : seedRow (u :: rest) hs1 with
          | none => exact hih.2 hrest
          | some r => rw [hrest] at h; cases h

end Seed

/-! ## The verifier on sorted targets -/

theorem seedRow_pos (rows : Nat) : ∀ (L : List Nat) (hs : List Hash) (N : List node)
    (PH hs1 : List Hash), seedRow L hs = some (N, PH, hs1) →
    N.map node.Pos = L ∧ PH.length = (proofRow rows L).1.length := by
  intro L
  induction L using list_pair_induction with
  | hnil =>
    intro hs N PH hs1 h
    simp only [seedRow, Option.some.injEq, Prod.mk.injEq] at h
    obtain ⟨rfl, rfl, rfl⟩ := h
    simp [proofRow]
  | hone t =>
    intro hs N PH hs1 h
    match hs with
    | [] => simp [seedRow] at h
    | [a] => simp [seedRow] at h
    | a :: b :: hs2 =>
      simp only [seedRow, Option.some.injEq, Prod.mk.injEq] at h
      obtain ⟨rfl, rfl, rfl⟩ := h
      simp [proofRow]
  | hstep t u rest ih1 ih2 =>
    intro hs N PH hs1 h
    match hs with
    | [] => simp [seedRow] at h
    | [a] => simp [seedRow] at h
    | a :: b :: hs2 =>
      by_cases hpair : u = t ^^^ 1
      · simp only [seedRow, hpair, if_true] at h
        cases hrest : seedRow rest hs2 with
        | none => rw [hrest] at h; cases h
        | some r =>
          obtain ⟨N1, PH1, hs3⟩ := r
          rw [hrest] at h
          simp only [Option.some.injEq, Prod.mk.injEq] at h
          obtain ⟨rfl, rfl, rfl⟩ := h
          obtain ⟨h1, h2⟩ := ih1 _ _ _ _ hrest
          simp [proofRow, hpair, h1, h2]
      · simp only [seedRow, hpair, if_false] at h
        cases hrest : seedRow (u :: rest) hs2 with
        | none => rw [hrest] at h; cases h
        | some r =>
          obtain ⟨N1, PH1, hs3⟩ := r
          rw [hrest] at h
          simp only [Option.some.injEq, Prod.mk.injEq] at h
          obtain ⟨rfl, rfl, rfl⟩ := h
          obtain ⟨h1, h2⟩ := ih2 _ _ _ _ hrest
          simp [proofRow, hpair, h1, h2]

/-- The row-0 root test: an odd leaf count and the last leaf. -/
theorem isRootAt_zero {numLeaves rows t : Nat} (hn64 : numLeaves < 2 ^ 64) :
    isRootAt numLeaves rows 0 t = true ↔ numLeaves % 2 = 1 ∧ t = numLeaves - 1 := by
  rw [isRootAt_iff hn64, testBit_iff_div_odd]
  unfold rootPosition
  rw [rowStart_zero]
  simp only [pow_zero, Nat.div_one, Nat.zero_add, pow_one]
  constructor
  · intro ⟨h1, h2⟩; omega
  · intro ⟨h1, h2⟩; omega

/-- Sorted targets below `numLeaves` are a well-formed row-0 list, followed by the
row-0 root when that is a target. -/
theorem targets_split {numLeaves rows : Nat} (hn64 : numLeaves < 2 ^ 64) :
    ∀ (targets : List Nat), targets.Pairwise (· < ·) → (∀ t ∈ targets, t < numLeaves) →
    RowList numLeaves rows 0 (targets.filter (fun t => !isRootAt numLeaves rows 0 t)) ∧
    ((targets = targets.filter (fun t => !isRootAt numLeaves rows 0 t)) ∨
      (numLeaves % 2 = 1 ∧
        targets = targets.filter (fun t => !isRootAt numLeaves rows 0 t) ++ [numLeaves - 1])) := by
  intro targets
  induction targets with
  | nil => intro _ _; exact ⟨rowList_nil _ _ _, Or.inl rfl⟩
  | cons t ts ih =>
    intro hs hr
    obtain ⟨hlt, hs'⟩ := List.pairwise_cons.mp hs
    obtain ⟨ihL, ihS⟩ := ih hs' (fun x hx => hr x (List.mem_cons_of_mem _ hx))
    have htn := hr t (List.mem_cons_self _ _)
    by_cases hroot : isRootAt numLeaves rows 0 t = true
    · obtain ⟨hodd, ht⟩ := (isRootAt_zero hn64).mp hroot
      have hnil : ts = [] := by
        cases ts with
        | nil => rfl
        | cons u us =>
          have h1 := hlt u (List.mem_cons_self _ _)
          have h2 := hr u (List.mem_cons_of_mem _ (List.mem_cons_self _ _))
          omega
      subst hnil
      simp only [List.filter_cons, hroot, Bool.not_true, List.filter_nil]
      refine ⟨rowList_nil _ _ _, Or.inr ⟨hodd, ?_⟩⟩
      simp [ht]
    · have hroot' : isRootAt numLeaves rows 0 t = false := by simpa using hroot
      have hf : (t :: ts).filter (fun t => !isRootAt numLeaves rows 0 t)
          = t :: ts.filter (fun t => !isRootAt numLeaves rows 0 t) := by
        simp [List.filter_cons, hroot']
      rw [hf]
      refine ⟨⟨?_, ?_⟩, ?_⟩
      · rw [List.pairwise_cons]
        exact ⟨fun x hx => hlt x (List.mem_filter.mp hx).1, ihL.1⟩
      · intro p hp
        rcases List.mem_cons.mp hp with rfl | hp
        · rw [rowStart_zero]
          refine ⟨Nat.zero_le _, ?_⟩
          have : ¬ (numLeaves % 2 = 1 ∧ p = numLeaves - 1) := fun h =>
            hroot ((isRootAt_zero hn64).mpr h)
          simp only [Nat.sub_zero, Nat.zero_add, pow_one]
          omega
        · exact ihL.2 p hp
      · rcases ihS with h | ⟨hodd, h⟩
        · left; rw [← h]
        · right
          refine ⟨hodd, ?_⟩
          rw [List.cons_append, ← h]

theorem seedLoop_nil (roots : List Hash) (numLeaves : Nat) (pp : List Nat) (hs : List Hash)
    (j : Nat) (tn : List node) (ph : List Hash) (rc : List node) :
    seedLoop roots numLeaves pp [] hs j tn ph rc = .ok (some ⟨hs, tn, ph, rc⟩) := by
  unfold seedLoop; rfl

/-- The seeding loop at the row-0 root: `roots[0]` becomes a candidate and one
proof hash is dropped. -/
theorem seedLoop_root (roots : List Hash) {numLeaves : Nat} (hn64 : numLeaves < 2 ^ 64)
    (hodd : numLeaves % 2 = 1) (pp : List Nat) (hs : List Hash) (j : Nat) (tn : List node)
    (ph : List Hash) (rc : List node) :
    seedLoop roots numLeaves pp [numLeaves - 1] hs j tn ph rc
      = match roots, hs with
        | r0 :: _, _ :: hs1 => .ok (some ⟨hs1, tn, ph, rc ++ [⟨r0, numLeaves - 1⟩]⟩)
        | _, _ => .error .indexOutOfRange := by
  have hc : numLeaves - 1 = (numLeaves + 2 ^ 64 - 1) % 2 ^ 64 ∧ numLeaves &&& 1 = 1 := by
    rw [Nat.and_one_is_mod]
    omega
  unfold seedLoop
  rw [if_pos hc]

section Canonical

variable (parentHash : Hash → Hash → Hash)

/-- On sorted targets below `numLeaves` the run of `verifyBatchProof` up to the end
of the climb is the row-by-row run: the climb loop completes with the triples and
candidates of `canonicalClimb`, and where `canonicalClimb` runs out of `roots` or
proof hashes the climb is not reached or stops with an index out of range. -/
theorem climbOf_canonical (bp : BatchProof) (roots : List Hash) {numLeaves : Nat}
    (cached : Option (Nat → Bool × Hash)) (hn64 : numLeaves < 2 ^ 64)
    (hsorted : bp.Targets.Pairwise (· < ·)) (hrange : ∀ t ∈ bp.Targets, t < numLeaves)
    (hne : bp.Targets ≠ []) :
    (∀ T RC, canonicalClimb parentHash (cached.getD noCache) roots numLeaves bp.Targets bp.Proof
        = some (T, RC) →
      climbOf parentHash bp roots numLeaves cached = some ⟨.completed, T, RC⟩) ∧
    (canonicalClimb parentHash (cached.getD noCache) roots numLeaves bp.Targets bp.Proof = none →
      ∀ e, climbOf parentHash bp roots numLeaves cached = some e →
        e.exit = .indexOutOfRange) := by
  obtain ⟨hn, _, _⟩ := treeRows_spec (Nat.le_of_lt hn64)
  obtain ⟨hL, hsplit⟩ := @targets_split numLeaves (treeRows numLeaves) hn64 bp.Targets hsorted hrange
  have hlen0 : ¬ bp.Targets.length = 0 := fun h => hne (List.length_eq_zero.mp h)
  generalize hlow : bp.Targets.filter (fun t => !isRootAt numLeaves (treeRows numLeaves) 0 t)
    = low at hL hsplit
  -- the proof positions: those of row 0, then those of the rows above
  have hnext := rowList_next hn hn64 hL
  have hP := proofRows_ge hn hn64 (treeRows numLeaves) 1 _ hnext
  have hpp : (ProofPositions bp.Targets numLeaves (treeRows numLeaves)).1
      = [] ++ ((proofRow (treeRows numLeaves) low).1 ++
        (proofRows numLeaves (treeRows numLeaves) (treeRows numLeaves) 1
          ((proofRow (treeRows numLeaves) low).2.filter
            (fun p => !isRootAt numLeaves (treeRows numLeaves) (0 + 1) p))).1) := by
    unfold ProofPositions
    rw [hlow]
    simp only [proofRows, List.nil_append]
  have hpp2 : (ProofPositions bp.Targets numLeaves (treeRows numLeaves)).1
      = (proofRows numLeaves (treeRows numLeaves) (treeRows numLeaves + 1) 0 low).1 := by
    unfold ProofPositions
    rw [hlow]
  unfold climbOf canonicalClimb
  rw [if_neg hlen0]
  simp only [hlow]
  generalize (ProofPositions bp.Targets numLeaves (treeRows numLeaves)).1 = pp at hpp hpp2 ⊢
  -- the climb after a completed seeding
  have hclimb : ∀ (N : List node) (hs : List Hash) (rc0 : List node), N.map node.Pos = low →
      (∀ T C, climbRows parentHash (cached.getD noCache) numLeaves (treeRows numLeaves)
          (treeRows numLeaves + 1) N hs = some (T, C) →
        climbLoop parentHash (cached.getD noCache) numLeaves (treeRows numLeaves)
          (N.length + pp.length) N pp hs [] rc0
          = ⟨.completed, T, rc0 ++ C⟩) ∧
      (climbRows parentHash (cached.getD noCache) numLeaves (treeRows numLeaves)
          (treeRows numLeaves + 1) N hs = none →
        (climbLoop parentHash (cached.getD noCache) numLeaves (treeRows numLeaves)
          (N.length + pp.length) N pp hs [] rc0).exit
          = .indexOutOfRange) := by
    intro N hs rc0 hN
    have := climbLoop_rows parentHash (cached.getD noCache) hn hn64 (treeRows numLeaves + 1) 0 N
      hs [] rc0 (N.length + pp.length)
      (by rw [hN]; exact hL) (by omega) (by rw [hN, hpp2])
    rw [hN, ← hpp2] at this
    simpa using this
  rcases hsplit with htail | ⟨hodd, htail⟩
  · -- the row-0 root is no target
    have hlt : ¬ low.length < bp.Targets.length := by rw [← htail]; omega
    have hseed := seedLoop_row roots numLeaves hn hn64 low hL [] [] _ bp.Proof [] [] [] hP
    rw [← hpp, List.append_nil] at hseed
    simp only [List.length_nil, Nat.zero_add] at hseed
    simp only [hlt, if_false]
    rw [htail]
    cases hrow : seedRow low bp.Proof with
    | none =>
      have hfail := hseed.2 hrow
      constructor
      · intro T RC h; cases h
      · intro _ e he
        split at he
        · rename_i s hs
          exact absurd hs (hfail s)
        · cases he
    | some r =>
      obtain ⟨N, PH, hs1⟩ := r
      have h1 := hseed.1 N PH hs1 hrow
      rw [seedLoop_nil] at h1
      simp only [List.nil_append] at h1
      rw [h1]
      simp only
      obtain ⟨hN, _⟩ := seedRow_pos (treeRows numLeaves) _ _ _ _ _ hrow
      obtain ⟨hc1, hc2⟩ := hclimb N (PH ++ hs1) [] hN
      constructor
      · intro T RC h
        rw [hc1 T RC h]
        simp
      · intro h e he
        injection he with he
        rw [← he]
        exact hc2 h
  · -- the row-0 root is the last target
    have hlt : low.length < bp.Targets.length := by
      have := congrArg List.length htail
      simp only [List.length_append, List.length_singleton] at this
      omega
    have hseed := seedLoop_row roots numLeaves hn hn64 low hL [numLeaves - 1] [] _ bp.Proof [] []
      [] hP
    rw [← hpp] at hseed
    simp only [List.length_nil, Nat.zero_add] at hseed
    simp only [hlt, if_true]
    rw [htail]
    cases hrow : seedRow low bp.Proof with
    | none =>
      have hfail := hseed.2 hrow
      constructor
      · intro T RC h; cases h
      · intro _ e he
        split at he
        · rename_i s hs
          exact absurd hs (hfail s)
        · cases he
    | some r =>
      obtain ⟨N, PH, hs1⟩ := r
      have h1 := hseed.1 N PH hs1 hrow
      rw [seedLoop_root roots hn64 hodd] at h1
      simp only [List.nil_append] at h1
      rw [h1]
      obtain ⟨hN, _⟩ := seedRow_pos (treeRows numLeaves) _ _ _ _ _ hrow
      match roots, hs1 with
      | [], _ =>
        constructor
        · intro T RC h; simp at h
        · intro _ e he; simp at he
      | r0 :: rs, [] =>
        constructor
        · intro T RC h; simp at h
        · intro _ e he; simp at he
      | r0 :: rs, x :: hs2 =>
        simp only
        obtain ⟨hc1, hc2⟩ := hclimb N (PH ++ hs2) [⟨r0, numLeaves - 1⟩] hN
        constructor
        · intro T RC h
          cases hcr : climbRows parentHash (cached.getD noCache) numLeaves (treeRows numLeaves)
              (treeRows numLeaves + 1) N (PH ++ hs2) with
          | none => rw [hcr] at h; cases h
          | some r2 =>
            obtain ⟨T2, C2⟩ := r2
            rw [hcr] at h
            simp only [Option.some.injEq, Prod.mk.injEq] at h
            obtain ⟨rfl, rfl⟩ := h
            rw [hc1 _ _ hcr]
            simp
        · intro h e he
          cases hcr : climbRows parentHash (cached.getD noCache) numLeaves (treeRows numLeaves)
              (treeRows numLeaves + 1) N (PH ++ hs2) with
          | none =>
            injection he with he
            rw [← he]
            exact hc2 hcr
          | some r2 => rw [hcr] at h; cases h

end Canonical

/-- What a successful run of `verifyBatchProof` with targets says about the climb. -/
theorem verify_true_climbOf {parentHash : Hash → Hash → Hash} {bp : BatchProof}
    {roots : List Hash} {numLeaves : Nat} {cached : Option (Nat → Bool × Hash)}
    {trees : List Triple} {rc : List node}
    (hv : verifyBatchProof parentHash bp roots numLeaves cached = .ok (true, trees, rc))
    (hne : bp.Targets ≠ []) :
    climbOf parentHash bp roots numLeaves cached = some ⟨.completed, trees, rc⟩ ∧ rc ≠ [] ∧
      (rc.map node.Val).Sublist roots := by
  have hlen0 : ¬ bp.Targets.length = 0 := fun h => hne (List.length_eq_zero.mp h)
  cases hc : climbOf parentHash bp roots numLeaves cached with
  | none =>
    exfalso
    unfold climbOf at hc
    unfold verifyBatchProof at hv
    rw [if_neg hlen0] at hc hv
    simp only at hc hv
    split at hv
    · cases hv
    · injection hv with hv
      injection hv with hv
      cases hv
    · rename_i s hs
      rw [hs] at hc
      cases hc
  | some e =>
    rw [verify_of_climbOf hc] at hv
    obtain ⟨ex, tr, cands⟩ := e
    unfold rootCheck at hv
    have hm := rootMatches_eq_length_iff cands roots 0 (Nat.zero_le _)
    rw [List.drop_zero] at hm
    split at hv
    · cases hv
    · cases hv
    · injection hv with hv
      injection hv with hv
      cases hv
    · rename_i hex
      simp only at hex
      split at hv
      · injection hv with hv
        injection hv with hv
        cases hv
      · rename_i h0
        split at hv
        · injection hv with hv
          injection hv with hv
          cases hv
        · rename_i h1
          injection hv with hv
          simp only [Prod.mk.injEq, true_and] at hv
          obtain ⟨rfl, rfl⟩ := hv
          subst hex
          refine ⟨rfl, ?_, hm.mp (not_not.mp h1)⟩
          intro hnil
          apply h0
          rw [hnil]
          rfl

/-- On sorted targets a successful run returns the triples and candidates of the
row-by-row run. -/
theorem verify_true_canonical {parentHash : Hash → Hash → Hash} {bp : BatchProof}
    {roots : List Hash} {numLeaves : Nat} {cached : Option (Nat → Bool × Hash)}
    {trees : List Triple} {rc : List node} (hn64 : numLeaves < 2 ^ 64)
    (hsorted : bp.Targets.Pairwise (· < ·)) (hrange : ∀ t ∈ bp.Targets, t < numLeaves)
    (hv : verifyBatchProof parentHash bp roots numLeaves cached = .ok (true, trees, rc))
    (hne : bp.Targets ≠ []) :
    canonicalClimb parentHash (cached.getD noCache) roots numLeaves bp.Targets bp.Proof
      = some (trees, rc) := by
  obtain ⟨hc, _, _⟩ := verify_true_climbOf hv hne
  obtain ⟨h1, h2⟩ := climbOf_canonical parentHash bp roots cached hn64 hsorted hrange hne
  cases hcan : canonicalClimb parentHash (cached.getD noCache) roots numLeaves bp.Targets
      bp.Proof with
  | none =>
    have := h2 hcan _ hc
    cases this
  | some r =>
    obtain ⟨T, RC⟩ := r
    have := h1 T RC hcan
    rw [hc] at this
    injection this with this
    injection this with _ h3 h4
    rw [h3, h4]

/-! ## The root candidates of the row-by-row climb -/

theorem parent_xor_one (t rows : Nat) : parent (t ^^^ 1) rows = parent t rows := by
  unfold parent
  rw [Nat.shiftRight_eq_div_pow, Nat.shiftRight_eq_div_pow, pow_one, xor_one_div]

theorem proofRow_parent_mem (rows : Nat) : ∀ (L : List Nat), ∀ p ∈ L,
    parent p rows ∈ (proofRow rows L).2 := by
  intro L
  induction L using list_pair_induction with
  | hnil => intro p hp; cases hp
  | hone t =>
    intro p hp
    simp only [List.mem_singleton] at hp
    subst hp
    simp [proofRow]
  | hstep t u rest ih1 ih2 =>
    intro p hp
    by_cases hpair : u = t ^^^ 1
    · simp only [proofRow, hpair, if_true, List.mem_cons]
      simp only [List.mem_cons] at hp
      rcases hp with rfl | rfl | hp
      · left; rfl
      · left; rw [hpair, parent_xor_one]
      · right; exact ih1 p hp
    · simp only [proofRow, hpair, if_false, List.mem_cons]
      simp only [List.mem_cons] at hp
      rcases hp with rfl | hp
      · left; rfl
      · right; exact ih2 p (List.mem_cons.mpr hp)

theorem div_two_pow_add (x j k : Nat) : x / 2 ^ j / 2 ^ k = x / 2 ^ (j + k) := by
  rw [Nat.div_div_eq_div_mul, pow_add]

theorem leafInTree_iff (numLeaves h t : Nat) :
    leafInTree numLeaves h t ↔
      numLeaves.testBit h = true ∧ t / 2 ^ h = 2 * (numLeaves / 2 ^ (h + 1)) := by
  unfold leafInTree
  have hpos : 0 < 2 ^ h := by positivity
  constructor
  · rintro ⟨hb, h1, h2⟩
    refine ⟨hb, ?_⟩
    apply Nat.div_eq_of_lt_le
    · rw [pow_succ] at h1
      calc 2 * (numLeaves / (2 ^ h * 2)) * 2 ^ h = numLeaves / (2 ^ h * 2) * (2 ^ h * 2) := by ring
        _ ≤ t := h1
    · rw [pow_succ] at h2
      calc t < numLeaves / (2 ^ h * 2) * (2 ^ h * 2) + 2 ^ h := h2
        _ = (2 * (numLeaves / (2 ^ h * 2)) + 1) * 2 ^ h := by ring
  · rintro ⟨hb, h1⟩
    refine ⟨hb, ?_, ?_⟩
    · have := Nat.div_mul_le_self t (2 ^ h)
      rw [h1] at this
      rw [pow_succ]
      calc numLeaves / (2 ^ h * 2) * (2 ^ h * 2) = 2 * (numLeaves / (2 ^ h * 2)) * 2 ^ h := by ring
        _ ≤ t := by rw [pow_succ] at this; exact this
    · have := Nat.lt_succ_iff.mpr (le_refl (t / 2 ^ h))
      have h3 : t < (t / 2 ^ h + 1) * 2 ^ h := by
        have := Nat.div_add_mod t (2 ^ h)
        have := Nat.mod_lt t hpos
        nlinarith
      rw [h1] at h3
      rw [pow_succ] at h3 ⊢
      calc t < (2 * (numLeaves / (2 ^ h * 2)) + 1) * 2 ^ h := h3
        _ = numLeaves / (2 ^ h * 2) * (2 ^ h * 2) + 2 ^ h := by ring

section Candidates

variable (parentHash : Hash → Hash → Hash) (cached : Nat → Bool × Hash)

/-- The parents of one row of the climb: each is the parent of a node of the row,
every node of the row has its parent among them, their positions ascend, and the
root test of the climb is the root test of the next row. -/
theorem rowStep_parent_nodes {numLeaves rows i : Nat} (hn : numLeaves ≤ 2 ^ rows)
    {A : List node} (hL : RowList numLeaves rows i (A.map node.Pos)) {hs : List Hash}
    {T : List Triple} {hs1 : List Hash}
    (hT : rowStep parentHash cached rows A hs = some (T, hs1)) :
    (T.map (·.parent)).Pairwise (fun a b => a.Pos < b.Pos) ∧
    (∀ p ∈ T.map (·.parent), ∃ a ∈ A, p.Pos = parent a.Pos rows ∧
      isRootNode numLeaves rows p = isRootAt numLeaves rows (i + 1) p.Pos) ∧
    (∀ a ∈ A, ∃ p ∈ T.map (·.parent), p.Pos = parent a.Pos rows) := by
  obtain ⟨hpar, _⟩ := rowStep_parents parentHash cached rows A hs T hs1 hT
  obtain ⟨hsorted, hm⟩ := proofRow_parents hn _ hL
  have hpar' : (T.map (·.parent)).map node.Pos = (proofRow rows (A.map node.Pos)).2 := by
    rw [List.map_map]; exact hpar
  refine ⟨?_, ?_, ?_⟩
  · rw [← hpar', List.pairwise_map] at hsorted
    exact hsorted
  · intro p hp
    have hpos : p.Pos ∈ (proofRow rows (A.map node.Pos)).2 := by
      rw [← hpar']; exact List.mem_map.mpr ⟨p, hp, rfl⟩
    obtain ⟨q, hq, hpq, _⟩ := hm _ hpos
    obtain ⟨a, ha, rfl⟩ := List.mem_map.mp hq
    refine ⟨a, ha, hpq, ?_⟩
    have := isRootNode_parent hn hL hq p.Val
    rw [← hpq] at this
    exact this
  · intro a ha
    have := proofRow_parent_mem rows (A.map node.Pos) a.Pos (List.mem_map.mpr ⟨a, ha, rfl⟩)
    rw [← hpar'] at this
    obtain ⟨p, hp, hpp⟩ := List.mem_map.mp this
    exact ⟨p, hp, hpp⟩

/-- The root candidates of the row-by-row climb from a well-formed list of row
`i`: their rows ascend strictly above `i`; each is the root of a tree of the
forest and an ancestor of a node of the list; and the root above any node of the
list is among them. -/
theorem climbRows_candidates {numLeaves rows : Nat} (hn : numLeaves ≤ 2 ^ rows)
    (hn64 : numLeaves < 2 ^ 64) : ∀ (m i : Nat) (A : List node) (hs : List Hash)
      (T : List Triple) (C : List node),
    RowList numLeaves rows i (A.map node.Pos) → rows ≤ i + m →
    climbRows parentHash cached numLeaves rows m A hs = some (T, C) →
    (C.map (fun c => detectRow c.Pos rows)).Pairwise (· < ·) ∧
    (∀ c ∈ C, ∃ h, i < h ∧ detectRow c.Pos rows = h ∧ numLeaves.testBit h = true ∧
      c.Pos = rootPosition numLeaves h rows ∧
      ∃ a ∈ A, (a.Pos - rowStart rows i) / 2 ^ (h - i) = 2 * (numLeaves / 2 ^ (h + 1))) ∧
    (∀ a ∈ A, ∀ h, i < h → numLeaves.testBit h = true →
      (a.Pos - rowStart rows i) / 2 ^ (h - i) = 2 * (numLeaves / 2 ^ (h + 1)) →
      ∃ c ∈ C, c.Pos = rootPosition numLeaves h rows) := by
  intro m
  induction m with
  | zero =>
    intro i A hs T C hL hm h
    have hA : A = [] := by
      cases A with
      | nil => rfl
      | cons a A =>
        have := (rowList_mem hn hL (p := a.Pos) (by simp)).1
        omega
    subst hA
    simp only [climbRows, Option.some.injEq, Prod.mk.injEq] at h
    obtain ⟨rfl, rfl⟩ := h
    simp
  | succ m ih =>
    intro i A hs T C hL hm h
    simp only [climbRows] at h
    cases hstep : rowStep parentHash cached rows A hs with
    | none => rw [hstep] at h; cases h
    | some r =>
      obtain ⟨T1, hs1⟩ := r
      rw [hstep] at h
      simp only at h
      cases hup : climbRows parentHash cached numLeaves rows m
          ((T1.map (·.parent)).filter (fun p => !isRootNode numLeaves rows p)) hs1 with
      | none => rw [hup] at h; cases h
      | some r2 =>
        obtain ⟨T2, C2⟩ := r2
        rw [hup] at h
        simp only [Option.some.injEq, Prod.mk.injEq] at h
        obtain ⟨rfl, rfl⟩ := h
        obtain ⟨hps, hpm, hpa⟩ := rowStep_parent_nodes parentHash cached hn hL hstep
        have hpos := next_nodes_pos hn parentHash cached hL hstep
        have hnext := rowList_next hn hn64 hL
        obtain ⟨ih1, ih2, ih3⟩ := ih (i + 1) _ hs1 T2 C2 (by rw [hpos]; exact hnext) (by omega) hup
        -- a root among the parents
        have hroot : ∀ p ∈ (T1.map (·.parent)).filter (isRootNode numLeaves rows),
            detectRow p.Pos rows = i + 1 ∧ numLeaves.testBit (i + 1) = true ∧
            p.Pos = rootPosition numLeaves (i + 1) rows ∧
            ∃ a ∈ A, (a.Pos - rowStart rows i) / 2 ^ (i + 1 - i)
              = 2 * (numLeaves / 2 ^ (i + 1 + 1)) := by
          intro p hp
          obtain ⟨hp1, hp2⟩ := List.mem_filter.mp hp
          obtain ⟨a, ha, hpa1, hpa2⟩ := hpm p hp1
          rw [hpa2, isRootAt_iff hn64] at hp2
          obtain ⟨hi, x, hx0, hx1, hx⟩ := rowList_mem hn hL (List.mem_map.mpr ⟨a, ha, rfl⟩)
          have hx2 : x / 2 < 2 ^ (rows - (i + 1)) := by
            have h3 : rows - i = (rows - (i + 1)) + 1 := by omega
            rw [h3, pow_succ] at hx
            omega
          have hpp : p.Pos = rowStart rows (i + 1) + x / 2 := by
            rw [hpa1, hx0, parent_rowStart hi hx]
          refine ⟨by rw [hpp]; exact detectRow_eq (by omega) hx2, hp2.1, hp2.2, a, ha, ?_⟩
          have h4 := hp2.2
          rw [hpp] at h4
          unfold rootPosition at h4
          have h5 : i + 1 - i = 1 := by omega
          rw [h5, pow_one, hx0]
          omega
        refine ⟨?_, ?_, ?_⟩
        · rw [List.map_append, List.pairwise_append]
          refine ⟨?_, ih1, ?_⟩
          · rw [List.pairwise_map]
            have hps2 := hps.filter (isRootNode numLeaves rows)
            refine hps2.imp_of_mem ?_
            intro a b ha hb hab
            have h1 := (hroot a ha).2.2.1
            have h2 := (hroot b hb).2.2.1
            omega
          · intro x hx y hy
            obtain ⟨p, hp, rfl⟩ := List.mem_map.mp hx
            obtain ⟨c, hc, rfl⟩ := List.mem_map.mp hy
            obtain ⟨h, hh1, hh2, _⟩ := ih2 c hc
            have := (hroot p hp).1
            omega
        · intro c hc
          rcases List.mem_append.mp hc with hc | hc
          · obtain ⟨h1, h2, h3, h4⟩ := hroot c hc
            exact ⟨i + 1, by omega, h1, h2, h3, h4⟩
          · obtain ⟨h, hh1, hh2, hh3, hh4, p, hp, hh5⟩ := ih2 c hc
            obtain ⟨hp1, _⟩ := List.mem_filter.mp hp
            obtain ⟨a, ha, hpa1, _⟩ := hpm p hp1
            obtain ⟨hi, x, hx0, hx1, hx⟩ := rowList_mem hn hL (List.mem_map.mpr ⟨a, ha, rfl⟩)
            refine ⟨h, by omega, hh2, hh3, hh4, a, ha, ?_⟩
            rw [hpa1, hx0, parent_rowStart hi hx] at hh5
            rw [hx0]
            have e1 : rowStart rows (i + 1) + x / 2 - rowStart rows (i + 1) = x / 2 := by omega
            have e2 : rowStart rows i + x - rowStart rows i = x := by omega
            rw [e1] at hh5
            rw [e2, ← hh5]
            have e3 : h - i = 1 + (h - (i + 1)) := by omega
            rw [e3, ← div_two_pow_add, pow_one]
        · intro a ha h hih hbit hanc
          obtain ⟨p, hp, hpp⟩ := hpa a ha
          obtain ⟨a', ha', hpa1, hpa2⟩ := hpm p hp
          obtain ⟨hi, x, hx0, hx1, hx⟩ := rowList_mem hn hL (List.mem_map.mpr ⟨a, ha, rfl⟩)
          have e2 : rowStart rows i + x - rowStart rows i = x := by omega
          rw [hx0, e2] at hanc
          have hppos : p.Pos = rowStart rows (i + 1) + x / 2 := by
            rw [hpp, hx0, parent_rowStart hi hx]
          have e3 : h - i = 1 + (h - (i + 1)) := by omega
          rw [e3, ← div_two_pow_add, pow_one] at hanc
          by_cases hr : isRootNode numLeaves rows p = true
          · -- the parent is a root: it is the root of row `i + 1`
            have hr2 := hr
            rw [hpa2, isRootAt_iff hn64] at hr2
            have hh : h = i + 1 := by
              by_contra hne
              have h4 := hr2.2
              rw [hppos] at h4
              unfold rootPosition at h4
              have h5 : x / 2 = 2 * (numLeaves / 2 ^ (i + 1 + 1)) := by omega
              have e4 : h - (i + 1) = 1 + (h - (i + 2)) := by omega
              rw [h5, e4, ← div_two_pow_add, pow_one] at hanc
              have e5 : 2 * (numLeaves / 2 ^ (i + 1 + 1)) / 2 = numLeaves / 2 ^ (i + 2) :=
                Nat.mul_div_cancel_left _ (by norm_num)
              rw [e5, div_two_pow_add] at hanc
              have e6 : i + 2 + (h - (i + 2)) = h := by omega
              rw [e6] at hanc
              rw [testBit_iff_div_odd] at hbit
              have := div_two_pow_succ numLeaves h
              omega
            exact ⟨p, List.mem_append_left _ (List.mem_filter.mpr ⟨hp, hr⟩), by rw [hh]; exact
              (by rw [hpa2, isRootAt_iff hn64] at hr; exact hr.2)⟩
          · have hmem : p ∈ (T1.map (·.parent)).filter (fun p => !isRootNode numLeaves rows p) :=
              List.mem_filter.mpr ⟨hp, by simpa using hr⟩
            have hh : i + 1 < h := by
              by_contra hge
              have hh : h = i + 1 := by omega
              apply hr
              rw [hpa2, isRootAt_iff hn64]
              subst hh
              refine ⟨hbit, ?_⟩
              rw [hppos]
              unfold rootPosition
              simp only [Nat.sub_self, pow_zero, Nat.div_one] at hanc
              omega
            obtain ⟨c, hc, hcp⟩ := ih3 p hmem h hh hbit (by
              rw [hppos]
              have e1 : rowStart rows (i + 1) + x / 2 - rowStart rows (i + 1) = x / 2 := by omega
              rw [e1]; exact hanc)
            exact ⟨c, List.mem_append_right _ hc, hcp⟩

end Candidates

theorem odd_pred_div_two_pow {n h : Nat} (hodd : n % 2 = 1) (hh : 0 < h) :
    (n - 1) / 2 ^ h = n / 2 ^ h := by
  obtain ⟨k, rfl⟩ : ∃ k, h = k + 1 := ⟨h - 1, by omega⟩
  have hpos : 0 < 2 ^ (k + 1) := by positivity
  have h1 := Nat.div_add_mod n (2 ^ (k + 1))
  have h2 := Nat.mod_lt n hpos
  have h3 : 2 ^ (k + 1) * (n / 2 ^ (k + 1)) = 2 * (2 ^ k * (n / 2 ^ (k + 1))) := by
    rw [pow_succ]; ring
  apply Nat.div_eq_of_lt_le
  · have : n / 2 ^ (k + 1) * 2 ^ (k + 1) = 2 ^ (k + 1) * (n / 2 ^ (k + 1)) := Nat.mul_comm _ _
    omega
  · have : (n / 2 ^ (k + 1) + 1) * 2 ^ (k + 1)
        = 2 ^ (k + 1) * (n / 2 ^ (k + 1)) + 2 ^ (k + 1) := by ring
    omega

/-- The root candidates of the row-by-row run on sorted targets below `numLeaves`:
their rows ascend strictly; each is the root of a tree of the forest above one of
the targets; and the root of the tree of every target is among them. -/
theorem canonical_candidates {parentHash : Hash → Hash → Hash} {bp : BatchProof}
    {roots : List Hash} {numLeaves : Nat} {cache : Nat → Bool × Hash}
    {trees : List Triple} {rc : List node} (hn64 : numLeaves < 2 ^ 64)
    (hsorted : bp.Targets.Pairwise (· < ·)) (hrange : ∀ t ∈ bp.Targets, t < numLeaves)
    (hcan : canonicalClimb parentHash cache roots numLeaves bp.Targets bp.Proof
      = some (trees, rc)) :
    (rc.map (fun c => detectRow c.Pos (treeRows numLeaves))).Pairwise (· < ·) ∧
    (∀ c ∈ rc, ∃ h, detectRow c.Pos (treeRows numLeaves) = h ∧ numLeaves.testBit h = true ∧
      c.Pos = rootPosition numLeaves h (treeRows numLeaves) ∧
      ∃ t ∈ bp.Targets, t / 2 ^ h = 2 * (numLeaves / 2 ^ (h + 1))) ∧
    (∀ t ∈ bp.Targets, ∀ h, numLeaves.testBit h = true →
      t / 2 ^ h = 2 * (numLeaves / 2 ^ (h + 1)) →
      ∃ c ∈ rc, c.Pos = rootPosition numLeaves h (treeRows numLeaves)) := by
  obtain ⟨hn, _, _⟩ := treeRows_spec (Nat.le_of_lt hn64)
  obtain ⟨hL, hsplit⟩ := @targets_split numLeaves (treeRows numLeaves) hn64 bp.Targets hsorted hrange
  unfold canonicalClimb at hcan
  simp only at hcan
  generalize hlow : bp.Targets.filter (fun t => !isRootAt numLeaves (treeRows numLeaves) 0 t)
    = low at hL hsplit hcan
  cases hrow : seedRow low bp.Proof with
  | none => rw [hrow] at hcan; cases hcan
  | some r =>
    obtain ⟨N, PH, hs1⟩ := r
    rw [hrow] at hcan
    simp only at hcan
    obtain ⟨hN, _⟩ := seedRow_pos (treeRows numLeaves) _ _ _ _ _ hrow
    have hLN : RowList numLeaves (treeRows numLeaves) 0 (N.map node.Pos) := by rw [hN]; exact hL
    have hz : rowStart (treeRows numLeaves) 0 = 0 := rowStart_zero _
    -- what the climb gives for the candidates above row 0
    have key : ∀ (hs : List Hash) (T : List Triple) (C : List node),
        climbRows parentHash cache numLeaves (treeRows numLeaves)
          (treeRows numLeaves + 1) N hs = some (T, C) →
        (C.map (fun c => detectRow c.Pos (treeRows numLeaves))).Pairwise (· < ·) ∧
        (∀ c ∈ C, ∃ h, 0 < h ∧ detectRow c.Pos (treeRows numLeaves) = h ∧
          numLeaves.testBit h = true ∧ c.Pos = rootPosition numLeaves h (treeRows numLeaves) ∧
          ∃ t ∈ low, t / 2 ^ h = 2 * (numLeaves / 2 ^ (h + 1))) ∧
        (∀ t ∈ low, ∀ h, numLeaves.testBit h = true →
          t / 2 ^ h = 2 * (numLeaves / 2 ^ (h + 1)) →
          ∃ c ∈ C, c.Pos = rootPosition numLeaves h (treeRows numLeaves)) := by
      intro hs T C hC
      obtain ⟨k1, k2, k3⟩ := climbRows_candidates parentHash cache hn hn64
        (treeRows numLeaves + 1) 0 N hs T C hLN (by omega) hC
      refine ⟨k1, ?_, ?_⟩
      · intro c hc
        obtain ⟨h, hh1, hh2, hh3, hh4, a, ha, hh5⟩ := k2 c hc
        refine ⟨h, hh1, hh2, hh3, hh4, a.Pos, ?_, ?_⟩
        · rw [← hN]; exact List.mem_map.mpr ⟨a, ha, rfl⟩
        · rw [hz] at hh5; simpa using hh5
      · intro t ht h hbit hanc
        rw [← hN] at ht
        obtain ⟨a, ha, rfl⟩ := List.mem_map.mp ht
        have hpos : 0 < h := by
          by_contra hc
          have h0 : h = 0 := by omega
          subst h0
          have := (hLN.2 a.Pos (List.mem_map.mpr ⟨a, ha, rfl⟩)).2
          rw [hz] at this
          simp only [pow_zero, Nat.div_one, Nat.zero_add, pow_one, Nat.sub_zero] at hanc this
          omega
        exact k3 a ha h hpos hbit (by rw [hz]; simpa using hanc)
    rcases hsplit with htail | ⟨hodd, htail⟩
    · have hlt : ¬ low.length < bp.Targets.length := by rw [← htail]; omega
      rw [if_neg hlt] at hcan
      obtain ⟨k1, k2, k3⟩ := key _ _ _ hcan
      refine ⟨k1, ?_, ?_⟩
      · intro c hc
        obtain ⟨h, _, hh2, hh3, hh4, t, ht, hh5⟩ := k2 c hc
        exact ⟨h, hh2, hh3, hh4, t, by rw [htail]; exact ht, hh5⟩
      · intro t ht h hbit hanc
        rw [htail] at ht
        exact k3 t ht h hbit hanc
    · have hlt : low.length < bp.Targets.length := by
        have := congrArg List.length htail
        simp only [List.length_append, List.length_singleton] at this
        omega
      rw [if_pos hlt] at hcan
      match roots, hs1, hcan with
      | r0 :: rs, x :: hs2, hcan =>
        simp only at hcan
        cases hcr : climbRows parentHash cache numLeaves (treeRows numLeaves)
            (treeRows numLeaves + 1) N (PH ++ hs2) with
        | none => rw [hcr] at hcan; cases hcan
        | some r2 =>
          obtain ⟨T2, C2⟩ := r2
          rw [hcr] at hcan
          simp only [Option.some.injEq, Prod.mk.injEq] at hcan
          obtain ⟨rfl, rfl⟩ := hcan
          obtain ⟨k1, k2, k3⟩ := key _ _ _ hcr
          have hn1 : 1 ≤ numLeaves := by omega
          have hrow0 : detectRow (numLeaves - 1) (treeRows numLeaves) = 0 := by
            have := @detectRow_eq (treeRows numLeaves) 0 (numLeaves - 1)
              (Nat.zero_le _) (by simp only [Nat.sub_zero]; omega)
            rw [hz, Nat.zero_add] at this
            exact this
          have hrp : rootPosition numLeaves 0 (treeRows numLeaves) = numLeaves - 1 := by
            unfold rootPosition
            rw [hz]
            simp only [Nat.zero_add, pow_one]
            omega
          have hbit0 : numLeaves.testBit 0 = true := by
            rw [testBit_iff_div_odd]; simpa using hodd
          refine ⟨?_, ?_, ?_⟩
          · simp only [List.map_cons, List.pairwise_cons]
            refine ⟨?_, k1⟩
            intro y hy
            obtain ⟨c, hc, rfl⟩ := List.mem_map.mp hy
            obtain ⟨h, hh1, hh2, _⟩ := k2 c hc
            rw [hrow0, hh2]
            exact hh1
          · intro c hc
            rcases List.mem_cons.mp hc with rfl | hc
            · refine ⟨0, hrow0, hbit0, hrp.symm, numLeaves - 1, ?_, ?_⟩
              · rw [htail]; simp
              · simp only [pow_zero, Nat.div_one, Nat.zero_add, pow_one]; omega
            · obtain ⟨h, _, hh2, hh3, hh4, t, ht, hh5⟩ := k2 c hc
              exact ⟨h, hh2, hh3, hh4, t, by rw [htail]; simp [ht], hh5⟩
          · intro t ht h hbit hanc
            rw [htail] at ht
            rcases List.mem_append.mp ht with ht | ht
            · obtain ⟨c, hc, hcp⟩ := k3 t ht h hbit hanc
              exact ⟨c, List.mem_cons_of_mem _ hc, hcp⟩
            · simp only [List.mem_singleton] at ht
              subst ht
              have h0 : h = 0 := by
                by_contra hc
                rw [odd_pred_div_two_pow hodd (by omega)] at hanc
                rw [testBit_iff_div_odd] at hbit
                have := div_two_pow_succ numLeaves h
                omega
              subst h0
              exact ⟨_, List.mem_cons_self _ _, hrp.symm⟩

/-- The root candidates of a successful run on sorted targets below `numLeaves`:
their rows ascend strictly; each is the root of a tree of the forest above one of
the targets; and the root of the tree of every target is among them. -/
theorem verify_candidates {parentHash : Hash → Hash → Hash} {bp : BatchProof}
    {roots : List Hash} {numLeaves : Nat} {cached : Option (Nat → Bool × Hash)}
    {trees : List Triple} {rc : List node} (hn64 : numLeaves < 2 ^ 64)
    (hsorted : bp.Targets.Pairwise (· < ·)) (hrange : ∀ t ∈ bp.Targets, t < numLeaves)
    (hv : verifyBatchProof parentHash bp roots numLeaves cached = .ok (true, trees, rc))
    (hne : bp.Targets ≠ []) :
    (rc.map (fun c => detectRow c.Pos (treeRows numLeaves))).Pairwise (· < ·) ∧
    (∀ c ∈ rc, ∃ h, detectRow c.Pos (treeRows numLeaves) = h ∧ numLeaves.testBit h = true ∧
      c.Pos = rootPosition numLeaves h (treeRows numLeaves) ∧
      ∃ t ∈ bp.Targets, t / 2 ^ h = 2 * (numLeaves / 2 ^ (h + 1))) ∧
    (∀ t ∈ bp.Targets, ∀ h, numLeaves.testBit h = true →
      t / 2 ^ h = 2 * (numLeaves / 2 ^ (h + 1)) →
      ∃ c ∈ rc, c.Pos = rootPosition numLeaves h (treeRows numLeaves)) :=
  canonical_candidates hn64 hsorted hrange (verify_true_canonical hn64 hsorted hrange hv hne)

/-! ## Proofs made from a forest -/

theorem land_one_eq (t : Nat) : t &&& 1 = t % 2 := Nat.and_one_is_mod t

/-- The seeding of row 0 on the leaf pairs of a forest: the target nodes carry
the hashes of the forest, and the sibling hashes are those of the row-0 proof
positions. -/
theorem seedRow_forest (val : Nat → Hash) (rows : Nat) : ∀ (L : List Nat) (rest : List Hash),
    L.Pairwise (· < ·) →
    seedRow L (leafPairs val L ++ rest)
      = some (L.map (fun p => ⟨val p, p⟩), (proofRow rows L).1.map val, rest) := by
  intro L
  induction L using list_pair_induction with
  | hnil => intro rest _; rfl
  | hone t =>
    intro rest _
    have hx := xor_one_eq t
    rcases Nat.mod_two_eq_zero_or_one t with h | h
    · have h1 : 2 * (t / 2) = t := by omega
      have h2 : t ^^^ 1 = t + 1 := by omega
      simp only [leafPairs, seedRow, proofRow, land_one_eq, h, h1, h2, List.cons_append,
        List.nil_append, List.map_cons, List.map_nil]
      simp
    · have h1 : 2 * (t / 2) + 1 = t := by omega
      have h2 : t ^^^ 1 = 2 * (t / 2) := by omega
      simp only [leafPairs, seedRow, proofRow, land_one_eq, h, h1, h2, List.cons_append,
        List.nil_append, List.map_cons, List.map_nil]
      simp
  | hstep t u l ih1 ih2 =>
    intro rest hs
    have hx := xor_one_eq t
    have htu : t < u := (List.pairwise_cons.mp hs).1 u (List.mem_cons_self _ _)
    have hs2 : (u :: l).Pairwise (· < ·) := (List.pairwise_cons.mp hs).2
    have hs1 : l.Pairwise (· < ·) := (List.pairwise_cons.mp hs2).2
    by_cases hpair : u = t ^^^ 1
    · have h0 : t % 2 = 0 := by omega
      have h1 : 2 * (t / 2) = t := by omega
      have h2 : t + 1 = u := by omega
      simp only [leafPairs, seedRow, proofRow, hpair, if_true, List.cons_append, h1]
      rw [ih1 rest hs1]
      simp only [List.map_cons]
      rw [← hpair, h2]
    · simp only [leafPairs, seedRow, proofRow, hpair, if_false, List.cons_append]
      rw [ih2 rest hs2]
      rcases Nat.mod_two_eq_zero_or_one t with h | h
      · have h1 : 2 * (t / 2) = t := by omega
        have h2 : t ^^^ 1 = t + 1 := by omega
        simp only [land_one_eq, h, h1, h2, List.map_cons]
        simp
      · have h1 : 2 * (t / 2) + 1 = t := by omega
        have h2 : t ^^^ 1 = 2 * (t / 2) := by omega
        simp only [land_one_eq, h, h1, h2, List.map_cons]
        simp

/-- In a forest the hash of a parent is the parent hash of a child and its
sibling, the child on the right when the low bit of its position is set. -/
theorem forest_parent {parentHash : Hash → Hash → Hash} {val : Nat → Hash} {numLeaves i : Nat}
    (hn : numLeaves ≤ 2 ^ treeRows numLeaves)
    (hF : IsForest parentHash val numLeaves) {L : List Nat}
    (hL : RowList numLeaves (treeRows numLeaves) i L) {p : Nat} (hp : p ∈ L) :
    (if p &&& 1 = 1 then parentHash (val (p ^^^ 1)) (val p)
      else parentHash (val p) (val (p ^^^ 1))) = val (parent p (treeRows numLeaves)) := by
  obtain ⟨hi, x, rfl, hx1, hx⟩ := rowList_mem hn hL hp
  rw [parent_rowStart hi hx, xor_one_rowStart (Nat.le_of_lt hi), land_one_eq]
  have hev := @rowStart_even (treeRows numLeaves) i (Nat.le_of_lt hi)
  have hF1 := hF i (x / 2) hi (by omega)
  have hxo := xor_one_eq x
  rcases Nat.mod_two_eq_zero_or_one x with h | h
  · have h1 : (rowStart (treeRows numLeaves) i + x) % 2 = 0 := by omega
    have h2 : 2 * (x / 2) = x := by omega
    have h3 : x ^^^ 1 = x + 1 := by omega
    rw [h2] at hF1
    rw [h1, h3, hF1]
    simp
    rfl
  · have h1 : (rowStart (treeRows numLeaves) i + x) % 2 = 1 := by omega
    have h2 : rowStart (treeRows numLeaves) i + 2 * (x / 2) + 1
        = rowStart (treeRows numLeaves) i + x := by omega
    have h3 : x ^^^ 1 = 2 * (x / 2) := by omega
    rw [h2] at hF1
    rw [h1, h3, hF1]
    simp

/-- One row of the climb on nodes that carry the hashes of a forest, with the
forest's hashes at the proof positions of the row: the row succeeds, consumes
exactly these hashes, and the parents carry the hashes of the forest. -/
theorem rowStep_forest {parentHash : Hash → Hash → Hash} {val : Nat → Hash} {numLeaves i : Nat}
    (hn : numLeaves ≤ 2 ^ treeRows numLeaves)
    (hF : IsForest parentHash val numLeaves) : ∀ (L : List Nat) (rest : List Hash),
    RowList numLeaves (treeRows numLeaves) i L →
    ∃ T, rowStep parentHash noCache (treeRows numLeaves) (L.map (fun p => ⟨val p, p⟩))
        ((proofRow (treeRows numLeaves) L).1.map val ++ rest) = some (T, rest) ∧
      T.map (·.parent) = (proofRow (treeRows numLeaves) L).2.map (fun p => ⟨val p, p⟩) := by
  intro L
  induction L using list_pair_induction with
  | hnil => intro rest _; exact ⟨[], rfl, rfl⟩
  | hone t =>
    intro rest hL
    have hp := forest_parent hn hF hL (List.mem_cons_self _ _)
    refine ⟨_, rfl, ?_⟩
    simp only [List.map_cons, List.map_nil, hashParent_noCache_parent, proofRow]
    rw [hp]
  | hstep t u l ih1 ih2 =>
    intro rest hL
    have hLu := rowList_tail hL
    have hLl := rowList_tail hLu
    have hp := forest_parent hn hF hL (List.mem_cons_self _ _)
    by_cases hpair : u = t ^^^ 1
    · obtain ⟨T1, h1, h2⟩ := ih1 rest hLl
      refine ⟨hashParent parentHash noCache (treeRows numLeaves) ⟨val t, t⟩ ⟨val u, u⟩ :: T1, ?_, ?_⟩
      · simp only [List.map_cons, rowStep, proofRow, hpair, if_true]
        rw [h1]
      · simp only [List.map_cons, proofRow, hpair, if_true, hashParent_noCache_parent, h2]
        rw [hp]
    · obtain ⟨T1, h1, h2⟩ := ih2 rest hLu
      refine ⟨hashParent parentHash noCache (treeRows numLeaves) ⟨val t, t⟩
        ⟨val (t ^^^ 1), t ^^^ 1⟩ :: T1, ?_, ?_⟩
      · simp only [List.map_cons, rowStep, proofRow, hpair, if_false, List.cons_append]
        simp only [List.map_cons] at h1
        rw [h1]
      · simp only [List.map_cons, proofRow, hpair, if_false, hashParent_noCache_parent, h2]
        rw [hp]

/-- The parents of a row that are no roots, for nodes that carry the hashes of a
forest: the nodes of the next row list, with the hashes of the forest. -/
theorem next_nodes_forest {val : Nat → Hash} {numLeaves rows i : Nat}
    (hn : numLeaves ≤ 2 ^ rows) {L : List Nat} (hL : RowList numLeaves rows i L) :
    (((proofRow rows L).2.map (fun p => (⟨val p, p⟩ : node))).filter
        (fun p => !isRootNode numLeaves rows p))
      = ((proofRow rows L).2.filter (fun p => !isRootAt numLeaves rows (i + 1) p)).map
          (fun p => ⟨val p, p⟩) := by
  obtain ⟨_, hm⟩ := proofRow_parents hn _ hL
  rw [List.filter_map]
  congr 1
  apply List.filter_congr
  intro q hq
  obtain ⟨a, ha, rfl, _⟩ := hm q hq
  simp only [Function.comp]
  rw [isRootNode_parent hn hL ha]

/-- The row-by-row climb on nodes that carry the hashes of a forest, with the
forest's hashes at the proof positions: it succeeds, and the root candidates
carry the hashes of the forest. -/
theorem climbRows_forest {parentHash : Hash → Hash → Hash} {val : Nat → Hash} {numLeaves : Nat}
    (hn : numLeaves ≤ 2 ^ treeRows numLeaves) (hn64 : numLeaves < 2 ^ 64)
    (hF : IsForest parentHash val numLeaves) : ∀ (m i : Nat) (L : List Nat),
    RowList numLeaves (treeRows numLeaves) i L →
    ∃ T C, climbRows parentHash noCache numLeaves (treeRows numLeaves) m
        (L.map (fun p => ⟨val p, p⟩))
        ((proofRows numLeaves (treeRows numLeaves) m i L).1.map val) = some (T, C) ∧
      (∀ c ∈ C, c.Val = val c.Pos) ∧ (treeRows numLeaves ≤ i + m → L ≠ [] → C ≠ []) := by
  intro m
  induction m with
  | zero =>
    intro i L hL
    refine ⟨[], [], rfl, fun c hc => absurd hc (List.not_mem_nil _), ?_⟩
    intro hm hne
    obtain ⟨a, l, rfl⟩ := List.exists_cons_of_ne_nil hne
    obtain ⟨hi, _⟩ := rowList_mem hn hL (List.mem_cons_self a l)
    omega
  | succ m ih =>
    intro i L hL
    obtain ⟨T1, h1, h2⟩ := rowStep_forest hn hF L
      ((proofRows numLeaves (treeRows numLeaves) m (i + 1)
        ((proofRow (treeRows numLeaves) L).2.filter
          (fun p => !isRootAt numLeaves (treeRows numLeaves) (i + 1) p))).1.map val) hL
    obtain ⟨T2, C2, h3, h4, h5⟩ := ih (i + 1) _ (rowList_next hn hn64 hL)
    refine ⟨T1 ++ T2, (T1.map (·.parent)).filter (isRootNode numLeaves (treeRows numLeaves)) ++ C2,
      ?_, ?_, ?_⟩
    · simp only [climbRows, proofRows, List.map_append]
      rw [h1]
      simp only
      rw [h2, next_nodes_forest hn hL, h3]
    · intro c hc
      rcases List.mem_append.mp hc with hc | hc
      · rw [h2] at hc
        obtain ⟨q, _, rfl⟩ := List.mem_map.mp (List.mem_filter.mp hc).1
        rfl
      · exact h4 c hc
    · intro hm hne
      obtain ⟨a, l, rfl⟩ := List.exists_cons_of_ne_nil hne
      have hq := proofRow_parent_mem (treeRows numLeaves) (a :: l) a (List.mem_cons_self a l)
      by_cases hroot : isRootAt numLeaves (treeRows numLeaves) (i + 1)
          (parent a (treeRows numLeaves)) = true
      · have hmem : (⟨val (parent a (treeRows numLeaves)), parent a (treeRows numLeaves)⟩ : node)
            ∈ (T1.map (·.parent)).filter (isRootNode numLeaves (treeRows numLeaves)) := by
          rw [h2]
          refine List.mem_filter.mpr ⟨List.mem_map.mpr ⟨_, hq, rfl⟩, ?_⟩
          rw [isRootNode_parent hn hL (List.mem_cons_self a l)]
          exact hroot
        intro hc
        rw [List.append_eq_nil] at hc
        rw [hc.1] at hmem
        exact absurd hmem (List.not_mem_nil _)
      · have hmem : parent a (treeRows numLeaves) ∈ (proofRow (treeRows numLeaves) (a :: l)).2.filter
            (fun p => !isRootAt numLeaves (treeRows numLeaves) (i + 1) p) := by
          refine List.mem_filter.mpr ⟨hq, ?_⟩
          simpa using hroot
        have := h5 (by omega) (List.ne_nil_of_mem hmem)
        intro hc
        rw [List.append_eq_nil] at hc
        exact this hc.2

/-- A finished climb with a root candidate whose candidate hashes are, in order,
a subsequence of `roots` makes `verifyBatchProof` return true. -/
theorem verify_of_candidates {parentHash : Hash → Hash → Hash} {bp : BatchProof}
    {roots : List Hash} {numLeaves : Nat} {cached : Option (Nat → Bool × Hash)}
    {trees : List Triple} {rc : List node}
    (hclimb : climbOf parentHash bp roots numLeaves cached = some ⟨.completed, trees, rc⟩)
    (hne : rc ≠ []) (hsub : (rc.map node.Val).Sublist roots) :
    verifyBatchProof parentHash bp roots numLeaves cached = .ok (true, trees, rc) := by
  have hm := rootMatches_eq_length_iff rc roots 0 (Nat.zero_le _)
  rw [List.drop_zero] at hm
  rw [verify_of_climbOf hclimb]
  unfold rootCheck
  simp only
  rw [if_neg (fun h => hne (List.length_eq_zero.mp h)), if_neg (not_not.mpr (hm.mpr hsub))]

/-- The roots of a forest with an odd number of leaves start with the row-0 root. -/
theorem forestRoots_odd (val : Nat → Hash) {numLeaves : Nat} (hodd : numLeaves % 2 = 1) :
    ∃ rs, forestRoots val numLeaves = val (numLeaves - 1) :: rs := by
  unfold forestRoots
  rw [List.range_succ_eq_map, List.filter_cons]
  have h0 : numLeaves.testBit 0 = true := by
    rw [testBit_iff_div_odd]; simpa using hodd
  rw [if_pos h0, List.map_cons]
  have hpos : rootPosition numLeaves 0 (treeRows numLeaves) = numLeaves - 1 := by
    unfold rootPosition
    rw [rowStart_zero]
    simp only [Nat.zero_add, pow_one]
    omega
  rw [hpos]
  exact ⟨_, rfl⟩

/-- The row-by-row run on the proof made from a forest succeeds; its root
candidates carry the hashes of the forest, and there is one. -/
theorem canonicalClimb_forest {parentHash : Hash → Hash → Hash} {val : Nat → Hash}
    {numLeaves : Nat} (hn64 : numLeaves < 2 ^ 64) (hF : IsForest parentHash val numLeaves)
    {targets : List Nat} (hsorted : targets.Pairwise (· < ·))
    (hrange : ∀ t ∈ targets, t < numLeaves) (hne : targets ≠ []) :
    ∃ T RC, canonicalClimb parentHash noCache (forestRoots val numLeaves) numLeaves targets
        (forestProof val numLeaves targets) = some (T, RC) ∧
      (∀ c ∈ RC, c.Val = val c.Pos) ∧ RC ≠ [] := by
  obtain ⟨hn, _, _⟩ := treeRows_spec (Nat.le_of_lt hn64)
  obtain ⟨hL, hsplit⟩ := @targets_split numLeaves (treeRows numLeaves) hn64 targets hsorted hrange
  unfold canonicalClimb forestProof ProofPositions
  simp only
  generalize hlow : targets.filter (fun t => !isRootAt numLeaves (treeRows numLeaves) 0 t)
    = low at hL hsplit
  have hpp : (proofRows numLeaves (treeRows numLeaves) (treeRows numLeaves + 1) 0 low).1
      = (proofRow (treeRows numLeaves) low).1 ++
        (proofRows numLeaves (treeRows numLeaves) (treeRows numLeaves) (0 + 1)
          ((proofRow (treeRows numLeaves) low).2.filter
            (fun p => !isRootAt numLeaves (treeRows numLeaves) (0 + 1) p))).1 := rfl
  obtain ⟨T, C, hc, hlab, hC⟩ := climbRows_forest hn hn64 hF (treeRows numLeaves + 1) 0 low hL
  rw [hpp, List.map_append] at hc
  rw [hpp, List.drop_left]
  rcases hsplit with heq | ⟨hodd, heq⟩
  · have hlen : ¬ low.length < targets.length := by rw [← heq]; exact Nat.lt_irrefl _
    rw [if_neg hlen, List.append_nil, seedRow_forest val (treeRows numLeaves) low _ hL.1]
    simp only
    rw [if_neg hlen, hc]
    exact ⟨T, C, rfl, hlab, hC (by omega) (by rw [← heq]; exact hne)⟩
  · have hlen : low.length < targets.length := by
      rw [heq, List.length_append, List.length_singleton]; omega
    obtain ⟨rs, hrs⟩ := forestRoots_odd val hodd
    rw [if_pos hlen, List.append_assoc, seedRow_forest val (treeRows numLeaves) low _ hL.1]
    simp only
    rw [if_pos hlen, hrs]
    simp only [List.singleton_append]
    rw [hc]
    refine ⟨T, ⟨val (numLeaves - 1), numLeaves - 1⟩ :: C, rfl, ?_, List.cons_ne_nil _ _⟩
    intro c hcm
    rcases List.mem_cons.mp hcm with rfl | hcm
    · rfl
    · exact hlab c hcm

/-- Ascending rows of trees of the forest select a subsequence of the roots of the
forest. -/
theorem forestRoots_sublist (val : Nat → Hash) {numLeaves : Nat}
    (hn : numLeaves ≤ 2 ^ treeRows numLeaves) {rc : List node}
    (hlab : ∀ c ∈ rc, c.Val = val c.Pos)
    (hrows : (rc.map (fun c => detectRow c.Pos (treeRows numLeaves))).Pairwise (· < ·))
    (hroot : ∀ c ∈ rc, numLeaves.testBit (detectRow c.Pos (treeRows numLeaves)) = true ∧
      c.Pos = rootPosition numLeaves (detectRow c.Pos (treeRows numLeaves)) (treeRows numLeaves)) :
    (rc.map node.Val).Sublist (forestRoots val numLeaves) := by
  have hmap : rc.map node.Val
      = (rc.map (fun c => detectRow c.Pos (treeRows numLeaves))).map
          (fun h => val (rootPosition numLeaves h (treeRows numLeaves))) := by
    rw [List.map_map]
    apply List.map_congr_left
    intro c hc
    simp only [Function.comp]
    rw [← (hroot c hc).2]
    exact hlab c hc
  rw [hmap]
  unfold forestRoots
  apply List.Sublist.map
  have hsorted2 : ((List.range (treeRows numLeaves + 1)).filter
      (fun h => numLeaves.testBit h)).Pairwise (· < ·) :=
    List.Pairwise.filter _ (List.pairwise_lt_range _)
  refine List.sublist_of_subperm_of_sorted (r := (· < ·)) ?_ hrows hsorted2
  apply List.subperm_of_subset (hrows.imp (fun h => Nat.ne_of_lt h))
  intro h hh
  obtain ⟨c, hc, rfl⟩ := List.mem_map.mp hh
  have hbit := (hroot c hc).1
  refine List.mem_filter.mpr ⟨List.mem_range.mpr ?_, hbit⟩
  have h1 := Nat.testBit_implies_ge hbit
  have h2 : 2 ^ detectRow c.Pos (treeRows numLeaves) ≤ 2 ^ treeRows numLeaves := le_trans h1 hn
  have := (Nat.pow_le_pow_iff_right (by norm_num : 1 < 2)).mp h2
  omega

/-- Completeness of the verifier: the proof made from a forest for sorted targets
is accepted against the roots of the forest listed from the shortest tree to the
tallest. -/
theorem verify_forest {parentHash : Hash → Hash → Hash} {val : Nat → Hash}
    {numLeaves : Nat} (hn64 : numLeaves < 2 ^ 64) (hF : IsForest parentHash val numLeaves)
    {targets : List Nat} (hsorted : targets.Pairwise (· < ·))
    (hrange : ∀ t ∈ targets, t < numLeaves) (hne : targets ≠ []) :
    ∃ trees rc, verifyBatchProof parentHash ⟨targets, forestProof val numLeaves targets⟩
        (forestRoots val numLeaves) numLeaves none = .ok (true, trees, rc) := by
  obtain ⟨hn, _, _⟩ := treeRows_spec (Nat.le_of_lt hn64)
  obtain ⟨T, RC, hcan, hlab, hRC⟩ := canonicalClimb_forest hn64 hF hsorted hrange hne
  have hclimb := (climbOf_canonical parentHash ⟨targets, forestProof val numLeaves targets⟩
    (forestRoots val numLeaves) none hn64 hsorted hrange hne).1 T RC hcan
  obtain ⟨h1, h2, _⟩ := @canonical_candidates parentHash ⟨targets, forestProof val numLeaves targets⟩ _ _ _ _ _
    hn64 hsorted hrange hcan
  refine ⟨T, RC, verify_of_candidates hclimb hRC (forestRoots_sublist val hn hlab h1 ?_)⟩
  intro c hc
  obtain ⟨h, hh, hbit, hpos, _⟩ := h2 c hc
  subst hh
  exact ⟨hbit, hpos⟩

/-! ## Flipping the low bit of a target -/

/-- The triple of two sibling nodes does not depend on which of the two is the
target and which the proof node. -/
theorem hashParent_swap (parentHash : Hash → Hash → Hash) (cached : Nat → Bool × Hash)
    (rows : Nat) (a b : node) (h : b.Pos = a.Pos ^^^ 1) :
    hashParent parentHash cached rows b a = hashParent parentHash cached rows a b := by
  unfold hashParent
  have hp : parent b.Pos rows = parent a.Pos rows := by rw [h, parent_xor_one]
  have hx := xor_one_eq a.Pos
  have h1 := Nat.and_one_is_mod a.Pos
  have h2 := Nat.and_one_is_mod b.Pos
  rw [hp, h1, h2]
  rcases Nat.mod_two_eq_zero_or_one a.Pos with h0 | h0
  · have hb : b.Pos % 2 = 1 := by omega
    simp [h0, hb]
  · have hb : b.Pos % 2 = 0 := by omega
    simp [h0, hb]

theorem rowStep_cons_unpaired (parentHash : Hash → Hash → Hash) (cached : Nat → Bool × Hash)
    (rows : Nat) (t : node) (N : List node) (h : Hash) (hs : List Hash)
    (hN : ∀ u ∈ N.head?, u.Pos ≠ t.Pos ^^^ 1) :
    rowStep parentHash cached rows (t :: N) (h :: hs)
      = (rowStep parentHash cached rows N hs).map
          (fun r => (hashParent parentHash cached rows t ⟨h, t.Pos ^^^ 1⟩ :: r.1, r.2)) := by
  cases N with
  | nil => simp [rowStep]
  | cons u rest =>
    have hu : u.Pos ≠ t.Pos ^^^ 1 := hN u (by simp)
    simp only [rowStep, hu, if_false]
    cases rowStep parentHash cached rows (u :: rest) hs with
    | none => rfl
    | some r => rfl

theorem rowStep_cons_paired (parentHash : Hash → Hash → Hash) (cached : Nat → Bool × Hash)
    (rows : Nat) (t u : node) (N : List node) (hs : List Hash) (hu : u.Pos = t.Pos ^^^ 1) :
    rowStep parentHash cached rows (t :: u :: N) hs
      = (rowStep parentHash cached rows N hs).map
          (fun r => (hashParent parentHash cached rows t u :: r.1, r.2)) := by
  simp only [rowStep, hu, if_true]
  cases rowStep parentHash cached rows N hs with
  | none => rfl
  | some r => rfl

theorem flipTarget_cons (t x : Nat) (L : List Nat) :
    flipTarget t (x :: L) = (if x = t then t ^^^ 1 else x) :: flipTarget t L := rfl

/-- The triple of an unpaired row-0 target, built from the two hashes `a`, `b`
read for it, is the same for the target and for its sibling. -/
theorem seed_triple_flip (parentHash : Hash → Hash → Hash) (cached : Nat → Bool × Hash)
    (rows t : Nat) (a b : Hash) :
    hashParent parentHash cached rows ⟨if (t ^^^ 1) &&& 1 = 1 then b else a, t ^^^ 1⟩
        ⟨if (t ^^^ 1) &&& 1 = 1 then a else b, (t ^^^ 1) ^^^ 1⟩
      = hashParent parentHash cached rows ⟨if t &&& 1 = 1 then b else a, t⟩
        ⟨if t &&& 1 = 1 then a else b, t ^^^ 1⟩ := by
  have hx := xor_one_mod t
  have h1 := Nat.and_one_is_mod t
  have h2 := Nat.and_one_is_mod (t ^^^ 1)
  rw [xor_one_xor_one, h1, h2, hx]
  rcases Nat.mod_two_eq_zero_or_one t with h0 | h0
  · rw [h0]
    simp only [Nat.sub_zero, if_true, Nat.zero_ne_one, if_false]
    exact hashParent_swap parentHash cached rows ⟨a, t⟩ ⟨b, t ^^^ 1⟩ rfl
  · rw [h0]
    simp only [Nat.sub_self, if_true, Nat.zero_ne_one, if_false]
    exact hashParent_swap parentHash cached rows ⟨b, t⟩ ⟨a, t ^^^ 1⟩ rfl

/-- Seeding row 0 with the low bit of an unpaired target flipped: the two hashes
read for the target change roles, and the first row of the climb computes the
same triples. -/
theorem seedRow_flip (parentHash : Hash → Hash → Hash) (cached : Nat → Bool × Hash)
    (rows t : Nat) : ∀ (L : List Nat) (hs : List Hash), L.Pairwise (· < ·) → t ^^^ 1 ∉ L →
    (seedRow L hs = none → seedRow (flipTarget t L) hs = none) ∧
    (∀ N PH hs1, seedRow L hs = some (N, PH, hs1) →
      ∃ N' PH', seedRow (flipTarget t L) hs = some (N', PH', hs1) ∧
        ∀ Y, rowStep parentHash cached rows N' (PH' ++ Y)
          = rowStep parentHash cached rows N (PH ++ Y)) := by
  intro L
  induction L using list_pair_induction with
  | hnil =>
    intro hs _ _
    refine ⟨fun h => by simp [seedRow] at h, ?_⟩
    intro N PH hs1 h
    exact ⟨N, PH, h, fun _ => rfl⟩
  | hone x =>
    intro hs _ _
    match hs with
    | [] => exact ⟨fun _ => rfl, fun N PH hs1 h => by simp [seedRow] at h⟩
    | [_] => exact ⟨fun _ => rfl, fun N PH hs1 h => by simp [seedRow] at h⟩
    | a :: b :: hs1 =>
      refine ⟨fun h => by simp [seedRow] at h, ?_⟩
      intro N PH hs2 h
      simp only [seedRow, Option.some.injEq, Prod.mk.injEq] at h
      obtain ⟨rfl, rfl, rfl⟩ := h
      by_cases hxt : x = t
      · subst hxt
        refine ⟨[⟨if (x ^^^ 1) &&& 1 = 1 then b else a, x ^^^ 1⟩],
          [if (x ^^^ 1) &&& 1 = 1 then a else b], ?_, ?_⟩
        · simp only [flipTarget, List.map_cons, List.map_nil, if_true, seedRow]
        · intro Y
          simp only [rowStep, List.singleton_append, seed_triple_flip]
      · refine ⟨[⟨if x &&& 1 = 1 then b else a, x⟩], [if x &&& 1 = 1 then a else b], ?_,
          fun _ => rfl⟩
        simp only [flipTarget, List.map_cons, List.map_nil, hxt, if_false, seedRow]
  | hstep x u rest ih1 ih2 =>
    intro hs hsorted hnot
    have hxu : x < u := (List.pairwise_cons.mp hsorted).1 u (List.mem_cons_self _ _)
    have hs2 : (u :: rest).Pairwise (· < ·) := (List.pairwise_cons.mp hsorted).2
    have hs1 : rest.Pairwise (· < ·) := (List.pairwise_cons.mp hs2).2
    have hn2 : t ^^^ 1 ∉ u :: rest := fun h => hnot (List.mem_cons_of_mem _ h)
    have hn1 : t ^^^ 1 ∉ rest := fun h => hn2 (List.mem_cons_of_mem _ h)
    have hxne : x ≠ t ^^^ 1 := fun h => hnot (h ▸ List.mem_cons_self _ _)
    have hune : u ≠ t ^^^ 1 := fun h => hn2 (h ▸ List.mem_cons_self _ _)
    match hs with
    | [] => exact ⟨fun _ => rfl, fun N PH hs1 h => by simp [seedRow] at h⟩
    | [_] => exact ⟨fun _ => rfl, fun N PH hs1 h => by simp [seedRow] at h⟩
    | a :: b :: hs =>
      by_cases hpair : u = x ^^^ 1
      · have hxt : x ≠ t := fun h => hune (by rw [hpair, h])
        have hut : u ≠ t := fun h => hxne (by rw [← h, hpair, xor_one_xor_one])
        have hflip : flipTarget t (x :: u :: rest) = x :: u :: flipTarget t rest := by
          simp only [flipTarget, List.map_cons, hxt, hut, if_false]
        obtain ⟨ihn, ihs⟩ := ih1 hs hs1 hn1
        rw [hflip]
        simp only [seedRow, hpair, if_true]
        cases hrest : seedRow rest hs with
        | none =>
          rw [ihn hrest]
          exact ⟨fun _ => rfl, fun N PH hs1 h => by simp at h⟩
        | some r =>
          obtain ⟨ns, ph, hs3⟩ := r
          obtain ⟨N', PH', h1, h2⟩ := ihs ns ph hs3 hrest
          rw [h1]
          refine ⟨fun h => by simp at h, ?_⟩
          intro N PH hs4 h
          simp only [Option.some.injEq, Prod.mk.injEq] at h
          obtain ⟨rfl, rfl, rfl⟩ := h
          refine ⟨_, _, rfl, ?_⟩
          intro Y
          rw [rowStep_cons_paired _ _ _ _ _ _ _ rfl, rowStep_cons_paired _ _ _ _ _ _ _ rfl, h2]
      · -- the flipped head and its successor are no siblings either
        have hfu : (if u = t then t ^^^ 1 else u) ≠ (if x = t then t ^^^ 1 else x) ^^^ 1 := by
          by_cases hxt : x = t
          · have hut : u ≠ t := by omega
            rw [if_pos hxt, if_neg hut, xor_one_xor_one]
            exact hut
          · rw [if_neg hxt]
            by_cases hut : u = t
            · rw [if_pos hut]
              intro h
              exact hxt (xor_one_inj h).symm
            · rw [if_neg hut]
              exact hpair
        have hflip : flipTarget t (x :: u :: rest)
            = (if x = t then t ^^^ 1 else x) :: (if u = t then t ^^^ 1 else u)
                :: flipTarget t rest := rfl
        have hflip2 : flipTarget t (u :: rest)
            = (if u = t then t ^^^ 1 else u) :: flipTarget t rest := rfl
        obtain ⟨ihn, ihs⟩ := ih2 hs hs2 hn2
        rw [hflip]
        simp only [seedRow, hpair, hfu, if_false]
        rw [← hflip2]
        cases hrest : seedRow (u :: rest) hs with
        | none =>
          rw [ihn hrest]
          exact ⟨fun _ => rfl, fun N PH hs1 h => by simp at h⟩
        | some r =>
          obtain ⟨ns, ph, hs3⟩ := r
          obtain ⟨N', PH', h1, h2⟩ := ihs ns ph hs3 hrest
          rw [h1]
          refine ⟨fun h => by simp at h, ?_⟩
          intro N PH hs4 h
          simp only [Option.some.injEq, Prod.mk.injEq] at h
          obtain ⟨rfl, rfl, rfl⟩ := h
          refine ⟨_, _, rfl, ?_⟩
          intro Y
          have hp1 := (seedRow_pos rows _ _ _ _ _ hrest).1
          have hp2 := (seedRow_pos rows _ _ _ _ _ h1).1
          have hhead1 : ∀ w ∈ ns.head?, w.Pos ≠ (⟨if x &&& 1 = 1 then b else a, x⟩ : node).Pos ^^^ 1 := by
            intro w hw
            cases ns with
            | nil => simp at hw
            | cons n0 ns0 =>
              simp only [List.head?_cons, Option.mem_def, Option.some.injEq] at hw
              subst hw
              simp only [List.map_cons, List.cons.injEq] at hp1
              rw [hp1.1]
              exact hpair
          have hhead2 : ∀ w ∈ N'.head?,
              w.Pos ≠ (⟨if (if x = t then t ^^^ 1 else x) &&& 1 = 1 then b else a,
                if x = t then t ^^^ 1 else x⟩ : node).Pos ^^^ 1 := by
            intro w hw
            cases N' with
            | nil => simp at hw
            | cons n0 ns0 =>
              simp only [List.head?_cons, Option.mem_def, Option.some.injEq] at hw
              subst hw
              rw [hflip2] at hp2
              simp only [List.map_cons, List.cons.injEq] at hp2
              rw [hp2.1]
              exact hfu
          simp only [List.cons_append]
          rw [rowStep_cons_unpaired _ _ _ _ _ _ _ hhead1, rowStep_cons_unpaired _ _ _ _ _ _ _ hhead2,
            h2]
          by_cases hxt : x = t
          · subst hxt
            simp only [if_true, seed_triple_flip]
          · simp only [hxt, if_false]

theorem flipTarget_length (t : Nat) (L : List Nat) : (flipTarget t L).length = L.length := by
  simp [flipTarget]

/-- Flipping the low bit of a target whose sibling is a leaf of the forest and no
target keeps the targets sorted and in range. -/
theorem flipTarget_sorted {numLeaves t : Nat} {targets : List Nat}
    (hsorted : targets.Pairwise (· < ·)) (hrange : ∀ x ∈ targets, x < numLeaves)
    (hsib : t ^^^ 1 ∉ targets) (hleaf : t ^^^ 1 < numLeaves) :
    (flipTarget t targets).Pairwise (· < ·) ∧ (∀ x ∈ flipTarget t targets, x < numLeaves) := by
  have hx := xor_one_eq t
  constructor
  · unfold flipTarget
    rw [List.pairwise_map]
    refine hsorted.imp_of_mem ?_
    intro a b ha hb hab
    have ha1 : a ≠ t ^^^ 1 := fun h => hsib (h ▸ ha)
    have hb1 : b ≠ t ^^^ 1 := fun h => hsib (h ▸ hb)
    by_cases hat : a = t
    · have hbt : b ≠ t := by omega
      rw [if_pos hat, if_neg hbt]
      omega
    · rw [if_neg hat]
      by_cases hbt : b = t
      · rw [if_pos hbt]; omega
      · rw [if_neg hbt]; exact hab
  · intro x hx'
    obtain ⟨y, hy, rfl⟩ := List.mem_map.mp hx'
    by_cases hyt : y = t
    · rw [if_pos hyt]; exact hleaf
    · rw [if_neg hyt]; exact hrange y hy

/-- The row-by-row run is the same after the low bit of a target is flipped,
when the sibling of the target is a leaf of the forest and no target. -/
theorem canonicalClimb_flip (parentHash : Hash → Hash → Hash) (cached : Nat → Bool × Hash)
    (roots : List Hash) {numLeaves t : Nat} {targets : List Nat} (proof : List Hash)
    (hn64 : numLeaves < 2 ^ 64) (hsorted : targets.Pairwise (· < ·))
    (ht : t < numLeaves) (hsib : t ^^^ 1 ∉ targets) (hleaf : t ^^^ 1 < numLeaves) :
    canonicalClimb parentHash cached roots numLeaves (flipTarget t targets) proof
      = canonicalClimb parentHash cached roots numLeaves targets proof := by
  have hx := xor_one_eq t
  have hroot : ∀ x, isRootAt numLeaves (treeRows numLeaves) 0 (if x = t then t ^^^ 1 else x)
      = isRootAt numLeaves (treeRows numLeaves) 0 x := by
    intro x
    by_cases hxt : x = t
    · rw [if_pos hxt, hxt]
      have h1 : ¬ isRootAt numLeaves (treeRows numLeaves) 0 (t ^^^ 1) = true := by
        rw [isRootAt_zero hn64]; omega
      have h2 : ¬ isRootAt numLeaves (treeRows numLeaves) 0 t = true := by
        rw [isRootAt_zero hn64]; omega
      rw [Bool.not_eq_true] at h1 h2
      rw [h1, h2]
    · rw [if_neg hxt]
  have hfilter : (flipTarget t targets).filter
        (fun x => !isRootAt numLeaves (treeRows numLeaves) 0 x)
      = flipTarget t (targets.filter (fun x => !isRootAt numLeaves (treeRows numLeaves) 0 x)) := by
    unfold flipTarget
    rw [List.filter_map]
    congr 1
    apply List.filter_congr
    intro x _
    simp only [Function.comp, hroot]
  unfold canonicalClimb
  simp only
  rw [hfilter, flipTarget_length, flipTarget_length]
  have hlows : (targets.filter
      (fun x => !isRootAt numLeaves (treeRows numLeaves) 0 x)).Pairwise (· < ·) :=
    hsorted.filter _
  have hlown : t ^^^ 1 ∉ targets.filter
      (fun x => !isRootAt numLeaves (treeRows numLeaves) 0 x) :=
    fun h => hsib (List.mem_filter.mp h).1
  generalize targets.filter (fun x => !isRootAt numLeaves (treeRows numLeaves) 0 x) = low
    at hlows hlown
  obtain ⟨hnone, hsome⟩ := seedRow_flip parentHash cached (treeRows numLeaves) t low proof
    hlows hlown
  cases hseed : seedRow low proof with
  | none => rw [hnone hseed]
  | some r =>
    obtain ⟨N, PH, hs1⟩ := r
    obtain ⟨N', PH', h1, h2⟩ := hsome N PH hs1 hseed
    rw [h1]
    have hcl : ∀ Y, climbRows parentHash cached numLeaves (treeRows numLeaves)
        (treeRows numLeaves + 1) N' (PH' ++ Y)
        = climbRows parentHash cached numLeaves (treeRows numLeaves)
          (treeRows numLeaves + 1) N (PH ++ Y) := by
      intro Y
      simp only [climbRows, h2]
    simp only [hcl]

/-! ## Two runs on the same targets -/

theorem collision_mono {parentHash : Hash → Hash → Hash} {T1 T1' T2 T2' : List Triple}
    (h : collision parentHash T1 T1') (h1 : ∀ t ∈ T1, t ∈ T2) (h2 : ∀ t ∈ T1', t ∈ T2') :
    collision parentHash T2 T2' := by
  obtain ⟨t, ht, t', ht', h3, h4⟩ := h
  exact ⟨t, h1 t ht, t', h2 t' ht', h3, h4⟩

/-- Two triples at the same positions with the same parent are built from the
same nodes, or show a collision of `parentHash`. -/
theorem hashParent_rel (parentHash : Hash → Hash → Hash) (rows : Nat) (t t' s s' : node)
    (ht : t.Pos = t'.Pos) (hs : s.Pos = s'.Pos)
    (hp : (hashParent parentHash noCache rows t s).parent
      = (hashParent parentHash noCache rows t' s').parent) :
    (t = t' ∧ s = s') ∨
      collision parentHash [hashParent parentHash noCache rows t s]
        [hashParent parentHash noCache rows t' s'] := by
  by_cases h1 : t.Val = t'.Val ∧ s.Val = s'.Val
  · left
    obtain ⟨tv, tp⟩ := t
    obtain ⟨tv', tp'⟩ := t'
    obtain ⟨sv, sp⟩ := s
    obtain ⟨sv', sp'⟩ := s'
    simp only at ht hs h1
    rw [ht, hs, h1.1, h1.2]
    exact ⟨rfl, rfl⟩
  · right
    refine ⟨_, List.mem_singleton.mpr rfl, _, List.mem_singleton.mpr rfl, ?_, ?_⟩
    · have := congrArg node.Val hp
      unfold hashParent at this ⊢
      simpa [noCache] using this
    · unfold hashParent
      simp only [← ht]
      by_cases hb : t.Pos &&& 1 = 1
      · simp only [hb, if_true]
        by_contra hc
        push_neg at hc
        exact h1 ⟨hc.2, hc.1⟩
      · simp only [hb, if_false]
        by_contra hc
        push_neg at hc
        exact h1 ⟨hc.1, hc.2⟩

/-- One row of the climb for two runs at the same positions with equally many
proof hashes: the second run succeeds when the first does, and when the parents
agree, the nodes and the proof hashes read agree, or there is a collision. -/
theorem rowStep_rel (parentHash : Hash → Hash → Hash) (rows : Nat) : ∀ (L : List Nat)
    (A A' : List node) (hs hs' : List Hash) (T : List Triple) (hs1 : List Hash),
    A.map node.Pos = L → A'.map node.Pos = L → hs'.length = hs.length →
    rowStep parentHash noCache rows A hs = some (T, hs1) →
    ∃ T', rowStep parentHash noCache rows A' hs'
        = some (T', hs'.drop (proofRow rows L).1.length) ∧
      (T.map (·.parent) = T'.map (·.parent) →
        (A = A' ∧ hs.take (proofRow rows L).1.length = hs'.take (proofRow rows L).1.length) ∨
          collision parentHash T T') := by
  intro L
  induction L using list_pair_induction with
  | hnil =>
    intro A A' hs hs' T hs1 hA hA' hlen h
    rw [List.map_eq_nil_iff] at hA hA'
    subst hA; subst hA'
    refine ⟨[], rfl, fun _ => Or.inl ⟨rfl, ?_⟩⟩
    simp [proofRow]
  | hone x =>
    intro A A' hs hs' T hs1 hA hA' hlen h
    match A, hA, A', hA' with
    | [t], hA, [t'], hA' =>
      simp only [List.map_cons, List.map_nil, List.cons.injEq, and_true] at hA hA'
      match hs, hs', hlen with
      | [], _, _ => simp [rowStep] at h
      | g :: hs0, g' :: hs0', hlen =>
        simp only [rowStep, Option.some.injEq, Prod.mk.injEq] at h
        obtain ⟨rfl, rfl⟩ := h
        refine ⟨[hashParent parentHash noCache rows t' ⟨g', t'.Pos ^^^ 1⟩], ?_, ?_⟩
        · simp [rowStep, proofRow]
        · intro hp
          simp only [List.map_cons, List.map_nil, List.cons.injEq, and_true] at hp
          rcases hashParent_rel parentHash rows t t' ⟨g, t.Pos ^^^ 1⟩ ⟨g', t'.Pos ^^^ 1⟩
            (by rw [hA, hA']) (by simp only; rw [hA, hA']) hp with ⟨h1, h2⟩ | hc
          · left
            simp only [node.mk.injEq] at h2
            simp [proofRow, h1, h2.1]
          · exact Or.inr hc
  | hstep x u rest ih1 ih2 =>
    intro A A' hs hs' T hs1 hA hA' hlen h
    match A, hA, A', hA' with
    | t :: v :: A1, hA, t' :: v' :: A1', hA' =>
      simp only [List.map_cons, List.cons.injEq] at hA hA'
      obtain ⟨ht, hv, hA1⟩ := hA
      obtain ⟨ht', hv', hA1'⟩ := hA'
      by_cases hpair : u = x ^^^ 1
      · have hp1 : v.Pos = t.Pos ^^^ 1 := by rw [hv, ht]; exact hpair
        have hp2 : v'.Pos = t'.Pos ^^^ 1 := by rw [hv', ht']; exact hpair
        rw [rowStep_cons_paired _ _ _ _ _ _ _ hp1] at h
        cases hrow : rowStep parentHash noCache rows A1 hs with
        | none => rw [hrow] at h; simp at h
        | some r =>
          obtain ⟨T1, hs2⟩ := r
          rw [hrow] at h
          simp only [Option.map_some', Option.some.injEq, Prod.mk.injEq] at h
          obtain ⟨rfl, rfl⟩ := h
          obtain ⟨T1', h1, h2⟩ := ih1 A1 A1' hs hs' T1 hs2 hA1 hA1' hlen hrow
          refine ⟨hashParent parentHash noCache rows t' v' :: T1', ?_, ?_⟩
          · rw [rowStep_cons_paired _ _ _ _ _ _ _ hp2, h1]
            simp [proofRow, hpair]
          · intro hp
            simp only [List.map_cons, List.cons.injEq] at hp
            have hk : (proofRow rows (x :: u :: rest)).1.length
                = (proofRow rows rest).1.length := by simp [proofRow, hpair]
            rw [hk]
            rcases hashParent_rel parentHash rows t t' v v' (by rw [ht, ht'])
              (by rw [hv, hv']) hp.1 with ⟨e1, e2⟩ | hc
            · rcases h2 hp.2 with ⟨e3, e4⟩ | hc
              · left; rw [e1, e2, e3]; exact ⟨rfl, e4⟩
              · right
                exact collision_mono hc (fun a ha => List.mem_cons_of_mem _ ha)
                  (fun a ha => List.mem_cons_of_mem _ ha)
            · right
              refine collision_mono hc ?_ ?_
              · intro a ha; rw [List.mem_singleton.mp ha]; exact List.mem_cons_self _ _
              · intro a ha; rw [List.mem_singleton.mp ha]; exact List.mem_cons_self _ _
      · have hp1 : ∀ w ∈ (v :: A1).head?, w.Pos ≠ t.Pos ^^^ 1 := by
          intro w hw
          simp only [List.head?_cons, Option.mem_def, Option.some.injEq] at hw
          subst hw; rw [hv, ht]; exact hpair
        have hp2 : ∀ w ∈ (v' :: A1').head?, w.Pos ≠ t'.Pos ^^^ 1 := by
          intro w hw
          simp only [List.head?_cons, Option.mem_def, Option.some.injEq] at hw
          subst hw; rw [hv', ht']; exact hpair
        match hs, hs', hlen with
        | [], _, _ => simp [rowStep, hp1 v (by simp)] at h
        | g :: hs0, g' :: hs0', hlen =>
          rw [rowStep_cons_unpaired _ _ _ _ _ _ _ hp1] at h
          cases hrow : rowStep parentHash noCache rows (v :: A1) hs0 with
          | none => rw [hrow] at h; simp at h
          | some r =>
            obtain ⟨T1, hs2⟩ := r
            rw [hrow] at h
            simp only [Option.map_some', Option.some.injEq, Prod.mk.injEq] at h
            obtain ⟨rfl, rfl⟩ := h
            obtain ⟨T1', h1, h2⟩ := ih2 (v :: A1) (v' :: A1') hs0 hs0' T1 hs2
              (by simp [hv, hA1]) (by simp [hv', hA1'])
              (by simpa using hlen) hrow
            refine ⟨hashParent parentHash noCache rows t' ⟨g', t'.Pos ^^^ 1⟩ :: T1', ?_, ?_⟩
            · rw [rowStep_cons_unpaired _ _ _ _ _ _ _ hp2, h1]
              simp [proofRow, hpair]
            · intro hp
              simp only [List.map_cons, List.cons.injEq] at hp
              have hk : (proofRow rows (x :: u :: rest)).1.length
                  = (proofRow rows (u :: rest)).1.length + 1 := by simp [proofRow, hpair]
              rw [hk]
              rcases hashParent_rel parentHash rows t t' ⟨g, t.Pos ^^^ 1⟩ ⟨g', t'.Pos ^^^ 1⟩
                (by rw [ht, ht']) (by simp only; rw [ht, ht']) hp.1 with ⟨e1, e2⟩ | hc
              · rcases h2 hp.2 with ⟨e3, e4⟩ | hc
                · left
                  simp only [node.mk.injEq] at e2
                  rw [e1, e3, e2.1]
                  simp only [List.take_succ_cons, e4, and_self]
                · right
                  exact collision_mono hc (fun a ha => List.mem_cons_of_mem _ ha)
                    (fun a ha => List.mem_cons_of_mem _ ha)
              · right
                refine collision_mono hc ?_ ?_
                · intro a ha; rw [List.mem_singleton.mp ha]; exact List.mem_cons_self _ _
                · intro a ha; rw [List.mem_singleton.mp ha]; exact List.mem_cons_self _ _

/-- Two lists of nodes at the same positions that agree on the roots among them
and on the others are equal. -/
theorem filter_partition_eq (q : node → Bool) (hq : ∀ a b : node, a.Pos = b.Pos → q a = q b) :
    ∀ (l l' : List node), l.map node.Pos = l'.map node.Pos →
    l.filter q = l'.filter q → l.filter (fun p => !q p) = l'.filter (fun p => !q p) →
    l = l' := by
  intro l
  induction l with
  | nil =>
    intro l' hp _ _
    cases l' with
    | nil => rfl
    | cons b l' => simp at hp
  | cons a l ih =>
    intro l' hp h1 h2
    cases l' with
    | nil => simp at hp
    | cons b l' =>
      simp only [List.map_cons, List.cons.injEq] at hp
      have hab := hq a b hp.1
      cases hqa : q a with
      | true =>
        have hqb : q b = true := by rw [← hab, hqa]
        simp only [List.filter_cons, hqa, hqb, if_true, Bool.not_true, Bool.false_eq_true,
          if_false, List.cons.injEq] at h1 h2
        rw [h1.1, ih l' hp.2 h1.2 h2]
      | false =>
        have hqb : q b = false := by rw [← hab, hqa]
        simp only [List.filter_cons, hqa, hqb, if_true, Bool.not_false, Bool.false_eq_true,
          if_false, List.cons.injEq] at h1 h2
        rw [h2.1, ih l' hp.2 h1 h2.2]

theorem filter_pos_congr (q : node → Bool) (hq : ∀ a b : node, a.Pos = b.Pos → q a = q b) :
    ∀ (l l' : List node), l.map node.Pos = l'.map node.Pos →
    (l.filter q).map node.Pos = (l'.filter q).map node.Pos := by
  intro l
  induction l with
  | nil =>
    intro l' hp
    cases l' with
    | nil => rfl
    | cons b l' => simp at hp
  | cons a l ih =>
    intro l' hp
    cases l' with
    | nil => simp at hp
    | cons b l' =>
      simp only [List.map_cons, List.cons.injEq] at hp
      have hab := hq a b hp.1
      cases hqa : q a with
      | true =>
        have hqb : q b = true := by rw [← hab, hqa]
        simp only [List.filter_cons, hqa, hqb, if_true, List.map_cons, hp.1, ih l' hp.2]
      | false =>
        have hqb : q b = false := by rw [← hab, hqa]
        simp only [List.filter_cons, hqa, hqb, Bool.false_eq_true, if_false, ih l' hp.2]

theorem isRootNode_pos (numLeaves rows : Nat) (a b : node) (h : a.Pos = b.Pos) :
    isRootNode numLeaves rows a = isRootNode numLeaves rows b := by
  unfold isRootNode
  rw [h]

/-- The row-by-row climb for two runs at the same positions with equally many
proof hashes: the second run succeeds when the first does, the candidates are at
the same positions, and when the candidates agree, the nodes and the proof hashes
read agree, or there is a collision. -/
theorem climbRows_rel (parentHash : Hash → Hash → Hash) {numLeaves rows : Nat}
    (hn : numLeaves ≤ 2 ^ rows) (hn64 : numLeaves < 2 ^ 64) : ∀ (m i : Nat) (L : List Nat)
    (A A' : List node) (hs hs' : List Hash) (T : List Triple) (C : List node),
    RowList numLeaves rows i L → A.map node.Pos = L → A'.map node.Pos = L →
    hs'.length = hs.length → rows ≤ i + m →
    climbRows parentHash noCache numLeaves rows m A hs = some (T, C) →
    ∃ T' C', climbRows parentHash noCache numLeaves rows m A' hs' = some (T', C') ∧
      C'.map node.Pos = C.map node.Pos ∧
      (C = C' →
        (A = A' ∧ hs.take (proofRows numLeaves rows m i L).1.length
            = hs'.take (proofRows numLeaves rows m i L).1.length) ∨
          collision parentHash T T') := by
  intro m
  induction m with
  | zero =>
    intro i L A A' hs hs' T C hL hA hA' hlen hm h
    have hLnil : L = [] := by
      cases L with
      | nil => rfl
      | cons a l =>
        obtain ⟨hi, _⟩ := rowList_mem hn hL (List.mem_cons_self a l)
        omega
    subst hLnil
    rw [List.map_eq_nil_iff] at hA hA'
    subst hA; subst hA'
    simp only [climbRows, Option.some.injEq, Prod.mk.injEq] at h
    obtain ⟨rfl, rfl⟩ := h
    exact ⟨[], [], rfl, rfl, fun _ => Or.inl ⟨rfl, by simp [proofRows]⟩⟩
  | succ m ih =>
    intro i L A A' hs hs' T C hL hA hA' hlen hm h
    simp only [climbRows] at h
    cases hrow : rowStep parentHash noCache rows A hs with
    | none => rw [hrow] at h; simp at h
    | some r =>
      obtain ⟨T1, hs1⟩ := r
      rw [hrow] at h
      simp only at h
      cases hup : climbRows parentHash noCache numLeaves rows m
          ((T1.map (·.parent)).filter (fun p => !isRootNode numLeaves rows p)) hs1 with
      | none => rw [hup] at h; simp at h
      | some r2 =>
        obtain ⟨T2, C2⟩ := r2
        rw [hup] at h
        simp only [Option.some.injEq, Prod.mk.injEq] at h
        obtain ⟨rfl, rfl⟩ := h
        obtain ⟨T1', hrow', hrel⟩ := rowStep_rel parentHash rows L A A' hs hs' T1 hs1 hA hA'
          hlen hrow
        obtain ⟨hpar, hdrop⟩ := rowStep_parents parentHash noCache rows A hs T1 hs1 hrow
        obtain ⟨hpar', _⟩ := rowStep_parents parentHash noCache rows A' hs' T1' _ hrow'
        rw [hA] at hpar hdrop
        rw [hA'] at hpar'
        have hLA : RowList numLeaves rows i (A.map node.Pos) := by rw [hA]; exact hL
        have hLA' : RowList numLeaves rows i (A'.map node.Pos) := by rw [hA']; exact hL
        have hnext := next_nodes_pos hn parentHash noCache hLA hrow
        have hnext' := next_nodes_pos hn parentHash noCache hLA' hrow'
        rw [hA] at hnext
        rw [hA'] at hnext'
        have hposT : (T1.map (·.parent)).map node.Pos = (T1'.map (·.parent)).map node.Pos := by
          rw [List.map_map, List.map_map]
          exact hpar.trans hpar'.symm
        subst hdrop
        obtain ⟨T2', C2', hup', hposC, hrel2⟩ := ih (i + 1) _ _ _ (hs.drop (proofRow rows L).1.length)
          (hs'.drop (proofRow rows L).1.length) T2 C2 (rowList_next hn hn64 hL) hnext hnext'
          (by simp only [List.length_drop, hlen]) (by omega) hup
        have hposR := filter_pos_congr (isRootNode numLeaves rows) (isRootNode_pos numLeaves rows)
          _ _ hposT
        refine ⟨T1' ++ T2', (T1'.map (·.parent)).filter (isRootNode numLeaves rows) ++ C2', ?_, ?_, ?_⟩
        · simp only [climbRows, hrow', hup']
        · rw [List.map_append, List.map_append, hposC, hposR]
        · intro hC
          have hlenR : ((T1.map (·.parent)).filter (isRootNode numLeaves rows)).length
              = ((T1'.map (·.parent)).filter (isRootNode numLeaves rows)).length := by
            have := congrArg List.length hposR
            simpa using this
          obtain ⟨hR, hC2⟩ := List.append_inj hC hlenR
          rcases hrel2 hC2 with ⟨e1, e2⟩ | hc
          · have hT := filter_partition_eq (isRootNode numLeaves rows)
              (isRootNode_pos numLeaves rows) _ _ hposT hR e1
            rcases hrel hT with ⟨e3, e4⟩ | hc
            · left
              refine ⟨e3, ?_⟩
              simp only [proofRows, List.length_append]
              rw [List.take_add, List.take_add, e4, e2]
            · right
              exact collision_mono hc (fun a ha => List.mem_append_left _ ha)
                (fun a ha => List.mem_append_left _ ha)
          · right
            exact collision_mono hc (fun a ha => List.mem_append_right _ ha)
              (fun a ha => List.mem_append_right _ ha)

/-- The seeding of row 0 for two runs with equally many proof hashes: the second
run succeeds when the first does, and when the target nodes and the sibling
hashes agree, the proof hashes read agree. -/
theorem seedRow_rel (rows : Nat) : ∀ (L : List Nat) (hs hs' : List Hash) (N : List node)
    (PH hs1 : List Hash), hs'.length = hs.length → seedRow L hs = some (N, PH, hs1) →
    hs1 = hs.drop (2 * (proofRow rows L).2.length) ∧
    ∃ N' PH', seedRow L hs' = some (N', PH', hs'.drop (2 * (proofRow rows L).2.length)) ∧
      (N = N' → PH = PH' →
        hs.take (2 * (proofRow rows L).2.length) = hs'.take (2 * (proofRow rows L).2.length)) := by
  intro L
  induction L using list_pair_induction with
  | hnil =>
    intro hs hs' N PH hs1 hlen h
    simp only [seedRow, Option.some.injEq, Prod.mk.injEq] at h
    obtain ⟨rfl, rfl, rfl⟩ := h
    refine ⟨by simp [proofRow], [], [], by simp [seedRow, proofRow], fun _ _ => by simp [proofRow]⟩
  | hone x =>
    intro hs hs' N PH hs1 hlen h
    match hs, hs', hlen with
    | [], _, _ => simp [seedRow] at h
    | [_], _, _ => simp [seedRow] at h
    | a :: b :: hs0, a' :: b' :: hs0', hlen =>
      simp only [seedRow, Option.some.injEq, Prod.mk.injEq] at h
      obtain ⟨rfl, rfl, rfl⟩ := h
      refine ⟨by simp [proofRow], [⟨if x &&& 1 = 1 then b' else a', x⟩],
        [if x &&& 1 = 1 then a' else b'], rfl, ?_⟩
      intro hN hPH
      simp only [List.cons.injEq, node.mk.injEq, and_true] at hN hPH
      by_cases hb : x &&& 1 = 1
      · simp only [hb, if_true] at hN hPH
        simp [proofRow, hN, hPH]
      · simp only [hb, if_false] at hN hPH
        simp [proofRow, hN, hPH]
  | hstep x u rest ih1 ih2 =>
    intro hs hs' N PH hs1 hlen h
    match hs, hs', hlen with
    | [], _, _ => simp [seedRow] at h
    | [_], _, _ => simp [seedRow] at h
    | a :: b :: hs0, a' :: b' :: hs0', hlen =>
      have hlen0 : hs0'.length = hs0.length := by simpa using hlen
      by_cases hpair : u = x ^^^ 1
      · simp only [seedRow, hpair, if_true] at h
        cases hrest : seedRow rest hs0 with
        | none => rw [hrest] at h; simp at h
        | some r =>
          obtain ⟨ns, ph, hs2⟩ := r
          rw [hrest] at h
          simp only [Option.some.injEq, Prod.mk.injEq] at h
          obtain ⟨rfl, rfl, rfl⟩ := h
          obtain ⟨hd, N', PH', h1, h2⟩ := ih1 hs0 hs0' ns ph hs2 hlen0 hrest
          have hk : 2 * (proofRow rows (x :: u :: rest)).2.length
              = 2 * (proofRow rows rest).2.length + 2 := by
            simp [proofRow, hpair]; ring
          rw [hk]
          refine ⟨by simpa using hd, ⟨a', x⟩ :: ⟨b', x ^^^ 1⟩ :: N', PH', ?_, ?_⟩
          · simp only [seedRow, hpair, if_true, h1]
            simp
          · intro hN hPH
            simp only [List.cons.injEq, node.mk.injEq, and_true] at hN
            obtain ⟨e1, e2, e3⟩ := hN
            have := h2 e3 hPH
            simp [e1, e2, this]
      · simp only [seedRow, hpair, if_false] at h
        cases hrest : seedRow (u :: rest) hs0 with
        | none => rw [hrest] at h; simp at h
        | some r =>
          obtain ⟨ns, ph, hs2⟩ := r
          rw [hrest] at h
          simp only [Option.some.injEq, Prod.mk.injEq] at h
          obtain ⟨rfl, rfl, rfl⟩ := h
          obtain ⟨hd, N', PH', h1, h2⟩ := ih2 hs0 hs0' ns ph hs2 hlen0 hrest
          have hk : 2 * (proofRow rows (x :: u :: rest)).2.length
              = 2 * (proofRow rows (u :: rest)).2.length + 2 := by
            simp [proofRow, hpair]; ring
          rw [hk]
          refine ⟨by simpa using hd, ⟨if x &&& 1 = 1 then b' else a', x⟩ :: N',
            (if x &&& 1 = 1 then a' else b') :: PH', ?_, ?_⟩
          · simp only [seedRow, hpair, if_false, h1]
            simp
          · intro hN hPH
            simp only [List.cons.injEq, node.mk.injEq, and_true] at hN hPH
            have := h2 hN.2 hPH.2
            by_cases hb : x &&& 1 = 1
            · simp only [hb, if_true] at hN hPH
              simp [hN.1, hPH.1, this]
            · simp only [hb, if_false] at hN hPH
              simp [hN.1, hPH.1, this]

/-- The row-by-row run for two proofs of the same length on the same targets:
the second run succeeds when the first does, the candidates are at the same
positions, and when the candidates agree, the proof hashes read agree, or there
is a collision. -/
theorem canonicalClimb_rel (parentHash : Hash → Hash → Hash) (roots : List Hash)
    {numLeaves : Nat} {targets : List Nat} (proof proof' : List Hash)
    (hn64 : numLeaves < 2 ^ 64) (hsorted : targets.Pairwise (· < ·))
    (hrange : ∀ t ∈ targets, t < numLeaves) (hlen : proof'.length = proof.length)
    (T : List Triple) (RC : List node)
    (h : canonicalClimb parentHash noCache roots numLeaves targets proof = some (T, RC)) :
    ∃ T' RC', canonicalClimb parentHash noCache roots numLeaves targets proof' = some (T', RC') ∧
      RC'.map node.Pos = RC.map node.Pos ∧
      (RC = RC' →
        (∀ j, hashRead numLeaves targets j = true → proof[j]? = proof'[j]?) ∨
          collision parentHash T T') := by
  obtain ⟨hn, _, _⟩ := treeRows_spec (Nat.le_of_lt hn64)
  obtain ⟨hL, _⟩ := @targets_split numLeaves (treeRows numLeaves) hn64 targets hsorted hrange
  unfold canonicalClimb at h ⊢
  unfold hashRead ProofPositions
  simp only at h ⊢
  generalize targets.filter (fun t => !isRootAt numLeaves (treeRows numLeaves) 0 t) = low
    at hL h ⊢
  cases hseed : seedRow low proof with
  | none => rw [hseed] at h; simp at h
  | some r =>
    obtain ⟨N, PH, hs1⟩ := r
    rw [hseed] at h
    simp only at h
    obtain ⟨hd, N', PH', hseed', hinj⟩ := seedRow_rel (treeRows numLeaves) low proof proof' N PH
      hs1 hlen hseed
    obtain ⟨hNpos, hPHlen⟩ := seedRow_pos (treeRows numLeaves) _ _ _ _ _ hseed
    obtain ⟨hNpos', hPHlen'⟩ := seedRow_pos (treeRows numLeaves) _ _ _ _ _ hseed'
    rw [hseed']
    simp only
    have hK : (proofRow (treeRows numLeaves) low).1.length
        ≤ (proofRows numLeaves (treeRows numLeaves) (treeRows numLeaves + 1) 0 low).1.length := by
      simp only [proofRows, List.length_append]; omega
    -- the climb on the sibling hashes and the proof hashes `X` that follow
    have hclimb : ∀ (a : Nat) (T : List Triple) (C : List node),
        climbRows parentHash noCache numLeaves (treeRows numLeaves) (treeRows numLeaves + 1) N
          (PH ++ proof.drop a) = some (T, C) →
        ∃ T' C', climbRows parentHash noCache numLeaves (treeRows numLeaves)
            (treeRows numLeaves + 1) N' (PH' ++ proof'.drop a) = some (T', C') ∧
          C'.map node.Pos = C.map node.Pos ∧
          (C = C' →
            (proof.take (2 * (proofRow (treeRows numLeaves) low).2.length)
                = proof'.take (2 * (proofRow (treeRows numLeaves) low).2.length) ∧
              (proof.drop a).take
                  ((proofRows numLeaves (treeRows numLeaves) (treeRows numLeaves + 1) 0 low).1.length
                    - (proofRow (treeRows numLeaves) low).1.length)
                = (proof'.drop a).take
                  ((proofRows numLeaves (treeRows numLeaves) (treeRows numLeaves + 1) 0 low).1.length
                    - (proofRow (treeRows numLeaves) low).1.length)) ∨
              collision parentHash T T') := by
      intro a T C hc
      obtain ⟨T', C', h1, h2, h3⟩ := climbRows_rel parentHash hn hn64 (treeRows numLeaves + 1) 0
        low N N' (PH ++ proof.drop a) (PH' ++ proof'.drop a) T C hL hNpos hNpos'
        (by simp only [List.length_append, List.length_drop, hlen, hPHlen, hPHlen'])
        (by omega) hc
      refine ⟨T', C', h1, h2, ?_⟩
      intro hC
      rcases h3 hC with ⟨e1, e2⟩ | hcoll
      · left
        rw [List.take_append_eq_append_take, List.take_append_eq_append_take,
          List.take_of_length_le (show PH.length ≤ _ by omega),
          List.take_of_length_le (show PH'.length ≤ _ by omega), hPHlen, hPHlen'] at e2
        obtain ⟨e3, e4⟩ := List.append_inj e2 (by rw [hPHlen, hPHlen'])
        exact ⟨hinj e1 e3, e4⟩
      · exact Or.inr hcoll
    -- reading the two equalities of lists index by index
    have hread : ∀ (a : Nat),
        (proof.take (2 * (proofRow (treeRows numLeaves) low).2.length)
            = proof'.take (2 * (proofRow (treeRows numLeaves) low).2.length) ∧
          (proof.drop a).take
              ((proofRows numLeaves (treeRows numLeaves) (treeRows numLeaves + 1) 0 low).1.length
                - (proofRow (treeRows numLeaves) low).1.length)
            = (proof'.drop a).take
              ((proofRows numLeaves (treeRows numLeaves) (treeRows numLeaves + 1) 0 low).1.length
                - (proofRow (treeRows numLeaves) low).1.length)) →
        ∀ j, (j < 2 * (proofRow (treeRows numLeaves) low).2.length ∨
          (a ≤ j ∧ j < a +
            ((proofRows numLeaves (treeRows numLeaves) (treeRows numLeaves + 1) 0 low).1.length
                - (proofRow (treeRows numLeaves) low).1.length))) → proof[j]? = proof'[j]? := by
      intro a ⟨e1, e2⟩ j hj
      rcases hj with hj | ⟨hj1, hj2⟩
      · have := congrArg (fun l => l[j]?) e1
        simpa [List.getElem?_take, hj] using this
      · have := congrArg (fun l => l[j - a]?) e2
        have hja : j - a < (proofRows numLeaves (treeRows numLeaves) (treeRows numLeaves + 1) 0
            low).1.length - (proofRow (treeRows numLeaves) low).1.length := by omega
        have hja2 : a + (j - a) = j := by omega
        simpa [List.getElem?_take, hja, List.getElem?_drop, hja2] using this
    by_cases hroot : low.length < targets.length
    · rw [if_pos hroot] at h ⊢
      simp only [if_pos hroot]
      match roots, h with
      | [], h => simp at h
      | r0 :: roots1, h =>
        subst hd
        cases hdrop : proof.drop (2 * (proofRow (treeRows numLeaves) low).2.length) with
        | nil => rw [hdrop] at h; simp at h
        | cons y hs2 =>
          rw [hdrop] at h
          simp only at h
          have hs2eq : hs2 = proof.drop (2 * (proofRow (treeRows numLeaves) low).2.length + 1) := by
            have := congrArg (List.drop 1) hdrop
            rw [List.drop_drop] at this
            simp only [List.drop_succ_cons, List.drop_zero] at this
            rw [← this]
          cases hdrop' : proof'.drop (2 * (proofRow (treeRows numLeaves) low).2.length) with
          | nil =>
            have h1 := congrArg List.length hdrop
            have h2 := congrArg List.length hdrop'
            simp only [List.length_drop, List.length_cons, List.length_nil] at h1 h2
            omega
          | cons y' hs2' =>
            have hs2eq' : hs2' = proof'.drop
                (2 * (proofRow (treeRows numLeaves) low).2.length + 1) := by
              have := congrArg (List.drop 1) hdrop'
              rw [List.drop_drop] at this
              simp only [List.drop_succ_cons, List.drop_zero] at this
              rw [← this]
            simp only
            cases hc : climbRows parentHash noCache numLeaves (treeRows numLeaves)
                (treeRows numLeaves + 1) N (PH ++ hs2) with
            | none => rw [hc] at h; simp at h
            | some r =>
              obtain ⟨T0, C⟩ := r
              rw [hc] at h
              simp only [Option.some.injEq, Prod.mk.injEq] at h
              obtain ⟨rfl, rfl⟩ := h
              rw [hs2eq] at hc
              obtain ⟨T', C', h1, h2, h3⟩ := hclimb _ T0 C hc
              rw [hs2eq', h1]
              refine ⟨T', ⟨r0, numLeaves - 1⟩ :: C', rfl, by simp [h2], ?_⟩
              intro hRC
              simp only [List.cons.injEq, true_and] at hRC
              rcases h3 hRC with e | hcoll
              · left
                intro j hj
                rw [decide_eq_true_eq] at hj
                exact hread _ e j hj
              · exact Or.inr hcoll
    · rw [if_neg hroot] at h ⊢
      simp only [if_neg hroot]
      subst hd
      obtain ⟨T', C', h1, h2, h3⟩ := hclimb _ T RC h
      refine ⟨T', C', h1, h2, ?_⟩
      intro hRC
      rcases h3 hRC with e | hcoll
      · left
        intro j hj
        rw [decide_eq_true_eq] at hj
        exact hread _ e j (by simpa using hj)
      · exact Or.inr hcoll

theorem hashRead_nil (numLeaves j : Nat) : hashRead numLeaves [] j = false := by
  unfold hashRead ProofPositions
  simp [proofRow, proofRows_nil]

theorem nodes_eq_of_maps : ∀ (l l' : List node), l.map node.Pos = l'.map node.Pos →
    l.map node.Val = l'.map node.Val → l = l' := by
  intro l
  induction l with
  | nil =>
    intro l' hp _
    cases l' with
    | nil => rfl
    | cons b l' => simp at hp
  | cons a l ih =>
    intro l' hp hv
    cases l' with
    | nil => simp at hp
    | cons b l' =>
      simp only [List.map_cons, List.cons.injEq] at hp hv
      obtain ⟨av, ap⟩ := a
      obtain ⟨bv, bp⟩ := b
      simp only at hp hv
      rw [hp.1, hv.1, ih l' hp.2 hv.2]

/-- The verifier on a proof in which one hash that it reads has been replaced:
the proof is rejected, or accepted with root candidates at the same positions
with other hashes, or accepted with a collision of `parentHash`. -/
theorem verify_tamper {parentHash : Hash → Hash → Hash} {bp : BatchProof} {roots : List Hash}
    {numLeaves : Nat} {trees : List Triple} {rc : List node} {j : Nat} {h h' : Hash}
    (hn64 : numLeaves < 2 ^ 64) (hsorted : bp.Targets.Pairwise (· < ·))
    (hrange : ∀ t ∈ bp.Targets, t < numLeaves)
    (hv : verifyBatchProof parentHash bp roots numLeaves none = .ok (true, trees, rc))
    (hread : hashRead numLeaves bp.Targets j = true)
    (hj : bp.Proof[j]? = some h) (hne : h' ≠ h) :
    verifyBatchProof parentHash ⟨bp.Targets, bp.Proof.set j h'⟩ roots numLeaves none
        = .ok (false, [], []) ∨
      ∃ trees' rc', verifyBatchProof parentHash ⟨bp.Targets, bp.Proof.set j h'⟩ roots numLeaves
          none = .ok (true, trees', rc') ∧ (rc'.map node.Val).Sublist roots ∧
        rc'.map node.Pos = rc.map node.Pos ∧
        (rc'.map node.Val ≠ rc.map node.Val ∨ collision parentHash trees trees') := by
  have hnil : bp.Targets ≠ [] := by
    intro hc
    rw [hc, hashRead_nil] at hread
    cases hread
  have hcan := verify_true_canonical hn64 hsorted hrange hv hnil
  obtain ⟨T', RC', hcan', hpos, hrel⟩ := canonicalClimb_rel parentHash roots bp.Proof
    (bp.Proof.set j h') hn64 hsorted hrange (List.length_set _ _ _) trees rc hcan
  have hclimb := (climbOf_canonical parentHash ⟨bp.Targets, bp.Proof.set j h'⟩ roots none hn64
    hsorted hrange hnil).1 T' RC' hcan'
  have hjlt : j < bp.Proof.length := by
    by_contra hc
    rw [List.getElem?_eq_none (by omega)] at hj
    cases hj
  have hm := rootMatches_eq_length_iff RC' roots 0 (Nat.zero_le _)
  rw [List.drop_zero] at hm
  rw [verify_of_climbOf hclimb]
  unfold rootCheck
  simp only
  by_cases h0 : RC'.length = 0
  · rw [if_pos h0]; exact Or.inl rfl
  · rw [if_neg h0]
    by_cases h1 : RC'.length = rootMatches RC' roots 0
    · rw [if_neg (not_not.mpr h1)]
      right
      refine ⟨T', RC', rfl, hm.mp h1, hpos, ?_⟩
      by_cases hval : RC'.map node.Val = rc.map node.Val
      · right
        rcases hrel (nodes_eq_of_maps _ _ hpos hval).symm with hsame | hcoll
        · exfalso
          have := hsame j hread
          rw [hj, List.getElem?_eq_getElem (by rw [List.length_set]; exact hjlt),
            List.getElem_set_self] at this
          exact hne (Option.some.inj this).symm
        · exact hcoll
      · exact Or.inl hval
    · rw [if_pos h1]; exact Or.inl rfl

/-! ## The number of proof hashes -/

/-- A row with `k` proof positions has `k` unpaired positions; counted twice, its
parents are the positions of the row and its proof positions. -/
theorem proofRow_count (rows : Nat) : ∀ (L : List Nat),
    2 * (proofRow rows L).2.length = L.length + (proofRow rows L).1.length := by
  intro L
  induction L using list_pair_induction with
  | hnil => simp [proofRow]
  | hone t => simp [proofRow]
  | hstep t u rest ih1 ih2 =>
    by_cases hpair : u = t ^^^ 1
    · simp only [proofRow, hpair, if_true, List.length_cons]; omega
    · simp only [proofRow, hpair, if_false, List.length_cons] at ih2 ⊢; omega

/-- A successful seeding of row 0 reads two hashes for each parent of the row. -/
theorem seedRow_length (rows : Nat) : ∀ (L : List Nat) (hs : List Hash) (N : List node)
    (PH hs1 : List Hash), seedRow L hs = some (N, PH, hs1) →
    hs.length = 2 * (proofRow rows L).2.length + hs1.length := by
  intro L
  induction L using list_pair_induction with
  | hnil =>
    intro hs N PH hs1 h
    simp only [seedRow, Option.some.injEq, Prod.mk.injEq] at h
    obtain ⟨rfl, rfl, rfl⟩ := h
    simp [proofRow]
  | hone x =>
    intro hs N PH hs1 h
    match hs with
    | [] => simp [seedRow] at h
    | [_] => simp [seedRow] at h
    | a :: b :: hs0 =>
      simp only [seedRow, Option.some.injEq, Prod.mk.injEq] at h
      obtain ⟨rfl, rfl, rfl⟩ := h
      simp [proofRow]; omega
  | hstep x u rest ih1 ih2 =>
    intro hs N PH hs1 h
    match hs with
    | [] => simp [seedRow] at h
    | [_] => simp [seedRow] at h
    | a :: b :: hs0 =>
      by_cases hpair : u = x ^^^ 1
      · simp only [seedRow, hpair, if_true] at h
        cases hrest : seedRow rest hs0 with
        | none => rw [hrest] at h; simp at h
        | some r =>
          obtain ⟨ns, ph, hs2⟩ := r
          rw [hrest] at h
          simp only [Option.some.injEq, Prod.mk.injEq] at h
          obtain ⟨rfl, rfl, rfl⟩ := h
          have := ih1 hs0 ns ph hs2 hrest
          simp only [proofRow, hpair, if_true, List.length_cons]
          omega
      · simp only [seedRow, hpair, if_false] at h
        cases hrest : seedRow (u :: rest) hs0 with
        | none => rw [hrest] at h; simp at h
        | some r =>
          obtain ⟨ns, ph, hs2⟩ := r
          rw [hrest] at h
          simp only [Option.some.injEq, Prod.mk.injEq] at h
          obtain ⟨rfl, rfl, rfl⟩ := h
          have := ih2 hs0 ns ph hs2 hrest
          simp only [proofRow, hpair, if_false, List.length_cons]
          omega

/-- A successful climb reads a hash for every proof position. -/
theorem climbRows_length (parentHash : Hash → Hash → Hash) (cached : Nat → Bool × Hash)
    {numLeaves rows : Nat} (hn : numLeaves ≤ 2 ^ rows) (hn64 : numLeaves < 2 ^ 64) :
    ∀ (m i : Nat) (A : List node) (hs : List Hash) (T : List Triple) (C : List node),
    RowList numLeaves rows i (A.map node.Pos) →
    climbRows parentHash cached numLeaves rows m A hs = some (T, C) →
    (proofRows numLeaves rows m i (A.map node.Pos)).1.length ≤ hs.length := by
  intro m
  induction m with
  | zero => intro i A hs T C _ _; simp [proofRows]
  | succ m ih =>
    intro i A hs T C hL h
    simp only [climbRows] at h
    cases hrow : rowStep parentHash cached rows A hs with
    | none => rw [hrow] at h; simp at h
    | some r =>
      obtain ⟨T1, hs1⟩ := r
      rw [hrow] at h
      simp only at h
      cases hup : climbRows parentHash cached numLeaves rows m
          ((T1.map (·.parent)).filter (fun p => !isRootNode numLeaves rows p)) hs1 with
      | none => rw [hup] at h; simp at h
      | some r2 =>
        have hk : ¬ hs.length < (proofRow rows (A.map node.Pos)).1.length := by
          intro hc
          rw [← rowStep_none parentHash cached rows A hs, hrow] at hc
          cases hc
        obtain ⟨_, hdrop⟩ := rowStep_parents parentHash cached rows A hs T1 hs1 hrow
        have hnext := next_nodes_pos hn parentHash cached hL hrow
        have hL2 := rowList_next hn hn64 hL
        rw [← hnext] at hL2
        have := ih (i + 1) _ hs1 r2.1 r2.2 hL2 hup
        rw [hnext, hdrop, List.length_drop] at this
        simp only [proofRows, List.length_append]
        omega

theorem leafPairs_length (val : Nat → Hash) (rows : Nat) : ∀ (L : List Nat),
    (leafPairs val L).length = 2 * (proofRow rows L).2.length := by
  intro L
  induction L using list_pair_induction with
  | hnil => simp [leafPairs, proofRow]
  | hone t => simp [leafPairs, proofRow]
  | hstep t u rest ih1 ih2 =>
    by_cases hpair : u = t ^^^ 1
    · simp only [leafPairs, proofRow, hpair, if_true, List.length_cons, ih1]; omega
    · simp only [leafPairs, proofRow, hpair, if_false, List.length_cons, ih2]; omega

/-- The number of targets, split into the targets that are no row-0 root and the
row-0 root. -/
theorem targets_length_split {numLeaves : Nat} (hn64 : numLeaves < 2 ^ 64) {targets : List Nat}
    (hsorted : targets.Pairwise (· < ·)) (hrange : ∀ t ∈ targets, t < numLeaves) :
    targets.length
      = (targets.filter (fun t => !isRootAt numLeaves (treeRows numLeaves) 0 t)).length
        + (if (targets.filter (fun t => !isRootAt numLeaves (treeRows numLeaves) 0 t)).length
            < targets.length then 1 else 0) := by
  obtain ⟨_, hsplit⟩ := @targets_split numLeaves (treeRows numLeaves) hn64 targets hsorted hrange
  generalize targets.filter (fun t => !isRootAt numLeaves (treeRows numLeaves) 0 t) = low
    at hsplit
  rcases hsplit with h | ⟨_, h⟩
  · rw [← h]; simp
  · rw [h]; simp

/-- The proof made from a forest has a hash for every target and every proof
position. -/
theorem forestProof_length (val : Nat → Hash) {numLeaves : Nat} (hn64 : numLeaves < 2 ^ 64)
    {targets : List Nat} (hsorted : targets.Pairwise (· < ·))
    (hrange : ∀ t ∈ targets, t < numLeaves) :
    (forestProof val numLeaves targets).length
      = (ProofPositions targets numLeaves (treeRows numLeaves)).1.length + targets.length := by
  have hsplit := targets_length_split hn64 hsorted hrange
  unfold forestProof ProofPositions
  simp only at hsplit ⊢
  generalize targets.filter (fun t => !isRootAt numLeaves (treeRows numLeaves) 0 t) = low
    at hsplit ⊢
  have hcount := proofRow_count (treeRows numLeaves) low
  have hK : (proofRows numLeaves (treeRows numLeaves) (treeRows numLeaves + 1) 0 low).1.length
      = (proofRow (treeRows numLeaves) low).1.length +
        (proofRows numLeaves (treeRows numLeaves) (treeRows numLeaves) (0 + 1)
          ((proofRow (treeRows numLeaves) low).2.filter
            (fun p => !isRootAt numLeaves (treeRows numLeaves) (0 + 1) p))).1.length := by
    simp only [proofRows, List.length_append]
  simp only [List.length_append, List.length_map, List.length_drop,
    leafPairs_length val (treeRows numLeaves)]
  by_cases hroot : low.length < targets.length
  · rw [if_pos hroot] at hsplit ⊢
    simp only [List.length_singleton]
    omega
  · rw [if_neg hroot] at hsplit ⊢
    simp only [List.length_nil]
    omega

/-- A successful row-by-row run has read a hash for every target and every proof
position. -/
theorem canonicalClimb_length (parentHash : Hash → Hash → Hash) (cached : Nat → Bool × Hash)
    (roots : List Hash) {numLeaves : Nat} {targets : List Nat} (proof : List Hash)
    (hn64 : numLeaves < 2 ^ 64) (hsorted : targets.Pairwise (· < ·))
    (hrange : ∀ t ∈ targets, t < numLeaves) (T : List Triple) (RC : List node)
    (h : canonicalClimb parentHash cached roots numLeaves targets proof = some (T, RC)) :
    (ProofPositions targets numLeaves (treeRows numLeaves)).1.length + targets.length
      ≤ proof.length := by
  obtain ⟨hn, _, _⟩ := treeRows_spec (Nat.le_of_lt hn64)
  obtain ⟨hL, _⟩ := @targets_split numLeaves (treeRows numLeaves) hn64 targets hsorted hrange
  have hsplit := targets_length_split hn64 hsorted hrange
  unfold canonicalClimb at h
  unfold ProofPositions
  simp only at h hsplit ⊢
  generalize targets.filter (fun t => !isRootAt numLeaves (treeRows numLeaves) 0 t) = low
    at hL h hsplit ⊢
  have hcount := proofRow_count (treeRows numLeaves) low
  cases hseed : seedRow low proof with
  | none => rw [hseed] at h; simp at h
  | some r =>
    obtain ⟨N, PH, hs1⟩ := r
    rw [hseed] at h
    simp only at h
    have hlen := seedRow_length (treeRows numLeaves) _ _ _ _ _ hseed
    obtain ⟨hNpos, hPHlen⟩ := seedRow_pos (treeRows numLeaves) _ _ _ _ _ hseed
    have hLN : RowList numLeaves (treeRows numLeaves) 0 (N.map node.Pos) := by
      rw [hNpos]; exact hL
    by_cases hroot : low.length < targets.length
    · rw [if_pos hroot] at h hsplit
      match roots, hs1, h with
      | [], _, h => simp at h
      | _ :: _, [], h => simp at h
      | r0 :: _, _ :: hs2, h =>
        simp only at h
        cases hc : climbRows parentHash cached numLeaves (treeRows numLeaves)
            (treeRows numLeaves + 1) N (PH ++ hs2) with
        | none => rw [hc] at h; simp at h
        | some r =>
          have := climbRows_length parentHash cached hn hn64 _ 0 N _ r.1 r.2 hLN hc
          rw [hNpos, List.length_append, hPHlen] at this
          simp only [List.length_cons] at hlen
          omega
    · rw [if_neg hroot] at h hsplit
      have := climbRows_length parentHash cached hn hn64 _ 0 N _ T RC hLN h
      rw [hNpos, List.length_append, hPHlen] at this
      omega

/-! ## Special runs of the verifier -/

/-- The cursor of the root matching stays where it is once it is past the last
root candidate. -/
theorem rootMatches_of_length_le (rc : List node) : ∀ (roots : List Hash) (m : Nat),
    rc.length ≤ m → rootMatches rc roots m = m := by
  intro roots
  induction roots with
  | nil => intro m _; rfl
  | cons root roots ih =>
    intro m hm
    have hget : rc[m]? = none := List.getElem?_eq_none hm
    simp only [rootMatches, hget]
    exact ih m hm

/-! ## The shape of the triples -/

theorem or_one_eq (x : Nat) : x ||| 1 = 2 * (x / 2) + 1 := by
  have h1 : (x ||| 1) / 2 = x / 2 := by rw [Nat.or_div_two]; simp
  have h2 : (x ||| 1) % 2 = 1 := Nat.or_mod_two_eq_one.mpr (Or.inr rfl)
  omega

/-- The triple of a node and a node at its sibling position: the left child is at
the even position of the two, the right child at the odd one, and the parent
position is the parent of both. -/
theorem hashParent_shape (parentHash : Hash → Hash → Hash) (cached : Nat → Bool × Hash)
    (rows : Nat) (t s : node) (hs : s.Pos = t.Pos ^^^ 1) :
    (hashParent parentHash cached rows t s).left.Pos % 2 = 0 ∧
    (hashParent parentHash cached rows t s).right.Pos
      = (hashParent parentHash cached rows t s).left.Pos ||| 1 ∧
    (hashParent parentHash cached rows t s).parent.Pos
      = parent (hashParent parentHash cached rows t s).left.Pos rows := by
  have hx := xor_one_eq t.Pos
  have hm := Nat.and_one_is_mod t.Pos
  unfold hashParent
  simp only
  rw [hm]
  rcases Nat.mod_two_eq_zero_or_one t.Pos with h0 | h0
  · have hc : ¬ t.Pos % 2 = 1 := by omega
    simp only [if_neg hc]
    refine ⟨h0, ?_, trivial⟩
    rw [hs, or_one_eq]; omega
  · simp only [if_pos h0]
    refine ⟨?_, ?_, ?_⟩
    · rw [hs]; omega
    · rw [hs, or_one_eq, xor_one_div]; omega
    · rw [hs, parent_xor_one]

/-- Every triple of a row of the climb has the shape of `hashParent_shape`. -/
theorem rowStep_shape (parentHash : Hash → Hash → Hash) (cached : Nat → Bool × Hash)
    (rows : Nat) : ∀ (n : Nat) (A : List node), A.length ≤ n → ∀ (hs : List Hash)
      (T : List Triple) (hs1 : List Hash),
    rowStep parentHash cached rows A hs = some (T, hs1) →
    ∀ t ∈ T, t.left.Pos % 2 = 0 ∧ t.right.Pos = t.left.Pos ||| 1 ∧
      t.parent.Pos = parent t.left.Pos rows := by
  intro n
  induction n with
  | zero =>
    intro A hA hs T hs1 h
    have : A = [] := List.length_eq_zero.mp (by omega)
    subst this
    simp only [rowStep, Option.some.injEq, Prod.mk.injEq] at h
    obtain ⟨rfl, rfl⟩ := h
    intro t ht; cases ht
  | succ n ih =>
    intro A hA hs T hs1 h
    match A, hA with
    | [], _ =>
      simp only [rowStep, Option.some.injEq, Prod.mk.injEq] at h
      obtain ⟨rfl, rfl⟩ := h
      intro t ht; cases ht
    | [a], _ =>
      cases hs with
      | nil => simp [rowStep] at h
      | cons g hs0 =>
        simp only [rowStep, Option.some.injEq, Prod.mk.injEq] at h
        obtain ⟨rfl, rfl⟩ := h
        intro t ht
        rw [List.mem_singleton.mp ht]
        exact hashParent_shape parentHash cached rows a ⟨g, a.Pos ^^^ 1⟩ rfl
    | a :: u :: rest, hA =>
      simp only [List.length_cons] at hA
      by_cases hpair : u.Pos = a.Pos ^^^ 1
      · rw [rowStep_cons_paired _ _ _ _ _ _ _ hpair] at h
        cases hrow : rowStep parentHash cached rows rest hs with
        | none => rw [hrow] at h; simp at h
        | some r =>
          rw [hrow] at h
          simp only [Option.map_some', Option.some.injEq, Prod.mk.injEq] at h
          obtain ⟨rfl, rfl⟩ := h
          intro t ht
          rcases List.mem_cons.mp ht with rfl | ht
          · exact hashParent_shape parentHash cached rows a u hpair
          · exact ih rest (by omega) hs r.1 r.2 hrow t ht
      · cases hs with
        | nil => simp [rowStep, hpair] at h
        | cons g hs0 =>
          rw [rowStep_cons_unpaired _ _ _ _ _ _ _ (by
            intro w hw
            simp only [List.head?_cons, Option.mem_def, Option.some.injEq] at hw
            subst hw; exact hpair)] at h
          cases hrow : rowStep parentHash cached rows (u :: rest) hs0 with
          | none => rw [hrow] at h; simp at h
          | some r =>
            rw [hrow] at h
            simp only [Option.map_some', Option.some.injEq, Prod.mk.injEq] at h
            obtain ⟨rfl, rfl⟩ := h
            intro t ht
            rcases List.mem_cons.mp ht with rfl | ht
            · exact hashParent_shape parentHash cached rows a ⟨g, a.Pos ^^^ 1⟩ rfl
            · exact ih (u :: rest) (by simp only [List.length_cons]; omega) hs0 r.1 r.2 hrow t ht

/-- Every triple of the row-by-row climb has the shape of `hashParent_shape`. -/
theorem climbRows_shape (parentHash : Hash → Hash → Hash) (cached : Nat → Bool × Hash)
    (numLeaves rows : Nat) : ∀ (m : Nat) (A : List node) (hs : List Hash) (T : List Triple)
      (C : List node),
    climbRows parentHash cached numLeaves rows m A hs = some (T, C) →
    ∀ t ∈ T, t.left.Pos % 2 = 0 ∧ t.right.Pos = t.left.Pos ||| 1 ∧
      t.parent.Pos = parent t.left.Pos rows := by
  intro m
  induction m with
  | zero =>
    intro A hs T C h
    simp only [climbRows, Option.some.injEq, Prod.mk.injEq] at h
    obtain ⟨rfl, rfl⟩ := h
    intro t ht; cases ht
  | succ m ih =>
    intro A hs T C h
    simp only [climbRows] at h
    cases hrow : rowStep parentHash cached rows A hs with
    | none => rw [hrow] at h; simp at h
    | some r =>
      obtain ⟨T1, hs1⟩ := r
      rw [hrow] at h
      simp only at h
      cases hup : climbRows parentHash cached numLeaves rows m
          ((T1.map (·.parent)).filter (fun p => !isRootNode numLeaves rows p)) hs1 with
      | none => rw [hup] at h; simp at h
      | some r2 =>
        rw [hup] at h
        simp only [Option.some.injEq, Prod.mk.injEq] at h
        obtain ⟨rfl, rfl⟩ := h
        intro t ht
        rcases List.mem_append.mp ht with ht | ht
        · exact rowStep_shape parentHash cached rows _ A (le_refl _) hs T1 hs1 hrow t ht
        · exact ih _ hs1 r2.1 r2.2 hup t ht

/-- The triples of the row-by-row run have the shape of `hashParent_shape`. -/
theorem canonicalClimb_shape (parentHash : Hash → Hash → Hash) (cached : Nat → Bool × Hash)
    (roots : List Hash) (numLeaves : Nat) (targets : List Nat) (proof : List Hash)
    (T : List Triple) (RC : List node)
    (h : canonicalClimb parentHash cached roots numLeaves targets proof = some (T, RC)) :
    ∀ t ∈ T, t.left.Pos % 2 = 0 ∧ t.right.Pos = t.left.Pos ||| 1 ∧
      t.parent.Pos = parent t.left.Pos (treeRows numLeaves) := by
  unfold canonicalClimb at h
  simp only at h
  cases hseed : seedRow (targets.filter
      (fun t => !isRootAt numLeaves (treeRows numLeaves) 0 t)) proof with
  | none => rw [hseed] at h; simp at h
  | some r =>
    obtain ⟨N, PH, hs1⟩ := r
    rw [hseed] at h
    simp only at h
    split at h
    · match roots, hs1, h with
      | [], _, h => simp at h
      | _ :: _, [], h => simp at h
      | r0 :: _, _ :: hs2, h =>
        simp only at h
        cases hc : climbRows parentHash cached numLeaves (treeRows numLeaves)
            (treeRows numLeaves + 1) N (PH ++ hs2) with
        | none => rw [hc] at h; simp at h
        | some r =>
          rw [hc] at h
          simp only [Option.some.injEq, Prod.mk.injEq] at h
          obtain ⟨rfl, rfl⟩ := h
          exact climbRows_shape parentHash cached numLeaves _ _ N _ r.1 r.2 hc
    · exact climbRows_shape parentHash cached numLeaves _ _ N _ T RC h

/-! ## The layout of the encoding -/

theorem writeTargets_eq_flatMap (ts : List Nat) : writeTargets ts = ts.flatMap (beBytes 8) := by
  induction ts with
  | nil => rfl
  | cons t ts ih => simp only [writeTargets, List.flatMap_cons, ih]

theorem writeHashes_eq_flatMap (hs : List Hash) : writeHashes hs = hs.flatMap Hash.bytes := by
  induction hs with
  | nil => rfl
  | cons h hs ih => simp only [writeHashes, List.flatMap_cons, ih]

theorem writeTargets_length (ts : List Nat) : (writeTargets ts).length = 8 * ts.length := by
  induction ts with
  | nil => rfl
  | cons t ts ih =>
    simp only [writeTargets, List.length_append, beBytes_length, ih, List.length_cons]
    omega

/-- Reading `n` targets from a buffer of at least `8 * n` bytes succeeds: target
`i` is the number that bytes `8 * i` to `8 * i + 7` denote, and the buffer is
left after byte `8 * n`. -/
theorem readTargets_ok : ∀ (n : Nat) (buf : List Byte), 8 * n ≤ buf.length →
    ∃ ts, readTargets n buf = .ok (ts, buf.drop (8 * n)) ∧ ts.length = n ∧
      ∀ i, i < n → ts[i]? = some (beNat ((buf.drop (8 * i)).take 8)) := by
  intro n
  induction n with
  | zero => intro buf _; exact ⟨[], rfl, rfl, fun i hi => absurd hi (Nat.not_lt_zero i)⟩
  | succ n ih =>
    intro buf hlen
    obtain ⟨ts, h1, h2, h3⟩ := ih (buf.drop 8) (by rw [List.length_drop]; omega)
    refine ⟨beNat (buf.take 8) :: ts, ?_, by rw [List.length_cons, h2], ?_⟩
    · have hge : ¬ buf.length < 8 := by omega
      simp only [readTargets, hge, if_false, h1, List.drop_drop]
      have : 8 + 8 * n = 8 * (n + 1) := by ring
      rw [this]
    · intro i hi
      cases i with
      | zero => simp
      | succ i =>
        have := h3 i (by omega)
        simp only [List.getElem?_cons_succ, this, List.drop_drop]
        have : 8 + 8 * i = 8 * (i + 1) := by ring
        rw [this]

theorem readHashes_length : ∀ (k : Nat) (buf : List Byte), (readHashes k buf).length = k := by
  intro k
  induction k with
  | zero => intro buf; rfl
  | succ k ih => intro buf; simp only [readHashes, List.length_cons, ih]

/-- Hash `j` of `readHashes` is the copy of bytes `32 * j` to `32 * j + 31`. -/
theorem readHashes_getElem : ∀ (k : Nat) (buf : List Byte) (j : Nat), j < k →
    (readHashes k buf)[j]? = some (Hash.copyFrom ((buf.drop (32 * j)).take 32)) := by
  intro k
  induction k with
  | zero => intro buf j hj; omega
  | succ k ih =>
    intro buf j hj
    cases j with
    | zero => simp [readHashes]
    | succ j =>
      simp only [readHashes, List.getElem?_cons_succ, ih (buf.drop 32) j (by omega),
        List.drop_drop]
      have : 32 + 32 * j = 32 * (j + 1) := by ring
      rw [this]

/-! ## Decoding, then encoding -/

theorem beNat_foldl (bs : List Byte) (acc : Nat) :
    bs.foldl (fun a (b : Byte) => a * 256 + b.val) acc = acc * 256 ^ bs.length + beNat bs := by
  induction bs generalizing acc with
  | nil => simp [beNat]
  | cons b bs ih =>
    simp only [beNat, List.foldl_cons, List.length_cons, ih (acc * 256 + b.val),
      ih (0 * 256 + b.val)]
    ring

theorem beNat_cons (b : Byte) (bs : List Byte) :
    beNat (b :: bs) = b.val * 256 ^ bs.length + beNat bs := by
  have := beNat_foldl bs (0 * 256 + b.val)
  simp only [beNat, List.foldl_cons] at this ⊢
  rw [this]; ring

theorem beNat_lt (bs : List Byte) : beNat bs < 256 ^ bs.length := by
  induction bs with
  | nil => simp [beNat]
  | cons b bs ih =>
    rw [beNat_cons, List.length_cons, pow_succ]
    have hb : b.val < 256 := b.isLt
    have : b.val * 256 ^ bs.length + 256 ^ bs.length ≤ 256 * 256 ^ bs.length := by
      have : (b.val + 1) * 256 ^ bs.length ≤ 256 * 256 ^ bs.length :=
        Nat.mul_le_mul_right _ (by omega)
      linarith
    linarith

/-- The big-endian bytes of a number do not depend on what lies above them. -/
theorem beBytes_add_mul (k a r : Nat) : beBytes k (a * 256 ^ k + r) = beBytes k r := by
  induction k generalizing a with
  | zero => rfl
  | succ k ih =>
    have h1 : a * 256 ^ (k + 1) + r = (a * 256) * 256 ^ k + r := by ring
    have hpos : 0 < 256 ^ k := Nat.pow_pos (by norm_num)
    have h2 : (a * 256 ^ (k + 1) + r) / 256 ^ k = a * 256 + r / 256 ^ k := by
      rw [h1, Nat.add_comm, Nat.add_mul_div_right _ _ hpos, Nat.add_comm]
    simp only [beBytes, h2]
    rw [h1, ih (a * 256)]
    congr 1
    apply Fin.ext
    show (a * 256 + r / 256 ^ k) % 256 = (r / 256 ^ k) % 256
    omega

/-- Encoding the number that `k` bytes denote gives the bytes back. -/
theorem beBytes_beNat (bs : List Byte) : beBytes bs.length (beNat bs) = bs := by
  induction bs with
  | nil => rfl
  | cons b bs ih =>
    have hlt := beNat_lt bs
    have hpos : 0 < 256 ^ bs.length := Nat.pow_pos (by norm_num)
    rw [beNat_cons, List.length_cons]
    simp only [beBytes]
    rw [beBytes_add_mul, ih]
    congr 1
    apply Fin.ext
    show (b.val * 256 ^ bs.length + beNat bs) / 256 ^ bs.length % 256 = b.val
    rw [Nat.add_comm, Nat.add_mul_div_right _ _ hpos, Nat.div_eq_of_lt hlt, Nat.zero_add]
    exact Nat.mod_eq_of_lt b.isLt

/-- What `readTargets` has read, written again, is the start of the buffer. -/
theorem readTargets_inv : ∀ (n : Nat) (buf : List Byte) (ts : List Nat) (rest : List Byte),
    readTargets n buf = .ok (ts, rest) → ts.length = n ∧ writeTargets ts ++ rest = buf := by
  intro n
  induction n with
  | zero =>
    intro buf ts rest h
    simp only [readTargets, Except.ok.injEq, Prod.mk.injEq] at h
    obtain ⟨rfl, rfl⟩ := h
    exact ⟨rfl, rfl⟩
  | succ n ih =>
    intro buf ts rest h
    simp only [readTargets] at h
    by_cases hlen : buf.length < 8
    · rw [if_pos hlen] at h; cases h
    · rw [if_neg hlen] at h
      cases hr : readTargets n (buf.drop 8) with
      | error e => rw [hr] at h; cases h
      | ok r =>
        obtain ⟨ts1, rest1⟩ := r
        rw [hr] at h
        simp only [Except.ok.injEq, Prod.mk.injEq] at h
        obtain ⟨rfl, rfl⟩ := h
        obtain ⟨h1, h2⟩ := ih _ _ _ hr
        refine ⟨by rw [List.length_cons, h1], ?_⟩
        have h8 : (buf.take 8).length = 8 := by rw [List.length_take]; omega
        have := beBytes_beNat (buf.take 8)
        rw [h8] at this
        simp only [writeTargets, this, List.append_assoc, h2, List.take_append_drop]

/-- Copying 32 bytes into a hash keeps them. -/
theorem copyFrom_take (buf : List Byte) (h : 32 ≤ buf.length) :
    (Hash.copyFrom (buf.take 32)).bytes = buf.take 32 := by
  have h32 : (buf.take 32).length = 32 := by rw [List.length_take]; omega
  simp only [Hash.copyFrom, List.take_take, Nat.min_self, h32, Nat.sub_self,
    List.replicate_zero, List.append_nil]

theorem writeHashes_readHashes : ∀ (k : Nat) (buf : List Byte), buf.length = 32 * k →
    writeHashes (readHashes k buf) = buf := by
  intro k
  induction k with
  | zero =>
    intro buf h
    have : buf = [] := List.length_eq_zero.mp (by omega)
    subst this; rfl
  | succ k ih =>
    intro buf h
    simp only [readHashes, writeHashes]
    rw [copyFrom_take buf (by omega), ih (buf.drop 32) (by rw [List.length_drop]; omega),
      List.take_append_drop]

/-- Encoding a decoded proof with at least one target gives the input back. -/
theorem toBytes_fromBytes (b : List Byte) (bp : BatchProof)
    (h : FromBytesBatchProof b = .ok bp) (hne : bp.Targets ≠ []) : ToBytes bp = b := by
  unfold FromBytesBatchProof at h
  by_cases h0 : b.length = 0
  · rw [if_pos h0] at h
    injection h with h
    rw [← h] at hne
    exact absurd rfl hne
  · rw [if_neg h0] at h
    by_cases h4 : b.length < 4
    · rw [if_pos h4] at h; cases h
    · rw [if_neg h4] at h
      simp only at h
      cases hr : readTargets (beNat (b.take 4)) (b.drop 4) with
      | error e => rw [hr] at h; cases h
      | ok r =>
        obtain ⟨ts, buf⟩ := r
        rw [hr] at h
        simp only at h
        by_cases hal : buf.length % 32 ≠ 0
        · rw [if_pos hal] at h; cases h
        · rw [if_neg hal] at h
          injection h with h
          subst h
          simp only at hne ⊢
          obtain ⟨hlen, hbuf⟩ := readTargets_inv _ _ _ _ hr
          have h4len : (b.take 4).length = 4 := by rw [List.length_take]; omega
          have hlt := beNat_lt (b.take 4)
          rw [h4len] at hlt
          have hcount : ts.length % 2 ^ 32 = ts.length := by
            apply Nat.mod_eq_of_lt
            rw [hlen]
            norm_num at hlt ⊢
            exact hlt
          have hnz : ¬ ts.length = 0 := fun hc => hne (List.length_eq_zero.mp hc)
          have hbe := beBytes_beNat (b.take 4)
          rw [h4len] at hbe
          unfold ToBytes
          simp only [hcount, hnz, if_false]
          rw [hlen, hbe, writeHashes_readHashes _ buf (by omega), List.append_assoc, hbuf,
            List.take_append_drop]

/-- What `ToBytes` returns starts with a count that is not zero. -/
theorem toBytes_count (bp : BatchProof) (h : ToBytes bp ≠ []) :
    beNat ((ToBytes bp).take 4) = bp.Targets.length % 2 ^ 32 ∧
      1 ≤ bp.Targets.length % 2 ^ 32 := by
  unfold ToBytes at h ⊢
  simp only at h ⊢
  by_cases h0 : bp.Targets.length % 2 ^ 32 = 0
  · rw [if_pos h0] at h; exact absurd rfl h
  · rw [if_neg h0]
    refine ⟨?_, by omega⟩
    have hlen : (beBytes 4 (bp.Targets.length % 2 ^ 32)).length = 4 := beBytes_length _ _
    rw [List.append_assoc, List.take_append_of_le_length (by rw [hlen]),
      List.take_of_length_le (by rw [hlen]), beNat_beBytes]
    have : bp.Targets.length % 2 ^ 32 < 2 ^ 32 := Nat.mod_lt _ (by norm_num)
    exact Nat.mod_eq_of_lt (by norm_num at this ⊢; exact this)

/-! ## The order of the triples -/

/-- Every triple of a row of the climb is built from a node of the row and a node
at its sibling position. -/
theorem rowStep_triple_form (parentHash : Hash → Hash → Hash) (cached : Nat → Bool × Hash)
    (rows : Nat) : ∀ (n : Nat) (A : List node), A.length ≤ n → ∀ (hs : List Hash)
      (T : List Triple) (hs1 : List Hash),
    rowStep parentHash cached rows A hs = some (T, hs1) →
    ∀ t ∈ T, ∃ a ∈ A, ∃ s : node, s.Pos = a.Pos ^^^ 1 ∧
      t = hashParent parentHash cached rows a s := by
  intro n
  induction n with
  | zero =>
    intro A hA hs T hs1 h
    have : A = [] := List.length_eq_zero.mp (by omega)
    subst this
    simp only [rowStep, Option.some.injEq, Prod.mk.injEq] at h
    obtain ⟨rfl, rfl⟩ := h
    intro t ht; cases ht
  | succ n ih =>
    intro A hA hs T hs1 h
    match A, hA with
    | [], _ =>
      simp only [rowStep, Option.some.injEq, Prod.mk.injEq] at h
      obtain ⟨rfl, rfl⟩ := h
      intro t ht; cases ht
    | [a], _ =>
      cases hs with
      | nil => simp [rowStep] at h
      | cons g hs0 =>
        simp only [rowStep, Option.some.injEq, Prod.mk.injEq] at h
        obtain ⟨rfl, rfl⟩ := h
        intro t ht
        rw [List.mem_singleton.mp ht]
        exact ⟨a, List.mem_singleton.mpr rfl, ⟨g, a.Pos ^^^ 1⟩, rfl, rfl⟩
    | a :: u :: rest, hA =>
      simp only [List.length_cons] at hA
      by_cases hpair : u.Pos = a.Pos ^^^ 1
      · rw [rowStep_cons_paired _ _ _ _ _ _ _ hpair] at h
        cases hrow : rowStep parentHash cached rows rest hs with
        | none => rw [hrow] at h; simp at h
        | some r =>
          rw [hrow] at h
          simp only [Option.map_some', Option.some.injEq, Prod.mk.injEq] at h
          obtain ⟨rfl, rfl⟩ := h
          intro t ht
          rcases List.mem_cons.mp ht with rfl | ht
          · exact ⟨a, List.mem_cons_self _ _, u, hpair, rfl⟩
          · obtain ⟨b, hb, s, h1, h2⟩ := ih rest (by omega) hs r.1 r.2 hrow t ht
            exact ⟨b, List.mem_cons_of_mem _ (List.mem_cons_of_mem _ hb), s, h1, h2⟩
      · cases hs with
        | nil => simp [rowStep, hpair] at h
        | cons g hs0 =>
          rw [rowStep_cons_unpaired _ _ _ _ _ _ _ (by
            intro w hw
            simp only [List.head?_cons, Option.mem_def, Option.some.injEq] at hw
            subst hw; exact hpair)] at h
          cases hrow : rowStep parentHash cached rows (u :: rest) hs0 with
          | none => rw [hrow] at h; simp at h
          | some r =>
            rw [hrow] at h
            simp only [Option.map_some', Option.some.injEq, Prod.mk.injEq] at h
            obtain ⟨rfl, rfl⟩ := h
            intro t ht
            rcases List.mem_cons.mp ht with rfl | ht
            · exact ⟨a, List.mem_cons_self _ _, ⟨g, a.Pos ^^^ 1⟩, rfl, rfl⟩
            · obtain ⟨b, hb, s, h1, h2⟩ := ih (u :: rest)
                (by simp only [List.length_cons]; omega) hs0 r.1 r.2 hrow t ht
              exact ⟨b, List.mem_cons_of_mem _ hb, s, h1, h2⟩

/-- The triples of a row: the children are positions of the row, the parent is a
position of the next row. -/
theorem rowStep_rows {numLeaves rows i : Nat} (hn : numLeaves ≤ 2 ^ rows)
    (parentHash : Hash → Hash → Hash) (cached : Nat → Bool × Hash)
    {A : List node} (hL : RowList numLeaves rows i (A.map node.Pos)) {hs : List Hash}
    {T : List Triple} {hs1 : List Hash}
    (hT : rowStep parentHash cached rows A hs = some (T, hs1)) :
    ∀ t ∈ T, t.left.Pos < rowStart rows (i + 1) ∧ t.right.Pos < rowStart rows (i + 1) ∧
      rowStart rows (i + 1) ≤ t.parent.Pos ∧ t.parent.Pos < rowStart rows (i + 1 + 1) := by
  intro t ht
  obtain ⟨a, ha, s, hs1, rfl⟩ := rowStep_triple_form parentHash cached rows _ A (le_refl _)
    hs T _ hT t ht
  have hmem : a.Pos ∈ A.map node.Pos := List.mem_map.mpr ⟨a, ha, rfl⟩
  obtain ⟨hsib1, hsib2⟩ := sibling_in_row hn hL hmem
  obtain ⟨hi, x, hx0, _, hx⟩ := rowList_mem hn hL hmem
  have hself : a.Pos < rowStart rows (i + 1) := by
    rw [hx0, rowStart_succ (Nat.le_of_lt hi)]; omega
  have hpar : (hashParent parentHash cached rows a s).parent.Pos
      = rowStart rows (i + 1) + x / 2 := by
    rw [hashParent_parent_pos, hx0, parent_rowStart hi hx]
  have hup : rowStart rows (i + 1 + 1) = rowStart rows (i + 1) + 2 ^ (rows - (i + 1)) :=
    rowStart_succ (by omega)
  have h3 : rows - i = (rows - (i + 1)) + 1 := by omega
  rw [h3, pow_succ] at hx
  refine ⟨?_, ?_, by rw [hpar]; omega, by rw [hpar, hup]; omega⟩
  · unfold hashParent
    simp only
    split
    · rw [hs1]; exact hsib2
    · exact hself
  · unfold hashParent
    simp only
    split
    · exact hself
    · rw [hs1]; exact hsib2

/-- The triples of the row-by-row climb from row `i`: the parent positions ascend
strictly and lie above row `i`, and the children lie below their parent. -/
theorem climbRows_sorted (parentHash : Hash → Hash → Hash) (cached : Nat → Bool × Hash)
    {numLeaves rows : Nat} (hn : numLeaves ≤ 2 ^ rows) (hn64 : numLeaves < 2 ^ 64) :
    ∀ (m i : Nat) (A : List node) (hs : List Hash) (T : List Triple) (C : List node),
    RowList numLeaves rows i (A.map node.Pos) →
    climbRows parentHash cached numLeaves rows m A hs = some (T, C) →
    (T.map (fun t => t.parent.Pos)).Pairwise (· < ·) ∧
    (∀ t ∈ T, rowStart rows (i + 1) ≤ t.parent.Pos) ∧
    (∀ t ∈ T, t.left.Pos < t.parent.Pos ∧ t.right.Pos < t.parent.Pos) := by
  intro m
  induction m with
  | zero =>
    intro i A hs T C _ h
    simp only [climbRows, Option.some.injEq, Prod.mk.injEq] at h
    obtain ⟨rfl, rfl⟩ := h
    exact ⟨List.Pairwise.nil, fun t ht => absurd ht (List.not_mem_nil t),
      fun t ht => absurd ht (List.not_mem_nil t)⟩
  | succ m ih =>
    intro i A hs T C hL h
    simp only [climbRows] at h
    cases hrow : rowStep parentHash cached rows A hs with
    | none => rw [hrow] at h; simp at h
    | some r =>
      obtain ⟨T1, hs1⟩ := r
      rw [hrow] at h
      simp only at h
      cases hup : climbRows parentHash cached numLeaves rows m
          ((T1.map (·.parent)).filter (fun p => !isRootNode numLeaves rows p)) hs1 with
      | none => rw [hup] at h; simp at h
      | some r2 =>
        obtain ⟨T2, C2⟩ := r2
        rw [hup] at h
        simp only [Option.some.injEq, Prod.mk.injEq] at h
        obtain ⟨rfl, rfl⟩ := h
        have hrows := rowStep_rows hn parentHash cached hL hrow
        obtain ⟨hsorted1, _, _⟩ := rowStep_parent_nodes parentHash cached hn hL hrow
        have hnext := next_nodes_pos hn parentHash cached hL hrow
        have hL2 := rowList_next hn hn64 hL
        rw [← hnext] at hL2
        obtain ⟨hsorted2, hge2, hch2⟩ := ih (i + 1) _ hs1 T2 C2 hL2 hup
        refine ⟨?_, ?_, ?_⟩
        · rw [List.map_append, List.pairwise_append]
          refine ⟨?_, hsorted2, ?_⟩
          · rw [List.pairwise_map] at hsorted1 ⊢
            exact hsorted1
          · intro p hp q hq
            obtain ⟨t, ht, rfl⟩ := List.mem_map.mp hp
            obtain ⟨u, hu, rfl⟩ := List.mem_map.mp hq
            have := (hrows t ht).2.2.2
            have := hge2 u hu
            omega
        · intro t ht
          rcases List.mem_append.mp ht with ht | ht
          · exact (hrows t ht).2.2.1
          · exact le_trans (rowStart_mono rows (i + 1)) (hge2 t ht)
        · intro t ht
          rcases List.mem_append.mp ht with ht | ht
          · have := hrows t ht
            omega
          · exact hch2 t ht

/-- The triples of the row-by-row run on sorted targets: the parent positions
ascend strictly, and the children lie below their parent. -/
theorem canonicalClimb_sorted (parentHash : Hash → Hash → Hash) (cached : Nat → Bool × Hash)
    (roots : List Hash) {numLeaves : Nat} {targets : List Nat} (proof : List Hash)
    (hn64 : numLeaves < 2 ^ 64) (hsorted : targets.Pairwise (· < ·))
    (hrange : ∀ t ∈ targets, t < numLeaves) (T : List Triple) (RC : List node)
    (h : canonicalClimb parentHash cached roots numLeaves targets proof = some (T, RC)) :
    (T.map (fun t => t.parent.Pos)).Pairwise (· < ·) ∧
    (∀ t ∈ T, t.left.Pos < t.parent.Pos ∧ t.right.Pos < t.parent.Pos) := by
  obtain ⟨hn, _, _⟩ := treeRows_spec (Nat.le_of_lt hn64)
  obtain ⟨hL, _⟩ := @targets_split numLeaves (treeRows numLeaves) hn64 targets hsorted hrange
  unfold canonicalClimb at h
  simp only at h
  generalize targets.filter (fun t => !isRootAt numLeaves (treeRows numLeaves) 0 t) = low
    at hL h
  cases hseed : seedRow low proof with
  | none => rw [hseed] at h; simp at h
  | some r =>
    obtain ⟨N, PH, hs1⟩ := r
    rw [hseed] at h
    simp only at h
    obtain ⟨hNpos, _⟩ := seedRow_pos (treeRows numLeaves) _ _ _ _ _ hseed
    have hLN : RowList numLeaves (treeRows numLeaves) 0 (N.map node.Pos) := by
      rw [hNpos]; exact hL
    split at h
    · match roots, hs1, h with
      | [], _, h => simp at h
      | _ :: _, [], h => simp at h
      | r0 :: _, _ :: hs2, h =>
        simp only at h
        cases hc : climbRows parentHash cached numLeaves (treeRows numLeaves)
            (treeRows numLeaves + 1) N (PH ++ hs2) with
        | none => rw [hc] at h; simp at h
        | some r =>
          rw [hc] at h
          simp only [Option.some.injEq, Prod.mk.injEq] at h
          obtain ⟨rfl, rfl⟩ := h
          obtain ⟨h1, _, h3⟩ := climbRows_sorted parentHash cached hn hn64 _ 0 N _ r.1 r.2 hLN hc
          exact ⟨h1, h3⟩
    · obtain ⟨h1, _, h3⟩ := climbRows_sorted parentHash cached hn hn64 _ 0 N _ T RC hLN h
      exact ⟨h1, h3⟩

/-! ## Hashes of the triples, origin of the candidates -/

theorem hashParent_noCache_val (parentHash : Hash → Hash → Hash) (rows : Nat)
    (target proof : node) :
    (hashParent parentHash noCache rows target proof).parent.Val
      = parentHash (hashParent parentHash noCache rows target proof).left.Val
          (hashParent parentHash noCache rows target proof).right.Val := by
  unfold hashParent
  simp only [noCache, Bool.not_false, if_true]

/-- Without a cache the climb loop adds only triples whose parent hash is the
parent hash of the children, and only candidates that are the parent of a
triple. -/
theorem climbLoop_noCache (parentHash : Hash → Hash → Hash) (numLeaves rows : Nat)
    (fuel : Nat) : ∀ (tn : List node) (pp : List Nat) (proofs : List Hash)
      (trees : List Triple) (rc : List node),
    ((∀ t ∈ trees, t.parent.Val = parentHash t.left.Val t.right.Val) →
      ∀ t ∈ (climbLoop parentHash noCache numLeaves rows fuel tn pp proofs trees rc).trees,
        t.parent.Val = parentHash t.left.Val t.right.Val) ∧
    (∀ c ∈ (climbLoop parentHash noCache numLeaves rows fuel tn pp proofs trees rc).rootCandidates,
      c ∈ rc ∨ ∃ t ∈ (climbLoop parentHash noCache numLeaves rows fuel tn pp proofs trees
        rc).trees, t.parent = c) := by
  induction fuel with
  | zero =>
    intro tn pp proofs trees rc
    cases tn with
    | nil => exact ⟨fun h => by simpa [climbLoop] using h, fun c hc => Or.inl (by
        simpa [climbLoop] using hc)⟩
    | cons a r => exact ⟨fun h => by simpa [climbLoop] using h, fun c hc => Or.inl (by
        simpa [climbLoop] using hc)⟩
  | succ fuel ih =>
    intro tn pp proofs trees rc
    cases tn with
    | nil => exact ⟨fun h => by simpa [climbLoop] using h, fun c hc => Or.inl (by
        simpa [climbLoop] using hc)⟩
    | cons tg r =>
      rw [climbLoop_succ]
      cases hp : pickSibling tg r pp proofs with
      | outOfRange => exact ⟨fun h => h, fun c hc => Or.inl hc⟩
      | notFound => exact ⟨fun h => h, fun c hc => Or.inl hc⟩
      | found proof tn1 pp1 proofs1 =>
        simp only
        have hnew : ∀ t ∈ trees ++ [hashParent parentHash noCache rows tg proof],
            (∀ t ∈ trees, t.parent.Val = parentHash t.left.Val t.right.Val) →
            t.parent.Val = parentHash t.left.Val t.right.Val := by
          intro t ht hold
          rcases List.mem_append.mp ht with ht | ht
          · exact hold t ht
          · rw [List.mem_singleton.mp ht]
            exact hashParent_noCache_val parentHash rows tg proof
        split
        · obtain ⟨h1, h2⟩ := ih tn1 pp1 proofs1
            (trees ++ [hashParent parentHash noCache rows tg proof])
            (rc ++ [(hashParent parentHash noCache rows tg proof).parent])
          refine ⟨fun hold => h1 (fun t ht => hnew t ht hold), ?_⟩
          intro c hc
          rcases h2 c hc with hc | hc
          · rcases List.mem_append.mp hc with hc | hc
            · exact Or.inl hc
            · right
              refine ⟨hashParent parentHash noCache rows tg proof, ?_,
                (List.mem_singleton.mp hc).symm⟩
              exact climbLoop_trees_mem parentHash noCache numLeaves rows fuel _ _ _ _ _ _
                (List.mem_append_right _ (List.mem_singleton.mpr rfl))
          · exact Or.inr hc
        · obtain ⟨h1, h2⟩ := ih (tn1 ++ [(hashParent parentHash noCache rows tg proof).parent])
            pp1 proofs1 (trees ++ [hashParent parentHash noCache rows tg proof]) rc
          exact ⟨fun hold => h1 (fun t ht => hnew t ht hold), h2⟩

/-- The seeding loop adds at most one root candidate, at the position of the
row-0 root of a forest with an odd number of leaves. -/
theorem seedLoop_candidates (roots : List Hash) (numLeaves : Nat) (pp : List Nat) (n : Nat) :
    ∀ {targets : List Nat}, targets.length ≤ n → ∀ (proofs : List Hash) (m : Nat)
      (tn : List node) (ph : List Hash) (rc : List node) (s : SeedState),
      seedLoop roots numLeaves pp targets proofs m tn ph rc = .ok (some s) →
      ∀ c ∈ s.rootCandidates, c ∈ rc ∨
        (c.Pos = (numLeaves + 2 ^ 64 - 1) % 2 ^ 64 ∧ numLeaves &&& 1 = 1) := by
  induction n with
  | zero =>
    intro targets h proofs m tn ph rc s hs
    have : targets = [] := List.length_eq_zero.mp (by omega)
    subst this
    simp only [seedLoop, Except.ok.injEq, Option.some.injEq] at hs
    subst hs
    intro c hc; exact Or.inl hc
  | succ n ih =>
    intro targets h proofs m tn ph rc s hs
    cases targets with
    | nil =>
      simp only [seedLoop, Except.ok.injEq, Option.some.injEq] at hs
      subst hs
      intro c hc; exact Or.inl hc
    | cons t ts =>
      simp only [List.length_cons] at h
      unfold seedLoop at hs
      split at hs
      · rename_i hroot
        split at hs
        · simp only [Except.ok.injEq, Option.some.injEq] at hs
          subst hs
          intro c hc
          simp only at hc
          rcases List.mem_append.mp hc with hc | hc
          · exact Or.inl hc
          · right
            rw [List.mem_singleton.mp hc]
            exact ⟨hroot.1, hroot.2⟩
        · cases hs
      · split at hs
        · simp only at hs
          split at hs
          · exact ih (by omega) _ _ _ _ _ s hs
          · cases hs
        · split at hs
          · rename_i p0 p1 proofs2 t1 targets2
            exact ih (by simp only [List.length_cons] at h ⊢; omega) _ _ _ _ _ s hs
          · cases hs

theorem PolNode.at_append (n : PolNode) (p q : List Bool) : n.at (p ++ q) = (n.at p).at q := by
  induction p generalizing n with
  | nil => simp [PolNode.at]
  | cons b p ih =>
    cases n with
    | nil => cases q <;> simp [PolNode.at]
    | node d n0 n1 => simp only [List.cons_append, PolNode.at]; exact ih _

theorem PolNode.at_modifyAt (f : PolNode → PolNode) (n : PolNode) (p : List Bool)
    (h : n.at p ≠ .nil) : (PolNode.modifyAt f p n).at p = f (n.at p) := by
  induction p generalizing n with
  | nil => simp [PolNode.at, PolNode.modifyAt]
  | cons b p ih =>
    cases n with
    | nil => exact absurd (by simp [PolNode.at]) h
    | node d n0 n1 =>
      cases b
      · simp only [PolNode.modifyAt, PolNode.at] at h ⊢
        exact ih _ h
      · simp only [PolNode.modifyAt, PolNode.at] at h ⊢
        exact ih _ h

theorem findTriple_both (pos l r : Nat) (ts : List Triple) (k i : Nat) (t : Triple) (both : Bool)
    (h : findTriple pos l r ts k = some (i, t, both)) (hp : t.parent.Pos = pos) : both = true := by
  induction ts generalizing k with
  | nil => simp [findTriple] at h
  | cons u ts ih =>
    simp only [findTriple] at h
    split at h
    · simp only [Option.some.injEq, Prod.mk.injEq] at h
      exact h.2.2.symm
    · rename_i hn
      split at h
      · simp only [Option.some.injEq, Prod.mk.injEq] at h
        rw [h.2.1] at hn
        exact absurd (Or.inl hp) hn
      · exact ih _ h

theorem ensureNiece_ne_nil (n : PolNode) (a cap : Nat) (m : PolNode) (b : Nat)
    (h : ensureNiece n a cap = .ok (m, b)) : ∃ d x y, m = .node d x y := by
  cases n with
  | nil =>
    simp only [ensureNiece] at h
    split at h
    · simp only [Except.ok.injEq, Prod.mk.injEq] at h
      exact ⟨_, _, _, h.1.symm⟩
    · cases h
  | node d x y =>
    simp only [ensureNiece, Except.ok.injEq, Prod.mk.injEq] at h
    exact ⟨_, _, _, h.1.symm⟩

theorem placeNieces_both (t : Triple) (n : PolNode) (a cap : Nat) (m : PolNode) (b : Nat)
    (h : placeNieces true t n a cap = .ok (m, b)) :
    (m.at [false]).hash = t.left.Val ∧ (m.at [true]).hash = t.right.Val := by
  cases n with
  | nil => simp [placeNieces] at h
  | node d n0 n1 =>
    simp only [placeNieces, if_true] at h
    cases h0 : ensureNiece n0 a cap with
    | error f => rw [h0] at h; cases h
    | ok r0 =>
      obtain ⟨right, a1⟩ := r0
      rw [h0] at h
      simp only at h
      cases h1 : ensureNiece n1 a1 cap with
      | error f => rw [h1] at h; cases h
      | ok r1 =>
        obtain ⟨left, a2⟩ := r1
        rw [h1] at h
        simp only [Except.ok.injEq, Prod.mk.injEq] at h
        obtain ⟨d0, x0, y0, e0⟩ := ensureNiece_ne_nil _ _ _ _ _ h0
        obtain ⟨d1, x1, y1, e1⟩ := ensureNiece_ne_nil _ _ _ _ _ h1
        rw [← h.1, e0, e1]
        simp [PolNode.at, PolNode.setData, PolNode.hash]

theorem mapSet_keys_mem (m : ProofTree) (k : Nat) (v : Hash) (k1 : Nat) :
    k1 ∈ (mapSet m k v).map Prod.fst ↔ k1 = k ∨ k1 ∈ m.map Prod.fst := by
  induction m with
  | nil => simp [mapSet]
  | cons e m ih =>
    obtain ⟨a, b⟩ := e
    simp only [mapSet]
    split
    · simp
    · split
      · rename_i h1 h2
        subst h2
        simp
      · simp only [List.map_cons, List.mem_cons, ih]
        tauto

theorem mapSet_sorted (m : ProofTree) (k : Nat) (v : Hash)
    (h : (m.map Prod.fst).Pairwise (· < ·)) : ((mapSet m k v).map Prod.fst).Pairwise (· < ·) := by
  induction m with
  | nil => simp [mapSet]
  | cons e m ih =>
    obtain ⟨a, b⟩ := e
    simp only [List.map_cons, List.pairwise_cons] at h
    simp only [mapSet]
    split
    · rename_i hlt
      simp only [List.map_cons, List.pairwise_cons, List.mem_cons]
      refine ⟨?_, h.1, h.2⟩
      intro x hx
      rcases hx with rfl | hx
      · exact hlt
      · exact Nat.lt_trans hlt (h.1 x hx)
    · split
      · rename_i h1 h2
        subst h2
        simp only [List.map_cons, List.pairwise_cons]
        exact h
      · rename_i h1 h2
        simp only [List.map_cons, List.pairwise_cons]
        refine ⟨?_, ih h.2⟩
        intro x hx
        rcases (mapSet_keys_mem m k v x).mp hx with rfl | hx
        · omega
        · exact h.1 x hx

theorem mapSet_mem_self (m : ProofTree) (k : Nat) (v : Hash) : (k, v) ∈ mapSet m k v := by
  induction m with
  | nil => simp [mapSet]
  | cons e m ih =>
    obtain ⟨a, b⟩ := e
    simp only [mapSet]
    split
    · simp
    · split
      · simp
      · exact List.mem_cons_of_mem _ ih

theorem mapSet_mem_of_ne (m : ProofTree) (k : Nat) (v : Hash) (e : Nat × Hash) (he : e ∈ m)
    (hne : e.1 ≠ k) : e ∈ mapSet m k v := by
  induction m with
  | nil => cases he
  | cons e1 m ih =>
    obtain ⟨a, b⟩ := e1
    simp only [mapSet]
    split
    · exact List.mem_cons_of_mem _ he
    · split
      · rename_i h1 h2
        subst h2
        rcases List.mem_cons.mp he with rfl | he
        · exact absurd rfl hne
        · exact List.mem_cons_of_mem _ he
      · rcases List.mem_cons.mp he with rfl | he
        · exact List.mem_cons_self _ _
        · exact List.mem_cons_of_mem _ (ih he)

theorem mapSet_length_new (m : ProofTree) (k : Nat) (v : Hash) (hk : k ∉ m.map Prod.fst) :
    (mapSet m k v).length = m.length + 1 := by
  induction m with
  | nil => simp [mapSet]
  | cons e m ih =>
    obtain ⟨a, b⟩ := e
    simp only [List.map_cons, List.mem_cons, not_or] at hk
    simp only [mapSet]
    split
    · simp
    · split
      · rename_i h1 h2
        exact absurd h2 hk.1
      · simp only [List.length_cons, ih hk.2]

/-- Assignments at new, pairwise different keys: the map grows by one entry for
each, keeps its entries and its order, and holds every pair assigned. -/
theorem mapSetAll_spec : ∀ (kvs : List (Nat × Hash)) (tree : ProofTree),
    (kvs.map Prod.fst).Nodup → (∀ k ∈ kvs.map Prod.fst, k ∉ tree.map Prod.fst) →
    (tree.map Prod.fst).Pairwise (· < ·) →
    (mapSetAll tree kvs).length = tree.length + kvs.length ∧
    ((mapSetAll tree kvs).map Prod.fst).Pairwise (· < ·) ∧
    (∀ e ∈ tree, e ∈ mapSetAll tree kvs) ∧ (∀ e ∈ kvs, e ∈ mapSetAll tree kvs) := by
  intro kvs
  induction kvs with
  | nil => intro tree _ _ hs; simp [mapSetAll, hs]
  | cons kv kvs ih =>
    intro tree hnd hnew hs
    simp only [List.map_cons, List.nodup_cons] at hnd
    have hnew1 : ∀ k ∈ kvs.map Prod.fst, k ∉ (mapSet tree kv.1 kv.2).map Prod.fst := by
      intro k hk hmem
      rcases (mapSet_keys_mem tree kv.1 kv.2 k).mp hmem with rfl | hmem
      · exact hnd.1 hk
      · exact hnew k (List.mem_cons_of_mem _ hk) hmem
    have h := ih (mapSet tree kv.1 kv.2) hnd.2 hnew1 (mapSet_sorted _ _ _ hs)
    have hlen := mapSet_length_new tree kv.1 kv.2 (hnew kv.1 (List.mem_cons_self _ _))
    have hfold : mapSetAll tree (kv :: kvs) = mapSetAll (mapSet tree kv.1 kv.2) kvs := rfl
    rw [hfold]
    refine ⟨?_, h.2.1, ?_, ?_⟩
    · rw [h.1, hlen, List.length_cons]; omega
    · intro e he
      apply h.2.2.1
      apply mapSet_mem_of_ne _ _ _ _ he
      intro hk
      apply hnew kv.1 (List.mem_cons_self _ _)
      rw [← hk]
      exact List.mem_map_of_mem _ he
    · intro e he
      rcases List.mem_cons.mp he with rfl | he
      · exact h.2.2.1 _ (mapSet_mem_self _ _ _)
      · exact h.2.2.2 _ he

theorem mapSetAll_append (tree : ProofTree) (a b : List (Nat × Hash)) :
    mapSetAll tree (a ++ b) = mapSetAll (mapSetAll tree a) b := by
  simp [mapSetAll, List.foldl_append]

theorem zip_append_drop {α β : Type} : ∀ (a b : List α) (p : List β), a.length ≤ p.length →
    (a ++ b).zip p = a.zip p ++ b.zip (p.drop a.length) := by
  intro a
  induction a with
  | nil => intro b p _; simp
  | cons x a ih =>
    intro b p h
    cases p with
    | nil => simp at h
    | cons y p =>
      simp only [List.length_cons, Nat.add_le_add_iff_right] at h
      simp [ih b p h]

theorem zip_append_short {α β : Type} : ∀ (a b : List α) (p : List β), p.length ≤ a.length →
    (a ++ b).zip p = a.zip p := by
  intro a
  induction a with
  | nil => intro b p h; cases p with
    | nil => simp
    | cons y p => simp at h
  | cons x a ih =>
    intro b p h
    cases p with
    | nil => simp
    | cons y p =>
      simp only [List.length_cons, Nat.add_le_add_iff_right] at h
      simp [ih b p h]

theorem leafSlots_cons_unpaired (t : Nat) (L : List Nat) (h : ∀ u ∈ L, u ≠ t ^^^ 1) :
    leafSlots (t :: L) = 2 * (t / 2) :: (2 * (t / 2) + 1) :: leafSlots L := by
  cases L with
  | nil => simp [leafSlots]
  | cons u rest => simp [leafSlots, h u (List.mem_cons_self _ _)]

theorem proofRow_cons_unpaired (rows t : Nat) (L : List Nat) (h : ∀ u ∈ L, u ≠ t ^^^ 1) :
    proofRow rows (t :: L) = ((t ^^^ 1) :: (proofRow rows L).1, parent t rows :: (proofRow rows L).2) := by
  cases L with
  | nil => simp [proofRow]
  | cons u rest => simp [proofRow, h u (List.mem_cons_self _ _)]

theorem or_one_xor_one (t : Nat) : (t ||| 1) ^^^ 1 = 2 * (t / 2) := by
  rw [or_one_eq, xor_one_eq]; omega

theorem or_one_eq_iff {t u : Nat} (h : t < u) : t ||| 1 = u ↔ u = t ^^^ 1 := by
  rw [or_one_eq, xor_one_eq]; omega

theorem ne_xor_one_of_lt {t u : Nat} (h : t < u) (hne : ¬ u = t ^^^ 1) :
    ∀ w, u ≤ w → w ≠ t ^^^ 1 := by
  intro w hw
  rw [xor_one_eq] at hne ⊢
  omega

/-- The first loop of `Reconstruct` on ascending targets up to the first root
position `r0` (an even position): when the loop is left at its end, it has
stored the proof hashes at the leaf slots of the targets, in their order, as far
as the hashes go, and when they suffice it has noted the parents of the targets. -/
theorem reconSeed_spec (R r0 rr : Nat) (roots1 : List (Nat × Nat)) (hr0 : r0 % 2 = 0) :
    ∀ (T : List Nat), T.Pairwise (· < ·) → (∀ t ∈ T, t ≤ r0) →
    ∀ (proof : List Hash) (need : List Nat) (tree : ProofTree) (s : SeedEnd),
    reconSeed R ((r0, rr) :: roots1) T proof need tree = .ok (.done s) →
    s.proofTree = mapSetAll tree ((leafSlots (T.filter (fun t => !decide (t = r0)))
        ++ (if r0 ∈ T then [r0] else [])).zip proof) ∧
    s.proof = proof.drop (leafSlots (T.filter (fun t => !decide (t = r0)))
        ++ (if r0 ∈ T then [r0] else [])).length ∧
    ((leafSlots (T.filter (fun t => !decide (t = r0)))
        ++ (if r0 ∈ T then [r0] else [])).length ≤ proof.length →
      s.needSibRow = need ++ (proofRow R (T.filter (fun t => !decide (t = r0)))).2) := by
  intro T
  induction T using list_pair_induction with
  | hnil =>
    intro _ _ proof need tree s h
    simp only [reconSeed, Except.ok.injEq, LoopEnd.done.injEq] at h
    subst h
    simp [leafSlots, mapSetAll, proofRow]
  | hone t =>
    intro _ hle proof need tree s h
    cases proof with
    | nil =>
      simp only [reconSeed, Except.ok.injEq, LoopEnd.done.injEq] at h
      subst h
      by_cases ht : t = r0
      · simp [ht, leafSlots, mapSetAll]
      · simp [ht, Ne.symm ht, leafSlots, mapSetAll]
    | cons p0 proof1 =>
      simp only [reconSeed] at h
      by_cases ht : t = r0
      · simp only [ht, if_true, Except.ok.injEq, LoopEnd.done.injEq] at h
        subst h
        simp [ht, leafSlots, mapSetAll, proofRow]
      · simp only [ht, if_false] at h
        cases proof1 with
        | nil => simp at h
        | cons p1 proof2 =>
          simp only [Except.ok.injEq, LoopEnd.done.injEq] at h
          subst h
          simp only [or_one_xor_one]
          simp [ht, Ne.symm ht, leafSlots, mapSetAll, proofRow, or_one_eq]
  | hstep t u rest ih1 ih2 =>
    intro hs hle proof need tree s h
    have htu : t < u := (List.pairwise_cons.mp hs).1 u (List.mem_cons_self _ _)
    have hur : u ≤ r0 := hle u (List.mem_cons_of_mem _ (List.mem_cons_self _ _))
    have ht : ¬ t = r0 := by omega
    have hs1 : (u :: rest).Pairwise (· < ·) := (List.pairwise_cons.mp hs).2
    have hs2 : rest.Pairwise (· < ·) := (List.pairwise_cons.mp hs1).2
    have hle1 : ∀ x ∈ u :: rest, x ≤ r0 := fun x hx => hle x (List.mem_cons_of_mem _ hx)
    have hle2 : ∀ x ∈ rest, x ≤ r0 := fun x hx => hle1 x (List.mem_cons_of_mem _ hx)
    have hft : (t :: u :: rest).filter (fun t => !decide (t = r0))
        = t :: (u :: rest).filter (fun t => !decide (t = r0)) := by
      simp [ht]
    have hmem : r0 ∈ t :: u :: rest ↔ r0 ∈ u :: rest := by
      simp only [List.mem_cons]
      constructor
      · rintro (h1 | h1)
        · exact absurd h1.symm ht
        · exact h1
      · exact Or.inr
    cases proof with
    | nil =>
      simp only [reconSeed, Except.ok.injEq, LoopEnd.done.injEq] at h
      subst h
      refine ⟨by simp [mapSetAll], by simp, ?_⟩
      intro hlen
      exfalso
      rw [hft] at hlen
      cases hX : (u :: rest).filter (fun t => !decide (t = r0)) with
      | nil => rw [hX] at hlen; simp [leafSlots] at hlen
      | cons x X =>
        rw [hX] at hlen
        simp only [leafSlots] at hlen
        split at hlen <;> simp at hlen
    | cons p0 proof1 =>
      simp only [reconSeed, ht, if_false] at h
      cases proof1 with
      | nil => simp at h
      | cons p1 proof2 =>
        simp only at h
        by_cases hp : t ||| 1 = u
        · simp only [hp, if_true] at h
          have hux : u = t ^^^ 1 := (or_one_eq_iff htu).mp hp
          have hu : ¬ u = r0 := by
            rw [← hp, or_one_eq]; omega
          have hft2 : (t :: u :: rest).filter (fun t => !decide (t = r0))
              = t :: u :: rest.filter (fun t => !decide (t = r0)) := by
            simp [ht, hu]
          have hmem2 : r0 ∈ t :: u :: rest ↔ r0 ∈ rest := by
            rw [hmem]
            simp only [List.mem_cons]
            constructor
            · rintro (h1 | h1)
              · exact absurd h1.symm hu
              · exact h1
            · exact Or.inr
          obtain ⟨h1, h2, h3⟩ := ih1 hs2 hle2 proof2 _ _ s h
          have hslots : leafSlots (t :: u :: rest.filter (fun t => !decide (t = r0)))
              = 2 * (t / 2) :: (2 * (t / 2) + 1) :: leafSlots (rest.filter (fun t => !decide (t = r0))) := by
            simp [leafSlots, hux]
          have hrow : (proofRow R (t :: u :: rest.filter (fun t => !decide (t = r0)))).2
              = parent t R :: (proofRow R (rest.filter (fun t => !decide (t = r0)))).2 := by
            simp [proofRow, hux]
          rw [hft2, hslots, hrow]
          simp only [hmem2]
          refine ⟨?_, ?_, ?_⟩
          · rw [h1, ← hp, or_one_xor_one, or_one_eq]
            rfl
          · rw [h2]; simp
          · intro hlen
            rw [h3 (by simpa using hlen)]
            simp
        · simp only [hp, if_false] at h
          have hux : ¬ u = t ^^^ 1 := fun hx => hp ((or_one_eq_iff htu).mpr hx)
          have hall : ∀ w ∈ (u :: rest).filter (fun t => !decide (t = r0)), w ≠ t ^^^ 1 := by
            intro w hw
            have hw1 : w ∈ u :: rest := (List.mem_filter.mp hw).1
            apply ne_xor_one_of_lt htu hux
            rcases List.mem_cons.mp hw1 with rfl | hw2
            · exact Nat.le_refl _
            · exact Nat.le_of_lt ((List.pairwise_cons.mp hs1).1 w hw2)
          obtain ⟨h1, h2, h3⟩ := ih2 hs1 hle1 proof2 _ _ s h
          rw [hft, leafSlots_cons_unpaired _ _ hall, proofRow_cons_unpaired _ _ _ hall]
          simp only [hmem]
          refine ⟨?_, ?_, ?_⟩
          · rw [h1, or_one_xor_one, or_one_eq]
            rfl
          · rw [h2]; simp
          · intro hlen
            rw [h3 (by simpa using hlen)]
            simp

/-- The inner loop of `Reconstruct` on an ascending row of positions up to the
first root position `r0` (an even position): when the loop is left at its end,
it has popped that root when it is in the row, stored one proof hash at each
proof position of the other positions, and collected their parents. -/
theorem reconRow_spec (R r0 rr : Nat) (roots1 : List (Nat × Nat)) (hr0 : r0 % 2 = 0) :
    ∀ (N : List Nat), N.Pairwise (· < ·) → (∀ n ∈ N, n ≤ r0) →
    ∀ (proof : List Hash) (next : List Nat) (tree : ProofTree) (e : RowEnd),
    reconRow R N ((r0, rr) :: roots1) proof next tree = .ok (.done e) →
    (proofRow R (N.filter (fun n => !decide (n = r0)))).1.length ≤ proof.length ∧
    e.roots = (if r0 ∈ N then roots1 else (r0, rr) :: roots1) ∧
    e.proof = proof.drop (proofRow R (N.filter (fun n => !decide (n = r0)))).1.length ∧
    e.nextRow = next ++ (proofRow R (N.filter (fun n => !decide (n = r0)))).2 ∧
    e.proofTree
      = mapSetAll tree ((proofRow R (N.filter (fun n => !decide (n = r0)))).1.zip proof) := by
  intro N
  induction N using list_pair_induction with
  | hnil =>
    intro _ _ proof next tree e h
    simp only [reconRow, Except.ok.injEq, LoopEnd.done.injEq] at h
    subst h
    simp [mapSetAll, proofRow]
  | hone n0 =>
    intro _ hle proof next tree e h
    simp only [reconRow] at h
    by_cases hn : n0 = r0
    · simp only [hn, if_true, Except.ok.injEq, LoopEnd.done.injEq] at h
      subst h
      simp [hn, mapSetAll, proofRow]
    · simp only [hn, if_false] at h
      cases proof with
      | nil => simp at h
      | cons p0 proof1 =>
        simp only [Except.ok.injEq, LoopEnd.done.injEq] at h
        subst h
        simp [hn, Ne.symm hn, mapSetAll, proofRow]
  | hstep n0 n1 rest ih1 ih2 =>
    intro hs hle proof next tree e h
    have h01 : n0 < n1 := (List.pairwise_cons.mp hs).1 n1 (List.mem_cons_self _ _)
    have h1r : n1 ≤ r0 := hle n1 (List.mem_cons_of_mem _ (List.mem_cons_self _ _))
    have hn : ¬ n0 = r0 := by omega
    have hs1 : (n1 :: rest).Pairwise (· < ·) := (List.pairwise_cons.mp hs).2
    have hs2 : rest.Pairwise (· < ·) := (List.pairwise_cons.mp hs1).2
    have hle1 : ∀ x ∈ n1 :: rest, x ≤ r0 := fun x hx => hle x (List.mem_cons_of_mem _ hx)
    have hle2 : ∀ x ∈ rest, x ≤ r0 := fun x hx => hle1 x (List.mem_cons_of_mem _ hx)
    have hft : (n0 :: n1 :: rest).filter (fun n => !decide (n = r0))
        = n0 :: (n1 :: rest).filter (fun n => !decide (n = r0)) := by
      simp [hn]
    have hmem : r0 ∈ n0 :: n1 :: rest ↔ r0 ∈ n1 :: rest := by
      simp only [List.mem_cons]
      constructor
      · rintro (h1 | h1)
        · exact absurd h1.symm hn
        · exact h1
      · exact Or.inr
    simp only [reconRow, hn, if_false] at h
    by_cases hp : n0 ^^^ 1 = n1
    · simp only [hp, if_true] at h
      have hu : ¬ n1 = r0 := by
        rw [← hp, xor_one_eq]
        rw [← hp, xor_one_eq] at h01
        omega
      have hft2 : (n0 :: n1 :: rest).filter (fun n => !decide (n = r0))
          = n0 :: n1 :: rest.filter (fun n => !decide (n = r0)) := by
        simp [hn, hu]
      have hmem2 : r0 ∈ n0 :: n1 :: rest ↔ r0 ∈ rest := by
        rw [hmem]
        simp only [List.mem_cons]
        constructor
        · rintro (h1 | h1)
          · exact absurd h1.symm hu
          · exact h1
        · exact Or.inr
      obtain ⟨g0, g1, g2, g3, g4⟩ := ih1 hs2 hle2 proof _ _ e h
      have hrow : proofRow R (n0 :: n1 :: rest.filter (fun n => !decide (n = r0)))
          = ((proofRow R (rest.filter (fun n => !decide (n = r0)))).1,
            parent n0 R :: (proofRow R (rest.filter (fun n => !decide (n = r0)))).2) := by
        simp [proofRow, hp.symm]
      rw [hft2, hrow]
      simp only [hmem2]
      refine ⟨g0, g1, g2, ?_, g4⟩
      rw [g3]; simp
    · simp only [hp, if_false] at h
      have hux : ¬ n1 = n0 ^^^ 1 := fun hx => hp hx.symm
      have hall : ∀ w ∈ (n1 :: rest).filter (fun n => !decide (n = r0)), w ≠ n0 ^^^ 1 := by
        intro w hw
        have hw1 : w ∈ n1 :: rest := (List.mem_filter.mp hw).1
        apply ne_xor_one_of_lt h01 hux
        rcases List.mem_cons.mp hw1 with rfl | hw2
        · exact Nat.le_refl _
        · exact Nat.le_of_lt ((List.pairwise_cons.mp hs1).1 w hw2)
      cases proof with
      | nil => simp at h
      | cons p0 proof1 =>
        simp only at h
        obtain ⟨g0, g1, g2, g3, g4⟩ := ih2 hs1 hle1 proof1 _ _ e h
        rw [hft, proofRow_cons_unpaired _ _ _ hall]
        simp only [hmem]
        refine ⟨by simpa using g0, g1, ?_, ?_, ?_⟩
        · rw [g2]; simp
        · rw [g3]; simp
        · rw [g4]; rfl

/-- With no proof hash left, the loop over the rows of `Reconstruct` stores
nothing: when it is left at its end, the map is what it was. -/
theorem reconRow_no_proof (R : Nat) : ∀ (N : List Nat) (roots : List (Nat × Nat))
    (next : List Nat) (tree : ProofTree) (e : RowEnd),
    reconRow R N roots [] next tree = .ok (.done e) → e.proof = [] ∧ e.proofTree = tree := by
  intro N
  induction N using list_pair_induction with
  | hnil =>
    intro roots next tree e h
    simp only [reconRow, Except.ok.injEq, LoopEnd.done.injEq] at h
    subst h
    exact ⟨rfl, rfl⟩
  | hone n0 =>
    intro roots next tree e h
    simp only [reconRow] at h
    cases roots with
    | nil => simp at h
    | cons r roots1 =>
      obtain ⟨r0, rr⟩ := r
      simp only at h
      split at h
      · simp only [Except.ok.injEq, LoopEnd.done.injEq] at h
        subst h
        exact ⟨rfl, rfl⟩
      · simp at h
  | hstep n0 n1 rest ih1 ih2 =>
    intro roots next tree e h
    simp only [reconRow] at h
    cases roots with
    | nil => simp at h
    | cons r roots1 =>
      obtain ⟨r0, rr⟩ := r
      simp only at h
      split at h
      · exact ih2 _ _ _ _ h
      · split at h
        · exact ih1 _ _ _ _ h
        · simp at h

theorem reconRows_no_proof (R : Nat) : ∀ (hs N : List Nat) (roots : List (Nat × Nat))
    (tree : ProofTree) (proof2 : List Hash) (tree2 : ProofTree),
    reconRows R hs N roots [] tree = .ok (.done (proof2, tree2)) →
    proof2 = [] ∧ tree2 = tree := by
  intro hs
  induction hs with
  | nil =>
    intro N roots tree proof2 tree2 h
    simp only [reconRows, Except.ok.injEq, LoopEnd.done.injEq, Prod.mk.injEq] at h
    exact ⟨h.1.symm, h.2.symm⟩
  | cons h hs ih =>
    intro N roots tree proof2 tree2 hrun
    simp only [reconRows] at hrun
    cases he : reconRow R N roots [] [] tree with
    | error f => rw [he] at hrun; simp at hrun
    | ok r =>
      cases r with
      | failed p => rw [he] at hrun; simp at hrun
      | done e =>
        rw [he] at hrun
        simp only at hrun
        obtain ⟨e1, e2⟩ := reconRow_no_proof R _ _ _ _ _ he
        rw [e1, e2] at hrun
        exact ih _ _ _ _ _ hrun

theorem reconRows_cons_done (R h : Nat) (hs N : List Nat) (roots : List (Nat × Nat))
    (proof : List Hash) (tree : ProofTree) (x : List Hash × ProofTree)
    (hrun : reconRows R (h :: hs) N roots proof tree = .ok (.done x)) :
    ∃ e, reconRow R N roots proof [] tree = .ok (.done e) ∧
      reconRows R hs e.nextRow (popRow h e.roots) e.proof e.proofTree = .ok (.done x) := by
  simp only [reconRows] at hrun
  cases he : reconRow R N roots proof [] tree with
  | error f => rw [he] at hrun; simp at hrun
  | ok r =>
    cases r with
    | failed p => rw [he] at hrun; simp at hrun
    | done e =>
      rw [he] at hrun
      refine ⟨e, rfl, ?_⟩
      simp only at hrun
      rw [← hrun]
      rfl

theorem getRootsReverse_eq (n R : Nat) : getRootsReverse n R = rootsFrom n R 0 := by
  simp [getRootsReverse, rootsFrom, List.range_eq_range']

theorem rootsFrom_step {n R h : Nat} (hh : h ≤ R) :
    rootsFrom n R h = if n.testBit h = true then (rootPosition n h R, h) :: rootsFrom n R (h + 1)
      else rootsFrom n R (h + 1) := by
  unfold rootsFrom
  have e : R + 1 - h = (R + 1 - (h + 1)) + 1 := by omega
  rw [e, List.range'_succ]
  by_cases hb : n.testBit h = true
  · simp [List.filter_cons, hb]
  · simp [List.filter_cons, hb]

theorem rootsFrom_mem {n R h r rr : Nat} (hm : (r, rr) ∈ rootsFrom n R h) :
    h ≤ rr ∧ rr ≤ R ∧ n.testBit rr = true ∧ r = rootPosition n rr R := by
  simp only [rootsFrom, List.mem_map, List.mem_filter, List.mem_range'_1, Prod.mk.injEq] at hm
  obtain ⟨i, ⟨⟨h1, h2⟩, h3⟩, h4, h5⟩ := hm
  subst h5
  exact ⟨h1, by omega, h3, h4.symm⟩

theorem rootsFrom_ne_nil {n R h : Nat} (hn : n ≤ 2 ^ R) (hh : h ≤ R) (hpos : 0 < n / 2 ^ h) :
    rootsFrom n R h ≠ [] := by
  have hge : n ≥ 2 ^ h := by
    by_contra hc
    rw [Nat.div_eq_of_lt (Nat.lt_of_not_ge hc)] at hpos
    exact Nat.lt_irrefl _ hpos
  obtain ⟨i, hi, hb⟩ := Nat.ge_two_pow_implies_high_bit_true hge
  have hiR : i ≤ R := by
    by_contra hc
    have hlt : n < 2 ^ i := Nat.lt_of_le_of_lt hn (Nat.pow_lt_pow_right (by decide) (by omega))
    rw [Nat.testBit_lt_two_pow hlt] at hb
    cases hb
  intro hnil
  have hm : (rootPosition n i R, i) ∈ rootsFrom n R h := by
    simp only [rootsFrom, List.mem_map, List.mem_filter, List.mem_range'_1, Prod.mk.injEq]
    exact ⟨i, ⟨⟨hi, by omega⟩, hb⟩, rfl, rfl⟩
  rw [hnil] at hm
  cases hm

theorem popRow_rootsFrom_succ (n R h : Nat) :
    popRow h (rootsFrom n R (h + 1)) = rootsFrom n R (h + 1) := by
  cases hr : rootsFrom n R (h + 1) with
  | nil => rfl
  | cons x rest =>
    obtain ⟨r, rr⟩ := x
    have hm : (r, rr) ∈ rootsFrom n R (h + 1) := by rw [hr]; exact List.mem_cons_self _ _
    have := (rootsFrom_mem hm).1
    have hne : ¬ rr = h := by omega
    simp [popRow, hne]

theorem rootPosition_even {n R rr : Nat} (h : rr ≤ R) : rootPosition n rr R % 2 = 0 := by
  have := @rowStart_even R rr h
  unfold rootPosition
  omega

/-- The roots that `Reconstruct` holds when it reaches row `h`, against a row of
positions of that row: the first root is at an even position that is no lower
than any of them, it is the one root among them, and after the row the roots
are those of the rows above. -/
theorem rootsFrom_row {n R h : Nat} (hn : n ≤ 2 ^ R) (hn64 : n < 2 ^ 64) (hh : h ≤ R)
    (N : List Nat) (hN : ∀ p ∈ N, rowStart R h ≤ p ∧ p - rowStart R h < n / 2 ^ h)
    (hne : N ≠ []) :
    ∃ r0 rr roots1, rootsFrom n R h = (r0, rr) :: roots1 ∧ r0 % 2 = 0 ∧ (∀ p ∈ N, p ≤ r0) ∧
      (∀ p ∈ N, isRootAt n R h p = decide (p = r0)) ∧
      popRow h (if r0 ∈ N then roots1 else (r0, rr) :: roots1) = rootsFrom n R (h + 1) := by
  by_cases hb : n.testBit h = true
  · refine ⟨rootPosition n h R, h, rootsFrom n R (h + 1), ?_, rootPosition_even hh, ?_, ?_, ?_⟩
    · rw [rootsFrom_step hh, if_pos hb]
    · intro p hp
      have h1 := hN p hp
      have h2 := (testBit_iff_div_odd n h).mp hb
      have h3 := div_two_pow_succ n h
      unfold rootPosition
      omega
    · intro p _
      rw [Bool.eq_iff_iff, isRootAt_iff hn64]
      simp [hb]
    · split
      · exact popRow_rootsFrom_succ n R h
      · simp [popRow]
  · obtain ⟨p0, hp0⟩ := List.exists_mem_of_ne_nil N hne
    have h1 := hN p0 hp0
    have h2 : n / 2 ^ h % 2 = 0 := by
      have := (testBit_iff_div_odd n h).not.mp hb
      omega
    have h3 := div_two_pow_succ n h
    have hdiv : n / 2 ^ h ≤ 2 ^ (R - h) := by
      have := Nat.div_le_div_right (c := 2 ^ h) hn
      rwa [Nat.pow_div hh (by decide)] at this
    have hlt : h < R := by
      rcases Nat.lt_or_ge h R with hlt | hge
      · exact hlt
      · have : R - h = 0 := by omega
        rw [this] at hdiv
        simp at hdiv
        omega
    have hstep : rootsFrom n R h = rootsFrom n R (h + 1) := by
      rw [rootsFrom_step hh, if_neg hb]
    have hnn : rootsFrom n R (h + 1) ≠ [] := rootsFrom_ne_nil hn hlt (by omega)
    cases hr : rootsFrom n R (h + 1) with
    | nil => exact absurd hr hnn
    | cons x roots1 =>
      obtain ⟨r0, rr⟩ := x
      have hm : (r0, rr) ∈ rootsFrom n R (h + 1) := by rw [hr]; exact List.mem_cons_self _ _
      obtain ⟨m1, m2, m3, m4⟩ := rootsFrom_mem hm
      have hgt : ∀ p ∈ N, p < r0 := by
        intro p hp
        have g1 := hN p hp
        have g2 := @rowStart_succ R h hh
        have g3 := @rowStart_mono_le R (h + 1) rr m1
        rw [m4]
        unfold rootPosition
        omega
      have hnot : r0 ∉ N := fun hc => Nat.lt_irrefl _ (hgt r0 hc)
      refine ⟨r0, rr, roots1, hstep.trans hr, ?_, fun p hp => Nat.le_of_lt (hgt p hp), ?_, ?_⟩
      · rw [m4]; exact rootPosition_even m2
      · intro p hp
        have hne1 : ¬ p = r0 := Nat.ne_of_lt (hgt p hp)
        have hfalse : isRootAt n R h p = false := by
          rw [Bool.eq_false_iff]
          intro hc
          exact hb ((isRootAt_iff hn64).mp hc).1
        rw [hfalse]
        simp [hne1]
      · rw [if_neg hnot]
        have hne2 : ¬ rr = h := by omega
        simp [popRow, hne2]

theorem parents_row {n R i : Nat} (hn : n ≤ 2 ^ R) (L : List Nat) (hL : RowList n R i L) :
    (proofRow R L).2.Pairwise (· < ·) ∧
      ∀ q ∈ (proofRow R L).2, rowStart R (i + 1) ≤ q ∧ q - rowStart R (i + 1) < n / 2 ^ (i + 1) := by
  obtain ⟨h1, h2⟩ := proofRow_parents hn L hL
  refine ⟨h1, ?_⟩
  intro q hq
  obtain ⟨p, hp, hqp, _⟩ := h2 q hq
  obtain ⟨hi, x, hx, hx1, hx2⟩ := rowList_mem hn hL hp
  rw [hqp, hx, parent_rowStart hi hx2]
  omega

theorem popRow_rootsFrom {n R h : Nat} (hh : h ≤ R) :
    popRow h (rootsFrom n R h) = rootsFrom n R (h + 1) := by
  rw [rootsFrom_step hh]
  split
  · simp [popRow]
  · exact popRow_rootsFrom_succ n R h

theorem rowList_top {n R : Nat} (hn : n ≤ 2 ^ R) {L : List Nat} (hL : RowList n R R L) :
    L = [] := by
  cases L with
  | nil => rfl
  | cons a L =>
    have := (rowList_mem hn hL (List.mem_cons_self a L)).1
    omega

/-- The loop over the rows of `Reconstruct`, started at row `h` with the parents
of a row of positions and the roots of the rows from `h` up: when it is left at
its end, it has stored one proof hash at each proof position of the rows from
`h` up, in their order, and the proof hashes left are those after them. -/
theorem reconRows_spec {n R : Nat} (hn : n ≤ 2 ^ R) (hn64 : n < 2 ^ 64) :
    ∀ (k h : Nat) (L0 : List Nat) (proof : List Hash) (tree : ProofTree) (proof2 : List Hash)
      (tree2 : ProofTree),
    1 ≤ h → h + k = R → RowList n R (h - 1) L0 →
    reconRows R (List.range' h k) (proofRow R L0).2 (rootsFrom n R h) proof tree
      = .ok (.done (proof2, tree2)) →
    (proofRows n R (k + 1) h
        ((proofRow R L0).2.filter (fun p => !isRootAt n R h p))).1.length ≤ proof.length ∧
    tree2 = mapSetAll tree ((proofRows n R (k + 1) h
        ((proofRow R L0).2.filter (fun p => !isRootAt n R h p))).1.zip proof) ∧
    proof2 = proof.drop (proofRows n R (k + 1) h
        ((proofRow R L0).2.filter (fun p => !isRootAt n R h p))).1.length := by
  intro k
  induction k with
  | zero =>
    intro h L0 proof tree proof2 tree2 h1 hk hL0 hrun
    have e : h - 1 + 1 = h := by omega
    have hL := rowList_next hn hn64 hL0
    rw [e] at hL
    have hR : h = R := by omega
    rw [hR] at hL
    have hnil := rowList_top hn hL
    rw [hR, hnil, proofRows_nil]
    simp only [List.range'_zero, reconRows, Except.ok.injEq, LoopEnd.done.injEq,
      Prod.mk.injEq] at hrun
    simp [mapSetAll, hrun.1, hrun.2]
  | succ k ih =>
    intro h L0 proof tree proof2 tree2 h1 hk hL0 hrun
    have e : h - 1 + 1 = h := by omega
    have hL := rowList_next hn hn64 hL0
    rw [e] at hL
    have hN := parents_row hn L0 hL0
    rw [e] at hN
    have hh : h ≤ R := by omega
    rw [List.range'_succ] at hrun
    obtain ⟨en, he, hrest⟩ := reconRows_cons_done _ _ _ _ _ _ _ _ hrun
    have hfacts : (proofRow R ((proofRow R L0).2.filter (fun p => !isRootAt n R h p))).1.length
          ≤ proof.length ∧
        popRow h en.roots = rootsFrom n R (h + 1) ∧
        en.proof = proof.drop
          (proofRow R ((proofRow R L0).2.filter (fun p => !isRootAt n R h p))).1.length ∧
        en.nextRow = (proofRow R ((proofRow R L0).2.filter (fun p => !isRootAt n R h p))).2 ∧
        en.proofTree = mapSetAll tree
          ((proofRow R ((proofRow R L0).2.filter (fun p => !isRootAt n R h p))).1.zip proof) := by
      by_cases hne : (proofRow R L0).2 = []
      · rw [hne] at he ⊢
        simp only [reconRow, Except.ok.injEq, LoopEnd.done.injEq] at he
        subst he
        simp [proofRow, mapSetAll, popRow_rootsFrom hh]
      · obtain ⟨r0, rr, roots1, g1, g2, g3, g4, g5⟩ :=
          rootsFrom_row hn hn64 hh (proofRow R L0).2 hN.2 hne
        rw [g1] at he
        obtain ⟨f0, f1, f2, f3, f4⟩ := reconRow_spec R r0 rr roots1 g2 _ hN.1 g3 _ _ _ _ he
        have hfilter : (proofRow R L0).2.filter (fun p => !isRootAt n R h p)
            = (proofRow R L0).2.filter (fun p => !decide (p = r0)) := by
          apply List.filter_congr
          intro p hp
          rw [g4 p hp]
        rw [hfilter]
        refine ⟨f0, ?_, f2, by simpa using f3, f4⟩
        rw [f1]
        exact g5
    obtain ⟨f0, f1, f2, f3, f4⟩ := hfacts
    rw [f1, f2, f3, f4] at hrest
    obtain ⟨i1, i2, i3⟩ := ih (h + 1) _ _ _ _ _ (by omega) (by omega) hL hrest
    have hunf : ∀ L, (proofRows n R (k + 1 + 1) h L).1
        = (proofRow R L).1 ++ (proofRows n R (k + 1) (h + 1)
            ((proofRow R L).2.filter (fun p => !isRootAt n R (h + 1) p))).1 := by
      intro L
      rfl
    rw [hunf]
    rw [List.length_drop] at i1
    refine ⟨?_, ?_, ?_⟩
    · rw [List.length_append]; omega
    · rw [i2, zip_append_drop _ _ _ f0, mapSetAll_append]
    · rw [i3, List.drop_drop, List.length_append]

theorem proofPositions_upper (T : List Nat) (n R : Nat) :
    (ProofPositions T n R).1.drop
        (proofRow R (T.filter (fun t => !isRootAt n R 0 t))).1.length
      = (proofRows n R R 1 ((proofRow R (T.filter (fun t => !isRootAt n R 0 t))).2.filter
          (fun p => !isRootAt n R 1 p))).1 := by
  simp only [ProofPositions, proofRows, Nat.zero_add]
  rw [List.drop_left]

/-- A successful run of `Reconstruct` on ascending targets below `numLeaves`, at
least one, with rows enough for the leaves: the map it returns is made by
storing the proof hashes, in their order, at the positions of `proofSlots`, and
there are no more hashes than positions. -/
theorem reconstruct_slots {n R : Nat} (hn64 : n < 2 ^ 64) (hn : n ≤ 2 ^ R) (T : List Nat)
    (proof : List Hash) (hne : T ≠ []) (hs : T.Pairwise (· < ·)) (hr : ∀ t ∈ T, t < n)
    (m : ProofTree) (p : List Hash)
    (h : Reconstruct ⟨T, proof⟩ n R = .ok ⟨.ok m, p⟩) :
    proof.length ≤ (proofSlots n R T).length ∧
      m = mapSetAll [] ((proofSlots n R T).zip proof) := by
  have hlen : ¬ T.length = 0 := by
    intro hc
    exact hne (List.length_eq_zero.mp hc)
  have hN : ∀ t ∈ T, rowStart R 0 ≤ t ∧ t - rowStart R 0 < n / 2 ^ 0 := by
    intro t ht
    rw [rowStart_zero]
    simpa using hr t ht
  obtain ⟨r0, rr, roots1, g1, g2, g3, g4, _⟩ :=
    rootsFrom_row hn hn64 (Nat.zero_le _) T hN hne
  have hpop : (if rr = 0 then roots1 else (r0, rr) :: roots1) = rootsFrom n R 1 := by
    have := @popRow_rootsFrom n R 0 (Nat.zero_le _)
    rw [g1] at this
    exact this
  have hfilter : T.filter (fun t => !decide (t = r0))
      = T.filter (fun t => !isRootAt n R 0 t) := by
    apply List.filter_congr
    intro t ht
    rw [g4 t ht]
  have hroot : (if r0 ∈ T then [r0] else [])
      = (if (T.filter (fun t => !isRootAt n R 0 t)).length < T.length
          then [n - 1] else []) := by
    by_cases hmem : r0 ∈ T
    · have h1 : isRootAt n R 0 r0 = true := by rw [g4 r0 hmem]; simp
      have h2 := (isRootAt_zero hn64).mp h1
      have h3 : (T.filter (fun t => !isRootAt n R 0 t)).length < T.length := by
        rw [List.length_filter_lt_length_iff_exists]
        exact ⟨r0, hmem, by simp [h1]⟩
      rw [if_pos hmem, if_pos h3, h2.2]
    · have h3 : T.filter (fun t => !isRootAt n R 0 t) = T := by
        rw [List.filter_eq_self]
        intro t ht
        rw [g4 t ht]
        have : ¬ t = r0 := fun hc => hmem (hc ▸ ht)
        simp [this]
      rw [if_neg hmem, h3, if_neg (Nat.lt_irrefl _)]
  have hlow := (@targets_split n R hn64 T hs hr).1
  simp only [Reconstruct, hlen, if_false, getRootsReverse_eq, g1] at h
  cases hseed : reconSeed R ((r0, rr) :: roots1) T proof [] [] with
  | error f => rw [hseed] at h; simp at h
  | ok r =>
    cases r with
    | failed q => rw [hseed] at h; simp at h
    | done s =>
      rw [hseed] at h
      simp only [hpop] at h
      obtain ⟨s1, s2, s3⟩ := reconSeed_spec R r0 rr roots1 g2 T hs g3 _ _ _ _ hseed
      rw [hfilter, hroot] at s1 s2 s3
      cases hrows : reconRows R (List.range' 1 (R - 1)) s.needSibRow
          (rootsFrom n R 1) s.proof s.proofTree with
      | error f => rw [hrows] at h; simp at h
      | ok r =>
        cases r with
        | failed q => rw [hrows] at h; simp at h
        | done x =>
          obtain ⟨proof2, tree2⟩ := x
          rw [hrows] at h
          simp only at h
          by_cases hp2 : proof2.length = 0
          · simp only [hp2, ne_eq, not_true_eq_false, if_false, Except.ok.injEq,
              ReconOut.mk.injEq] at h
            have hm : tree2 = m := h.1
            subst hm
            unfold proofSlots
            simp only [proofPositions_upper]
            rcases Nat.lt_or_ge proof.length
                (leafSlots (T.filter (fun t => !isRootAt n R 0 t))
                  ++ (if (T.filter (fun t => !isRootAt n R 0 t)).length < T.length
                      then [n - 1] else [])).length with hshort | hlong
            · have hnil : s.proof = [] := by
                rw [s2, List.drop_eq_nil_iff]
                exact Nat.le_of_lt hshort
              rw [hnil] at hrows
              obtain ⟨_, e2⟩ := reconRows_no_proof _ _ _ _ _ _ _ hrows
              refine ⟨?_, ?_⟩
              · rw [List.length_append]; omega
              · rw [e2, s1, zip_append_short _ _ _ (Nat.le_of_lt hshort)]
            · have s4 := s3 hlong
              simp only [List.nil_append] at s4
              rw [s4] at hrows
              rcases Nat.eq_zero_or_pos R with hR0 | hRpos
              · rw [hR0] at hrows ⊢
                simp only [Nat.zero_sub, List.range'_zero, reconRows, Except.ok.injEq,
                  LoopEnd.done.injEq, Prod.mk.injEq] at hrows
                rw [hR0] at s1 s2 hlong
                have hz : (proof.drop (leafSlots (T.filter (fun t => !isRootAt n 0 0 t))
                  ++ (if (T.filter (fun t => !isRootAt n 0 0 t)).length < T.length
                      then [n - 1] else [])).length).length = 0 := by
                  rw [← s2, hrows.1]; exact hp2
                rw [List.length_drop] at hz
                simp only [proofRows, List.append_nil]
                refine ⟨by omega, ?_⟩
                rw [← hrows.2, s1]
              · have hk : 1 + (R - 1) = R := by omega
                obtain ⟨i1, i2, i3⟩ := reconRows_spec hn hn64 (R - 1) 1 _ _ _ _ _
                  (Nat.le_refl 1) hk hlow hrows
                have hk1 : R - 1 + 1 = R := by omega
                rw [hk1] at i1 i2 i3
                rw [s2, List.length_drop] at i1
                have hz : proof2.length = 0 := hp2
                rw [i3, s2, List.length_drop, List.length_drop] at hz
                refine ⟨?_, ?_⟩
                · rw [List.length_append]; omega
                · rw [i2, s1, s2, zip_append_drop _ _ _ hlong, mapSetAll_append]
          · simp [hp2] at h

theorem leafSlots_sorted : ∀ (L : List Nat), L.Pairwise (· < ·) →
    (leafSlots L).Pairwise (· < ·) ∧
      ∀ e ∈ leafSlots L, ∃ t ∈ L, 2 * (t / 2) ≤ e ∧ e ≤ 2 * (t / 2) + 1 := by
  intro L
  induction L using list_pair_induction with
  | hnil => intro _; simp [leafSlots]
  | hone t => intro _; simp [leafSlots]
  | hstep t u rest ih1 ih2 =>
    intro hs
    have htu : t < u := (List.pairwise_cons.mp hs).1 u (List.mem_cons_self _ _)
    have hs1 : (u :: rest).Pairwise (· < ·) := (List.pairwise_cons.mp hs).2
    have hs2 : rest.Pairwise (· < ·) := (List.pairwise_cons.mp hs1).2
    have hur : ∀ w ∈ rest, u < w := (List.pairwise_cons.mp hs1).1
    by_cases hp : u = t ^^^ 1
    · obtain ⟨a1, a2⟩ := ih1 hs2
      have hu := hp
      rw [xor_one_eq] at hu
      have hslots : leafSlots (t :: u :: rest)
          = 2 * (t / 2) :: (2 * (t / 2) + 1) :: leafSlots rest := by
        simp [leafSlots, hp]
      rw [hslots]
      have hgt : ∀ e ∈ leafSlots rest, 2 * (t / 2) + 1 < e := by
        intro e he
        obtain ⟨w, hw, hw1, _⟩ := a2 e he
        have := hur w hw
        omega
      refine ⟨?_, ?_⟩
      · simp only [List.pairwise_cons, List.mem_cons]
        refine ⟨?_, hgt, a1⟩
        intro e he
        rcases he with rfl | he
        · omega
        · have := hgt e he
          omega
      · intro e he
        simp only [List.mem_cons] at he
        rcases he with rfl | rfl | he
        · exact ⟨t, List.mem_cons_self _ _, by omega, by omega⟩
        · exact ⟨t, List.mem_cons_self _ _, by omega, by omega⟩
        · obtain ⟨w, hw, hw1, hw2⟩ := a2 e he
          exact ⟨w, List.mem_cons_of_mem _ (List.mem_cons_of_mem _ hw), hw1, hw2⟩
    · obtain ⟨a1, a2⟩ := ih2 hs1
      have hu := hp
      rw [xor_one_eq] at hu
      have hslots : leafSlots (t :: u :: rest)
          = 2 * (t / 2) :: (2 * (t / 2) + 1) :: leafSlots (u :: rest) := by
        simp [leafSlots, hp]
      rw [hslots]
      have hgt : ∀ e ∈ leafSlots (u :: rest), 2 * (t / 2) + 1 < e := by
        intro e he
        obtain ⟨w, hw, hw1, _⟩ := a2 e he
        have hle : u ≤ w := by
          rcases List.mem_cons.mp hw with rfl | hw2
          · exact Nat.le_refl _
          · exact Nat.le_of_lt (hur w hw2)
        omega
      refine ⟨?_, ?_⟩
      · simp only [List.pairwise_cons, List.mem_cons]
        refine ⟨?_, hgt, a1⟩
        intro e he
        rcases he with rfl | he
        · omega
        · have := hgt e he
          omega
      · intro e he
        simp only [List.mem_cons] at he
        rcases he with rfl | rfl | he
        · exact ⟨t, List.mem_cons_self _ _, by omega, by omega⟩
        · exact ⟨t, List.mem_cons_self _ _, by omega, by omega⟩
        · obtain ⟨w, hw, hw1, hw2⟩ := a2 e (by simpa using he)
          exact ⟨w, List.mem_cons_of_mem _ hw, hw1, hw2⟩

theorem proofRow_fst_sublist (R : Nat) : ∀ (L : List Nat),
    (proofRow R L).1.Sublist (L.map (· ^^^ 1)) := by
  intro L
  induction L using list_pair_induction with
  | hnil => simp [proofRow]
  | hone t => simp [proofRow]
  | hstep t u rest ih1 ih2 =>
    simp only [proofRow]
    split
    · simp only [List.map_cons]
      exact (ih1.cons _).cons _
    · simp only [List.map_cons]
      exact List.Sublist.cons₂ _ (by simpa using ih2)

theorem proofRows_nodup {n R : Nat} (hn : n ≤ 2 ^ R) (hn64 : n < 2 ^ 64) :
    ∀ (m j : Nat) (L : List Nat), RowList n R j L → (proofRows n R m j L).1.Nodup := by
  intro m
  induction m with
  | zero => intro j L _; simp [proofRows]
  | succ m ih =>
    intro j L hL
    simp only [proofRows]
    have hnext := rowList_next hn hn64 hL
    rw [List.nodup_append]
    refine ⟨?_, ih _ _ hnext, ?_⟩
    · apply List.Nodup.sublist (proofRow_fst_sublist R L)
      apply List.Nodup.map
      · intro a b hab
        exact xor_one_inj hab
      · exact hL.1.imp (fun h => Nat.ne_of_lt h)
    · intro a ha hb
      obtain ⟨t, ht, hat⟩ := proofRow_fst_mem R L.length L (Nat.le_refl _) a ha
      have h1 := (sibling_in_row hn hL ht).2
      have h2 := proofRows_ge hn hn64 m (j + 1) _ hnext a hb
      omega

theorem zip_fst_nodup {α β : Type} : ∀ (a : List α) (b : List β), a.Nodup →
    ((a.zip b).map Prod.fst).Nodup := by
  intro a
  induction a with
  | nil => intro b _; simp
  | cons x a ih =>
    intro b h
    cases b with
    | nil => simp
    | cons y b =>
      simp only [List.zip_cons_cons, List.map_cons, List.nodup_cons]
      rw [List.nodup_cons] at h
      refine ⟨?_, ih b h.2⟩
      intro hc
      obtain ⟨e, he, hx⟩ := List.mem_map.mp hc
      have := (List.of_mem_zip (show (e.1, e.2) ∈ a.zip b from he)).1
      rw [hx] at this
      exact h.1 this

/-- The positions of the proof hashes of ascending targets below `numLeaves` are
pairwise different. -/
theorem proofSlots_nodup {n R : Nat} (hn64 : n < 2 ^ 64) (hn : n ≤ 2 ^ R) (T : List Nat)
    (hs : T.Pairwise (· < ·)) (hr : ∀ t ∈ T, t < n) : (proofSlots n R T).Nodup := by
  obtain ⟨hlow, hsplit⟩ := @targets_split n R hn64 T hs hr
  obtain ⟨a1, a2⟩ := leafSlots_sorted _ hlow.1
  have hbound : ∀ e ∈ leafSlots (T.filter (fun t => !isRootAt n R 0 t)),
      e < 2 * (n / 2) := by
    intro e he
    obtain ⟨t, ht, _, h2⟩ := a2 e he
    have := (hlow.2 t ht).2
    rw [rowStart_zero] at this
    simp only [Nat.sub_zero, Nat.zero_add, Nat.pow_one] at this
    omega
  unfold proofSlots
  simp only [proofPositions_upper]
  have hup := proofRows_nodup hn hn64 R 1 _ (rowList_next hn hn64 hlow)
  have hge := proofRows_ge hn hn64 R 1 _ (rowList_next hn hn64 hlow)
  have hstart : n ≤ rowStart R 1 := by
    have := @rowStart_succ R 0 (Nat.zero_le _)
    rw [rowStart_zero] at this
    simp only [Nat.zero_add, Nat.sub_zero] at this
    omega
  rw [List.nodup_append]
  refine ⟨?_, hup, ?_⟩
  · rw [List.nodup_append]
    refine ⟨a1.imp (fun h => Nat.ne_of_lt h), ?_, ?_⟩
    · split <;> simp
    · intro a ha hb
      have h1 := hbound a ha
      split at hb
      · simp only [List.mem_singleton] at hb
        rename_i hlt
        rcases hsplit with heq | ⟨hodd, _⟩
        · rw [← heq] at hlt
          exact Nat.lt_irrefl _ hlt
        · omega
      · cases hb
  · intro a ha hb
    have h2 := hge a hb
    rcases List.mem_append.mp ha with ha1 | ha1
    · have := hbound a ha1
      omega
    · split at ha1
      · simp only [List.mem_singleton] at ha1
        have : 0 < n := by
          rcases hsplit with heq | ⟨hodd, _⟩
          · rename_i hlt
            rw [← heq] at hlt
            exact absurd hlt (Nat.lt_irrefl _)
          · omega
        omega
      · cases ha1

theorem leafPairs_eq_slots (val : Nat → Hash) : ∀ (L : List Nat),
    leafPairs val L = (leafSlots L).map val := by
  intro L
  induction L using list_pair_induction with
  | hnil => rfl
  | hone t => rfl
  | hstep t u rest ih1 ih2 =>
    simp only [leafPairs, leafSlots]
    split
    · simp [ih1]
    · simp [ih2]

/-- The proof with correct hashes for `targets` carries, hash by hash, the hash
of the forest at the positions of `proofSlots`. -/
theorem forestProof_eq_slots (val : Nat → Hash) (numLeaves : Nat) (targets : List Nat) :
    forestProof val numLeaves targets
      = (proofSlots numLeaves (treeRows numLeaves) targets).map val := by
  simp only [forestProof, proofSlots, List.map_append, leafPairs_eq_slots]
  split <;> simp

theorem proofSlots_sample : proofSlots 8 3 [0] = [0, 1, 9, 13] ∧
    proofSlots 8 4 [0] = [0, 1, 17, 25] := by decide

theorem mergeOnce_nil_right (a : List Nat) : mergeOnce a [] = a := by
  cases a <;> simp [mergeOnce]

theorem mergeOnce_length_le (a b : List Nat) : (mergeOnce a b).length ≤ a.length + b.length := by
  induction a, b using mergeOnce.induct with
  | case1 b => simp [mergeOnce]
  | case2 x a => simp [mergeOnce]
  | case3 x a y b h ih => simp only [mergeOnce, h, if_true, List.length_cons] at ih ⊢; omega
  | case4 x a y b h1 h2 ih =>
    simp only [mergeOnce, h1, h2, if_true, if_false, List.length_cons] at ih ⊢; omega
  | case5 x a y b h1 h2 ih =>
    simp only [mergeOnce, h1, h2, if_false, List.length_cons] at ih ⊢; omega

theorem take_set_succ (c : List Nat) (j v : Nat) (h : j < c.length) :
    (c.set j v).take (j + 1) = c.take j ++ [v] := by
  induction c generalizing j with
  | nil => simp at h
  | cons x c ih =>
    cases j with
    | zero => simp
    | succ j =>
      simp only [List.length_cons, Nat.add_lt_add_iff_right] at h
      simp [ih j h]

/-- The loop of `mergeSortedSlices` from any of its states: with room in `c` for
the values not yet merged and fuel for the iterations left, it returns the part
of `c` written so far followed by the merge of the rests of `a` and `b`. -/
theorem mergeLoop_spec (a b : List Nat) : ∀ (fuel : Nat) (c : List Nat) (idxa idxb j : Nat),
    idxa ≤ a.length → idxb ≤ b.length →
    j + (a.length - idxa) + (b.length - idxb) ≤ c.length → c.length - j < fuel →
    mergeLoop a b fuel c idxa idxb j
      = .ok (c.take j ++ mergeOnce (a.drop idxa) (b.drop idxb)) := by
  intro fuel
  induction fuel with
  | zero => intro c idxa idxb j _ _ _ hf; omega
  | succ fuel ih =>
    intro c idxa idxb j ha hb hroom hf
    simp only [mergeLoop]
    by_cases hj : j < c.length
    · simp only [hj, if_true]
      by_cases h1 : a.length ≤ idxa
      · have hda : a.drop idxa = [] := List.drop_eq_nil_iff.mpr h1
        have hnb : ¬ b.length < idxb := by omega
        simp only [h1, if_true, hnb, if_false, hda, mergeOnce]
        have e : (b.drop idxb).take (c.length - j) = b.drop idxb :=
          List.take_of_length_le (by rw [List.length_drop]; omega)
        rw [e]
      · by_cases h2 : b.length ≤ idxb
        · have hdb : b.drop idxb = [] := List.drop_eq_nil_iff.mpr h2
          simp only [h1, h2, if_true, if_false, hdb, mergeOnce_nil_right]
          have e : (a.drop idxa).take (c.length - j) = a.drop idxa :=
            List.take_of_length_le (by rw [List.length_drop]; omega)
          rw [e]
        · have ha1 : idxa < a.length := by omega
          have hb1 : idxb < b.length := by omega
          simp only [h1, h2, if_false, List.getElem?_eq_getElem ha1,
            List.getElem?_eq_getElem hb1]
          by_cases c1 : a[idxa] < b[idxb]
          · simp only [c1, if_true]
            rw [ih _ _ _ _ (by omega) hb (by rw [List.length_set]; omega)
              (by rw [List.length_set]; omega), take_set_succ _ _ _ hj]
            simp only [List.append_assoc, List.singleton_append]
            congr 2
            rw [List.drop_eq_getElem_cons ha1, List.drop_eq_getElem_cons hb1]
            simp only [mergeOnce, c1, if_true]
          · by_cases c2 : a[idxa] > b[idxb]
            · simp only [c1, c2, if_true, if_false]
              rw [ih _ _ _ _ ha (by omega) (by rw [List.length_set]; omega)
                (by rw [List.length_set]; omega), take_set_succ _ _ _ hj]
              simp only [List.append_assoc, List.singleton_append]
              congr 2
              rw [List.drop_eq_getElem_cons ha1, List.drop_eq_getElem_cons hb1]
              have c2' : b[idxb] < a[idxa] := c2
              simp only [mergeOnce, c1, c2', if_true, if_false]
            · simp only [c1, c2, if_false]
              rw [ih _ _ _ _ (by omega) (by omega) (by rw [List.length_set]; omega)
                (by rw [List.length_set]; omega), take_set_succ _ _ _ hj]
              simp only [List.append_assoc, List.singleton_append]
              congr 2
              rw [List.drop_eq_getElem_cons ha1, List.drop_eq_getElem_cons hb1]
              have c2' : ¬ b[idxb] < a[idxa] := c2
              simp only [mergeOnce, c1, c2', if_false]
    · simp only [hj, if_false]
      have hda : a.drop idxa = [] := List.drop_eq_nil_iff.mpr (by omega)
      have hdb : b.drop idxb = [] := List.drop_eq_nil_iff.mpr (by omega)
      rw [hda, hdb, List.take_of_length_le (by omega)]
      simp [mergeOnce]

/-- The function `mergeSortedSlices` returns, and what it returns is the merge
with one copy of a common value. -/
theorem mergeSortedSlices_eq (a b : List Nat) : mergeSortedSlices a b = .ok (mergeOnce a b) := by
  unfold mergeSortedSlices
  by_cases ha : a.length = 0
  · have : a = [] := List.length_eq_zero.mp ha
    subst this
    simp [mergeOnce]
  · by_cases hb : b.length = 0
    · have : b = [] := List.length_eq_zero.mp hb
      subst this
      simp [ha, mergeOnce_nil_right]
    · simp only [ha, hb, if_false]
      rw [mergeLoop_spec a b _ _ 0 0 0 (Nat.zero_le _) (Nat.zero_le _)
        (by simp) (by simp)]
      simp

theorem mergeOnce_mem (a b : List Nat) (x : Nat) :
    x ∈ mergeOnce a b ↔ x ∈ a ∨ x ∈ b := by
  induction a, b using mergeOnce.induct with
  | case1 b => simp [mergeOnce]
  | case2 y a => simp [mergeOnce]
  | case3 y a z b h ih =>
    simp only [mergeOnce, h, if_true, List.mem_cons, ih]
    tauto
  | case4 y a z b h1 h2 ih =>
    simp only [mergeOnce, h1, h2, if_true, if_false, List.mem_cons, ih]
    tauto
  | case5 y a z b h1 h2 ih =>
    have : y = z := by omega
    subst this
    simp only [mergeOnce, h1, if_false, List.mem_cons, ih]
    tauto

/-- The merge of two strictly ascending lists is strictly ascending, and its
length is the sum of their lengths less the number of common values. -/
theorem mergeOnce_sorted (a b : List Nat) (ha : a.Pairwise (· < ·)) (hb : b.Pairwise (· < ·)) :
    (mergeOnce a b).Pairwise (· < ·) ∧
      (mergeOnce a b).length + (a.filter (fun x => decide (x ∈ b))).length
        = a.length + b.length := by
  induction a, b using mergeOnce.induct with
  | case1 b => simp [mergeOnce, hb]
  | case2 y a => simp [mergeOnce, ha]
  | case3 y a z b h ih =>
    have ha1 := List.pairwise_cons.mp ha
    have hb1 := List.pairwise_cons.mp hb
    obtain ⟨i1, i2⟩ := ih ha1.2 hb
    have hy : y ∉ z :: b := by
      intro hm
      rcases List.mem_cons.mp hm with rfl | hm
      · omega
      · have := hb1.1 y hm
        omega
    simp only [mergeOnce, h, if_true]
    refine ⟨?_, ?_⟩
    · rw [List.pairwise_cons]
      refine ⟨?_, i1⟩
      intro w hw
      rcases (mergeOnce_mem _ _ _).mp hw with hw | hw
      · exact ha1.1 w hw
      · rcases List.mem_cons.mp hw with rfl | hw
        · exact h
        · exact Nat.lt_trans h (hb1.1 w hw)
    · rw [List.filter_cons_of_neg (by simpa using hy)]
      simp only [List.length_cons] at i2 ⊢
      omega
  | case4 y a z b h1 h2 ih =>
    have ha1 := List.pairwise_cons.mp ha
    have hb1 := List.pairwise_cons.mp hb
    obtain ⟨i1, i2⟩ := ih ha hb1.2
    simp only [mergeOnce, h1, h2, if_true, if_false]
    refine ⟨?_, ?_⟩
    · rw [List.pairwise_cons]
      refine ⟨?_, i1⟩
      intro w hw
      rcases (mergeOnce_mem _ _ _).mp hw with hw | hw
      · rcases List.mem_cons.mp hw with rfl | hw
        · exact h2
        · exact Nat.lt_trans h2 (ha1.1 w hw)
      · exact hb1.1 w hw
    · have hcongr : (y :: a).filter (fun x => decide (x ∈ z :: b))
          = (y :: a).filter (fun x => decide (x ∈ b)) := by
        apply List.filter_congr
        intro w hw
        have hzw : z < w := by
          rcases List.mem_cons.mp hw with rfl | hw
          · exact h2
          · exact Nat.lt_trans h2 (ha1.1 w hw)
        have : ¬ w = z := by omega
        simp [this]
      rw [hcongr]
      simp only [List.length_cons] at i2 ⊢
      omega
  | case5 y a z b h1 h2 ih =>
    have hyz : y = z := by omega
    subst hyz
    have ha1 := List.pairwise_cons.mp ha
    have hb1 := List.pairwise_cons.mp hb
    obtain ⟨i1, i2⟩ := ih ha1.2 hb1.2
    simp only [mergeOnce, h1, if_false]
    refine ⟨?_, ?_⟩
    · rw [List.pairwise_cons]
      refine ⟨?_, i1⟩
      intro w hw
      rcases (mergeOnce_mem _ _ _).mp hw with hw | hw
      · exact ha1.1 w hw
      · exact hb1.1 w hw
    · have hcongr : a.filter (fun x => decide (x ∈ y :: b))
          = a.filter (fun x => decide (x ∈ b)) := by
        apply List.filter_congr
        intro w hw
        have := ha1.1 w hw
        have : ¬ w = y := by omega
        simp [this]
      rw [List.filter_cons_of_pos (by simp), hcongr]
      simp only [List.length_cons] at i2 ⊢
      omega

theorem zip_filter_fst_congr (L : List Nat) (P : List Hash) (N M : List Nat)
    (h : ∀ x ∈ L, (x ∈ N ↔ x ∈ M)) :
    (L.zip P).filter (fun e => decide (e.1 ∈ N)) = (L.zip P).filter (fun e => decide (e.1 ∈ M)) := by
  apply List.filter_congr
  intro e he
  have := (List.of_mem_zip (show (e.1, e.2) ∈ L.zip P from he)).1
  simp [h e.1 this]

/-- The loop of the proof reduction when every position left in `all` is
needed: it takes the next hashes of the proof, one for each position. -/
theorem reduceLoop_self (Proof : List Hash) : ∀ (L : List Nat) (i : Nat) (acc : List Hash),
    i + L.length ≤ Proof.length →
    reduceLoop Proof L i L acc
      = .ok (acc ++ ((L.zip (Proof.drop i)).filter (fun e => decide (e.1 ∈ L))).map Prod.snd) ∧
    (((L.zip (Proof.drop i)).filter (fun e => decide (e.1 ∈ L))).map Prod.snd).length
      = L.length := by
  intro L
  induction L with
  | nil => intro i acc _; simp [reduceLoop]
  | cons x L ih =>
    intro i acc hlen
    simp only [List.length_cons] at hlen
    have hi : i < Proof.length := by omega
    obtain ⟨h1, h2⟩ := ih (i + 1) (acc ++ [Proof[i]]) (by omega)
    have hcongr := zip_filter_fst_congr L (Proof.drop (i + 1)) (x :: L) L
      (fun y hy => ⟨fun _ => hy, fun _ => List.mem_cons_of_mem _ hy⟩)
    simp only [reduceLoop, if_true, List.getElem?_eq_getElem hi]
    rw [h1, List.drop_eq_getElem_cons hi]
    simp only [List.zip_cons_cons]
    rw [List.filter_cons_of_pos (by simp), hcongr]
    refine ⟨by simp, ?_⟩
    simp only [List.map_cons, List.length_cons, h2]

/-- The loop of the proof reduction over the merge of ascending, disjoint lists
`N` (needed) and `C` (cached), with enough proof hashes: when every cached
position is below some needed position, the loop returns the hashes at the
indices of the needed positions, `len(N)` in all; otherwise it stops at
`needed[0]` with `needed` empty. -/
theorem reduceLoop_merge (Proof : List Hash) : ∀ (N C : List Nat),
    N.Pairwise (· < ·) → C.Pairwise (· < ·) → (∀ x ∈ N, x ∉ C) →
    ∀ (i : Nat) (acc : List Hash), i + (mergeOnce N C).length ≤ Proof.length →
    ((∀ c ∈ C, ∃ n ∈ N, c < n) →
      reduceLoop Proof (mergeOnce N C) i N acc
        = .ok (acc ++ (((mergeOnce N C).zip (Proof.drop i)).filter
            (fun e => decide (e.1 ∈ N))).map Prod.snd) ∧
      ((((mergeOnce N C).zip (Proof.drop i)).filter
            (fun e => decide (e.1 ∈ N))).map Prod.snd).length = N.length) ∧
    (¬ (∀ c ∈ C, ∃ n ∈ N, c < n) →
      reduceLoop Proof (mergeOnce N C) i N acc = .error .neededOutOfRange) := by
  intro N C
  induction N, C using mergeOnce.induct with
  | case1 b =>
    intro _ _ _ i acc _
    cases b with
    | nil => simp [mergeOnce, reduceLoop]
    | cons c0 b =>
      refine ⟨?_, ?_⟩
      · intro hdom
        obtain ⟨n, hn, _⟩ := hdom c0 (List.mem_cons_self _ _)
        cases hn
      · intro _
        simp [mergeOnce, reduceLoop]
  | case2 x a =>
    intro _ _ _ i acc hlen
    refine ⟨?_, ?_⟩
    · intro _
      simp only [mergeOnce] at hlen ⊢
      exact reduceLoop_self Proof (x :: a) i acc hlen
    · intro hnd
      exfalso
      apply hnd
      intro c hc
      cases hc
  | case3 x a y b h ih =>
    intro hN hC hdis i acc hlen
    have hN1 := List.pairwise_cons.mp hN
    have hC1 := List.pairwise_cons.mp hC
    simp only [mergeOnce, h, if_true, List.length_cons] at hlen ⊢
    have hi : i < Proof.length := by omega
    have hdis1 : ∀ w ∈ a, w ∉ y :: b := fun w hw => hdis w (List.mem_cons_of_mem _ hw)
    obtain ⟨g1, g2⟩ := ih hN1.2 hC hdis1 (i + 1) (acc ++ [Proof[i]]) (by omega)
    have hdom : (∀ c ∈ y :: b, ∃ n ∈ x :: a, c < n) ↔ (∀ c ∈ y :: b, ∃ n ∈ a, c < n) := by
      constructor
      · intro hd c hc
        obtain ⟨n, hn, hcn⟩ := hd c hc
        rcases List.mem_cons.mp hn with rfl | hn
        · exfalso
          rcases List.mem_cons.mp hc with rfl | hc
          · omega
          · have := hC1.1 c hc
            omega
        · exact ⟨n, hn, hcn⟩
      · intro hd c hc
        obtain ⟨n, hn, hcn⟩ := hd c hc
        exact ⟨n, List.mem_cons_of_mem _ hn, hcn⟩
    have hcongr := zip_filter_fst_congr (mergeOnce a (y :: b)) (Proof.drop (i + 1)) (x :: a) a
      (by
        intro w hw
        have hxw : x < w := by
          rcases (mergeOnce_mem _ _ _).mp hw with hw | hw
          · exact hN1.1 w hw
          · rcases List.mem_cons.mp hw with rfl | hw
            · exact h
            · exact Nat.lt_trans h (hC1.1 w hw)
        have : ¬ w = x := by omega
        simp [this])
    have hstep : ∀ acc1, reduceLoop Proof (x :: mergeOnce a (y :: b)) i (x :: a) acc1
        = reduceLoop Proof (mergeOnce a (y :: b)) (i + 1) a (acc1 ++ [Proof[i]]) := by
      intro acc1
      simp only [reduceLoop, if_true, List.getElem?_eq_getElem hi]
    rw [hstep, hdom, List.drop_eq_getElem_cons hi]
    simp only [List.zip_cons_cons]
    rw [List.filter_cons_of_pos (by simp), hcongr]
    refine ⟨?_, g2⟩
    intro hd
    obtain ⟨e1, e2⟩ := g1 hd
    refine ⟨by rw [e1]; simp, ?_⟩
    simp only [List.map_cons, List.length_cons, e2]
  | case4 x a y b h1 h2 ih =>
    intro hN hC hdis i acc hlen
    have hN1 := List.pairwise_cons.mp hN
    have hC1 := List.pairwise_cons.mp hC
    simp only [mergeOnce, h1, h2, if_true, if_false, List.length_cons] at hlen ⊢
    have hi : i < Proof.length := by omega
    have hdis1 : ∀ w ∈ x :: a, w ∉ b :=
      fun w hw hb => hdis w hw (List.mem_cons_of_mem _ hb)
    obtain ⟨g1, g2⟩ := ih hN hC1.2 hdis1 (i + 1) acc (by omega)
    have hdom : (∀ c ∈ y :: b, ∃ n ∈ x :: a, c < n) ↔ (∀ c ∈ b, ∃ n ∈ x :: a, c < n) := by
      constructor
      · intro hd c hc
        exact hd c (List.mem_cons_of_mem _ hc)
      · intro hd c hc
        rcases List.mem_cons.mp hc with rfl | hc
        · exact ⟨x, List.mem_cons_self _ _, h2⟩
        · exact hd c hc
    have hyx : ¬ y = x := by omega
    have hy : y ∉ x :: a := by
      intro hm
      exact hdis y hm (List.mem_cons_self _ _)
    have hstep : reduceLoop Proof (y :: mergeOnce (x :: a) b) i (x :: a) acc
        = reduceLoop Proof (mergeOnce (x :: a) b) (i + 1) (x :: a) acc := by
      simp only [reduceLoop, hyx, if_false]
    rw [hstep, hdom, List.drop_eq_getElem_cons hi]
    simp only [List.zip_cons_cons]
    rw [List.filter_cons_of_neg (by simpa using hy)]
    exact ⟨g1, g2⟩
  | case5 x a y b h1 h2 ih =>
    intro _ _ hdis
    exfalso
    have : x = y := by omega
    subst this
    exact hdis x (List.mem_cons_self _ _) (List.mem_cons_self _ _)

theorem ensureNiece_ne_root (n : PolNode) (a cap : Nat) :
    ensureNiece n a cap ≠ .error .rootOutOfRange := by
  cases n with
  | nil => simp only [ensureNiece]; split <;> simp
  | node d x y => simp [ensureNiece]

theorem placeNieces_ne_root (both : Bool) (t : Triple) (n : PolNode) (a cap : Nat) :
    placeNieces both t n a cap ≠ .error .rootOutOfRange := by
  cases n with
  | nil => simp [placeNieces]
  | node d n0 n1 =>
    simp only [placeNieces]
    cases both
    · simp only [Bool.false_eq_true, if_false]
      cases h1 : ensureNiece n1 a cap with
      | error f =>
        intro hc
        simp only [Except.error.injEq] at hc
        exact ensureNiece_ne_root _ _ _ (hc ▸ h1)
      | ok r => simp
    · simp only [if_true]
      cases h0 : ensureNiece n0 a cap with
      | error f =>
        intro hc
        simp only [Except.error.injEq] at hc
        exact ensureNiece_ne_root _ _ _ (hc ▸ h0)
      | ok r0 =>
        simp only
        cases h1 : ensureNiece n1 r0.2 cap with
        | error f =>
          intro hc
          simp only [Except.error.injEq] at hc
          exact ensureNiece_ne_root _ _ _ (hc ▸ h1)
        | ok r => simp

theorem populateStep_ne_root (numLeaves rows : Nat) (trees : List Triple) (cap : Nat)
    (elem : StackElem) (stack : List StackElem) (root : PolNode) (a : Nat) :
    populateStep numLeaves rows trees cap elem stack root a ≠ .error .rootOutOfRange := by
  simp only [populateStep]
  split
  · simp
  · split
    · simp
    · split
      · simp
      · split
        · rename_i f hf
          intro hc
          simp only [Except.error.injEq] at hc
          exact placeNieces_ne_root _ _ _ _ _ (hc ▸ hf)
        · split <;> simp

theorem populateLoop_ne_root (numLeaves rows : Nat) (trees : List Triple) (cap : Nat) :
    ∀ (fuel : Nat) (stack : List StackElem) (root : PolNode) (a : Nat),
    populateLoop numLeaves rows trees cap fuel stack root a ≠ .error .rootOutOfRange := by
  intro fuel
  induction fuel with
  | zero =>
    intro stack root a
    cases stack <;> simp [populateLoop]
  | succ fuel ih =>
    intro stack root a
    cases stack with
    | nil => simp [populateLoop]
    | cons elem stack =>
      simp only [populateLoop]
      cases hs : populateStep numLeaves rows trees cap elem stack root a with
      | error f =>
        intro hc
        simp only [Except.error.injEq] at hc
        exact populateStep_ne_root _ _ _ _ _ _ _ _ (hc ▸ hs)
      | ok r => exact ih _ _ _

/-- The method `populate` does not index `rootHashes` or `p.roots`. -/
theorem populate_ne_root (numLeaves rows fuel : Nat) (root : PolNode) (pos : Nat)
    (trees : List Triple) (cap : Nat) :
    populate numLeaves rows fuel root pos trees cap ≠ .error .rootOutOfRange := by
  simp only [populate]
  split
  · simp
  · exact populateLoop_ne_root _ _ _ _ _ _ _ _

/-- The scan for a hash that heads a subsequence of the hashes left: it stops
inside the list, and the rest of the subsequence is a subsequence of the hashes
from the index of the stop on. -/
theorem scanRoot_sublist (c : Hash) (cs : List Hash) : ∀ (L : List Hash) (base : Nat),
    (c :: cs).Sublist L →
    ∃ j, scanRoot c L base = some (base + j) ∧ j < L.length ∧ cs.Sublist (L.drop j) := by
  intro L
  induction L with
  | nil => intro base h; cases h
  | cons x L ih =>
    intro base h
    by_cases hx : c = x
    · refine ⟨0, by simp [scanRoot, hx], by simp, ?_⟩
      exact (List.sublist_cons_self c cs).trans h
    · have h1 : (c :: cs).Sublist L := by
        cases h with
        | cons _ h1 => exact h1
        | cons₂ _ h1 => exact absurd rfl hx
      obtain ⟨j, e1, e2, e3⟩ := ih (base + 1) h1
      refine ⟨j + 1, ?_, by simp only [List.length_cons]; omega, by simpa using e3⟩
      simp only [scanRoot, hx, if_false, e1]
      congr 1
      omega

/-- The loop over the root candidates, when the hashes of the candidates are a
subsequence of the root hashes from the index `i` of the scan on and there is
one root for each root hash: no scan runs off the end of `rootHashes`, and
`p.roots` is indexed inside its bounds. -/
theorem ingestRoots_safe (numLeaves rows fuel : Nat) (rootHashes : List Hash)
    (trees : List Triple) : ∀ (rc : List node) (i a : Nat) (roots : List PolNode),
    roots.length = rootHashes.length → (rc.map node.Val).Sublist (rootHashes.drop i) →
    ingestRoots numLeaves rows fuel rootHashes trees rc i a roots ≠ .error .rootOutOfRange := by
  intro rc
  induction rc with
  | nil => intro i a roots _ _; simp [ingestRoots]
  | cons c rc ih =>
    intro i a roots hlen hsub
    obtain ⟨j, e1, e2, e3⟩ := scanRoot_sublist c.Val (rc.map node.Val) _ i hsub
    rw [List.length_drop] at e2
    rw [List.drop_drop] at e3
    have hj : ¬ roots.length ≤ i + j := by omega
    have hidx : roots.length - (i + j) - 1 < roots.length := by omega
    simp only [ingestRoots, e1, hj, if_false, List.getElem?_eq_getElem hidx]
    split
    · simp
    · cases hp : populate numLeaves rows fuel roots[roots.length - (i + j) - 1] c.Pos trees
          (3 * trees.length - a) with
      | error f =>
        intro hc
        simp only [Except.error.injEq] at hc
        exact populate_ne_root _ _ _ _ _ _ _ (hc ▸ hp)
      | ok r =>
        simp only
        apply ih
        · rw [List.length_set]; exact hlen
        · exact e3

/-- The scans of the loop over the root candidates, under the same condition:
each stops at an index inside `rootHashes`, at or after the index before. -/
theorem scanAll_safe (rootHashes : List Hash) : ∀ (rc : List node) (i : Nat),
    (rc.map node.Val).Sublist (rootHashes.drop i) →
    ∃ idxs, scanAll rootHashes rc i = some idxs ∧ idxs.length = rc.length ∧
      ∀ j ∈ idxs, i ≤ j ∧ j < rootHashes.length := by
  intro rc
  induction rc with
  | nil => intro i _; exact ⟨[], rfl, rfl, fun _ h => by cases h⟩
  | cons c rc ih =>
    intro i hsub
    obtain ⟨j, e1, e2, e3⟩ := scanRoot_sublist c.Val (rc.map node.Val) _ i hsub
    rw [List.length_drop] at e2
    rw [List.drop_drop] at e3
    obtain ⟨js, f1, f2, f3⟩ := ih (i + j) e3
    refine ⟨(i + j) :: js, ?_, by simp [f2], ?_⟩
    · simp only [scanAll, e1, f1]
    · intro k hk
      rcases List.mem_cons.mp hk with rfl | hk
      · omega
      · have := f3 k hk
        omega

theorem ingest_sample :
    IngestBatchProof sampleHash (fun _ _ => .error ()) 5
      ⟨2, [.node (sampleHash (constHash 1) (constHash 2)) .nil .nil]⟩
      ⟨[0], [constHash 1, constHash 2]⟩
      = .ok (none, ⟨2, [.node (sampleHash (constHash 1) (constHash 2))
          (.node (constHash 1) .nil .nil) (.node (constHash 2) .nil .nil)]⟩) := by
  decide

theorem mergeSortedSlices_sample : mergeSortedSlices [1, 3, 5] [3, 4] = .ok [1, 3, 4, 5] := by
  decide

theorem reduceProof_sample :
    reduceProof [1, 4] [2] [constHash 1, constHash 2, constHash 3]
      = .ok [constHash 1, constHash 3] ∧
    reduceProof [] [2] [constHash 1] = .error .neededOutOfRange := by
  decide

/-! ## The codec claims -/

/-- C1 (as amended).  For every `BatchProof` whose targets are sorted ascending,
free of duplicates and all smaller than `numLeaves` (a `uint64`), and which has at
least one and fewer than `2^32` targets, `FromBytesBatchProof (ToBytes bp)`
returns no error and gives back `bp`: the same targets and the same proof. -/
theorem C1_roundtrip (bp : BatchProof) (numLeaves : Nat) (hn : numLeaves < 2 ^ 64)
    (_hsorted : bp.Targets.Pairwise (· < ·)) (hrange : ∀ t ∈ bp.Targets, t < numLeaves)
    (hne : bp.Targets ≠ []) (hlen : bp.Targets.length < 2 ^ 32) :
    FromBytesBatchProof (ToBytes bp) = .ok bp :=
  fromBytes_toBytes bp (fun t ht => lt_trans (hrange t ht) hn) hne hlen

/-- Witness of C1: two targets below 300 leaves and one proof hash. -/
theorem C1_roundtrip_witness :
    FromBytesBatchProof (ToBytes ⟨[1, 258], [constHash 7]⟩) = .ok ⟨[1, 258], [constHash 7]⟩ :=
  C1_roundtrip ⟨[1, 258], [constHash 7]⟩ 300 (by norm_num) (by decide) (by decide) (by decide)
    (by decide)

/-- C1 as stated fails in two ways.  A proof without targets is written as zero
bytes, so its hashes are lost; and `2^32` targets (sorted, distinct, below
`numLeaves = 2^32`) have the `uint32` count 0 and are written as zero bytes too. -/
theorem C1_counterexample :
    (([] : List Nat).Pairwise (· < ·) ∧ (∀ t ∈ ([] : List Nat), t < 8) ∧
      FromBytesBatchProof (ToBytes ⟨[], [constHash 7]⟩) ≠ .ok ⟨[], [constHash 7]⟩) ∧
    ((List.range (2 ^ 32)).Pairwise (· < ·) ∧ (∀ t ∈ List.range (2 ^ 32), t < 2 ^ 32) ∧
      FromBytesBatchProof (ToBytes ⟨List.range (2 ^ 32), []⟩) ≠ .ok ⟨List.range (2 ^ 32), []⟩) := by
  refine ⟨⟨List.Pairwise.nil, by simp, by decide⟩, List.pairwise_lt_range _, ?_, ?_⟩
  · intro t ht; exact List.mem_range.mp ht
  · rw [toBytes_of_count_zero (List.range (2 ^ 32)) [] (2 ^ 32) (List.length_range _)
      (Nat.mod_self _)]
    exact fromBytes_nil_ne _ _ (by rw [List.length_range]; norm_num)

/-! ## The verifier claims -/

/-- C3 (the code fails the claim).  `verifyBatchProof` is not total: it stops with
an index out of range when the proof runs out in the seeding branch that indexes
`proofs[lr]` and `proofs[lr^1]` (one target of two leaves, no proof hash), at
`roots[0]` with no roots and at `proofs[1:]` with no proof hash in the row-0-root
branch, and at `proofs[0]` in the climb (one target of four leaves, two hashes). -/
theorem C3_index_out_of_range (parentHash : Hash → Hash → Hash) :
    verifyBatchProof parentHash ⟨[0], []⟩ [] 2 none = .error .indexOutOfRange ∧
    verifyBatchProof parentHash ⟨[0], [constHash 1]⟩ [] 1 none = .error .indexOutOfRange ∧
    verifyBatchProof parentHash ⟨[0], []⟩ [constHash 1] 1 none = .error .indexOutOfRange ∧
    verifyBatchProof parentHash ⟨[0], [constHash 1, constHash 2]⟩ [constHash 3] 4 none
      = .error .indexOutOfRange := by
  refine ⟨rfl, rfl, rfl, ?_⟩
  simp +decide [verifyBatchProof, treeRows, treeRowsFrom, ProofPositions, proofRows, proofRow,
    seedLoop, climbLoop, isRootAt, pickSibling, hashParent, detectRow, detectRowFrom, parent,
    rootPosition, rowStart, rootCheck]

/-- C6.  Cache equivalence: if every hash that the cache `c` reports for a position
equals the hash that the run without cache computes for the parent at that
position (the parent of every triple of that run), then `verifyBatchProof` with
the cache `c` returns what it returns with no cache: the same flag, the same
triples and the same root candidates. -/
theorem C6_cache_equivalence (parentHash : Hash → Hash → Hash) (bp : BatchProof)
    (roots : List Hash) (numLeaves : Nat) (c : Nat → Bool × Hash)
    (hc : ∀ e, climbOf parentHash bp roots numLeaves none = some e →
      ∀ t ∈ e.trees, ∀ h, c t.parent.Pos = (true, h) → h = t.parent.Val) :
    verifyBatchProof parentHash bp roots numLeaves (some c)
      = verifyBatchProof parentHash bp roots numLeaves none := by
  unfold climbOf at hc
  unfold verifyBatchProof
  split
  · rfl
  · rename_i h0
    rw [if_neg h0] at hc
    simp only [Option.getD_some, Option.getD_none] at hc ⊢
    split
    · rfl
    · rfl
    · rename_i s hs
      rw [hs] at hc
      rw [climbLoop_cache parentHash numLeaves (treeRows numLeaves) c _ _ _ _ _ _
        (hc _ rfl)]

/-- Witness of C6: eight leaves, target 0, and a cache that knows the parent at
position 8. -/
theorem C6_cache_equivalence_witness :
    verifyBatchProof sampleHash
        ⟨[0], [constHash 1, constHash 2, constHash 3, constHash 4]⟩
        [sampleHash (sampleHash (sampleHash (constHash 1) (constHash 2)) (constHash 3))
          (constHash 4)] 8
        (some fun pos => if pos = 8 then (true, sampleHash (constHash 1) (constHash 2))
          else (false, empty))
      = verifyBatchProof sampleHash
        ⟨[0], [constHash 1, constHash 2, constHash 3, constHash 4]⟩
        [sampleHash (sampleHash (sampleHash (constHash 1) (constHash 2)) (constHash 3))
          (constHash 4)] 8 none :=
  C6_cache_equivalence sampleHash _ _ 8 _ (by
    intro e he t ht h hcache
    have h1 : climbOf sampleHash ⟨[0], [constHash 1, constHash 2, constHash 3, constHash 4]⟩
        [sampleHash (sampleHash (sampleHash (constHash 1) (constHash 2)) (constHash 3))
          (constHash 4)] 8 none
        = some ⟨.completed,
          [⟨⟨sampleHash (constHash 1) (constHash 2), 8⟩, ⟨constHash 1, 0⟩, ⟨constHash 2, 1⟩⟩,
           ⟨⟨sampleHash (sampleHash (constHash 1) (constHash 2)) (constHash 3), 12⟩,
             ⟨sampleHash (constHash 1) (constHash 2), 8⟩, ⟨constHash 3, 9⟩⟩,
           ⟨⟨sampleHash (sampleHash (sampleHash (constHash 1) (constHash 2)) (constHash 3))
               (constHash 4), 14⟩,
             ⟨sampleHash (sampleHash (constHash 1) (constHash 2)) (constHash 3), 12⟩,
             ⟨constHash 4, 13⟩⟩],
          [⟨sampleHash (sampleHash (sampleHash (constHash 1) (constHash 2)) (constHash 3))
            (constHash 4), 14⟩]⟩ := by decide
    rw [h1] at he
    injection he with he
    subst he
    simp only [List.mem_cons, List.mem_singleton, List.not_mem_nil, or_false] at ht
    rcases ht with rfl | rfl | rfl
    · simp only [if_true, Prod.mk.injEq, true_and] at hcache
      exact hcache.symm
    · simp at hcache
    · simp at hcache)

/-- C7.  Root matching.  Once the climb has finished, `verifyBatchProof` returns
true exactly when there is a root candidate and the hashes of the candidates, in
order, form a subsequence of `roots` (each candidate matched to a root strictly
after the root of the previous candidate, unmatched roots skipped); it then
returns the triples and candidates of the climb, and otherwise false.  The
single-cursor loop counts all candidates exactly when such a matching exists. -/
theorem C7_root_matching (parentHash : Hash → Hash → Hash) (bp : BatchProof)
    (roots : List Hash) (numLeaves : Nat) (cached : Option (Nat → Bool × Hash)) (e : ClimbEnd)
    (hclimb : climbOf parentHash bp roots numLeaves cached = some e)
    (hdone : e.exit = .completed) :
    ((∃ trees rc, verifyBatchProof parentHash bp roots numLeaves cached = .ok (true, trees, rc))
      ↔ (e.rootCandidates ≠ [] ∧ (e.rootCandidates.map node.Val).Sublist roots)) ∧
    (verifyBatchProof parentHash bp roots numLeaves cached = .ok (true, e.trees, e.rootCandidates)
      ∨ verifyBatchProof parentHash bp roots numLeaves cached = .ok (false, [], [])) ∧
    (e.rootCandidates.length = rootMatches e.rootCandidates roots 0
      ↔ (e.rootCandidates.map node.Val).Sublist roots) := by
  have hm := rootMatches_eq_length_iff e.rootCandidates roots 0 (Nat.zero_le _)
  rw [List.drop_zero] at hm
  rw [verify_of_climbOf hclimb]
  unfold rootCheck
  rw [hdone]
  simp only
  by_cases h0 : e.rootCandidates.length = 0
  · rw [if_pos h0]
    have hnil : e.rootCandidates = [] := List.length_eq_zero.mp h0
    refine ⟨⟨?_, ?_⟩, Or.inr rfl, hm⟩
    · rintro ⟨trees, rc, h⟩
      injection h with h
      injection h with h
      cases h
    · rintro ⟨h, _⟩
      exact absurd hnil h
  · rw [if_neg h0]
    have hne : e.rootCandidates ≠ [] := fun h => h0 (by rw [h]; rfl)
    by_cases h1 : e.rootCandidates.length = rootMatches e.rootCandidates roots 0
    · rw [if_neg (not_not.mpr h1)]
      exact ⟨⟨fun _ => ⟨hne, hm.mp h1⟩, fun _ => ⟨_, _, rfl⟩⟩, Or.inl rfl, hm⟩
    · rw [if_pos h1]
      refine ⟨⟨?_, ?_⟩, Or.inr rfl, hm⟩
      · rintro ⟨trees, rc, h⟩
        injection h with h
        injection h with h
        cases h
      · rintro ⟨_, h⟩
        exact absurd (hm.mpr h) h1

/-- Witness of C7: three leaves, targets 0 and 2, roots listed with the row-0
root first. -/
theorem C7_root_matching_witness :
    ((∃ trees rc, verifyBatchProof sampleHash ⟨[0, 2], [constHash 1, constHash 2, constHash 3]⟩
        [constHash 3, sampleHash (constHash 1) (constHash 2)] 3 none = .ok (true, trees, rc))
      ↔ (([⟨constHash 3, 2⟩, ⟨sampleHash (constHash 1) (constHash 2), 4⟩] : List node) ≠ [] ∧
        (([⟨constHash 3, 2⟩, ⟨sampleHash (constHash 1) (constHash 2), 4⟩] :
          List node).map node.Val).Sublist
          [constHash 3, sampleHash (constHash 1) (constHash 2)])) :=
  (C7_root_matching sampleHash ⟨[0, 2], [constHash 1, constHash 2, constHash 3]⟩
    [constHash 3, sampleHash (constHash 1) (constHash 2)] 3 none
    ⟨.completed,
      [⟨⟨sampleHash (constHash 1) (constHash 2), 4⟩, ⟨constHash 1, 0⟩, ⟨constHash 2, 1⟩⟩],
      [⟨constHash 3, 2⟩, ⟨sampleHash (constHash 1) (constHash 2), 4⟩]⟩
    (by decide) rfl).1

/-- C2.  Completeness for a single target in a perfect tree.  For
`numLeaves = 2^r` with `1 ≤ r` (and `r ≤ 63`, so that positions are `uint64`), a
target `t < numLeaves`, the proof `[a, b, s_1, ..., s_(r-1)]` and `roots = [R]` with
`R` the fold of `parentHash` along the path of `t`, `verifyBatchProof` without
cache returns true, exactly `r` triples and the one root candidate `R` at position
`2^(r+1) - 2`.  With eight leaves, target 0 and four hashes the three triples have
their parents at 8, 12 and 14, and the targets `[0, 1]` give the same triples. -/
theorem C2_single_target_complete (parentHash : Hash → Hash → Hash) (r t : Nat) (a b : Hash)
    (s : List Hash) (hr1 : 1 ≤ r) (hr : r ≤ 63) (ht : t < 2 ^ r) (hs : s.length = r - 1) :
    (∃ trees : List Triple, trees.length = r ∧
      verifyBatchProof parentHash ⟨[t], a :: b :: s⟩
          [pathRoot parentHash r t (if t &&& 1 = 1 then b else a)
            ((if t &&& 1 = 1 then a else b) :: s)] (2 ^ r) none
        = .ok (true, trees,
            [⟨pathRoot parentHash r t (if t &&& 1 = 1 then b else a)
              ((if t &&& 1 = 1 then a else b) :: s), 2 ^ (r + 1) - 2⟩])) ∧
    (∀ s1 s2 : Hash,
      verifyBatchProof parentHash ⟨[0], [a, b, s1, s2]⟩
          [parentHash (parentHash (parentHash a b) s1) s2] 8 none
        = .ok (true,
            [⟨⟨parentHash a b, 8⟩, ⟨a, 0⟩, ⟨b, 1⟩⟩,
             ⟨⟨parentHash (parentHash a b) s1, 12⟩, ⟨parentHash a b, 8⟩, ⟨s1, 9⟩⟩,
             ⟨⟨parentHash (parentHash (parentHash a b) s1) s2, 14⟩,
               ⟨parentHash (parentHash a b) s1, 12⟩, ⟨s2, 13⟩⟩],
            [⟨parentHash (parentHash (parentHash a b) s1) s2, 14⟩]) ∧
      verifyBatchProof parentHash ⟨[0, 1], [a, b, s1, s2]⟩
          [parentHash (parentHash (parentHash a b) s1) s2] 8 none
        = verifyBatchProof parentHash ⟨[0], [a, b, s1, s2]⟩
          [parentHash (parentHash (parentHash a b) s1) s2] 8 none) := by
  refine ⟨verify_single_target parentHash r t a b s hr1 hr ht hs, ?_⟩
  intro s1 s2
  constructor <;>
  simp +decide [verifyBatchProof, treeRows, treeRowsFrom, ProofPositions, proofRows, proofRow,
    seedLoop, climbLoop, isRootAt, pickSibling, hashParent, detectRow, detectRowFrom, parent,
    rootPosition, rowStart, rootCheck, rootMatches]

/-- Witness of C2: eight leaves (`r = 3`), target 0. -/
theorem C2_single_target_complete_witness :
    ∃ trees : List Triple, trees.length = 3 ∧
      verifyBatchProof sampleHash ⟨[0], [constHash 1, constHash 2, constHash 3, constHash 4]⟩
          [sampleHash (sampleHash (sampleHash (constHash 1) (constHash 2)) (constHash 3))
            (constHash 4)] 8 none
        = .ok (true, trees,
            [⟨sampleHash (sampleHash (sampleHash (constHash 1) (constHash 2)) (constHash 3))
              (constHash 4), 14⟩]) :=
  (C2_single_target_complete sampleHash 3 0 (constHash 1) (constHash 2)
    [constHash 3, constHash 4] (by decide) (by decide) (by decide) (by decide)).1

/-- C8.  For every `BatchProof` with sorted, duplicate-free targets all smaller than
`numLeaves` (a `uint64`) on which `verifyBatchProof` returns true, the returned
root candidates hold exactly one node for each tree of the forest that holds at
least one target, at the root position of that tree, and no other node: their
positions are pairwise different, and a position occurs among them exactly when
it is the root position of a tree that holds a target. -/
theorem C8_candidates_are_tree_roots (parentHash : Hash → Hash → Hash) (bp : BatchProof)
    (roots : List Hash) (numLeaves : Nat) (cached : Option (Nat → Bool × Hash))
    (trees : List Triple) (rc : List node) (hn64 : numLeaves < 2 ^ 64)
    (hsorted : bp.Targets.Pairwise (· < ·)) (hrange : ∀ t ∈ bp.Targets, t < numLeaves)
    (hv : verifyBatchProof parentHash bp roots numLeaves cached = .ok (true, trees, rc)) :
    (rc.map node.Pos).Nodup ∧
    ∀ p, p ∈ rc.map node.Pos ↔
      ∃ h, (∃ t ∈ bp.Targets, leafInTree numLeaves h t) ∧
        p = rootPosition numLeaves h (treeRows numLeaves) := by
  by_cases hne : bp.Targets = []
  · have h0 : bp.Targets.length = 0 := by rw [hne]; rfl
    unfold verifyBatchProof at hv
    rw [if_pos h0] at hv
    injection hv with hv
    simp only [Prod.mk.injEq, true_and] at hv
    obtain ⟨_, rfl⟩ := hv
    refine ⟨List.nodup_nil, ?_⟩
    intro p
    simp only [List.map_nil, List.not_mem_nil, false_iff, not_exists, not_and]
    intro h ⟨t, ht, _⟩
    rw [hne] at ht
    cases ht
  · obtain ⟨h1, h2, h3⟩ := verify_candidates hn64 hsorted hrange hv hne
    constructor
    · rw [List.pairwise_map] at h1
      unfold List.Nodup
      rw [List.pairwise_map]
      exact h1.imp (fun hlt heq => by rw [heq] at hlt; omega)
    · intro p
      constructor
      · intro hp
        obtain ⟨c, hc, rfl⟩ := List.mem_map.mp hp
        obtain ⟨h, _, hbit, hpos, t, ht, hanc⟩ := h2 c hc
        exact ⟨h, ⟨t, ht, (leafInTree_iff _ _ _).mpr ⟨hbit, hanc⟩⟩, hpos⟩
      · rintro ⟨h, ⟨t, ht, hin⟩, rfl⟩
        obtain ⟨hbit, hanc⟩ := (leafInTree_iff _ _ _).mp hin
        obtain ⟨c, hc, hcp⟩ := h3 t ht h hbit hanc
        exact List.mem_map.mpr ⟨c, hc, hcp⟩

/-- Witness of C8: three leaves, targets 0 and 2, one candidate for each of the two
trees. -/
theorem C8_candidates_are_tree_roots_witness :
    (([⟨constHash 3, 2⟩, ⟨sampleHash (constHash 1) (constHash 2), 4⟩] : List node).map
        node.Pos).Nodup ∧
    ∀ p, p ∈ ([⟨constHash 3, 2⟩, ⟨sampleHash (constHash 1) (constHash 2), 4⟩] : List node).map
        node.Pos ↔
      ∃ h, (∃ t ∈ [0, 2], leafInTree 3 h t) ∧ p = rootPosition 3 h (treeRows 3) :=
  C8_candidates_are_tree_roots sampleHash ⟨[0, 2], [constHash 1, constHash 2, constHash 3]⟩
    [constHash 3, sampleHash (constHash 1) (constHash 2)] 3 none
    [⟨⟨sampleHash (constHash 1) (constHash 2), 4⟩, ⟨constHash 1, 0⟩, ⟨constHash 2, 1⟩⟩]
    [⟨constHash 3, 2⟩, ⟨sampleHash (constHash 1) (constHash 2), 4⟩]
    (by norm_num) (by decide) (by decide) (by decide)

/-- C9 (as amended).  For every `BatchProof` with sorted, duplicate-free, in-range
targets on which `verifyBatchProof` returns true, the returned root candidates
are ordered shortest tree first: the row of each candidate's position is strictly
smaller than the row of the next candidate's position. -/
theorem C9_candidates_shortest_first (parentHash : Hash → Hash → Hash) (bp : BatchProof)
    (roots : List Hash) (numLeaves : Nat) (cached : Option (Nat → Bool × Hash))
    (trees : List Triple) (rc : List node) (hn64 : numLeaves < 2 ^ 64)
    (hsorted : bp.Targets.Pairwise (· < ·)) (hrange : ∀ t ∈ bp.Targets, t < numLeaves)
    (hv : verifyBatchProof parentHash bp roots numLeaves cached = .ok (true, trees, rc)) :
    (rc.map (fun c => detectRow c.Pos (treeRows numLeaves))).Pairwise (· < ·) := by
  by_cases hne : bp.Targets = []
  · have h0 : bp.Targets.length = 0 := by rw [hne]; rfl
    unfold verifyBatchProof at hv
    rw [if_pos h0] at hv
    injection hv with hv
    simp only [Prod.mk.injEq, true_and] at hv
    obtain ⟨_, rfl⟩ := hv
    exact List.Pairwise.nil
  · exact (verify_candidates hn64 hsorted hrange hv hne).1

/-- Witness of C9: three leaves, targets 0 and 2; the candidates are at rows 0
and 1, in this order. -/
theorem C9_candidates_shortest_first_witness :
    (([⟨constHash 3, 2⟩, ⟨sampleHash (constHash 1) (constHash 2), 4⟩] : List node).map
      (fun c => detectRow c.Pos (treeRows 3))).Pairwise (· < ·) :=
  C9_candidates_shortest_first sampleHash ⟨[0, 2], [constHash 1, constHash 2, constHash 3]⟩
    [constHash 3, sampleHash (constHash 1) (constHash 2)] 3 none
    [⟨⟨sampleHash (constHash 1) (constHash 2), 4⟩, ⟨constHash 1, 0⟩, ⟨constHash 2, 1⟩⟩]
    [⟨constHash 3, 2⟩, ⟨sampleHash (constHash 1) (constHash 2), 4⟩]
    (by norm_num) (by decide) (by decide) (by decide)

/-- C9 as stated fails: with three leaves and the sorted targets 0 and 2 the
proof is accepted and the candidates come out at positions 2 and 4, rows 0 and 1;
the first row is not greater than the second. -/
theorem C9_counterexample :
    ([0, 2] : List Nat).Pairwise (· < ·) ∧ (∀ t ∈ ([0, 2] : List Nat), t < 3) ∧
    verifyBatchProof sampleHash ⟨[0, 2], [constHash 1, constHash 2, constHash 3]⟩
        [constHash 3, sampleHash (constHash 1) (constHash 2)] 3 none
      = .ok (true,
          [⟨⟨sampleHash (constHash 1) (constHash 2), 4⟩, ⟨constHash 1, 0⟩, ⟨constHash 2, 1⟩⟩],
          [⟨constHash 3, 2⟩, ⟨sampleHash (constHash 1) (constHash 2), 4⟩]) ∧
    ¬ (([⟨constHash 3, 2⟩, ⟨sampleHash (constHash 1) (constHash 2), 4⟩] : List node).map
      (fun c => detectRow c.Pos (treeRows 3))).Pairwise (· > ·) := by
  decide

/-- C10 (as amended).  `verifyBatchProof` takes its roots argument ordered
shortest tree first.  For every forest (a labelling of the positions in which
each parent carries the parent hash of its children), in particular one with two
or more trees, and every non-empty list of sorted, in-range targets, in
particular targets in two or more trees, the `BatchProof` with the forest's
hashes is accepted when `roots` lists the root hashes from the shortest tree to
the tallest; in the row-0-root case the candidate is given the hash `roots[0]`,
the hash of the row-0 root. -/
theorem C10_roots_shortest_first (parentHash : Hash → Hash → Hash) (val : Nat → Hash)
    (numLeaves : Nat) (targets : List Nat) (hn64 : numLeaves < 2 ^ 64)
    (hF : IsForest parentHash val numLeaves) (hsorted : targets.Pairwise (· < ·))
    (hrange : ∀ t ∈ targets, t < numLeaves) (hne : targets ≠ []) :
    ∃ trees rc, verifyBatchProof parentHash ⟨targets, forestProof val numLeaves targets⟩
        (forestRoots val numLeaves) numLeaves none = .ok (true, trees, rc) :=
  verify_forest hn64 hF hsorted hrange hne

/-- Witness of C10: the forest of three leaves, targets 0 and 2: the proof is
`[h0, h1, h2]`, the roots are `[h2, parentHash(h0, h1)]`. -/
theorem C10_roots_shortest_first_witness :
    IsForest sampleHash sampleForest 3 ∧
    forestProof sampleForest 3 [0, 2] = [constHash 1, constHash 2, constHash 3] ∧
    forestRoots sampleForest 3 = [constHash 3, sampleHash (constHash 1) (constHash 2)] ∧
    ∃ trees rc, verifyBatchProof sampleHash ⟨[0, 2], forestProof sampleForest 3 [0, 2]⟩
        (forestRoots sampleForest 3) 3 none = .ok (true, trees, rc) := by
  have hF : IsForest sampleHash sampleForest 3 := by
    intro i x hi hx
    have hr : treeRows 3 = 2 := by decide
    rw [hr] at hi ⊢
    interval_cases i
    · have hx0 : x = 0 := by
        have : (3 : Nat) / 2 ^ (0 + 1) = 1 := by norm_num
        omega
      subst hx0
      decide
    · have : (3 : Nat) / 2 ^ (1 + 1) = 0 := by norm_num
      omega
  exact ⟨hF, by decide, by decide,
    C10_roots_shortest_first sampleHash sampleForest 3 [0, 2] (by norm_num) hF (by decide)
      (by decide) (by decide)⟩

/-- C10 as stated fails on its own witness: three leaves, targets 0 and 2, proof
`[h0, h1, h2]`, and the roots listed tallest tree first,
`[parentHash(h0, h1), h2]`.  The candidate of the row-0 root is given `roots[0]`,
the hash of the tall tree, the second candidate then finds no root, and the
proof is rejected. -/
theorem C10_counterexample :
    forestProof sampleForest 3 [0, 2] = [constHash 1, constHash 2, constHash 3] ∧
    (forestRoots sampleForest 3).reverse
      = [sampleHash (constHash 1) (constHash 2), constHash 3] ∧
    verifyBatchProof sampleHash ⟨[0, 2], [constHash 1, constHash 2, constHash 3]⟩
        [sampleHash (constHash 1) (constHash 2), constHash 3] 3 none = .ok (false, [], []) := by
  decide

/-- C5 (as amended).  For every `BatchProof` with sorted, in-range targets that
`verifyBatchProof` accepts, replacing a target `t` by `t XOR 1` (flipping its low
bit) does not make the verification fail when the sibling `t XOR 1` is a leaf of
the forest and not itself a target: `verifyBatchProof` returns true on the
otherwise unchanged input, with the same triples and root candidates. -/
theorem C5_flip_unpaired_target (parentHash : Hash → Hash → Hash) (bp : BatchProof)
    (roots : List Hash) (numLeaves : Nat) (cached : Option (Nat → Bool × Hash))
    (trees : List Triple) (rc : List node) (t : Nat) (hn64 : numLeaves < 2 ^ 64)
    (hsorted : bp.Targets.Pairwise (· < ·)) (hrange : ∀ x ∈ bp.Targets, x < numLeaves)
    (ht : t ∈ bp.Targets) (hsib : t ^^^ 1 ∉ bp.Targets) (hleaf : t ^^^ 1 < numLeaves)
    (hv : verifyBatchProof parentHash bp roots numLeaves cached = .ok (true, trees, rc)) :
    verifyBatchProof parentHash ⟨flipTarget t bp.Targets, bp.Proof⟩ roots numLeaves cached
      = .ok (true, trees, rc) := by
  have hne : bp.Targets ≠ [] := List.ne_nil_of_mem ht
  have hne2 : flipTarget t bp.Targets ≠ [] := by
    intro h
    apply hne
    have := flipTarget_length t bp.Targets
    rw [h] at this
    exact List.length_eq_zero.mp this.symm
  obtain ⟨_, hrc, hsub⟩ := verify_true_climbOf hv hne
  have hcan := verify_true_canonical hn64 hsorted hrange hv hne
  rw [← canonicalClimb_flip parentHash (cached.getD noCache) roots bp.Proof hn64 hsorted
    (hrange t ht) hsib hleaf] at hcan
  obtain ⟨hs2, hr2⟩ := flipTarget_sorted hsorted hrange hsib hleaf
  have hclimb := (climbOf_canonical parentHash ⟨flipTarget t bp.Targets, bp.Proof⟩ roots cached
    hn64 hs2 hr2 hne2).1 trees rc hcan
  exact verify_of_candidates hclimb hrc hsub

/-- Witness of C5: two leaves, target 0 flipped to target 1. -/
theorem C5_flip_unpaired_target_witness :
    verifyBatchProof sampleHash ⟨flipTarget 0 [0], [constHash 1, constHash 2]⟩
        [sampleHash (constHash 1) (constHash 2)] 2 none
      = .ok (true,
          [⟨⟨sampleHash (constHash 1) (constHash 2), 2⟩, ⟨constHash 1, 0⟩, ⟨constHash 2, 1⟩⟩],
          [⟨sampleHash (constHash 1) (constHash 2), 2⟩]) :=
  C5_flip_unpaired_target sampleHash ⟨[0], [constHash 1, constHash 2]⟩
    [sampleHash (constHash 1) (constHash 2)] 2 none _ _ 0 (by norm_num) (by decide) (by decide)
    (by decide) (by decide) (by decide) (by decide)

/-- C5 as stated fails: with two leaves, target 0, proof `[h0, h1]` and root
`parentHash(h0, h1)` the proof is accepted, and with the target replaced by
`0 XOR 1 = 1` it is accepted again, with the same triple and root candidate. -/
theorem C5_counterexample :
    verifyBatchProof sampleHash ⟨[0], [constHash 1, constHash 2]⟩
        [sampleHash (constHash 1) (constHash 2)] 2 none
      = .ok (true,
          [⟨⟨sampleHash (constHash 1) (constHash 2), 2⟩, ⟨constHash 1, 0⟩, ⟨constHash 2, 1⟩⟩],
          [⟨sampleHash (constHash 1) (constHash 2), 2⟩]) ∧
    (0 : Nat) ^^^ 1 = 1 ∧
    verifyBatchProof sampleHash ⟨[1], [constHash 1, constHash 2]⟩
        [sampleHash (constHash 1) (constHash 2)] 2 none
      = .ok (true,
          [⟨⟨sampleHash (constHash 1) (constHash 2), 2⟩, ⟨constHash 1, 0⟩, ⟨constHash 2, 1⟩⟩],
          [⟨sampleHash (constHash 1) (constHash 2), 2⟩]) := by
  decide

/-- C4 (as amended).  For every `(bp, roots, numLeaves)` with sorted, in-range
targets that `verifyBatchProof` accepts with no cache, replacing a hash of
`bp.Proof` that the verifier hashes (any hash but the placeholder of the row-0
root and hashes beyond the last proof position) by a different hash, for example
one with a single byte changed, has one of these outcomes on the otherwise
unchanged input: `verifyBatchProof` returns false; or it accepts with root
candidates at the same positions whose hashes differ from before and are again a
subsequence of `roots`; or it accepts and `parentHash` has a collision between
the triples of the two runs.  When `roots` holds as many hashes as there are
root candidates, the second outcome is excluded. -/
theorem C4_tamper_proof_hash (parentHash : Hash → Hash → Hash) (bp : BatchProof)
    (roots : List Hash) (numLeaves : Nat) (trees : List Triple) (rc : List node) (j : Nat)
    (h h' : Hash) (hn64 : numLeaves < 2 ^ 64) (hsorted : bp.Targets.Pairwise (· < ·))
    (hrange : ∀ t ∈ bp.Targets, t < numLeaves)
    (hv : verifyBatchProof parentHash bp roots numLeaves none = .ok (true, trees, rc))
    (hread : hashRead numLeaves bp.Targets j = true)
    (hj : bp.Proof[j]? = some h) (hne : h' ≠ h) :
    (verifyBatchProof parentHash ⟨bp.Targets, bp.Proof.set j h'⟩ roots numLeaves none
        = .ok (false, [], []) ∨
      ∃ trees' rc', verifyBatchProof parentHash ⟨bp.Targets, bp.Proof.set j h'⟩ roots numLeaves
          none = .ok (true, trees', rc') ∧
        ((rc'.map node.Pos = rc.map node.Pos ∧ rc'.map node.Val ≠ rc.map node.Val ∧
            (rc'.map node.Val).Sublist roots) ∨
          collision parentHash trees trees')) ∧
    (roots.length = rc.length →
      verifyBatchProof parentHash ⟨bp.Targets, bp.Proof.set j h'⟩ roots numLeaves none
          = .ok (false, [], []) ∨
        ∃ trees' rc', verifyBatchProof parentHash ⟨bp.Targets, bp.Proof.set j h'⟩ roots numLeaves
            none = .ok (true, trees', rc') ∧ collision parentHash trees trees') := by
  have hnil : bp.Targets ≠ [] := by
    intro hc
    rw [hc, hashRead_nil] at hread
    cases hread
  obtain ⟨_, _, hsub⟩ := verify_true_climbOf hv hnil
  rcases verify_tamper hn64 hsorted hrange hv hread hj hne with hf | ⟨T', RC', ht, hsub', hpos, hor⟩
  · exact ⟨Or.inl hf, fun _ => Or.inl hf⟩
  · refine ⟨Or.inr ⟨T', RC', ht, ?_⟩, fun hlen => Or.inr ⟨T', RC', ht, ?_⟩⟩
    · rcases hor with hval | hcoll
      · exact Or.inl ⟨hpos, hval, hsub'⟩
      · exact Or.inr hcoll
    · rcases hor with hval | hcoll
      · exfalso
        apply hval
        have hl : (rc.map node.Val).length = roots.length := by
          rw [List.length_map]; exact hlen.symm
        have hl' : (RC'.map node.Val).length = roots.length := by
          have := congrArg List.length hpos
          simp only [List.length_map] at this
          rw [List.length_map, this]; exact hlen.symm
        rw [hsub.eq_of_length hl, hsub'.eq_of_length hl']
      · exact hcoll

/-- Witness of C4: two leaves, target 0, proof `[h0, h1]`; the first byte of `h0`
is changed. -/
theorem C4_tamper_proof_hash_witness :
    (verifyBatchProof sampleHash
        ⟨[0], [constHash 1, constHash 2].set 0 ((constHash 1).setByte 0 2)⟩
        [sampleHash (constHash 1) (constHash 2)] 2 none = .ok (false, [], []) ∨
      ∃ trees' rc', verifyBatchProof sampleHash
          ⟨[0], [constHash 1, constHash 2].set 0 ((constHash 1).setByte 0 2)⟩
          [sampleHash (constHash 1) (constHash 2)] 2 none = .ok (true, trees', rc') ∧
        ((rc'.map node.Pos
              = ([⟨sampleHash (constHash 1) (constHash 2), 2⟩] : List node).map node.Pos ∧
            rc'.map node.Val
              ≠ ([⟨sampleHash (constHash 1) (constHash 2), 2⟩] : List node).map node.Val ∧
            (rc'.map node.Val).Sublist [sampleHash (constHash 1) (constHash 2)]) ∨
          collision sampleHash
            [⟨⟨sampleHash (constHash 1) (constHash 2), 2⟩, ⟨constHash 1, 0⟩, ⟨constHash 2, 1⟩⟩]
            trees')) ∧
    (([sampleHash (constHash 1) (constHash 2)] : List Hash).length
        = ([⟨sampleHash (constHash 1) (constHash 2), 2⟩] : List node).length →
      verifyBatchProof sampleHash
          ⟨[0], [constHash 1, constHash 2].set 0 ((constHash 1).setByte 0 2)⟩
          [sampleHash (constHash 1) (constHash 2)] 2 none = .ok (false, [], []) ∨
        ∃ trees' rc', verifyBatchProof sampleHash
            ⟨[0], [constHash 1, constHash 2].set 0 ((constHash 1).setByte 0 2)⟩
            [sampleHash (constHash 1) (constHash 2)] 2 none = .ok (true, trees', rc') ∧
          collision sampleHash
            [⟨⟨sampleHash (constHash 1) (constHash 2), 2⟩, ⟨constHash 1, 0⟩, ⟨constHash 2, 1⟩⟩]
            trees') :=
  C4_tamper_proof_hash sampleHash ⟨[0], [constHash 1, constHash 2]⟩
    [sampleHash (constHash 1) (constHash 2)] 2
    [⟨⟨sampleHash (constHash 1) (constHash 2), 2⟩, ⟨constHash 1, 0⟩, ⟨constHash 2, 1⟩⟩]
    [⟨sampleHash (constHash 1) (constHash 2), 2⟩] 0 (constHash 1) ((constHash 1).setByte 0 2)
    (by norm_num) (by decide) (by decide) (by decide) (by decide) (by decide) (by decide)

/-- C4 as stated fails: with 15 leaves and the row-0 root 14 as the only target,
the single proof hash is a placeholder that `verifyBatchProof` skips.  The proof
is accepted, and it is accepted again after a byte of that hash is changed. -/
theorem C4_counterexample :
    verifyBatchProof sampleHash ⟨[14], [constHash 1]⟩
        [constHash 5, constHash 6, constHash 7, constHash 8] 15 none
      = .ok (true, [], [⟨constHash 5, 14⟩]) ∧
    (constHash 1).setByte 0 2 ≠ constHash 1 ∧
    verifyBatchProof sampleHash ⟨[14], [constHash 1].set 0 ((constHash 1).setByte 0 2)⟩
        [constHash 5, constHash 6, constHash 7, constHash 8] 15 none
      = .ok (true, [], [⟨constHash 5, 14⟩]) := by
  decide

/-- C11 (as amended).  The proof carries a hash for every target as well as one
for every proof position.  Every `BatchProof` with sorted, in-range targets that
`verifyBatchProof` accepts has at least as many hashes in `Proof` as
`ProofPositions(targets, numLeaves, rows)` returns proof positions plus the
number of targets (the placeholder of the row-0 root counts as the hash of that
target); a proof with fewer hashes is not accepted.  The proof that the prover
makes from a forest has exactly this number of hashes. -/
theorem C11_proof_count (parentHash : Hash → Hash → Hash) (bp : BatchProof)
    (roots : List Hash) (numLeaves : Nat) (cached : Option (Nat → Bool × Hash))
    (trees : List Triple) (rc : List node) (val : Nat → Hash) (hn64 : numLeaves < 2 ^ 64)
    (hsorted : bp.Targets.Pairwise (· < ·)) (hrange : ∀ t ∈ bp.Targets, t < numLeaves)
    (hv : verifyBatchProof parentHash bp roots numLeaves cached = .ok (true, trees, rc)) :
    (ProofPositions bp.Targets numLeaves (treeRows numLeaves)).1.length + bp.Targets.length
        ≤ bp.Proof.length ∧
    (forestProof val numLeaves bp.Targets).length
      = (ProofPositions bp.Targets numLeaves (treeRows numLeaves)).1.length
        + bp.Targets.length := by
  refine ⟨?_, forestProof_length val hn64 hsorted hrange⟩
  by_cases hne : bp.Targets = []
  · rw [hne]
    simp [ProofPositions, proofRows_nil]
  · exact canonicalClimb_length parentHash (cached.getD noCache) roots bp.Proof hn64 hsorted
      hrange trees rc (verify_true_canonical hn64 hsorted hrange hv hne)

/-- Witness of C11: two leaves, target 0: one proof position and one target, two
hashes. -/
theorem C11_proof_count_witness :
    (ProofPositions [0] 2 (treeRows 2)).1.length + ([0] : List Nat).length
        ≤ [constHash 1, constHash 2].length ∧
    (forestProof sampleForest 2 [0]).length
      = (ProofPositions [0] 2 (treeRows 2)).1.length + ([0] : List Nat).length :=
  C11_proof_count sampleHash ⟨[0], [constHash 1, constHash 2]⟩
    [sampleHash (constHash 1) (constHash 2)] 2 none
    [⟨⟨sampleHash (constHash 1) (constHash 2), 2⟩, ⟨constHash 1, 0⟩, ⟨constHash 2, 1⟩⟩]
    [⟨sampleHash (constHash 1) (constHash 2), 2⟩] sampleForest
    (by norm_num) (by decide) (by decide) (by decide)

/-- C11 as stated fails: with four leaves (no row-0 root: 4 is even) and the
targets 0 and 2, `ProofPositions` returns the two positions 1 and 3, and the
proof `[h0, h1, h2, h3]` with four hashes, the hashes of the targets and of
their siblings, is accepted: four is neither two nor one more. -/
theorem C11_counterexample :
    (ProofPositions [0, 2] 4 (treeRows 4)).1 = [1, 3] ∧
    verifyBatchProof sampleHash ⟨[0, 2], [constHash 1, constHash 2, constHash 3, constHash 4]⟩
        [sampleHash (sampleHash (constHash 1) (constHash 2))
          (sampleHash (constHash 3) (constHash 4))] 4 none
      = .ok (true,
          [⟨⟨sampleHash (constHash 1) (constHash 2), 4⟩, ⟨constHash 1, 0⟩, ⟨constHash 2, 1⟩⟩,
           ⟨⟨sampleHash (constHash 3) (constHash 4), 5⟩, ⟨constHash 3, 2⟩, ⟨constHash 4, 3⟩⟩,
           ⟨⟨sampleHash (sampleHash (constHash 1) (constHash 2))
              (sampleHash (constHash 3) (constHash 4)), 6⟩,
            ⟨sampleHash (constHash 1) (constHash 2), 4⟩,
            ⟨sampleHash (constHash 3) (constHash 4), 5⟩⟩],
          [⟨sampleHash (sampleHash (constHash 1) (constHash 2))
              (sampleHash (constHash 3) (constHash 4)), 6⟩]) ∧
    ([constHash 1, constHash 2, constHash 3, constHash 4] : List Hash).length
      ≠ (ProofPositions [0, 2] 4 (treeRows 4)).1.length ∧
    ([constHash 1, constHash 2, constHash 3, constHash 4] : List Hash).length
      ≠ (ProofPositions [0, 2] 4 (treeRows 4)).1.length + 1 := by
  decide

/-- C12.  For every roots list, every `numLeaves`, every cache and every `Proof`,
`verifyBatchProof` on a `BatchProof` with no targets returns success with no
triples and no root candidates. -/
theorem C12_no_targets (parentHash : Hash → Hash → Hash) (proof : List Hash)
    (roots : List Hash) (numLeaves : Nat) (cached : Option (Nat → Bool × Hash)) :
    verifyBatchProof parentHash ⟨[], proof⟩ roots numLeaves cached = .ok (true, [], []) := by
  unfold verifyBatchProof
  exact if_pos rfl

/-- C13.  Row-0 root.  For every odd `numLeaves` (a `uint64`), every non-empty
roots list `r0 :: rs`, every single hash `x` and every cache, `verifyBatchProof`
on targets `[numLeaves - 1]` and proof `[x]` returns success with no triples and
the one root candidate `node{roots[0], numLeaves - 1}`, whatever `x` is. -/
theorem C13_row0_root (parentHash : Hash → Hash → Hash) (numLeaves : Nat) (r0 : Hash)
    (rs : List Hash) (x : Hash) (cached : Option (Nat → Bool × Hash))
    (hn64 : numLeaves < 2 ^ 64) (hodd : numLeaves % 2 = 1) :
    verifyBatchProof parentHash ⟨[numLeaves - 1], [x]⟩ (r0 :: rs) numLeaves cached
      = .ok (true, [], [⟨r0, numLeaves - 1⟩]) := by
  have h1 : numLeaves - 1 = (numLeaves + 2 ^ 64 - 1) % 2 ^ 64 := by omega
  have h2 : numLeaves &&& 1 = 1 := by rw [Nat.and_one_is_mod]; exact hodd
  have hm := rootMatches_of_length_le [⟨r0, numLeaves - 1⟩] rs 1 (le_refl _)
  unfold verifyBatchProof
  simp only [List.length_singleton, one_ne_zero, if_false]
  unfold seedLoop
  rw [if_pos ⟨h1, h2⟩]
  simp only [List.nil_append, List.length_nil, Nat.zero_add]
  unfold climbLoop rootCheck
  simp only [List.length_singleton, one_ne_zero, if_false, rootMatches, List.getElem?_cons_zero,
    if_true, hm, ne_eq, not_true_eq_false]

/-- Witness of C13: fifteen leaves, target 14. -/
theorem C13_row0_root_witness :
    verifyBatchProof sampleHash ⟨[15 - 1], [constHash 9]⟩
        (constHash 5 :: [constHash 6, constHash 7, constHash 8]) 15 none
      = .ok (true, [], [⟨constHash 5, 15 - 1⟩]) :=
  C13_row0_root sampleHash 15 (constHash 5) [constHash 6, constHash 7, constHash 8]
    (constHash 9) none (by norm_num) (by norm_num)

/-- C14 (as amended).  When every leaf is a target there are no proof positions,
and the proof holds just the hashes of the leaves: for `numLeaves = 8`, targets
`[0,1,2,3,4,5,6,7]` and `Proof` the eight leaf hashes, `verifyBatchProof` succeeds
with the seven triples of the tree, and `rootCandidates` equals the single root,
at position 14. -/
theorem C14_all_leaves_targets (parentHash : Hash → Hash → Hash)
    (h0 h1 h2 h3 h4 h5 h6 h7 : Hash) :
    (ProofPositions [0, 1, 2, 3, 4, 5, 6, 7] 8 (treeRows 8)).1 = [] ∧
    verifyBatchProof parentHash ⟨[0, 1, 2, 3, 4, 5, 6, 7], [h0, h1, h2, h3, h4, h5, h6, h7]⟩
        [parentHash (parentHash (parentHash h0 h1) (parentHash h2 h3))
          (parentHash (parentHash h4 h5) (parentHash h6 h7))] 8 none
      = .ok (true,
          [⟨⟨parentHash h0 h1, 8⟩, ⟨h0, 0⟩, ⟨h1, 1⟩⟩,
           ⟨⟨parentHash h2 h3, 9⟩, ⟨h2, 2⟩, ⟨h3, 3⟩⟩,
           ⟨⟨parentHash h4 h5, 10⟩, ⟨h4, 4⟩, ⟨h5, 5⟩⟩,
           ⟨⟨parentHash h6 h7, 11⟩, ⟨h6, 6⟩, ⟨h7, 7⟩⟩,
           ⟨⟨parentHash (parentHash h0 h1) (parentHash h2 h3), 12⟩,
            ⟨parentHash h0 h1, 8⟩, ⟨parentHash h2 h3, 9⟩⟩,
           ⟨⟨parentHash (parentHash h4 h5) (parentHash h6 h7), 13⟩,
            ⟨parentHash h4 h5, 10⟩, ⟨parentHash h6 h7, 11⟩⟩,
           ⟨⟨parentHash (parentHash (parentHash h0 h1) (parentHash h2 h3))
              (parentHash (parentHash h4 h5) (parentHash h6 h7)), 14⟩,
            ⟨parentHash (parentHash h0 h1) (parentHash h2 h3), 12⟩,
            ⟨parentHash (parentHash h4 h5) (parentHash h6 h7), 13⟩⟩],
          [⟨parentHash (parentHash (parentHash h0 h1) (parentHash h2 h3))
              (parentHash (parentHash h4 h5) (parentHash h6 h7)), 14⟩]) := by
  constructor
  · decide
  · simp +decide [verifyBatchProof, treeRows, treeRowsFrom, ProofPositions, proofRows, proofRow,
      seedLoop, climbLoop, isRootAt, pickSibling, hashParent, detectRow, detectRowFrom, parent,
      rootPosition, rowStart, rootCheck, rootMatches]

/-- C14 as stated fails: with eight leaves, all of them targets, and an empty
`Proof` the seeding loop finds no two hashes for the first pair of targets and
`verifyBatchProof` returns false, whatever the roots are. -/
theorem C14_counterexample :
    verifyBatchProof sampleHash ⟨[0, 1, 2, 3, 4, 5, 6, 7], []⟩
        [sampleHash
          (sampleHash (sampleHash (constHash 1) (constHash 2))
            (sampleHash (constHash 3) (constHash 4)))
          (sampleHash (sampleHash (constHash 5) (constHash 6))
            (sampleHash (constHash 7) (constHash 8)))] 8 none
      = .ok (false, [], []) := by
  decide

/-- C16.  Triple shape.  For every `BatchProof` with sorted, duplicate-free,
in-range targets on which `verifyBatchProof` returns true, every returned triple
`(parent, left, right)` has `left.Pos` even, `right.Pos = left.Pos | 1` and
`parent.Pos = parent(left.Pos, rows)`; in particular a sibling taken from the
next element of `targetNodes` is at the sibling position. -/
theorem C16_triple_shape (parentHash : Hash → Hash → Hash) (bp : BatchProof)
    (roots : List Hash) (numLeaves : Nat) (cached : Option (Nat → Bool × Hash))
    (trees : List Triple) (rc : List node) (hn64 : numLeaves < 2 ^ 64)
    (hsorted : bp.Targets.Pairwise (· < ·)) (hrange : ∀ t ∈ bp.Targets, t < numLeaves)
    (hv : verifyBatchProof parentHash bp roots numLeaves cached = .ok (true, trees, rc)) :
    ∀ t ∈ trees, t.left.Pos % 2 = 0 ∧ t.right.Pos = t.left.Pos ||| 1 ∧
      t.parent.Pos = parent t.left.Pos (treeRows numLeaves) := by
  by_cases hne : bp.Targets = []
  · have h0 : bp.Targets.length = 0 := by rw [hne]; rfl
    unfold verifyBatchProof at hv
    rw [if_pos h0] at hv
    injection hv with hv
    simp only [Prod.mk.injEq, true_and] at hv
    obtain ⟨rfl, _⟩ := hv
    intro t ht; cases ht
  · exact canonicalClimb_shape parentHash (cached.getD noCache) roots numLeaves bp.Targets
      bp.Proof trees rc (verify_true_canonical hn64 hsorted hrange hv hne)

/-- Witness of C16: four leaves, targets 0, 2 and 3: the sibling of 2 is the next
target node, at position 3; the triple built from the two. -/
theorem C16_triple_shape_witness :
    (⟨⟨sampleHash (constHash 3) (constHash 4), 5⟩, ⟨constHash 3, 2⟩, ⟨constHash 4, 3⟩⟩
        : Triple).left.Pos % 2 = 0 ∧
    (⟨⟨sampleHash (constHash 3) (constHash 4), 5⟩, ⟨constHash 3, 2⟩, ⟨constHash 4, 3⟩⟩
        : Triple).right.Pos
      = (⟨⟨sampleHash (constHash 3) (constHash 4), 5⟩, ⟨constHash 3, 2⟩, ⟨constHash 4, 3⟩⟩
        : Triple).left.Pos ||| 1 ∧
    (⟨⟨sampleHash (constHash 3) (constHash 4), 5⟩, ⟨constHash 3, 2⟩, ⟨constHash 4, 3⟩⟩
        : Triple).parent.Pos
      = parent (⟨⟨sampleHash (constHash 3) (constHash 4), 5⟩, ⟨constHash 3, 2⟩, ⟨constHash 4, 3⟩⟩
        : Triple).left.Pos (treeRows 4) :=
  C16_triple_shape sampleHash
    ⟨[0, 2, 3], [constHash 1, constHash 2, constHash 3, constHash 4]⟩
    [sampleHash (sampleHash (constHash 1) (constHash 2))
      (sampleHash (constHash 3) (constHash 4))] 4 none
    [⟨⟨sampleHash (constHash 1) (constHash 2), 4⟩, ⟨constHash 1, 0⟩, ⟨constHash 2, 1⟩⟩,
      ⟨⟨sampleHash (constHash 3) (constHash 4), 5⟩, ⟨constHash 3, 2⟩, ⟨constHash 4, 3⟩⟩,
      ⟨⟨sampleHash (sampleHash (constHash 1) (constHash 2))
          (sampleHash (constHash 3) (constHash 4)), 6⟩,
        ⟨sampleHash (constHash 1) (constHash 2), 4⟩,
        ⟨sampleHash (constHash 3) (constHash 4), 5⟩⟩]
    [⟨sampleHash (sampleHash (constHash 1) (constHash 2))
      (sampleHash (constHash 3) (constHash 4)), 6⟩]
    (by norm_num) (by decide) (by decide) (by decide) _
    (List.mem_cons_of_mem _ (List.mem_cons_self _ _))

/-- C17.  Encoding layout.  For every `BatchProof` with `n` targets,
`1 ≤ n < 2^32`, and `k` proof hashes, `ToBytes` returns the 4-byte big-endian
encoding of `n`, followed by the 8-byte big-endian encoding of each target in
order, followed by the `k` hashes in order; its length is `4 + 8n + 32k`.  The
four bytes denote `n`, and the eight bytes of a `uint64` target denote it. -/
theorem C17_encoding_layout (bp : BatchProof) (hn1 : 1 ≤ bp.Targets.length)
    (hn : bp.Targets.length < 2 ^ 32) :
    ToBytes bp = beBytes 4 bp.Targets.length ++ bp.Targets.flatMap (beBytes 8)
        ++ bp.Proof.flatMap Hash.bytes ∧
    (ToBytes bp).length = 4 + 8 * bp.Targets.length + 32 * bp.Proof.length ∧
    beNat (beBytes 4 bp.Targets.length) = bp.Targets.length ∧
    ∀ t ∈ bp.Targets, t < 2 ^ 64 → beNat (beBytes 8 t) = t := by
  have hmod : bp.Targets.length % 2 ^ 32 = bp.Targets.length := Nat.mod_eq_of_lt hn
  have hne : ¬ bp.Targets.length = 0 := by omega
  have hto : ToBytes bp = beBytes 4 bp.Targets.length ++ writeTargets bp.Targets
      ++ writeHashes bp.Proof := by
    unfold ToBytes
    simp only [hmod, hne, if_false]
  refine ⟨?_, ?_, ?_, ?_⟩
  · rw [hto, writeTargets_eq_flatMap, writeHashes_eq_flatMap]
  · rw [hto]
    simp only [List.length_append, beBytes_length, writeTargets_length, writeHashes_length]
  · rw [beNat_beBytes]
    exact Nat.mod_eq_of_lt (by norm_num at hn ⊢; omega)
  · intro t _ ht
    rw [beNat_beBytes]
    exact Nat.mod_eq_of_lt (by norm_num at ht ⊢; omega)

/-- Witness of C17: two targets and one hash: 52 bytes. -/
theorem C17_encoding_layout_witness :
    ToBytes ⟨[3, 260], [constHash 7]⟩
      = beBytes 4 ([3, 260] : List Nat).length ++ ([3, 260] : List Nat).flatMap (beBytes 8)
        ++ [constHash 7].flatMap Hash.bytes ∧
    (ToBytes ⟨[3, 260], [constHash 7]⟩).length
      = 4 + 8 * ([3, 260] : List Nat).length + 32 * [constHash 7].length ∧
    beNat (beBytes 4 ([3, 260] : List Nat).length) = ([3, 260] : List Nat).length ∧
    ∀ t ∈ ([3, 260] : List Nat), t < 2 ^ 64 → beNat (beBytes 8 t) = t :=
  C17_encoding_layout ⟨[3, 260], [constHash 7]⟩ (by decide) (by norm_num)

/-- C18.  Empty proof.  `ToBytes` of every `BatchProof` with no targets returns
zero bytes, and `FromBytesBatchProof` of the empty byte string returns, without
error, a `BatchProof` with no targets and no proof hashes. -/
theorem C18_empty_proof (proof : List Hash) :
    ToBytes ⟨[], proof⟩ = [] ∧ FromBytesBatchProof [] = .ok ⟨[], []⟩ :=
  ⟨rfl, rfl⟩

/-- C19.  `FromBytesBatchProof` returns an error on every input of 1, 2 or 3
bytes: the error of the check `len(b) < 4`. -/
theorem C19_short_input (b : List Byte) (h1 : 1 ≤ b.length) (h3 : b.length ≤ 3) :
    FromBytesBatchProof b = .error .tooShort := by
  unfold FromBytesBatchProof
  rw [if_neg (by omega), if_pos (by omega)]

/-- Witness of C19: an input of three bytes. -/
theorem C19_short_input_witness :
    FromBytesBatchProof [0, 0, 1] = .error .tooShort :=
  C19_short_input [0, 0, 1] (by decide) (by decide)

/-- C20.  For every input of at least `4 + 8n` bytes whose first four bytes
encode the count `n`, `FromBytesBatchProof` returns an error whenever the number
of bytes after the `n` targets is not a multiple of 32, and otherwise succeeds
with `n` targets and `(len - 4 - 8n) / 32` proof hashes: target `i` is the number
that the eight bytes from `4 + 8i` denote, and hash `j` holds the 32 bytes from
`4 + 8n + 32j`. -/
theorem C20_decode_alignment (b : List Byte) (n : Nat) (hlen : 4 + 8 * n ≤ b.length)
    (hcount : beNat (b.take 4) = n) :
    ((b.length - 4 - 8 * n) % 32 ≠ 0 → FromBytesBatchProof b = .error .unaligned) ∧
    ((b.length - 4 - 8 * n) % 32 = 0 →
      ∃ bp, FromBytesBatchProof b = .ok bp ∧ bp.Targets.length = n ∧
        bp.Proof.length = (b.length - 4 - 8 * n) / 32 ∧
        (∀ i, i < n → bp.Targets[i]? = some (beNat ((b.drop (4 + 8 * i)).take 8))) ∧
        (∀ j, j < (b.length - 4 - 8 * n) / 32 →
          bp.Proof[j]? = some (Hash.copyFrom ((b.drop (4 + 8 * n + 32 * j)).take 32)))) := by
  obtain ⟨ts, h1, h2, h3⟩ := readTargets_ok n (b.drop 4) (by rw [List.length_drop]; omega)
  have hrem : ((b.drop 4).drop (8 * n)).length = b.length - 4 - 8 * n := by
    simp only [List.length_drop]
  unfold FromBytesBatchProof
  rw [if_neg (by omega), if_neg (by omega)]
  simp only [hcount, h1, hrem]
  constructor
  · intro h
    rw [if_pos h]
  · intro h
    rw [if_neg (by rw [h]; simp)]
    refine ⟨_, rfl, h2, readHashes_length _ _, ?_, ?_⟩
    · intro i hi
      simp only [h3 i hi, List.drop_drop]
    · intro j hj
      simp only [readHashes_getElem _ _ j hj, List.drop_drop]

/-- Witness of C20: `4 + 8 + 31` bytes with count 1: the 31 bytes after the
target are no multiple of 32. -/
theorem C20_decode_alignment_witness :
    FromBytesBatchProof ([0, 0, 0, 1] ++ List.replicate 39 0) = .error .unaligned :=
  (C20_decode_alignment ([0, 0, 0, 1] ++ List.replicate 39 0) 1 (by decide) (by decide)).1
    (by decide)

/-- C15 (as amended).  For `numLeaves = 8` (`rows = 3`) and `targets = [0]` the
canonical proof positions are `[1, 9, 13]`, the siblings of the target 0, of its
parent 8 and of the parent 12 of that: these are the sibling positions whose
hashes `verifyBatchProof` consumes during the climb, and positions 9 and 13 are
those under which `Reconstruct` stores the proof hashes that follow the row-0
pair. -/
theorem C15_proof_positions (parentHash : Hash → Hash → Hash) (a b c d : Hash) :
    treeRows 8 = 3 ∧
    ProofPositions [0] 8 3 = ([1, 9, 13], [8, 12, 14]) ∧
    verifyBatchProof parentHash ⟨[0], [a, b, c, d]⟩
        [parentHash (parentHash (parentHash a b) c) d] 8 none
      = .ok (true,
          [⟨⟨parentHash a b, 8⟩, ⟨a, 0⟩, ⟨b, 1⟩⟩,
           ⟨⟨parentHash (parentHash a b) c, 12⟩, ⟨parentHash a b, 8⟩, ⟨c, 9⟩⟩,
           ⟨⟨parentHash (parentHash (parentHash a b) c) d, 14⟩,
             ⟨parentHash (parentHash a b) c, 12⟩, ⟨d, 13⟩⟩],
          [⟨parentHash (parentHash (parentHash a b) c) d, 14⟩]) ∧
    Reconstruct ⟨[0], [a, b, c, d]⟩ 8 3
      = .ok ⟨.ok [(0, a), (1, b), (9, c), (13, d)], [a, b, c, d]⟩ := by
  refine ⟨by decide, by decide, ?_, ?_⟩
  · simp +decide [verifyBatchProof, treeRows, treeRowsFrom, ProofPositions, proofRows, proofRow,
      seedLoop, climbLoop, isRootAt, pickSibling, hashParent, detectRow, detectRowFrom, parent,
      rootPosition, rowStart, rootCheck, rootMatches]
  · have hroots : getRootsReverse 8 3 = [(14, 3)] := by decide
    simp +decide [Reconstruct, hroots, reconSeed, reconRows, reconRow, mapSet, parent,
      List.range']

/-- C15 as stated fails: the walk of `ProofPositions` from target 0 in a forest of
eight leaves gives `[1, 9, 13]`, not `[1, 10, 13]`: position 10 is not the
sibling of the parent 8 of the target.  With the positions `[1, 10, 13]` the
climb loop of `verifyBatchProof` finds no sibling for the node at position 8 and
the proof fails. -/
theorem C15_counterexample :
    (ProofPositions [0] 8 (treeRows 8)).1 = [1, 9, 13] ∧
    (ProofPositions [0] 8 (treeRows 8)).1 ≠ [1, 10, 13] ∧
    parent 0 3 = 8 ∧ 8 ^^^ 1 = 9 ∧
    (climbLoop sampleHash noCache 8 3 4 [⟨constHash 1, 0⟩] [1, 10, 13]
      [constHash 2, constHash 3, constHash 4] [] []).exit = .siblingNotFound := by
  decide

/-- C21 (as amended).  In the wire format that `ToBytes` writes, a non-empty
encoding has a count field of at least 1.  `FromBytesBatchProof` does not check
the count: a non-empty input whose first four bytes are zero is accepted when
the number of bytes after the count is a multiple of 32, as a `BatchProof` with
no targets and those bytes as hashes, and is rejected as unaligned otherwise. -/
theorem C21_count_field (bp : BatchProof) (b : List Byte) (hne : ToBytes bp ≠ [])
    (hb : 4 ≤ b.length) (hz : beNat (b.take 4) = 0) :
    1 ≤ beNat ((ToBytes bp).take 4) ∧
    ((b.length - 4) % 32 = 0 →
      FromBytesBatchProof b = .ok ⟨[], readHashes ((b.length - 4) / 32) (b.drop 4)⟩) ∧
    ((b.length - 4) % 32 ≠ 0 → FromBytesBatchProof b = .error .unaligned) := by
  obtain ⟨h1, h2⟩ := toBytes_count bp hne
  refine ⟨by rw [h1]; exact h2, ?_, ?_⟩
  · intro h
    unfold FromBytesBatchProof
    rw [if_neg (by omega), if_neg (by omega)]
    simp only [hz, readTargets, List.length_drop]
    rw [if_neg (by rw [h]; simp)]
  · intro h
    unfold FromBytesBatchProof
    rw [if_neg (by omega), if_neg (by omega)]
    simp only [hz, readTargets, List.length_drop]
    rw [if_pos h]

/-- Witness of C21: the encoding of a proof with one target, and the input of
four zero bytes. -/
theorem C21_count_field_witness :
    1 ≤ beNat ((ToBytes ⟨[5], [constHash 1]⟩).take 4) ∧
    ((([0, 0, 0, 0] : List Byte).length - 4) % 32 = 0 →
      FromBytesBatchProof [0, 0, 0, 0]
        = .ok ⟨[], readHashes ((([0, 0, 0, 0] : List Byte).length - 4) / 32)
            (([0, 0, 0, 0] : List Byte).drop 4)⟩) ∧
    ((([0, 0, 0, 0] : List Byte).length - 4) % 32 ≠ 0 →
      FromBytesBatchProof [0, 0, 0, 0] = .error .unaligned) :=
  C21_count_field ⟨[5], [constHash 1]⟩ [0, 0, 0, 0] (by decide) (by decide) (by decide)

/-- C21 as stated fails: the input of four zero bytes is not empty, its count
field is 0, and `FromBytesBatchProof` accepts it, as it accepts four zero bytes
followed by 32 bytes. -/
theorem C21_counterexample :
    ([0, 0, 0, 0] : List Byte) ≠ [] ∧ beNat (([0, 0, 0, 0] : List Byte).take 4) = 0 ∧
    FromBytesBatchProof [0, 0, 0, 0] = .ok ⟨[], []⟩ ∧
    FromBytesBatchProof ([0, 0, 0, 0] ++ List.replicate 32 7) = .ok ⟨[], [constHash 7]⟩ := by
  decide

/-- C30.  The encoding is canonical for non-empty proofs: for every byte string
`b` on which `FromBytesBatchProof` succeeds with at least one target, `ToBytes`
of the decoded `BatchProof` equals `b`. -/
theorem C30_canonical_encoding (b : List Byte) (bp : BatchProof)
    (h : FromBytesBatchProof b = .ok bp) (hne : 1 ≤ bp.Targets.length) : ToBytes bp = b :=
  toBytes_fromBytes b bp h (fun hc => by rw [hc] at hne; exact absurd hne (by decide))

/-- Witness of C30: 44 bytes, one target and one hash. -/
theorem C30_canonical_encoding_witness :
    ToBytes ⟨[258], [constHash 7]⟩
      = [0, 0, 0, 1] ++ [0, 0, 0, 0, 0, 0, 1, 2] ++ List.replicate 32 7 :=
  C30_canonical_encoding ([0, 0, 0, 1] ++ [0, 0, 0, 0, 0, 0, 1, 2] ++ List.replicate 32 7)
    ⟨[258], [constHash 7]⟩ (by decide) (by decide)

/-- C23 fails on the code.  `Reconstruct` restores `bp.Proof` from its backup only
on the way to `return proofTree, nil`; its three error returns leave `bp.Proof`
as the walk has advanced it.  With eight leaves and target 0: two hashes are
consumed and the error `no proofs left` is returned with `bp.Proof` empty; five
hashes give `too many proofs` with `bp.Proof` holding the last hash only.  When
`Reconstruct` returns a map, `bp.Proof` is what it was. -/
theorem C23_proof_not_restored (a b c d e : Hash) :
    Reconstruct ⟨[0], [a, b]⟩ 8 3 = .ok ⟨.error .noProofsLeft, []⟩ ∧
    Reconstruct ⟨[0], [a, b, c, d, e]⟩ 8 3 = .ok ⟨.error .tooManyProofs, [e]⟩ ∧
    (∀ (bp : BatchProof) (numleaves forestRows : Nat) (m : ProofTree) (p : List Hash),
      Reconstruct bp numleaves forestRows = .ok ⟨.ok m, p⟩ → p = bp.Proof) := by
  have hroots : getRootsReverse 8 3 = [(14, 3)] := by decide
  refine ⟨?_, ?_, ?_⟩
  · simp +decide [Reconstruct, hroots, reconSeed, reconRows, reconRow, mapSet, parent,
      List.range']
  · simp +decide [Reconstruct, hroots, reconSeed, reconRows, reconRow, mapSet, parent,
      List.range']
  · intro bp numleaves forestRows m p h
    unfold Reconstruct at h
    split at h
    · injection h with h
      injection h with h1 h2
      exact h2.symm
    · simp only at h
      split at h
      · cases h
      · injection h with h
        injection h with h1 h2
        cases h1
      · split at h
        · cases h
        · split at h
          · cases h
          · injection h with h
            injection h with h1 h2
            cases h1
          · split at h
            · injection h with h
              injection h with h1 h2
              cases h1
            · injection h with h
              injection h with h1 h2
              exact h2.symm

/-- C24 fails on the code.  The first loop of `Reconstruct` runs while
`len(bp.Proof) > 0 && len(targets) > 0` and is left without an error when the
hashes run out while targets remain.  With one leaf, target 0 and an empty proof
`Reconstruct` returns the empty map and no error; with three leaves, targets 0
and 2 and two hashes it returns the map of the pair 0, 1 and no error, although
the row-0 root 2 has no hash; `verifyBatchProof` stops on the same proof with an
index out of range. -/
theorem C24_short_proof_accepted (parentHash : Hash → Hash → Hash) (a b r0 r1 : Hash) :
    Reconstruct ⟨[0], []⟩ 1 (treeRows 1) = .ok ⟨.ok [], []⟩ ∧
    Reconstruct ⟨[0, 2], [a, b]⟩ 3 (treeRows 3) = .ok ⟨.ok [(0, a), (1, b)], [a, b]⟩ ∧
    verifyBatchProof parentHash ⟨[0, 2], [a, b]⟩ [r0, r1] 3 none
      = .error .indexOutOfRange := by
  have hroots1 : getRootsReverse 1 0 = [(0, 0)] := by decide
  have hroots3 : getRootsReverse 3 2 = [(2, 0), (4, 1)] := by decide
  have hr1 : treeRows 1 = 0 := by decide
  have hr3 : treeRows 3 = 2 := by decide
  refine ⟨?_, ?_, ?_⟩
  · rw [hr1]
    simp +decide [Reconstruct, hroots1, reconSeed, reconRows, reconRow, mapSet, parent,
      List.range']
  · rw [hr3]
    simp +decide [Reconstruct, hroots3, reconSeed, reconRows, reconRow, mapSet, parent,
      List.range']
  · simp +decide [verifyBatchProof, treeRows, treeRowsFrom, ProofPositions, proofRows, proofRow,
      seedLoop, climbLoop, isRootAt, pickSibling, hashParent, detectRow, detectRowFrom, parent,
      rootPosition, rowStart, rootCheck, rootMatches]

/-- C27.  For every `BatchProof` with sorted, duplicate-free, in-range targets on
which `verifyBatchProof` returns true, the returned triples are sorted by parent
position: the parent positions are strictly ascending along the list, so no
parent occurs twice, and every triple whose parent is a child in another triple
comes before that other triple. -/
theorem C27_triples_sorted (parentHash : Hash → Hash → Hash) (bp : BatchProof)
    (roots : List Hash) (numLeaves : Nat) (cached : Option (Nat → Bool × Hash))
    (trees : List Triple) (rc : List node) (hn64 : numLeaves < 2 ^ 64)
    (hsorted : bp.Targets.Pairwise (· < ·)) (hrange : ∀ t ∈ bp.Targets, t < numLeaves)
    (hv : verifyBatchProof parentHash bp roots numLeaves cached = .ok (true, trees, rc)) :
    (trees.map (fun t => t.parent.Pos)).Pairwise (· < ·) ∧
    (trees.map (fun t => t.parent.Pos)).Nodup ∧
    (∀ (i j : Nat) (t u : Triple), trees[i]? = some t → trees[j]? = some u →
      (t.parent.Pos = u.left.Pos ∨ t.parent.Pos = u.right.Pos) → i < j) := by
  have hmain : (trees.map (fun t => t.parent.Pos)).Pairwise (· < ·) ∧
      (∀ t ∈ trees, t.left.Pos < t.parent.Pos ∧ t.right.Pos < t.parent.Pos) := by
    by_cases hne : bp.Targets = []
    · have h0 : bp.Targets.length = 0 := by rw [hne]; rfl
      unfold verifyBatchProof at hv
      rw [if_pos h0] at hv
      injection hv with hv
      simp only [Prod.mk.injEq, true_and] at hv
      obtain ⟨rfl, _⟩ := hv
      exact ⟨List.Pairwise.nil, fun t ht => absurd ht (List.not_mem_nil t)⟩
    · exact canonicalClimb_sorted parentHash (cached.getD noCache) roots bp.Proof hn64 hsorted
        hrange trees rc (verify_true_canonical hn64 hsorted hrange hv hne)
  obtain ⟨hpw, hch⟩ := hmain
  refine ⟨hpw, hpw.imp (fun h => Nat.ne_of_lt h), ?_⟩
  intro i j t u hi hj hpar
  obtain ⟨hi1, hi2⟩ := List.getElem?_eq_some.mp hi
  obtain ⟨hj1, hj2⟩ := List.getElem?_eq_some.mp hj
  have hu := hch u (List.getElem?_mem hj)
  by_contra hc
  rcases Nat.lt_or_ge j i with hlt | hge
  · have hpw2 := List.pairwise_iff_getElem.mp hpw j i (by rw [List.length_map]; exact hj1)
      (by rw [List.length_map]; exact hi1) hlt
    simp only [List.getElem_map, hi2, hj2] at hpw2
    omega
  · have hij : i = j := by omega
    subst hij
    rw [hi] at hj
    injection hj with hj
    subst hj
    omega

/-- Witness of C27: eight leaves, target 0: the parents of the three triples are
at 8, 12 and 14. -/
theorem C27_triples_sorted_witness :
    (([⟨⟨sampleHash (constHash 1) (constHash 2), 8⟩, ⟨constHash 1, 0⟩, ⟨constHash 2, 1⟩⟩,
        ⟨⟨sampleHash (sampleHash (constHash 1) (constHash 2)) (constHash 3), 12⟩,
          ⟨sampleHash (constHash 1) (constHash 2), 8⟩, ⟨constHash 3, 9⟩⟩,
        ⟨⟨sampleHash (sampleHash (sampleHash (constHash 1) (constHash 2)) (constHash 3))
            (constHash 4), 14⟩,
          ⟨sampleHash (sampleHash (constHash 1) (constHash 2)) (constHash 3), 12⟩,
          ⟨constHash 4, 13⟩⟩] : List Triple).map (fun t => t.parent.Pos)).Pairwise (· < ·) :=
  (C27_triples_sorted sampleHash ⟨[0], [constHash 1, constHash 2, constHash 3, constHash 4]⟩
    [sampleHash (sampleHash (sampleHash (constHash 1) (constHash 2)) (constHash 3))
      (constHash 4)] 8 none _
    [⟨sampleHash (sampleHash (sampleHash (constHash 1) (constHash 2)) (constHash 3))
      (constHash 4), 14⟩]
    (by norm_num) (by decide) (by decide) (by decide)).1

/-- C28.  With no cache (`cached = nil`), every triple `(parent, left, right)`
returned by a successful `verifyBatchProof` satisfies
`parent.Val = parentHash(left.Val, right.Val)`, and every returned root candidate
other than a row-0 root (the position `numLeaves - 1` of a forest with an odd
number of leaves) is the parent node of one of the returned triples. -/
theorem C28_triple_hashes (parentHash : Hash → Hash → Hash) (bp : BatchProof)
    (roots : List Hash) (numLeaves : Nat) (trees : List Triple) (rc : List node)
    (hn64 : numLeaves < 2 ^ 64)
    (hv : verifyBatchProof parentHash bp roots numLeaves none = .ok (true, trees, rc)) :
    (∀ t ∈ trees, t.parent.Val = parentHash t.left.Val t.right.Val) ∧
    (∀ c ∈ rc, (numLeaves % 2 = 1 ∧ c.Pos = numLeaves - 1) ∨ ∃ t ∈ trees, t.parent = c) := by
  by_cases hne : bp.Targets = []
  · have h0 : bp.Targets.length = 0 := by rw [hne]; rfl
    unfold verifyBatchProof at hv
    rw [if_pos h0] at hv
    injection hv with hv
    simp only [Prod.mk.injEq, true_and] at hv
    obtain ⟨rfl, rfl⟩ := hv
    exact ⟨fun t ht => absurd ht (List.not_mem_nil t), fun c hc => absurd hc (List.not_mem_nil c)⟩
  · obtain ⟨hc, _, _⟩ := verify_true_climbOf hv hne
    have hlen0 : ¬ bp.Targets.length = 0 := fun h => hne (List.length_eq_zero.mp h)
    unfold climbOf at hc
    rw [if_neg hlen0] at hc
    simp only at hc
    split at hc
    · rename_i s hs
      injection hc with hc
      have hseed := seedLoop_candidates roots numLeaves _ _ (le_refl _) _ _ _ _ _ s hs
      obtain ⟨h1, h2⟩ := climbLoop_noCache parentHash numLeaves (treeRows numLeaves)
        (s.targetNodes.length +
          (ProofPositions bp.Targets numLeaves (treeRows numLeaves)).1.length)
        s.targetNodes (ProofPositions bp.Targets numLeaves (treeRows numLeaves)).1
        (s.proofHashes ++ s.proofs) [] s.rootCandidates
      have hc' : climbLoop parentHash noCache numLeaves (treeRows numLeaves)
          (s.targetNodes.length +
            (ProofPositions bp.Targets numLeaves (treeRows numLeaves)).1.length)
          s.targetNodes (ProofPositions bp.Targets numLeaves (treeRows numLeaves)).1
          (s.proofHashes ++ s.proofs) [] s.rootCandidates = ⟨.completed, trees, rc⟩ := hc
      rw [hc'] at h1 h2
      refine ⟨h1 (fun t ht => absurd ht (List.not_mem_nil t)), ?_⟩
      intro c hcm
      rcases h2 c hcm with hin | ht
      · rcases hseed c hin with hn | ⟨hp, hodd⟩
        · cases hn
        · left
          rw [Nat.and_one_is_mod] at hodd
          refine ⟨hodd, ?_⟩
          rw [hp]; omega
      · exact Or.inr ht
    · cases hc

/-- Witness of C28: three leaves, targets 0 and 2: one triple, the candidate of
the row-0 root and the parent of the triple. -/
theorem C28_triple_hashes_witness :
    (∀ t ∈ ([⟨⟨sampleHash (constHash 1) (constHash 2), 4⟩, ⟨constHash 1, 0⟩,
        ⟨constHash 2, 1⟩⟩] : List Triple),
      t.parent.Val = sampleHash t.left.Val t.right.Val) ∧
    (∀ c ∈ ([⟨constHash 3, 2⟩, ⟨sampleHash (constHash 1) (constHash 2), 4⟩] : List node),
      (3 % 2 = 1 ∧ c.Pos = 3 - 1) ∨
        ∃ t ∈ ([⟨⟨sampleHash (constHash 1) (constHash 2), 4⟩, ⟨constHash 1, 0⟩,
          ⟨constHash 2, 1⟩⟩] : List Triple), t.parent = c) :=
  C28_triple_hashes sampleHash ⟨[0, 2], [constHash 1, constHash 2, constHash 3]⟩
    [constHash 3, sampleHash (constHash 1) (constHash 2)] 3 _ _ (by norm_num) (by decide)

/-- C29.  `verifyBatchProof` terminates on every input that does not hit an
out-of-range access.  The seeding loop is a recursion on the list of targets
that goes on with a strictly shorter list; each iteration of the climb loop that
finds a sibling leaves `len(targetNodes) + len(proofPositions)` strictly smaller,
also after the parent has been pushed, whatever the positions are; so the run
with the budget `len(targetNodes) + len(proofPositions)` never uses the budget
up, returns a result or stops on an index out of range, and is the run with any
larger budget. -/
theorem C29_termination (parentHash : Hash → Hash → Hash) (bp : BatchProof)
    (roots : List Hash) (numLeaves : Nat) (cached : Option (Nat → Bool × Hash)) :
    ((∃ r, verifyBatchProof parentHash bp roots numLeaves cached = .ok r) ∨
      verifyBatchProof parentHash bp roots numLeaves cached = .error .indexOutOfRange) ∧
    (∀ (target : node) (rest : List node) (pp : List Nat) (proofs : List Hash) (proof : node)
        (tn : List node) (pp1 : List Nat) (proofs1 : List Hash) (par : node),
      pickSibling target rest pp proofs = .found proof tn pp1 proofs1 →
      (tn ++ [par]).length + pp1.length < (target :: rest).length + pp.length) ∧
    (∀ (c : Nat → Bool × Hash) (rows fuel : Nat) (tn : List node) (pp : List Nat)
        (proofs : List Hash) (trees : List Triple) (rc : List node),
      tn.length + pp.length ≤ fuel →
      (climbLoop parentHash c numLeaves rows fuel tn pp proofs trees rc).exit ≠ .outOfFuel ∧
      climbLoop parentHash c numLeaves rows fuel tn pp proofs trees rc
        = climbLoop parentHash c numLeaves rows (tn.length + pp.length) tn pp proofs trees
            rc) := by
  refine ⟨?_, ?_, ?_⟩
  · have h := verify_ne_outOfFuel parentHash bp roots numLeaves cached
    cases hv : verifyBatchProof parentHash bp roots numLeaves cached with
    | ok r => exact Or.inl ⟨r, rfl⟩
    | error f =>
      cases f with
      | indexOutOfRange => exact Or.inr rfl
      | outOfFuel => exact absurd hv h
  · intro target rest pp proofs proof tn pp1 proofs1 par h
    have hm := pickSibling_measure h
    have h1 : (tn ++ [par]).length = tn.length + 1 := by simp
    have h2 : (target :: rest).length = rest.length + 1 := by simp
    rw [h1, h2]
    omega
  · intro c rows fuel tn pp proofs trees rc h
    exact ⟨climbLoop_fuel parentHash c numLeaves rows fuel tn pp proofs trees rc h,
      climbLoop_fuel_irrel parentHash c numLeaves rows fuel _ tn pp proofs trees rc h
        (le_refl _)⟩

/-- C26 (as the code has it): when the triple found for the current stack element
has its parent at the position of the element, the iteration of `populate` stores
the hash of the left child of the triple in `niece[0]` of the node of the element
and the hash of its right child in `niece[1]`. -/
theorem C26_niece_hashes (numLeaves rows : Nat) (trees : List Triple) (cap : Nat)
    (elem : StackElem) (stack : List StackElem) (root : PolNode) (nodesAllocated : Nat)
    (i : Nat) (t : Triple) (both : Bool) (path : List Bool)
    (stack1 : List StackElem) (root1 : PolNode) (a1 : Nat)
    (hleaf : numLeaves ≤ elem.pos)
    (hfind : findTriple elem.pos (child elem.pos rows) (child elem.pos rows ||| 1)
      elem.trees 0 = some (i, t, both))
    (hpos : t.parent.Pos = elem.pos)
    (hnode : elem.node = some path) (hptr : root.at path ≠ .nil)
    (hstep : populateStep numLeaves rows trees cap elem stack root nodesAllocated
      = .ok (stack1, root1, a1)) :
    (root1.at (path ++ [false])).hash = t.left.Val ∧
    (root1.at (path ++ [true])).hash = t.right.Val := by
  have hb := findTriple_both _ _ _ _ _ _ _ _ hfind hpos
  subst hb
  simp only [populateStep, if_neg (Nat.not_lt.mpr hleaf), hfind, hnode] at hstep
  cases hp : placeNieces true t (root.at path) nodesAllocated cap with
  | error f => rw [hp] at hstep; cases hstep
  | ok r =>
    obtain ⟨n, a⟩ := r
    rw [hp] at hstep
    simp only at hstep
    split at hstep
    · cases hstep
    · simp only [Except.ok.injEq, Prod.mk.injEq] at hstep
      rw [← hstep.2.1, PolNode.at_append, PolNode.at_append, PolNode.at_modifyAt _ _ _ hptr]
      exact placeNieces_both t _ _ _ _ _ hp


/-- C26 (counterexample to the claim as stated): with eight leaves, a root at
position 14 without nieces and the one triple (14, 12, 13), `populate` stores the
hash of the left child (position 12) in `niece[0]` of the root and the hash of
the right child (position 13) in `niece[1]`, not the other way round. -/
theorem C26_counterexample :
    findTriple 14 (child 14 3) (child 14 3 ||| 1)
      [⟨⟨constHash 3, 14⟩, ⟨constHash 1, 12⟩, ⟨constHash 2, 13⟩⟩] 0
      = some (0, ⟨⟨constHash 3, 14⟩, ⟨constHash 1, 12⟩, ⟨constHash 2, 13⟩⟩, true) ∧
    populate 8 3 3 (.node (constHash 3) .nil .nil) 14
      [⟨⟨constHash 3, 14⟩, ⟨constHash 1, 12⟩, ⟨constHash 2, 13⟩⟩] 3
      = .ok (.node (constHash 3) (.node (constHash 1) .nil .nil)
          (.node (constHash 2) .nil .nil), 2) ∧
    constHash 1 ≠ constHash 2 := by
  decide

/-- C26 (applied): the iteration on the root at position 14 with the triple
(14, 12, 13) leaves the hash of position 12 in `niece[0]` and that of position
13 in `niece[1]`. -/
theorem C26_niece_hashes_witness :
    ((PolNode.node (constHash 3) (.node (constHash 1) .nil .nil)
        (.node (constHash 2) .nil .nil)).at ([] ++ [false])).hash = constHash 1 ∧
    ((PolNode.node (constHash 3) (.node (constHash 1) .nil .nil)
        (.node (constHash 2) .nil .nil)).at ([] ++ [true])).hash = constHash 2 :=
  C26_niece_hashes 8 3 [⟨⟨constHash 3, 14⟩, ⟨constHash 1, 12⟩, ⟨constHash 2, 13⟩⟩] 3
    ⟨14, [⟨⟨constHash 3, 14⟩, ⟨constHash 1, 12⟩, ⟨constHash 2, 13⟩⟩], some []⟩ []
    (.node (constHash 3) .nil .nil) 0 0
    ⟨⟨constHash 3, 14⟩, ⟨constHash 1, 12⟩, ⟨constHash 2, 13⟩⟩ true []
    [⟨13, [], some [false]⟩, ⟨12, [], some [true]⟩]
    (.node (constHash 3) (.node (constHash 1) .nil .nil) (.node (constHash 2) .nil .nil)) 2
    (by decide) (by decide) rfl rfl (by decide) (by decide)

/-- C25: when `verifyBatchProof`, run on the reversed root hashes and the number
of leaves of the pollard with the closure over `readPos` as cache, returns false,
`IngestBatchProof` returns the error `block proof mismatch` and the pollard is
what it was before the call: `populate` is not run, no node is allocated and no
hash is written. -/
theorem C25_rejected_unchanged (parentHash : Hash → Hash → Hash)
    (readPos : Pollard → Nat → Except Unit PolNode) (fuel : Nat) (p : Pollard)
    (bp : BatchProof) (trees : List Triple) (rc : List node)
    (hrej : verifyBatchProof parentHash bp p.rootHashesReverse p.numLeaves
      (some (cachedOf readPos p)) = .ok (false, trees, rc)) :
    IngestBatchProof parentHash readPos fuel p bp = .ok (some .blockProofMismatch, p) := by
  simp only [IngestBatchProof, hrej]

/-- C25 (applied): a pollard with two leaves whose root hash is not the parent
of the two proof hashes rejects the proof for target 0 and is left as it was. -/
theorem C25_rejected_unchanged_witness :
    IngestBatchProof sampleHash (fun _ _ => .error ()) 5
      ⟨2, [.node (constHash 9) .nil .nil]⟩ ⟨[0], [constHash 1, constHash 2]⟩
      = .ok (some .blockProofMismatch, ⟨2, [.node (constHash 9) .nil .nil]⟩) :=
  C25_rejected_unchanged sampleHash (fun _ _ => .error ()) 5
    ⟨2, [.node (constHash 9) .nil .nil]⟩ ⟨[0], [constHash 1, constHash 2]⟩ [] []
    (by decide)

/-- C22 (as the code has it): for every BatchProof with at least one target and
with ascending (so duplicate-free) targets below `numLeaves`, and for rows enough
to hold the leaves (`numLeaves ≤ 2^forestRows`), on which `Reconstruct` succeeds,
the returned map has exactly `len(bp.Proof)` entries, one entry a key, and holds
each proof hash under the position it belongs to: hash `i` of the proof is stored
under position `i` of `proofSlots`, which lists both positions of the row-0
sibling pair of every target (the target itself when it is the row-0 root) and
then one sibling position for each hash of the rows above. -/
theorem C22_reconstruct_map (bp : BatchProof) (numLeaves forestRows : Nat) (m : ProofTree)
    (p : List Hash) (hn64 : numLeaves < 2 ^ 64) (hrows : numLeaves ≤ 2 ^ forestRows)
    (hne : bp.Targets ≠ []) (hsorted : bp.Targets.Pairwise (· < ·))
    (hrange : ∀ t ∈ bp.Targets, t < numLeaves)
    (h : Reconstruct bp numLeaves forestRows = .ok ⟨.ok m, p⟩) :
    m.length = bp.Proof.length ∧ (m.map Prod.fst).Pairwise (· < ·) ∧
    ∀ (i : Nat) (hash : Hash), bp.Proof[i]? = some hash →
      ∃ pos, (proofSlots numLeaves forestRows bp.Targets)[i]? = some pos ∧ (pos, hash) ∈ m := by
  obtain ⟨T, proof⟩ := bp
  obtain ⟨hle, hm⟩ := reconstruct_slots hn64 hrows T proof hne hsorted hrange m p h
  have hnd := zip_fst_nodup _ proof (proofSlots_nodup hn64 hrows T hsorted hrange)
  obtain ⟨s1, s2, _, s4⟩ := mapSetAll_spec ((proofSlots numLeaves forestRows T).zip proof) []
    hnd (fun _ _ hc => by cases hc) List.Pairwise.nil
  rw [← hm] at s1 s2 s4
  refine ⟨?_, s2, ?_⟩
  · rw [s1, List.length_zip]
    simp only [List.length_nil, Nat.zero_add]
    exact Nat.min_eq_right hle
  · intro i hash hi
    have hlt : i < proof.length := by
      rcases Nat.lt_or_ge i proof.length with hlt | hge
      · exact hlt
      · rw [List.getElem?_eq_none hge] at hi
        cases hi
    have hlt2 : i < (proofSlots numLeaves forestRows T).length := Nat.lt_of_lt_of_le hlt hle
    refine ⟨(proofSlots numLeaves forestRows T)[i], List.getElem?_eq_getElem hlt2, ?_⟩
    apply s4
    have hz : ((proofSlots numLeaves forestRows T).zip proof)[i]?
        = some ((proofSlots numLeaves forestRows T)[i], hash) := by
      rw [List.getElem?_zip_eq_some]
      exact ⟨List.getElem?_eq_getElem hlt2, hi⟩
    exact List.getElem?_mem hz

/-- C22 (applied): with eight leaves in three rows, the target 0 and the proof
`[a, b, c, d]` (here the constant hashes 1 to 4), `Reconstruct` returns the map
`{0: a, 1: b, 9: c, 13: d}`. -/
theorem C22_reconstruct_map_witness :
    ([(0, constHash 1), (1, constHash 2), (9, constHash 3), (13, constHash 4)] : ProofTree).length
      = (BatchProof.mk [0] [constHash 1, constHash 2, constHash 3, constHash 4]).Proof.length ∧
    (([(0, constHash 1), (1, constHash 2), (9, constHash 3), (13, constHash 4)] : ProofTree).map
      Prod.fst).Pairwise (· < ·) ∧
    ∀ (i : Nat) (hash : Hash),
      (BatchProof.mk [0] [constHash 1, constHash 2, constHash 3, constHash 4]).Proof[i]?
        = some hash →
      ∃ pos, (proofSlots 8 3 (BatchProof.mk [0]
          [constHash 1, constHash 2, constHash 3, constHash 4]).Targets)[i]? = some pos ∧
        (pos, hash) ∈ ([(0, constHash 1), (1, constHash 2), (9, constHash 3),
          (13, constHash 4)] : ProofTree) :=
  C22_reconstruct_map ⟨[0], [constHash 1, constHash 2, constHash 3, constHash 4]⟩ 8 3
    [(0, constHash 1), (1, constHash 2), (9, constHash 3), (13, constHash 4)]
    [constHash 1, constHash 2, constHash 3, constHash 4]
    (by decide) (by decide) (by decide) (by decide) (by decide) (by decide)

/-- C22 (counterexample to the claim as stated), on two inputs with sorted,
duplicate-free, in-range targets.  A BatchProof without targets and with one
proof hash: `Reconstruct` succeeds with the empty map, which has no key where
`len(bp.Proof)` is 1.  Seven leaves with `forestRows = 2`, one row short of the
three rows that seven leaves need, targets 0 and 4 and five hashes: `Reconstruct`
succeeds, and the fifth hash, stored for the sibling of position 4 on row 1,
lands on position 5 and replaces the fourth, so the map has four keys for five
hashes. -/
theorem C22_counterexample :
    (Reconstruct ⟨[], [constHash 1]⟩ 8 3 = .ok ⟨.ok [], [constHash 1]⟩ ∧
      ([] : ProofTree).length ≠ (BatchProof.mk [] [constHash 1]).Proof.length ∧
      (BatchProof.mk [] [constHash 1]).Targets.Pairwise (· < ·) ∧
      (∀ t ∈ (BatchProof.mk [] [constHash 1]).Targets, t < 8)) ∧
    (Reconstruct ⟨[0, 4], [constHash 1, constHash 2, constHash 3, constHash 4, constHash 5]⟩ 7 2
        = .ok ⟨.ok [(0, constHash 1), (1, constHash 2), (4, constHash 3), (5, constHash 5)],
            [constHash 1, constHash 2, constHash 3, constHash 4, constHash 5]⟩ ∧
      ([(0, constHash 1), (1, constHash 2), (4, constHash 3), (5, constHash 5)] : ProofTree).length
        ≠ [constHash 1, constHash 2, constHash 3, constHash 4, constHash 5].length ∧
      [0, 4].Pairwise (· < ·) ∧ (∀ t ∈ [0, 4], t < 7) ∧ ¬ 7 ≤ 2 ^ 2) := by
  decide

/-- C31: when `verifyBatchProof` has succeeded against the reversed root hashes
of the pollard, every scan of `IngestBatchProof` for a returned root candidate
(the index `i` kept from one candidate to the next) stops at an index
`i < len(rootHashes)`, for which `len(p.roots)-i-1` is an index of `p.roots`, and
the run of `IngestBatchProof` does not stop with `rootHashes[i]` or
`p.roots[len(p.roots)-i-1]` out of range. -/
theorem C31_scan_in_range (parentHash : Hash → Hash → Hash)
    (readPos : Pollard → Nat → Except Unit PolNode) (fuel : Nat) (p : Pollard)
    (bp : BatchProof) (trees : List Triple) (rc : List node)
    (hv : verifyBatchProof parentHash bp p.rootHashesReverse p.numLeaves
      (some (cachedOf readPos p)) = .ok (true, trees, rc)) :
    (∃ idxs, scanAll p.rootHashesReverse rc 0 = some idxs ∧ idxs.length = rc.length ∧
      ∀ j ∈ idxs, j < p.rootHashesReverse.length ∧ p.roots.length - j - 1 < p.roots.length) ∧
    IngestBatchProof parentHash readPos fuel p bp ≠ .error .rootOutOfRange := by
  have hlen : p.roots.length = p.rootHashesReverse.length := by
    simp [Pollard.rootHashesReverse]
  have hsub : (rc.map node.Val).Sublist (p.rootHashesReverse.drop 0) := by
    rw [List.drop_zero]
    by_cases hne : bp.Targets = []
    · simp only [verifyBatchProof, hne, List.length_nil, if_true, Except.ok.injEq,
        Prod.mk.injEq] at hv
      rw [← hv.2.2]
      exact List.nil_sublist _
    · exact (verify_true_climbOf hv hne).2.2
  refine ⟨?_, ?_⟩
  · obtain ⟨idxs, h1, h2, h3⟩ := scanAll_safe p.rootHashesReverse rc 0 hsub
    refine ⟨idxs, h1, h2, ?_⟩
    intro j hj
    have := (h3 j hj).2
    omega
  · simp only [IngestBatchProof, hv]
    cases hr : ingestRoots p.numLeaves (treeRows p.numLeaves) fuel p.rootHashesReverse trees rc
        0 0 p.roots with
    | error f =>
      intro hc
      simp only [Except.error.injEq] at hc
      exact ingestRoots_safe _ _ _ _ _ _ _ _ _ hlen hsub (hc ▸ hr)
    | ok r => simp

/-- C31 (applied): a pollard of two leaves whose root hash is the parent of the
two proof hashes accepts the proof for target 0; the scan for the one root
candidate stops at index 0 of the one root hash. -/
theorem C31_scan_in_range_witness :
    (∃ idxs, scanAll
        (Pollard.rootHashesReverse ⟨2, [.node (sampleHash (constHash 1) (constHash 2)) .nil .nil]⟩)
        [⟨sampleHash (constHash 1) (constHash 2), 2⟩] 0 = some idxs ∧
      idxs.length = [(⟨sampleHash (constHash 1) (constHash 2), 2⟩ : node)].length ∧
      ∀ j ∈ idxs,
        j < (Pollard.rootHashesReverse
          ⟨2, [.node (sampleHash (constHash 1) (constHash 2)) .nil .nil]⟩).length ∧
        (Pollard.mk 2 [.node (sampleHash (constHash 1) (constHash 2)) .nil .nil]).roots.length
            - j - 1
          < (Pollard.mk 2
            [.node (sampleHash (constHash 1) (constHash 2)) .nil .nil]).roots.length) ∧
    IngestBatchProof sampleHash (fun _ _ => .error ()) 5
      ⟨2, [.node (sampleHash (constHash 1) (constHash 2)) .nil .nil]⟩
      ⟨[0], [constHash 1, constHash 2]⟩ ≠ .error .rootOutOfRange :=
  C31_scan_in_range sampleHash (fun _ _ => .error ()) 5
    ⟨2, [.node (sampleHash (constHash 1) (constHash 2)) .nil .nil]⟩
    ⟨[0], [constHash 1, constHash 2]⟩
    [⟨⟨sampleHash (constHash 1) (constHash 2), 2⟩, ⟨constHash 1, 0⟩, ⟨constHash 2, 1⟩⟩]
    [⟨sampleHash (constHash 1) (constHash 2), 2⟩] (by decide)

/-- C32 (what the code does): for strictly ascending, disjoint lists `needed` and
`cached` and a proof of at least `len(needed) + len(cached)` hashes, the merge
returns a list `all`, and the loop over it ends in one of two ways.  When every
cached position is below some needed position, it produces the hashes `Proof[i]`
for the indices `i` at which `all[i]` is a needed position, `len(needed)` hashes
in all.  Otherwise it reaches a cached position with `needed` empty and stops at
`needed[0]` with an index out of range. -/
theorem C32_needed_exhausted (needed cached : List Nat) (Proof : List Hash)
    (hn : needed.Pairwise (· < ·)) (hc : cached.Pairwise (· < ·))
    (hd : ∀ x ∈ needed, x ∉ cached) (hp : needed.length + cached.length ≤ Proof.length) :
    ∃ all, mergeSortedSlices needed cached = .ok all ∧
      ((∀ c ∈ cached, ∃ n ∈ needed, c < n) →
        reduceProof needed cached Proof = .ok (neededHashes all needed Proof) ∧
        (neededHashes all needed Proof).length = needed.length) ∧
      (¬ (∀ c ∈ cached, ∃ n ∈ needed, c < n) →
        reduceProof needed cached Proof = .error .neededOutOfRange) := by
  have hlen := mergeOnce_length_le needed cached
  obtain ⟨h1, h2⟩ := reduceLoop_merge Proof needed cached hn hc hd 0 [] (by omega)
  refine ⟨mergeOnce needed cached, mergeSortedSlices_eq needed cached, ?_, ?_⟩
  · intro hdom
    obtain ⟨e1, e2⟩ := h1 hdom
    simp only [List.drop_zero, List.nil_append] at e1 e2
    exact ⟨by simp only [reduceProof, mergeSortedSlices_eq, e1, neededHashes], e2⟩
  · intro hnd
    simp only [reduceProof, mergeSortedSlices_eq, h2 hnd]

/-- C32 (applied): with `needed = [1]`, `cached = [2]` and two proof hashes, the
loop takes the hash for position 1, then reads `needed[0]` for position 2 with
`needed` empty. -/
theorem C32_needed_exhausted_witness :
    reduceProof [1] [2] [constHash 1, constHash 2] = .error .neededOutOfRange :=
  (C32_needed_exhausted [1] [2] [constHash 1, constHash 2] (by decide) (by decide)
    (by decide) (by decide)).elim (fun _ h => h.2.2 (by decide))

/-- C33: for strictly ascending lists `a` and `b`, `mergeSortedSlices(a, b)`
returns a strictly ascending list that holds exactly the values that occur in
`a` or in `b` (a value of both once, the list being strictly ascending), and its
length is `len(a) + len(b)` less the number of values of `a` that occur in `b`. -/
theorem C33_merge_sorted (a b : List Nat) (ha : a.Pairwise (· < ·)) (hb : b.Pairwise (· < ·)) :
    ∃ c, mergeSortedSlices a b = .ok c ∧ c.Pairwise (· < ·) ∧
      (∀ x, x ∈ c ↔ x ∈ a ∨ x ∈ b) ∧
      c.length = a.length + b.length - (a.filter (fun x => decide (x ∈ b))).length := by
  obtain ⟨h1, h2⟩ := mergeOnce_sorted a b ha hb
  refine ⟨mergeOnce a b, mergeSortedSlices_eq a b, h1, mergeOnce_mem a b, ?_⟩
  omega

/-- C33 (applied): the merge of `[1, 3, 5]` and `[3, 4]` is `[1, 3, 4, 5]`, four
values for three and two with one in common. -/
theorem C33_merge_sorted_witness :
    ∃ c, mergeSortedSlices [1, 3, 5] [3, 4] = .ok c ∧ c.Pairwise (· < ·) ∧
      (∀ x, x ∈ c ↔ x ∈ [1, 3, 5] ∨ x ∈ [3, 4]) ∧
      c.length = [1, 3, 5].length + [3, 4].length
        - ([1, 3, 5].filter (fun x => decide (x ∈ [3, 4]))).length :=
  C33_merge_sorted [1, 3, 5] [3, 4] (by decide) (by decide)

end Utreexo
